import Mathlib

/-!
The engine of inmemdb: a shallow embedding of `include/database.hpp`,
`include/errors.hpp`, `include/output.hpp`, `src/database.cpp`,
`include/tokenizer.hpp`, `src/tokenizer.cpp`, `src/parser.cpp` and
`src/output.cpp`, followed by the properties proved about it.

Conventions of the embedding.

* A C++ exception is a value of `Exn`; a function that can throw returns
  `Except Exn _`.  A member function that mutates `*this` and can throw after
  having mutated returns the object as it is left behind together with the
  outcome (`Table × Except Exn _`).
* `std::vector` and `std::string` are `List` and `String`; a `char` is a `Char`
  and is compared by its code (`Char.toNat`), as `std::char_traits<char>` does
  with the byte value.
* `long long` is `Int`: the engine never does arithmetic on a stored integer, it
  only compares and prints it.
* `std::unordered_map<std::string, _>` is `UMap`, an association list in which
  `emplace` keeps an existing key.
* `operator[]` out of range is undefined behaviour in C++; the embedding stops
  there with `Exn.Undefined`.  `reached_calls_defined` and
  `select_where_defined` show that no call on a table built through the
  interface gets there.
* The tokenizer is its input and its cursor `i`; a scanning loop
  `while (i < input.size() && p(input[i])) ++i` adds to `i` the length of the
  longest run of characters satisfying `p` from `i` on.  The character classes
  are those of the "C" locale.
* A `while (true)` loop of the parser is a function recursive on a bound on
  its iterations, `loop_bound`; a routine containing one returns `none` when
  the bound is reached.  `parse_statement_total` shows that it never is.
* The properties of the parser are stated over the tokens it reads: `Pat` is
  what the parser asks of one token, `Statement.pattern` the grammar read off
  a statement, and `Reads tz ps tz'` says that the calls of `next` from `tz`
  return tokens meeting `ps` and leave `tz'`.  `parse_statement_run_sound` and
  `parse_statement_run_complete` tie the parser to this grammar in both
  directions; `render` is the serializer of the round trip.
* A `std::ostringstream` is the `String` written to it so far.  The widths
  of `to_ascii` are sizes (`Nat`); `static_cast<int>` of a size is its value
  modulo `2^32` read in two's complement (`size_to_int`), and `std::setw` with
  a width that is not greater than the size of what is written adds nothing.
* `std::remove_if` is embedded with its two phases (find the first match, then
  move the kept elements forward), so that the vector a throwing predicate
  leaves behind is part of the model; a moved-from `Row` has no cells.
-/

namespace db

/-! ## errors.hpp -/

/-- The exception classes of `errors.hpp` (the dynamic type of what is thrown,
with its `what()` text), plus `Undefined` for undefined behaviour. -/
inductive Exn where
  | ParseError (what : String)
  | DBError (what : String)
  | TypeError (what : String)
  | Undefined (what : String)
  deriving DecidableEq, Repr

/-- Source: `catch (const DBError &)` also catches a `TypeError`, its subclass. -/
def Exn.isDBError : Exn → Bool
  | .DBError _ => true
  | .TypeError _ => true
  | _ => false

/-! ## std::unordered_map with string keys -/

/-- An unordered map from strings, as the list of its entries. -/
structure UMap (β : Type) where
  entries : List (String × β)
  deriving DecidableEq, Repr

/-- Lookup in a list of entries. -/
def UMap.findIn {β : Type} : List (String × β) → String → Option β
  | [], _ => none
  | (k', v) :: rest, k => if k' = k then some v else UMap.findIn rest k

/-- Source: `m.find(k)`: the mapped value, or `none` for `end()`. -/
def UMap.find {β : Type} (m : UMap β) (k : String) : Option β :=
  UMap.findIn m.entries k

/-- Source: `m.count(k)`. -/
def UMap.count {β : Type} (m : UMap β) (k : String) : Nat :=
  if (m.find k).isSome then 1 else 0

/-- Source: `m.emplace(k, v)`: inserts only when the key is not present yet. -/
def UMap.emplace {β : Type} (m : UMap β) (k : String) (v : β) : UMap β :=
  match m.find k with
  | some _ => m
  | none => ⟨m.entries ++ [(k, v)]⟩

/-- Writing through the reference `it->second` of an entry found under `k`. -/
def UMap.assignIn {β : Type} : List (String × β) → String → β → List (String × β)
  | [], _, _ => []
  | (k', v') :: rest, k, v =>
    if k' = k then (k', v) :: rest else (k', v') :: UMap.assignIn rest k v

/-- Writing through the reference `it->second` of an entry found under `k`. -/
def UMap.assign {β : Type} (m : UMap β) (k : String) (v : β) : UMap β :=
  ⟨UMap.assignIn m.entries k v⟩

/-! ## database.hpp: values -/

/-- Source: `enum class Type { INT, STR }`. -/
inductive DbType where
  | INT
  | STR
  deriving DecidableEq, Repr

/-- Source: `struct Column`. -/
structure Column where
  name : String
  type : DbType
  deriving DecidableEq, Repr

/-- Source: `struct Value`: the tag and both payload fields, as in the source. -/
structure Value where
  type : DbType
  i : Int := 0
  s : String := ""
  deriving DecidableEq, Repr

/-- Source: `Value::make_int`. -/
def Value.make_int (v : Int) : Value := { type := .INT, i := v }

/-- Source: `Value::make_str`. -/
def Value.make_str (v : String) : Value := { type := .STR, s := v }

/-- Source: `Value::default_of`. -/
def Value.default_of (t : DbType) : Value :=
  if t = .INT then Value.make_int 0 else Value.make_str ""

/-- Source: `Value::to_string`; `std::to_string(long long)` is the base-10 text. -/
def Value.to_string (v : Value) : String :=
  if v.type = .INT then toString v.i else v.s

/-- Source: `std::string::compare`: the first differing `char` decides, by byte value;
when one string is a prefix of the other the shorter one is smaller. -/
def string_compare : List Char → List Char → Int
  | [], [] => 0
  | [], _ :: _ => -1
  | _ :: _, [] => 1
  | a :: as, b :: bs =>
    if a.toNat < b.toNat then -1
    else if b.toNat < a.toNat then 1
    else string_compare as bs

/-- Source: `operator<` of `std::string`. -/
def string_lt (a b : String) : Bool := decide (string_compare a.data b.data < 0)

/-- Source: `operator>` of `std::string`. -/
def string_gt (a b : String) : Bool := decide (string_compare a.data b.data > 0)

/-- Source: `Value::compare`: -1, 0 or 1, or `TypeError` when the tags differ. -/
def Value.compare (v other : Value) : Except Exn Int :=
  if v.type ≠ other.type then
    .error (.TypeError "Type mismatch in comparison")
  else if v.type = .INT then
    if v.i < other.i then .ok (-1)
    else if v.i > other.i then .ok 1
    else .ok 0
  else
    if string_lt v.s other.s then .ok (-1)
    else if string_gt v.s other.s then .ok 1
    else .ok 0

/-- Source: `struct Row`. -/
structure Row where
  cells : List Value
  deriving DecidableEq, Repr

/-- Source: `struct QueryResult` of `output.hpp`. -/
structure QueryResult where
  headers : List String
  rows : List (List String)
  deriving DecidableEq, Repr

/-- Source: `Condition::Op`. -/
inductive Op where
  | EQ
  | NEQ
  | LT
  | GT
  | LE
  | GE
  deriving DecidableEq, Repr

/-- Source: `struct Condition`. -/
structure Condition where
  column : String
  op : Op
  literal : Value
  deriving DecidableEq, Repr

/-! ## database.hpp / database.cpp: Table -/

/-- Source: `class Table`. -/
structure Table where
  name : String
  columns : List Column
  name2idx : UMap Nat
  rows : List Row
  deriving DecidableEq, Repr

/-- The constructor's loop: `name2idx.emplace(columns[idx].name, idx)` for
`idx` counting up from the given start. -/
def Table.index_columns : List Column → Nat → UMap Nat → UMap Nat
  | [], _, m => m
  | c :: cs, idx, m => Table.index_columns cs (idx + 1) (m.emplace c.name idx)

/-- Source: `Table::Table(std::string n, std::vector<Column> cols)`. -/
def Table.new (n : String) (cols : List Column) : Table :=
  { name := n, columns := cols,
    name2idx := Table.index_columns cols 0 ⟨[]⟩, rows := [] }

/-- Source: `Table::col_index`. -/
def Table.col_index (t : Table) (col : String) : Except Exn Nat :=
  match t.name2idx.find col with
  | none => .error (.DBError ("Unknown column: " ++ col))
  | some idx => .ok idx

/-- The loop of `Table::insert_row` over `columns[i]` and `row_values[i]`,
building the cells of the new row. -/
def Table.insert_row_cells : List Column → List (Option Value) → Except Exn (List Value)
  | [], _ => .ok []
  | _ :: _, [] => .error (.Undefined "row_values[i]")
  | c :: cs, ov :: rest =>
    match ov with
    | some v =>
      if v.type ≠ c.type then
        .error (.TypeError ("Type mismatch on insert into column " ++ c.name))
      else
        match Table.insert_row_cells cs rest with
        | .error e => .error e
        | .ok cells => .ok (v :: cells)
    | none =>
      match Table.insert_row_cells cs rest with
      | .error e => .error e
      | .ok cells => .ok (Value.default_of c.type :: cells)

/-- Source: `Table::insert_row`. -/
def Table.insert_row (t : Table) (row_values : List (Option Value)) :
    Table × Except Exn Unit :=
  if row_values.length ≠ t.columns.length then
    (t, .error (.DBError "Internal error: wrong row size"))
  else
    match Table.insert_row_cells t.columns row_values with
    | .error e => (t, .error e)
    | .ok cells => ({ t with rows := t.rows ++ [⟨cells⟩] }, .ok ())

/-- The `switch` of `Condition::matches` on the three-way outcome. -/
def Op.apply (op : Op) (cmp : Int) : Bool :=
  match op with
  | .EQ => decide (cmp = 0)
  | .NEQ => decide (cmp ≠ 0)
  | .LT => decide (cmp < 0)
  | .GT => decide (cmp > 0)
  | .LE => decide (cmp ≤ 0)
  | .GE => decide (cmp ≥ 0)

/-- Source: `Condition::matches`. -/
def Condition.matches (c : Condition) (t : Table) (r : Row) : Except Exn Bool :=
  match t.col_index c.column with
  | .error e => .error e
  | .ok idx =>
    match r.cells.get? idx with
    | none => .error (.Undefined "r.cells[idx]")
    | some v =>
      match v.compare c.literal with
      | .error e => .error e
      | .ok cmp => .ok (c.op.apply cmp)

/-- Source: `Table::row_matches`. -/
def Table.row_matches (t : Table) (r : Row) (cond : Option Condition) : Except Exn Bool :=
  match cond with
  | none => .ok true
  | some c => c.matches t r

/-- The loop `for (const auto &c : names) idxs.push_back(col_index(c))`, which
is the `else` branch of `Table::build_projection` and the first loop of the
`StmtInsert` branch of `execute`. -/
def Table.col_indices (t : Table) : List String → Except Exn (List Nat)
  | [] => .ok []
  | c :: cs =>
    match t.col_index c with
    | .error e => .error e
    | .ok idx =>
      match Table.col_indices t cs with
      | .error e => .error e
      | .ok idxs => .ok (idx :: idxs)

/-- Source: `Table::build_projection`. -/
def Table.build_projection (t : Table) (out_cols : List String) (star : Bool) :
    Except Exn (List Nat) :=
  if star then .ok (List.range t.columns.length)
  else t.col_indices out_cols

/-- The header loop of `Table::select_where`: `columns[idx].name`. -/
def Table.select_headers (t : Table) : List Nat → Except Exn (List String)
  | [] => .ok []
  | idx :: proj =>
    match t.columns.get? idx with
    | none => .error (.Undefined "columns[idx]")
    | some c =>
      match Table.select_headers t proj with
      | .error e => .error e
      | .ok hs => .ok (c.name :: hs)

/-- The inner loop of `Table::select_where`: `row.cells[idx].to_string()`. -/
def Table.project_row (row : Row) : List Nat → Except Exn (List String)
  | [] => .ok []
  | idx :: proj =>
    match row.cells.get? idx with
    | none => .error (.Undefined "row.cells[idx]")
    | some v =>
      match Table.project_row row proj with
      | .error e => .error e
      | .ok out => .ok (v.to_string :: out)

/-- The row loop of `Table::select_where`. -/
def Table.select_rows (t : Table) (proj : List Nat) (cond : Option Condition) :
    List Row → Except Exn (List (List String))
  | [] => .ok []
  | row :: rest =>
    match t.row_matches row cond with
    | .error e => .error e
    | .ok false => Table.select_rows t proj cond rest
    | .ok true =>
      match Table.project_row row proj with
      | .error e => .error e
      | .ok out =>
        match Table.select_rows t proj cond rest with
        | .error e => .error e
        | .ok outs => .ok (out :: outs)

/-- Source: `Table::select_where`. -/
def Table.select_where (t : Table) (out_cols : List String) (star : Bool)
    (cond : Option Condition) : Except Exn QueryResult :=
  match t.build_projection out_cols star with
  | .error e => .error e
  | .ok proj =>
    match t.select_headers proj with
    | .error e => .error e
    | .ok headers =>
      match t.select_rows proj cond t.rows with
      | .error e => .error e
      | .ok rows => .ok { headers := headers, rows := rows }

/-- The second phase of `std::remove_if`, after `std::find_if` has stopped at
the first matching element.  The vector is `kept ++ holes ++ rest`: `kept` are
the elements already moved to the front (`result` points just behind them),
`holes` the slots between `result` and `first`, `rest` the elements not yet
visited.  An element that is kept is move-assigned into the first hole and
leaves a moved-from `Row` (no cells) behind; the result is the vector as it
stands and the new logical end, or the exception of the predicate. -/
def remove_if_tail (pred : Row → Except Exn Bool) :
    List Row → List Row → List Row → List Row × Except Exn Nat
  | kept, holes, [] => (kept ++ holes, .ok kept.length)
  | kept, holes, x :: rest =>
    match pred x with
    | .error e => (kept ++ holes ++ x :: rest, .error e)
    | .ok true => remove_if_tail pred kept (holes ++ [x]) rest
    | .ok false => remove_if_tail pred (kept ++ [x]) (holes.tail ++ [⟨[]⟩]) rest

/-- The first phase of `std::remove_if`, that is `std::find_if`: the elements
in front of the first match stay where they are (`front`, in order). -/
def remove_if_find (pred : Row → Except Exn Bool) :
    List Row → List Row → List Row × Except Exn Nat
  | front, [] => (front, .ok front.length)
  | front, x :: rest =>
    match pred x with
    | .error e => (front ++ x :: rest, .error e)
    | .ok true => remove_if_tail pred front [x] rest
    | .ok false => remove_if_find pred (front ++ [x]) rest

/-- Source: `std::remove_if(rows.begin(), rows.end(), pred)`. -/
def remove_if (pred : Row → Except Exn Bool) (rows : List Row) :
    List Row × Except Exn Nat :=
  remove_if_find pred [] rows

/-- Source: `Table::delete_where`: `rows.erase(std::remove_if(...), rows.end())` and
the difference of the sizes. -/
def Table.delete_where (t : Table) (cond : Option Condition) : Table × Except Exn Nat :=
  let before := t.rows.length
  match remove_if (fun r => t.row_matches r cond) t.rows with
  | (rows, .error e) => ({ t with rows := rows }, .error e)
  | (rows, .ok new_end) =>
    let erased := rows.take new_end
    ({ t with rows := erased }, .ok (before - erased.length))

/-- The first loop of `Table::update_where`: `col_index(p.first)` of each
assignment. -/
def Table.set_indices (t : Table) : List (String × Value) → Except Exn (List Nat)
  | [] => .ok []
  | p :: ps =>
    match t.col_index p.1 with
    | .error e => .error e
    | .ok idx =>
      match Table.set_indices t ps with
      | .error e => .error e
      | .ok idxs => .ok (idx :: idxs)

/-- The loop over `k` of `Table::update_where` on one row: the cells as the
loop leaves them, and the exception that ended it, if any. -/
def Table.update_cells (t : Table) :
    List (String × Value) → List Nat → List Value → List Value × Option Exn
  | [], _, cells => (cells, none)
  | _ :: _, [], cells => (cells, some (.Undefined "idxs[k]"))
  | p :: sets, idx :: idxs, cells =>
    match t.columns.get? idx with
    | none => (cells, some (.Undefined "columns[idx]"))
    | some c =>
      if p.2.type ≠ c.type then
        (cells, some (.TypeError ("Type mismatch in UPDATE for column " ++ c.name)))
      else if idx < cells.length then
        Table.update_cells t sets idxs (cells.set idx p.2)
      else
        (cells, some (.Undefined "r.cells[idx]"))

/-- The loop over the rows of `Table::update_where`, with the running
`count`: the rows as the loop leaves them and the final count or the
exception. -/
def Table.update_rows (t : Table) (sets : List (String × Value)) (idxs : List Nat)
    (cond : Option Condition) : List Row → Nat → List Row × Except Exn Nat
  | [], count => ([], .ok count)
  | r :: rest, count =>
    match t.row_matches r cond with
    | .error e => (r :: rest, .error e)
    | .ok false =>
      let out := Table.update_rows t sets idxs cond rest count
      (r :: out.1, out.2)
    | .ok true =>
      match Table.update_cells t sets idxs r.cells with
      | (cells, some e) => (⟨cells⟩ :: rest, .error e)
      | (cells, none) =>
        let out := Table.update_rows t sets idxs cond rest (count + 1)
        (⟨cells⟩ :: out.1, out.2)

/-- Source: `Table::update_where`. -/
def Table.update_where (t : Table) (sets : List (String × Value))
    (cond : Option Condition) : Table × Except Exn Nat :=
  match t.set_indices sets with
  | .error e => (t, .error e)
  | .ok idxs =>
    let out := t.update_rows sets idxs cond t.rows 0
    ({ t with rows := out.1 }, out.2)

/-! ## database.hpp / database.cpp: Database and execute -/

/-- Source: `class Database`. -/
structure Database where
  tables : UMap Table
  deriving DecidableEq, Repr

/-- Source: `Database::create_table`. -/
def Database.create_table (d : Database) (n : String) (cols : List Column) :
    Database × Except Exn Unit :=
  if d.tables.count n ≠ 0 then
    (d, .error (.DBError ("Table already exists: " ++ n)))
  else
    ({ tables := d.tables.emplace n (Table.new n cols) }, .ok ())

/-- Source: `Database::table` (both overloads): the table found under the name. -/
def Database.table (d : Database) (n : String) : Except Exn Table :=
  match d.tables.find n with
  | none => .error (.DBError ("Unknown table: " ++ n))
  | some t => .ok t

/-- Source: `struct StmtCreate`. -/
structure StmtCreate where
  name : String
  columns : List Column
  deriving DecidableEq, Repr

/-- Source: `struct StmtInsert`. -/
structure StmtInsert where
  table : String
  columns : List String
  values : List (List Value)
  deriving DecidableEq, Repr

/-- Source: `struct StmtDelete`. -/
structure StmtDelete where
  table : String
  «where» : Option Condition
  deriving DecidableEq, Repr

/-- Source: `struct StmtUpdate`. -/
structure StmtUpdate where
  table : String
  sets : List (String × Value)
  «where» : Option Condition
  deriving DecidableEq, Repr

/-- Source: `struct StmtSelect`. -/
structure StmtSelect where
  table : String
  columns : List String
  star : Bool := false
  «where» : Option Condition
  deriving DecidableEq, Repr

/-- Source: `using Statement = std::variant<...>`. -/
inductive Statement where
  | Create (s : StmtCreate)
  | Insert (s : StmtInsert)
  | Delete (s : StmtDelete)
  | Update (s : StmtUpdate)
  | Select (s : StmtSelect)
  deriving DecidableEq, Repr

/-- The loop over `k` in the `StmtInsert` branch of `execute`:
`row_vals[idxs[k]] = tup[k]` for every `k < tup.size()`. -/
def fill_row_vals : List Nat → List Value → List (Option Value) →
    Except Exn (List (Option Value))
  | _, [], row_vals => .ok row_vals
  | [], _ :: _, _ => .error (.Undefined "idxs[k]")
  | idx :: idxs, v :: tup, row_vals =>
    if idx < row_vals.length then
      fill_row_vals idxs tup (row_vals.set idx (some v))
    else
      .error (.Undefined "row_vals[idx]")

/-- The loop over `s.values` in the `StmtInsert` branch of `execute`: the
table as the loop leaves it and the exception that ended it, if any. -/
def insert_tuples (s : StmtInsert) (idxs : List Nat) :
    Table → List (List Value) → Table × Except Exn Unit
  | t, [] => (t, .ok ())
  | t, tup :: rest =>
    if tup.length ≠ s.columns.length then
      (t, .error (.DBError "INSERT values tuple length mismatch"))
    else
      match fill_row_vals idxs tup (List.replicate t.columns.length none) with
      | .error e => (t, .error e)
      | .ok row_vals =>
        match t.insert_row row_vals with
        | (t1, .error e) => (t1, .error e)
        | (t1, .ok _) => insert_tuples s idxs t1 rest

/-- Source: `execute`: the database as the call leaves it and the returned optional
result or the exception. -/
def execute (d : Database) (stmt : Statement) :
    Database × Except Exn (Option QueryResult) :=
  match stmt with
  | .Create s =>
    match d.create_table s.name s.columns with
    | (d1, .error e) => (d1, .error e)
    | (d1, .ok _) => (d1, .ok none)
  | .Insert s =>
    match d.table s.table with
    | .error e => (d, .error e)
    | .ok t =>
      match t.col_indices s.columns with
      | .error e => (d, .error e)
      | .ok idxs =>
        match insert_tuples s idxs t s.values with
        | (t1, .error e) => ({ tables := d.tables.assign s.table t1 }, .error e)
        | (t1, .ok _) => ({ tables := d.tables.assign s.table t1 }, .ok none)
  | .Delete s =>
    match d.table s.table with
    | .error e => (d, .error e)
    | .ok t =>
      match t.delete_where s.«where» with
      | (t1, .error e) => ({ tables := d.tables.assign s.table t1 }, .error e)
      | (t1, .ok _) => ({ tables := d.tables.assign s.table t1 }, .ok none)
  | .Update s =>
    match d.table s.table with
    | .error e => (d, .error e)
    | .ok t =>
      match t.update_where s.sets s.«where» with
      | (t1, .error e) => ({ tables := d.tables.assign s.table t1 }, .error e)
      | (t1, .ok _) => ({ tables := d.tables.assign s.table t1 }, .ok none)
  | .Select s =>
    match d.table s.table with
    | .error e => (d, .error e)
    | .ok t =>
      match t.select_where s.columns s.star s.«where» with
      | .error e => (d, .error e)
      | .ok qr => (d, .ok (some qr))

/-! ## tokenizer.hpp / tokenizer.cpp -/

/-- Source: `enum class TokType`. -/
inductive TokType where
  | IDENT
  | NUMBER
  | STRING
  | SYMBOL
  | STAR
  | COMMA
  | LPAREN
  | RPAREN
  | SEMICOLON
  | EQUAL
  | NOTEQUAL
  | LT
  | GT
  | LE
  | GE
  | END
  deriving DecidableEq, Repr

/-- Source: `struct Token`. -/
structure Token where
  type : TokType
  text : String
  deriving DecidableEq, Repr

/-- Source: `class Tokenizer`: the input (held by reference in the source and
never written) and the cursor `i`. -/
structure Tokenizer where
  input : String
  i : Nat
  deriving DecidableEq, Repr

/-- Source: `std::isspace` on an `unsigned char`, in the "C" locale the program
runs in: space and the five control characters `\t \n \v \f \r`. -/
def isspace (c : Char) : Bool :=
  c.toNat = 32 || (9 ≤ c.toNat && c.toNat ≤ 13)

/-- Source: `std::isdigit` on an `unsigned char`. -/
def isdigit (c : Char) : Bool :=
  48 ≤ c.toNat && c.toNat ≤ 57

/-- Source: `std::isalpha` on an `unsigned char`, in the "C" locale. -/
def isalpha (c : Char) : Bool :=
  (65 ≤ c.toNat && c.toNat ≤ 90) || (97 ≤ c.toNat && c.toNat ≤ 122)

/-- Source: `std::isalnum` on an `unsigned char`, in the "C" locale. -/
def isalnum (c : Char) : Bool :=
  isalpha c || isdigit c

/-- What a loop `while (i < input.size() && p(input[i])) ++i` adds to `i`,
given the characters from `i` on: the length of their longest front run
satisfying `p`. -/
def run_length (p : Char → Bool) : List Char → Nat
  | [] => 0
  | c :: cs => if p c then run_length p cs + 1 else 0

/-- The characters of the input from the cursor on, `input[i]`, `input[i+1]`,
and so on up to the end. -/
def Tokenizer.rest (tz : Tokenizer) : List Char :=
  tz.input.data.drop tz.i

/-- Source: `Tokenizer::Tokenizer(const std::string &s)`. -/
def Tokenizer.init (s : String) : Tokenizer :=
  { input := s, i := 0 }

/-- Source: `Tokenizer::skip_ws`. -/
def Tokenizer.skip_ws (tz : Tokenizer) : Tokenizer :=
  { tz with i := tz.i + run_length isspace tz.rest }

/-- The loop of `Tokenizer::scan_string` on the characters behind the opening
quote: the collected `out` and the number of characters read, the closing
quote included when there is one. -/
def scan_string_loop : List Char → List Char × Nat
  | [] => ([], 0)
  | c :: cs =>
    if c = '"' then ([], 1)
    else ((c :: (scan_string_loop cs).1), (scan_string_loop cs).2 + 1)

/-- Source: `Tokenizer::scan_string`. -/
def Tokenizer.scan_string (tz : Tokenizer) : Token × Tokenizer :=
  let r := scan_string_loop (tz.input.data.drop (tz.i + 1))
  (⟨.STRING, String.mk r.1⟩, { tz with i := tz.i + 1 + r.2 })

/-- The character set of the identifier loop of `scan_ident_or_number`. -/
def ident_char (c : Char) : Bool :=
  isalnum c || c = '_' || c = '.'

/-- The number branch of `Tokenizer::scan_ident_or_number` on the characters
from `start` on, the first of which is `-` or a digit: `i - start` when
`is_num` is still true at the end of the branch, `none` when it is false. -/
def number_span (s : List Char) : Option Nat :=
  match s with
  | [] => none
  | c :: cs =>
    let sign := if c = '-' then 1 else 0
    let t := if c = '-' then cs else c :: cs
    match t with
    | [] => none
    | d :: _ =>
      if !isdigit d then none
      else
        let n := run_length isdigit t
        match t.drop n with
        | [] => some (sign + n)
        | e :: _ => if isalpha e || e = '_' then none else some (sign + n)

/-- Source: `Tokenizer::scan_ident_or_number`; `input.substr(start, i - start)`
is the first `i - start` characters from `start` on. -/
def Tokenizer.scan_ident_or_number (tz : Tokenizer) : Token × Tokenizer :=
  let s := tz.rest
  let num : Option Nat :=
    match s with
    | [] => none
    | c :: _ => if c = '-' || isdigit c then number_span s else none
  match num with
  | some n => (⟨.NUMBER, String.mk (s.take n)⟩, { tz with i := tz.i + n })
  | none =>
    let n := run_length ident_char s
    (⟨.IDENT, String.mk (s.take n)⟩, { tz with i := tz.i + n })

/-- The `switch (c)` of `Tokenizer::next`, entered after `++i`: `c` is the
character read, `cs` the characters behind it and `tz` the tokenizer with the
cursor behind `c`. -/
def Tokenizer.next_symbol (tz : Tokenizer) (c : Char) (cs : List Char) : Token × Tokenizer :=
  let follows_eq : Bool :=
    match cs with
    | [] => false
    | d :: _ => d = '='
  if c = '*' then (⟨.STAR, "*"⟩, tz)
  else if c = ',' then (⟨.COMMA, ","⟩, tz)
  else if c = '(' then (⟨.LPAREN, "("⟩, tz)
  else if c = ')' then (⟨.RPAREN, ")"⟩, tz)
  else if c = ';' then (⟨.SEMICOLON, ";"⟩, tz)
  else if c = '=' then (⟨.EQUAL, "="⟩, tz)
  else if c = '!' then
    if follows_eq then (⟨.NOTEQUAL, "!="⟩, { tz with i := tz.i + 1 })
    else (⟨.SYMBOL, String.singleton c⟩, tz)
  else if c = '<' then
    if follows_eq then (⟨.LE, "<="⟩, { tz with i := tz.i + 1 })
    else (⟨.LT, "<"⟩, tz)
  else if c = '>' then
    if follows_eq then (⟨.GE, ">="⟩, { tz with i := tz.i + 1 })
    else (⟨.GT, ">"⟩, tz)
  else (⟨.SYMBOL, String.singleton c⟩, tz)

/-- Source: `Tokenizer::next`: the token returned and the tokenizer as the call
leaves it. -/
def Tokenizer.next (tz : Tokenizer) : Token × Tokenizer :=
  let tz1 := tz.skip_ws
  match tz1.rest with
  | [] => (⟨.END, ""⟩, tz1)
  | c :: cs =>
    if c = '"' then tz1.scan_string
    else if isalpha c || c = '_' || c = '-' || isdigit c then tz1.scan_ident_or_number
    else Tokenizer.next_symbol { tz1 with i := tz1.i + 1 } c cs

/-- Source: `Tokenizer::peek`: `next` on a copy. -/
def Tokenizer.peek (tz : Tokenizer) : Token :=
  tz.next.1

/-- Source: `Tokenizer::eof`. -/
def Tokenizer.eof (tz : Tokenizer) : Bool :=
  tz.peek.type = .END

/-! ## parser.cpp: parse_statement -/

/-- Source: `parse_type` of `parser.cpp`. -/
def parse_type (t : Token) : Except Exn DbType :=
  if t.type ≠ .IDENT then .error (.ParseError "Expected type name")
  else if t.text = "int" then .ok .INT
  else if t.text = "str" then .ok .STR
  else .error (.ParseError ("Unknown type: " ++ t.text ++ " (types must be 'int' or 'str')"))

/-- The value of a run of decimal digits. -/
def digits_value (ds : List Char) : Nat :=
  ds.foldl (fun acc c => acc * 10 + (c.toNat - 48)) 0

/-- The library call `std::stoll(text, &pos, 10)`: leading white space, an
optional sign and a run of digits are read; the value and `pos` are returned,
and `none` stands for the exception thrown when there is no digit
(`std::invalid_argument`) or the value does not fit a `long long`
(`std::out_of_range`). -/
def stoll (text : String) : Option (Int × Nat) :=
  let s := text.data
  let ws := run_length isspace s
  let s1 := s.drop ws
  let neg : Bool :=
    match s1 with
    | [] => false
    | c :: _ => c = '-'
  let sign_len : Nat :=
    match s1 with
    | [] => 0
    | c :: _ => if c = '-' || c = '+' then 1 else 0
  let s2 := s1.drop sign_len
  let n := run_length isdigit s2
  if n = 0 then none
  else
    let mag : Int := digits_value (s2.take n)
    let v : Int := if neg then -mag else mag
    if v < -9223372036854775808 || 9223372036854775807 < v then none
    else some (v, ws + sign_len + n)

/-- Source: `parse_literal`; every exception inside the `try` block is turned
into the one `ParseError`. -/
def parse_literal (t : Token) : Except Exn Value :=
  if t.type = .NUMBER then
    match stoll t.text with
    | none => .error (.ParseError ("Invalid integer literal: " ++ t.text))
    | some (v, pos) =>
      if pos ≠ t.text.length then
        .error (.ParseError ("Invalid integer literal: " ++ t.text))
      else .ok (Value.make_int v)
  else if t.type = .STRING then .ok (Value.make_str t.text)
  else .error (.ParseError "Expected literal (number or \x22string\x22)")

/-- Source: `parse_op`. -/
def parse_op (t : Token) : Except Exn Op :=
  match t.type with
  | .EQUAL => .ok .EQ
  | .NOTEQUAL => .ok .NEQ
  | .LT => .ok .LT
  | .GT => .ok .GT
  | .LE => .ok .LE
  | .GE => .ok .GE
  | _ => .error (.ParseError "Expected comparison operator (=, !=, <, >, <=, >=)")

/-- Source: `parse_where`: the optional condition and the tokenizer as the call
leaves it. -/
def parse_where (tz : Tokenizer) : Except Exn (Option Condition × Tokenizer) :=
  let t := tz.peek
  if t.type = .IDENT ∧ t.text = "WHERE" then
    let tz1 := tz.next.2
    let col := tz1.next.1
    let tz2 := tz1.next.2
    if col.type ≠ .IDENT then .error (.ParseError "Expected column name after WHERE")
    else
      let op := tz2.next.1
      let tz3 := tz2.next.2
      match parse_op op with
      | .error e => .error e
      | .ok cop =>
        let lit := tz3.next.1
        let tz4 := tz3.next.2
        match parse_literal lit with
        | .error e => .error e
        | .ok v => .ok (some ⟨col.text, cop, v⟩, tz4)
  else .ok (none, tz)

/-- Source: `expect_ident`. -/
def expect_ident (tz : Tokenizer) (kw : String) : Except Exn Tokenizer :=
  let t := tz.next.1
  if t.type ≠ .IDENT ∨ t.text ≠ kw then .error (.ParseError ("Expected '" ++ kw ++ "'"))
  else .ok tz.next.2

/-- Source: `expect_ident_any`. -/
def expect_ident_any (tz : Tokenizer) : Except Exn (String × Tokenizer) :=
  let t := tz.next.1
  if t.type ≠ .IDENT then .error (.ParseError "Expected identifier")
  else .ok (t.text, tz.next.2)

/-- Source: `expect`. -/
def expect (t : Token) (tt : TokType) (what : String) : Except Exn Unit :=
  if t.type ≠ tt then .error (.ParseError ("Expected " ++ what))
  else .ok ()

/-- The statement `if (!first) expect(tz.next(), TokType::COMMA, "','")` of the
list loops. -/
def expect_comma_unless (first : Bool) (tz : Tokenizer) : Except Exn Tokenizer :=
  if first then .ok tz
  else
    match expect tz.next.1 .COMMA "','" with
    | .error e => .error e
    | .ok _ => .ok tz.next.2

/-- The bound given to every `while (true)` loop of `parse_statement`: more
iterations than the loop can make on this input (`parse_statement_total`). -/
def loop_bound (tz : Tokenizer) : Nat :=
  tz.input.length + 2

/-- The `while (true)` loop of the CREATE branch, run for at most the given
number of iterations; `none` when the bound is reached. -/
def create_columns_loop :
    Nat → Tokenizer → List Column → Bool → Option (Except Exn (List Column × Tokenizer))
  | 0, _, _, _ => none
  | fuel + 1, tz, cols, first =>
    if tz.peek.type = .RPAREN then some (.ok (cols, tz.next.2))
    else
      match expect_comma_unless first tz with
      | .error e => some (.error e)
      | .ok tz1 =>
        match expect_ident_any tz1 with
        | .error e => some (.error e)
        | .ok (colname, tz2) =>
          match parse_type tz2.next.1 with
          | .error e => some (.error e)
          | .ok ty => create_columns_loop fuel tz2.next.2 (cols ++ [⟨colname, ty⟩]) false

/-- The first `while (true)` loop of the INSERT branch (the column names),
run for at most the given number of iterations. -/
def insert_columns_loop :
    Nat → Tokenizer → List String → Bool → Option (Except Exn (List String × Tokenizer))
  | 0, _, _, _ => none
  | fuel + 1, tz, cols, first =>
    if tz.peek.type = .RPAREN then some (.ok (cols, tz.next.2))
    else
      match expect_comma_unless first tz with
      | .error e => some (.error e)
      | .ok tz1 =>
        match expect_ident_any tz1 with
        | .error e => some (.error e)
        | .ok (col, tz2) => insert_columns_loop fuel tz2 (cols ++ [col]) false

/-- The innermost `while (true)` loop of the INSERT branch (the literals of
one tuple), run for at most the given number of iterations. -/
def tuple_loop :
    Nat → Tokenizer → List Value → Bool → Option (Except Exn (List Value × Tokenizer))
  | 0, _, _, _ => none
  | fuel + 1, tz, tup, firstv =>
    if tz.peek.type = .RPAREN then some (.ok (tup, tz.next.2))
    else
      match expect_comma_unless firstv tz with
      | .error e => some (.error e)
      | .ok tz1 =>
        match parse_literal tz1.next.1 with
        | .error e => some (.error e)
        | .ok v => tuple_loop fuel tz1.next.2 (tup ++ [v]) false

/-- The `while (true)` loop over the tuples of the INSERT branch, run for at
most the given number of iterations. -/
def insert_values_loop :
    Nat → Tokenizer → List (List Value) → Bool →
      Option (Except Exn (List (List Value) × Tokenizer))
  | 0, _, _, _ => none
  | fuel + 1, tz, values, first_tuple =>
    if !first_tuple && tz.peek.type ≠ .COMMA then some (.ok (values, tz))
    else
      let tz0 := if first_tuple then tz else tz.next.2
      match expect tz0.next.1 .LPAREN "'('" with
      | .error e => some (.error e)
      | .ok _ =>
        match tuple_loop (loop_bound tz) tz0.next.2 [] true with
        | none => none
        | some (.error e) => some (.error e)
        | some (.ok (tup, tz1)) =>
          if tz1.peek.type ≠ .COMMA then some (.ok (values ++ [tup], tz1))
          else insert_values_loop fuel tz1 (values ++ [tup]) false

/-- The `while (true)` loop of the UPDATE branch, run for at most the given
number of iterations. -/
def update_sets_loop :
    Nat → Tokenizer → List (String × Value) → Bool →
      Option (Except Exn (List (String × Value) × Tokenizer))
  | 0, _, _, _ => none
  | fuel + 1, tz, sets, first =>
    if !first && tz.peek.type ≠ .COMMA then some (.ok (sets, tz))
    else
      let tz0 := if first then tz else tz.next.2
      match expect_ident_any tz0 with
      | .error e => some (.error e)
      | .ok (col, tz1) =>
        match expect tz1.next.1 .EQUAL "'='" with
        | .error e => some (.error e)
        | .ok _ =>
          match parse_literal tz1.next.2.next.1 with
          | .error e => some (.error e)
          | .ok v =>
            let tz2 := tz1.next.2.next.2
            if tz2.peek.type ≠ .COMMA then some (.ok (sets ++ [(col, v)], tz2))
            else update_sets_loop fuel tz2 (sets ++ [(col, v)]) false

/-- The `while (true)` loop of the SELECT branch, run for at most the given
number of iterations. -/
def select_columns_loop :
    Nat → Tokenizer → List String → Option (Except Exn (List String × Tokenizer))
  | 0, _, _ => none
  | fuel + 1, tz, cols =>
    if tz.peek.type = .COMMA then
      match expect_ident_any tz.next.2 with
      | .error e => some (.error e)
      | .ok (col, tz1) => select_columns_loop fuel tz1 (cols ++ [col])
    else some (.ok (cols, tz))

/-- The tail shared by the branches of `parse_statement`:
`if (!tz.eof()) throw ParseError(...)` and the `return`. -/
def finish (tz : Tokenizer) (what : String) (s : Statement) :
    Option (Except Exn (Statement × Tokenizer)) :=
  if !tz.eof then some (.error (.ParseError ("Unexpected tokens after " ++ what)))
  else some (.ok (s, tz))

/-- The CREATE branch of `parse_statement`, entered behind the keyword. -/
def parse_create (tz : Tokenizer) : Option (Except Exn (Statement × Tokenizer)) :=
  match expect_ident tz "TABLE" with
  | .error e => some (.error e)
  | .ok tz1 =>
    match expect_ident_any tz1 with
    | .error e => some (.error e)
    | .ok (tbl, tz2) =>
      match expect tz2.next.1 .LPAREN "'('" with
      | .error e => some (.error e)
      | .ok _ =>
        match create_columns_loop (loop_bound tz) tz2.next.2 [] true with
        | none => none
        | some (.error e) => some (.error e)
        | some (.ok (cols, tz3)) => finish tz3 "CREATE TABLE" (.Create ⟨tbl, cols⟩)

/-- The INSERT branch of `parse_statement`, entered behind the keyword. -/
def parse_insert (tz : Tokenizer) : Option (Except Exn (Statement × Tokenizer)) :=
  match expect_ident tz "INTO" with
  | .error e => some (.error e)
  | .ok tz1 =>
    match expect_ident_any tz1 with
    | .error e => some (.error e)
    | .ok (tbl, tz2) =>
      match expect tz2.next.1 .LPAREN "'('" with
      | .error e => some (.error e)
      | .ok _ =>
        match insert_columns_loop (loop_bound tz) tz2.next.2 [] true with
        | none => none
        | some (.error e) => some (.error e)
        | some (.ok (cols, tz3)) =>
          match expect_ident tz3 "VALUES" with
          | .error e => some (.error e)
          | .ok tz4 =>
            match insert_values_loop (loop_bound tz) tz4 [] true with
            | none => none
            | some (.error e) => some (.error e)
            | some (.ok (values, tz5)) => finish tz5 "INSERT" (.Insert ⟨tbl, cols, values⟩)

/-- The DELETE branch of `parse_statement`, entered behind the keyword. -/
def parse_delete (tz : Tokenizer) : Option (Except Exn (Statement × Tokenizer)) :=
  match expect_ident tz "FROM" with
  | .error e => some (.error e)
  | .ok tz1 =>
    match expect_ident_any tz1 with
    | .error e => some (.error e)
    | .ok (tbl, tz2) =>
      match parse_where tz2 with
      | .error e => some (.error e)
      | .ok (w, tz3) => finish tz3 "DELETE" (.Delete ⟨tbl, w⟩)

/-- The UPDATE branch of `parse_statement`, entered behind the keyword. -/
def parse_update (tz : Tokenizer) : Option (Except Exn (Statement × Tokenizer)) :=
  match expect_ident_any tz with
  | .error e => some (.error e)
  | .ok (tbl, tz1) =>
    match expect_ident tz1 "SET" with
    | .error e => some (.error e)
    | .ok tz2 =>
      match update_sets_loop (loop_bound tz) tz2 [] true with
      | none => none
      | some (.error e) => some (.error e)
      | some (.ok (sets, tz3)) =>
        match parse_where tz3 with
        | .error e => some (.error e)
        | .ok (w, tz4) => finish tz4 "UPDATE" (.Update ⟨tbl, sets, w⟩)

/-- The column part of the SELECT branch: `*`, or a name and the loop over
`, name`; the names, the `star` flag and the tokenizer. -/
def select_columns (tz : Tokenizer) :
    Option (Except Exn ((List String × Bool) × Tokenizer)) :=
  let a := tz.next.1
  if a.type = .STAR then some (.ok (([], true), tz.next.2))
  else if a.type = .IDENT then
    match select_columns_loop (loop_bound tz) tz.next.2 [a.text] with
    | none => none
    | some (.error e) => some (.error e)
    | some (.ok (cols, tz1)) => some (.ok ((cols, false), tz1))
  else some (.error (.ParseError "Expected '*' or column list after SELECT"))

/-- The SELECT branch of `parse_statement`, entered behind the keyword. -/
def parse_select (tz : Tokenizer) : Option (Except Exn (Statement × Tokenizer)) :=
  match select_columns tz with
  | none => none
  | some (.error e) => some (.error e)
  | some (.ok ((cols, star), tz1)) =>
    match expect_ident tz1 "FROM" with
    | .error e => some (.error e)
    | .ok tz2 =>
      match expect_ident_any tz2 with
      | .error e => some (.error e)
      | .ok (tbl, tz3) =>
        match parse_where tz3 with
        | .error e => some (.error e)
        | .ok (w, tz4) => finish tz4 "SELECT" (.Select ⟨tbl, cols, star, w⟩)

/-- Source: `parse_statement`, with the tokenizer as it is at the `return`
statement kept beside the statement; `none` when a loop reached its bound. -/
def parse_statement_run (stmt : String) : Option (Except Exn (Statement × Tokenizer)) :=
  let tz0 := Tokenizer.init stmt
  let t := tz0.next.1
  let tz := tz0.next.2
  if t.type ≠ .IDENT then some (.error (.ParseError "Expected statement keyword"))
  else if t.text = "CREATE" then parse_create tz
  else if t.text = "INSERT" then parse_insert tz
  else if t.text = "DELETE" then parse_delete tz
  else if t.text = "UPDATE" then parse_update tz
  else if t.text = "SELECT" then parse_select tz
  else some (.error (.ParseError
    ("Unknown statement type: " ++ t.text ++ " (keywords must be uppercase)")))

/-- Source: `parse_statement`: the statement returned or the exception thrown;
`none` when a loop reached its bound. -/
def parse_statement (stmt : String) : Option (Except Exn Statement) :=
  match parse_statement_run stmt with
  | none => none
  | some (.error e) => some (.error e)
  | some (.ok (s, _)) => some (.ok s)

/-! ## output.cpp -/

/-- The loop of `csv_escape` over the characters of `v`, with the `out` built
so far. -/
def csv_escape_loop : List Char → List Char → List Char
  | out, [] => out
  | out, c :: cs => csv_escape_loop (if c = '"' then out ++ ['"', '"'] else out ++ [c]) cs

/-- Source: `csv_escape`; `v.find_first_of(",\"\n") != npos` says that one of
the three characters occurs in `v`. -/
def csv_escape (v : String) : String :=
  let needs : Bool := v.data.any fun c => c = ',' || c = '"' || c = '\n'
  if !needs then v
  else String.mk (csv_escape_loop ['"'] v.data ++ ['"'])

/-- The loop over `i` of `to_csv` on the fields of one line, from the index
`i` on, with the contents of `oss` so far. -/
def csv_fields_loop : Nat → List String → String → String
  | _, [], oss => oss
  | i, f :: fs, oss =>
    csv_fields_loop (i + 1) fs ((if i ≠ 0 then oss ++ "," else oss) ++ csv_escape f)

/-- The loop over the rows of `to_csv`, with the contents of `oss` so far. -/
def csv_rows_loop : List (List String) → String → String
  | [], oss => oss
  | row :: rows, oss => csv_rows_loop rows (csv_fields_loop 0 row oss ++ "\n")

/-- Source: `to_csv`. -/
def to_csv (r : QueryResult) : String :=
  csv_rows_loop r.rows (csv_fields_loop 0 r.headers "" ++ "\n")

/-- The inner loop of the width computation of `to_ascii` on one row,
`widths[i] = std::max(widths[i], row[i].size())` for every cell of the row; a
row with more cells than there are widths writes behind the end of `widths`. -/
def widen_row : List Nat → List String → Except Exn (List Nat)
  | ws, [] => .ok ws
  | [], _ :: _ => .error (.Undefined "widths[i]")
  | w :: ws, c :: cs =>
    match widen_row ws cs with
    | .error e => .error e
    | .ok ws1 => .ok (max w c.length :: ws1)

/-- The loop over the rows of the width computation of `to_ascii`. -/
def widths_loop : List Nat → List (List String) → Except Exn (List Nat)
  | ws, [] => .ok ws
  | ws, row :: rows =>
    match widen_row ws row with
    | .error e => .error e
    | .ok ws1 => widths_loop ws1 rows

/-- The conversion `static_cast<int>(n)` of a `size_t`, `int` having 32 bits:
the value modulo `2^32`, read in two's complement. -/
def size_to_int (n : Nat) : Int :=
  if n % 2 ^ 32 < 2 ^ 31 then ((n % 2 ^ 32 : Nat) : Int)
  else ((n % 2 ^ 32 : Nat) : Int) - 2 ^ 32

/-- The output of `s << std::left << std::setw(w) << cell`: the cell, and
behind it the blanks that fill the field up to `w` characters when the cell is
shorter than `w`; none when `w` is not greater than the size of the cell. -/
def put_left (w : Int) (cell : String) : String :=
  cell ++ String.mk (List.replicate (w - cell.length).toNat ' ')

/-- The loop of the lambda `line` of `to_ascii`, with the contents of `s` so
far; `w + 2` does not wrap, `w` being the size of a string. -/
def ascii_line_loop : List Nat → String → String
  | [], s => s
  | w :: ws, s => ascii_line_loop ws (s ++ String.mk (List.replicate (w + 2) '-') ++ "+")

/-- The lambda `line` of `to_ascii`. -/
def ascii_line (widths : List Nat) : String :=
  ascii_line_loop widths "+"

/-- The loop of the lambda `fmt_row` of `to_ascii` over the cells and
`widths[i]`, with the contents of `s` so far. -/
def fmt_row_loop : List Nat → List String → String → Except Exn String
  | _, [], s => .ok s
  | [], _ :: _, _ => .error (.Undefined "widths[i]")
  | w :: ws, c :: cs, s =>
    fmt_row_loop ws cs (s ++ " " ++ put_left (size_to_int w) c ++ " |")

/-- The lambda `fmt_row` of `to_ascii`. -/
def fmt_row (widths : List Nat) (cells : List String) : Except Exn String :=
  fmt_row_loop widths cells "|"

/-- The loop over the rows of `to_ascii` that writes them, with the contents
of `oss` so far. -/
def ascii_rows_loop (widths : List Nat) : List (List String) → String → Except Exn String
  | [], oss => .ok oss
  | row :: rows, oss =>
    match fmt_row widths row with
    | .error e => .error e
    | .ok l => ascii_rows_loop widths rows (oss ++ l ++ "\n")

/-- Source: `to_ascii`. -/
def to_ascii (r : QueryResult) : Except Exn String :=
  match widths_loop (r.headers.map String.length) r.rows with
  | .error e => .error e
  | .ok widths =>
    match fmt_row widths r.headers with
    | .error e => .error e
    | .ok h =>
      match ascii_rows_loop widths r.rows
          (ascii_line widths ++ "\n" ++ h ++ "\n" ++ ascii_line widths ++ "\n") with
      | .error e => .error e
      | .ok oss => .ok (oss ++ ascii_line widths ++ "\n")

/-! ## parser.cpp: split_statements -/

/-- The second loop of the trimming in `split_statements`,
`while (end > start && isspace(cur[end - 1])) --end`, from the given `end`. -/
def trim_end_loop (cur : List Char) (start : Nat) : Nat → Nat
  | 0 => 0
  | e + 1 =>
    if e + 1 > start &&
        (match cur.get? e with
          | some c => isspace c
          | none => false) then
      trim_end_loop cur start e
    else e + 1

/-- The loop of `split_statements` over the characters of the input from `i`
on, with `out`, the characters of `cur` and `in_string` as they are. -/
def split_loop : List Char → List String → List Char → Bool → List String
  | [], out, _, _ => out
  | c :: cs, out, cur, in_string =>
    if c = '"' then split_loop cs out (cur ++ [c]) (!in_string)
    else if c = ';' && !in_string then
      let start := run_length isspace cur
      let e := trim_end_loop cur start cur.length
      split_loop cs
        (if e > start then out ++ [String.mk ((cur.drop start).take (e - start))] else out)
        [] in_string
    else split_loop cs out (cur ++ [c]) in_string

/-- Source: `split_statements`. -/
def split_statements (input : String) : List String :=
  split_loop input.data [] [] false

/-! ## Specification-side notions -/

/-- The index map is the one the constructor builds from the columns; the
fields are private and no member function changes them afterwards. -/
def Table.SchemaOK (t : Table) : Prop :=
  t.name2idx = Table.index_columns t.columns 0 ⟨[]⟩

/-- The first position, counted from `start`, of a column called `k`. -/
def first_index : List Column → String → Nat → Option Nat
  | [], _, _ => none
  | c :: cs, k, start => if c.name = k then some start else first_index cs k (start + 1)

/-- The tags of the cells of a row are the declared types, position by
position (so the row has as many cells as there are columns). -/
def Row.Typed (cols : List Column) (r : Row) : Prop :=
  r.cells.map Value.type = cols.map Column.type

/-- The table invariant, as the data model words it: every row has
`columns.size()` cells and cell `i` carries the tag `columns[i].type`. -/
def Table.Inv (t : Table) : Prop :=
  ∀ r ∈ t.rows, r.cells.length = t.columns.length ∧
    ∀ i c, t.columns.get? i = some c → ∃ v, r.cells.get? i = some v ∧ v.type = c.type

/-- A stored row satisfies the condition: evaluating it on the row gives
`true` (an absent condition is satisfied by every row). -/
def Table.satisfies (t : Table) (cond : Option Condition) (r : Row) : Bool :=
  match t.row_matches r cond with
  | .ok true => true
  | _ => false

/-- Evaluating the condition on the row gives `false`. -/
def Table.rejects (t : Table) (cond : Option Condition) (r : Row) : Bool :=
  match t.row_matches r cond with
  | .ok false => true
  | _ => false

/-- The exception, if any, that evaluating a condition throws on a row typed
like the table's columns; it does not depend on the row. -/
def Condition.failure (c : Condition) (t : Table) : Option Exn :=
  match t.col_index c.column with
  | .error e => some e
  | .ok idx =>
    match t.columns.get? idx with
    | none => some (.Undefined "r.cells[idx]")
    | some col =>
      if col.type ≠ c.literal.type then some (.TypeError "Type mismatch in comparison")
      else none

/-- The predicate returns `false` on the row, so `std::remove_if` keeps it. -/
def keeps (pred : Row → Except Exn Bool) (x : Row) : Bool :=
  match pred x with
  | .ok false => true
  | _ => false

/-- The cells `insert_row` stores for a full-width vector whose present
values carry the declared tags. -/
def filled_cells : List Column → List (Option Value) → List Value
  | c :: cs, ov :: rest =>
    (match ov with
      | some v => v
      | none => Value.default_of c.type) :: filled_cells cs rest
  | _, _ => []

/-- The value of the last pair of the list whose name `col_index` resolves to
the column index `j`, if some pair names that column. -/
def Table.last_named (t : Table) : List (String × Value) → Nat → Option Value
  | [], _ => none
  | p :: ps, j =>
    match Table.last_named t ps j with
    | some w => some w
    | none =>
      match t.col_index p.1 with
      | .ok idx => if idx = j then some p.2 else none
      | .error _ => none

/-- One call of a mutating member function on a table, with any arguments;
the second table is the one the call leaves, whether it returns or throws. -/
inductive Table.Step : Table → Table → Prop
  | insert_row (t : Table) (row_values : List (Option Value)) :
      Table.Step t (t.insert_row row_values).1
  | delete_where (t : Table) (cond : Option Condition) :
      Table.Step t (t.delete_where cond).1
  | update_where (t : Table) (sets : List (String × Value)) (cond : Option Condition) :
      Table.Step t (t.update_where sets cond).1

/-- The database with no table. -/
def Database.empty : Database := ⟨⟨[]⟩⟩

/-- The schema `people(name str, age int)` of the tests. -/
def people_columns : List Column := [⟨"name", .STR⟩, ⟨"age", .INT⟩]

/-- The table `people(name str, age int)` as `create_table` builds it. -/
def people : Table := Table.new "people" people_columns

/-- The table `people` holding (alice,30), (bob,25), (carol,35). -/
def people3 : Table :=
  { people with rows := [⟨[.make_str "alice", .make_int 30]⟩,
      ⟨[.make_str "bob", .make_int 25]⟩, ⟨[.make_str "carol", .make_int 35]⟩] }

/-- The row an INSERT tuple stands for: the cell of column `j` is the literal
at the last position of the column list whose name resolves to `j`, and
`default_of` the column type when no position does. -/
def Table.row_of_tuple (t : Table) (names : List String) (tup : List Value) : Row :=
  ⟨t.columns.enum.map (fun jc =>
    match t.last_named (names.zip tup) jc.1 with
    | some w => w
    | none => Value.default_of jc.2.type)⟩

/-- The database holding only the empty table `people`. -/
def people_db : Database := ⟨⟨[("people", people)]⟩⟩

/-- A table `t(a int)` with no rows, alone in a database. -/
def single_a_db : Database := ⟨⟨[("t", Table.new "t" [⟨"a", .INT⟩])]⟩⟩

/-- The table `t(a int)` with no rows. -/
def single_a : Table := Table.new "t" [⟨"a", .INT⟩]

/-- The table `products(id int, name str, price int)` holding (1,"laptop",1000). -/
def products1 : Table :=
  { Table.new "products" [⟨"id", .INT⟩, ⟨"name", .STR⟩, ⟨"price", .INT⟩] with
    rows := [⟨[.make_int 1, .make_str "laptop", .make_int 1000]⟩] }

/-- Byte-wise lexicographic order on strings: at the first position where the
two differ the smaller `char` code decides, and a proper prefix is smaller. -/
def str_lt (a b : String) : Prop :=
  List.Lex (fun x y : Char => x.toNat < y.toNat) a.data b.data

/-- The relation `v op lit` in the total order of the tag of `v`: integers
by numeric value, strings by `str_lt`. -/
def Value.holds (op : Op) (v lit : Value) : Prop :=
  match v.type, op with
  | .INT, .EQ => v.i = lit.i
  | .INT, .NEQ => v.i ≠ lit.i
  | .INT, .LT => v.i < lit.i
  | .INT, .GT => lit.i < v.i
  | .INT, .LE => v.i ≤ lit.i
  | .INT, .GE => lit.i ≤ v.i
  | .STR, .EQ => v.s = lit.s
  | .STR, .NEQ => v.s ≠ lit.s
  | .STR, .LT => str_lt v.s lit.s
  | .STR, .GT => str_lt lit.s v.s
  | .STR, .LE => str_lt v.s lit.s ∨ v.s = lit.s
  | .STR, .GE => str_lt lit.s v.s ∨ v.s = lit.s

/-- The outcome is not the undefined-behaviour marker. -/
def Defined {α : Type} (x : Except Exn α) : Prop :=
  ∀ w, x ≠ .error (.Undefined w)

/-- The database after executing the statements in order, each on the
database the previous one left, whether it returned or threw. -/
def run_statements (d : Database) : List Statement → Database
  | [] => d
  | s :: rest => run_statements (execute d s).1 rest

/-- An INSERT tuple is valid for the named columns: it has one literal per
name and, for each column some name resolves to, the literal at the last
position naming it carries the declared type of the column. -/
def Table.tuple_valid (t : Table) (names : List String) (tup : List Value) : Prop :=
  tup.length = names.length ∧
    ∀ j v c, t.last_named (names.zip tup) j = some v → t.columns.get? j = some c →
      v.type = c.type

/-- What `scan_ident_or_number` does, read on the characters from the cursor on:
the token and the number of characters the cursor moves. -/
def lex_word (s : List Char) : Token × Nat :=
  let num : Option Nat :=
    match s with
    | [] => none
    | c :: _ => if c = '-' || isdigit c then number_span s else none
  match num with
  | some n => (⟨.NUMBER, String.mk (s.take n)⟩, n)
  | none => (⟨.IDENT, String.mk (s.take (run_length ident_char s))⟩, run_length ident_char s)

/-- What the `switch` of `next` does, read on the character `c` and the
characters behind it: the token and the number of characters the cursor moves,
`c` included. -/
def lex_symbol (c : Char) (cs : List Char) : Token × Nat :=
  ((Tokenizer.next_symbol ⟨"", 0⟩ c cs).1, 1 + (Tokenizer.next_symbol ⟨"", 0⟩ c cs).2.i)

/-- What `next` does behind the white space, read on the characters there. -/
def lex_token (s : List Char) : Token × Nat :=
  match s with
  | [] => (⟨.END, ""⟩, 0)
  | c :: cs =>
    if c = '"' then (⟨.STRING, String.mk (scan_string_loop cs).1⟩, 1 + (scan_string_loop cs).2)
    else if isalpha c || c = '_' || c = '-' || isdigit c then lex_word s
    else lex_symbol c cs

/-- What `next` does, read on the characters from the cursor on: the token
returned and the number of characters the cursor moves. -/
def lex (s : List Char) : Token × Nat :=
  ((lex_token (s.drop (run_length isspace s))).1,
    run_length isspace s + (lex_token (s.drop (run_length isspace s))).2)

/-- Whether the first of the characters `s` satisfies `p`; false when there is
no character. -/
def starts_with (p : Char → Bool) (s : List Char) : Bool :=
  match s with
  | [] => false
  | c :: _ => p c

/-- A letter or an underscore: what makes `scan_ident_or_number` give up a
number when it follows the digits. -/
def isalpha_us (c : Char) : Bool :=
  isalpha c || c = '_'

/-- The texts that lex as one identifier: made of letters, digits, `_` and
`.`, and with a letter or `_` right behind the leading digits (none, for a
text that starts with a letter or `_`). -/
def is_ident (w : List Char) : Bool :=
  w.all ident_char && starts_with isalpha_us (w.drop (run_length isdigit w))

/-- The punctuation the grammar of `parse_statement` asks for by token type. -/
inductive Punct where
  | LPAREN
  | RPAREN
  | COMMA
  | STAR
  | EQUAL
  deriving DecidableEq, Repr

/-- The token type of a punctuation mark. -/
def Punct.type : Punct → TokType
  | .LPAREN => .LPAREN
  | .RPAREN => .RPAREN
  | .COMMA => .COMMA
  | .STAR => .STAR
  | .EQUAL => .EQUAL

/-- The spelling of a punctuation mark. -/
def Punct.text : Punct → String
  | .LPAREN => "("
  | .RPAREN => ")"
  | .COMMA => ","
  | .STAR => "*"
  | .EQUAL => "="

/-- The spelling of a comparison operator. -/
def Op.text : Op → String
  | .EQ => "="
  | .NEQ => "!="
  | .LT => "<"
  | .GT => ">"
  | .LE => "<="
  | .GE => ">="

/-- The token type of a comparison operator. -/
def Op.type : Op → TokType
  | .EQ => .EQUAL
  | .NEQ => .NOTEQUAL
  | .LT => .LT
  | .GT => .GT
  | .LE => .LE
  | .GE => .GE

/-- The spelling of a column type. -/
def DbType.text : DbType → String
  | .INT => "int"
  | .STR => "str"

/-- What `parse_statement` asks of one token: to be the IDENT token with a given
text (a keyword or a name), to have the type of a punctuation mark, or to be
turned into a given literal, operator or column type by `parse_literal`,
`parse_op` or `parse_type`. -/
inductive Pat where
  | word (text : String)
  | punct (k : Punct)
  | lit (v : Value)
  | op (o : Op)
  | typ (d : DbType)

/-- A token meets what is asked of it. -/
def Pat.matches (p : Pat) (t : Token) : Prop :=
  match p with
  | .word w => t = ⟨.IDENT, w⟩
  | .punct k => t.type = k.type
  | .lit v => parse_literal t = .ok v
  | .op o => parse_op t = .ok o
  | .typ d => parse_type t = .ok d

/-- Successive calls of `next` from the tokenizer `tz` return tokens that meet
`ps`, one after the other, and leave the tokenizer `tz'`. -/
def Reads : Tokenizer → List Pat → Tokenizer → Prop
  | tz, [], tz' => tz' = tz
  | tz, p :: ps, tz' => p.matches tz.next.1 ∧ Reads tz.next.2 ps tz'

/-- The items of a list, each behind a comma. -/
def sep_items : List (List Pat) → List Pat
  | [] => []
  | it :: rest => Pat.punct .COMMA :: it ++ sep_items rest

/-- The items of a list with a comma between two neighbours. -/
def commasep : List (List Pat) → List Pat
  | [] => []
  | it :: rest => it ++ sep_items rest

/-- The grammar of the optional `WHERE column op literal`. -/
def where_pat : Option Condition → List Pat
  | none => []
  | some c => [.word "WHERE", .word c.column, .op c.op, .lit c.literal]

/-- The grammar of one tuple of an INSERT: `( literal, ... )`. -/
def tuple_pat (tup : List Value) : List Pat :=
  Pat.punct .LPAREN :: commasep (tup.map fun v => [Pat.lit v]) ++ [Pat.punct .RPAREN]

/-- The grammar of `parse_statement`, read off a statement: what the parser asks
of the tokens it reads, in order, to return that statement. -/
def Statement.pattern : Statement → List Pat
  | .Create s =>
    [.word "CREATE", .word "TABLE", .word s.name, .punct .LPAREN] ++
      commasep (s.columns.map fun c => [Pat.word c.name, Pat.typ c.type]) ++ [.punct .RPAREN]
  | .Insert s =>
    [.word "INSERT", .word "INTO", .word s.table, .punct .LPAREN] ++
      commasep (s.columns.map fun c => [Pat.word c]) ++ [.punct .RPAREN, .word "VALUES"] ++
      commasep (s.values.map tuple_pat)
  | .Delete s => [.word "DELETE", .word "FROM", .word s.table] ++ where_pat s.where
  | .Update s =>
    [.word "UPDATE", .word s.table, .word "SET"] ++
      commasep (s.sets.map fun a => [Pat.word a.1, Pat.punct .EQUAL, Pat.lit a.2]) ++
      where_pat s.where
  | .Select s =>
    Pat.word "SELECT" ::
      (if s.star then [Pat.punct .STAR] else commasep (s.columns.map fun c => [Pat.word c])) ++
      [.word "FROM", .word s.table] ++ where_pat s.where

/-- The statements `parse_statement` can return have at least one tuple (INSERT),
at least one assignment (UPDATE), and either the star or at least one column
(SELECT). -/
def Statement.shape_ok : Statement → Prop
  | .Create _ => True
  | .Insert s => s.values ≠ []
  | .Delete _ => True
  | .Update s => s.sets ≠ []
  | .Select s => if s.star then s.columns = [] else s.columns ≠ []

/-- The name of the statement in the message of the final check of
`parse_statement`. -/
def Statement.what : Statement → String
  | .Create _ => "CREATE TABLE"
  | .Insert _ => "INSERT"
  | .Delete _ => "DELETE"
  | .Update _ => "UPDATE"
  | .Select _ => "SELECT"

/-- A tokenizer that has stopped in front of a `-` it cannot read: every call
of `next` returns the IDENT token with the empty text and moves nothing. -/
def Stuck (tz : Tokenizer) : Prop :=
  tz.next = (⟨.IDENT, ""⟩, tz)

/-- What the tokenizer left by the last construct of a statement must show
next for the constructs to end there: no comma (the lists go on behind a comma)
and no `WHERE`. -/
def EndOK (tz : Tokenizer) : Prop :=
  tz.peek.type ≠ .COMMA ∧ ¬ (tz.peek.type = .IDENT ∧ tz.peek.text = "WHERE")

/-- The value of an integer literal: an optional `-` and decimal digits. -/
def literal_value (sign ds : List Char) : Int :=
  if sign = [] then (digits_value ds : Int) else -(digits_value ds : Int)

/-- The range of `long long`. -/
def in_range (n : Int) : Prop :=
  -9223372036854775808 ≤ n ∧ n ≤ 9223372036854775807

/-- The token a statement is printed with where the grammar asks for `p`: the
name or keyword itself, the punctuation mark, the base-10 text of an integer or
the text of a string, the spelling of the operator or of the column type. -/
def Pat.token : Pat → Token
  | .word w => ⟨.IDENT, w⟩
  | .punct k => ⟨k.type, k.text⟩
  | .lit v => if v.type = .INT then ⟨.NUMBER, toString v.i⟩ else ⟨.STRING, v.s⟩
  | .op o => ⟨o.type, o.text⟩
  | .typ d => ⟨.IDENT, d.text⟩

/-- The characters a token is printed with: its text, between double quotes for
a string. -/
def Token.render (t : Token) : List Char :=
  if t.type = .STRING then '"' :: (t.text.data ++ ['"']) else t.text.data

/-- The tokens printed one after the other with one blank between two. -/
def spaced : List Token → List Char
  | [] => []
  | [t] => t.render
  | t :: t' :: ts => t.render ++ ' ' :: spaced (t' :: ts)

/-- The serializer of the round trip: the statement printed in the order of the
grammar, keywords, names, `int` and `str`, operators, base-10 integers and
double-quoted strings, with one blank between two tokens. -/
def render (S : Statement) : String :=
  String.mk (spaced (S.pattern.map Pat.token))

/-- The values a literal can be written for: an integer value in the range of
`long long`, or a string value without a double quote (the lexer has no escape
for one). -/
def Value.printable (v : Value) : Prop :=
  (v = Value.make_int v.i ∧ in_range v.i) ∨ (v = Value.make_str v.s ∧ '"' ∉ v.s.data)

/-- What the round trip needs of the names and literals of a statement: every
name is an identifier of the lexer and every literal can be written. -/
def Pat.wf : Pat → Prop
  | .word w => is_ident w.data = true
  | .lit v => v.printable
  | _ => True

/-- Nothing, or a blank and more: what follows a printed token. -/
def Delimited (rest : List Char) : Prop :=
  rest = [] ∨ ∃ r, rest = ' ' :: r

/-- A token that is lexed back from its printed form, whatever is printed
behind it after a blank. -/
def Token.lexable (t : Token) : Prop :=
  ∀ rest, Delimited rest →
    lex_token (t.render ++ rest) = (t, t.render.length) ∧
      starts_with isspace (t.render ++ rest) = false

/-- The text `SELECT * FROM t WHERE c OP L`, with one blank between two parts. -/
def where_query (t c op lit : String) : String :=
  "SELECT * FROM " ++ t ++ " WHERE " ++ c ++ " " ++ op ++ " " ++ lit

/-- The grammar of a list: with a comma between two items when the list is
entered (`first`), with a comma in front of every item once an item has been
read. -/
def items_pat (first : Bool) (items : List (List Pat)) : List Pat :=
  if first then commasep items else sep_items items

/-- The double quotes of a text pair up: the lexer has no escape for a quote,
so a text has an even number of them exactly when its last string literal, if
it has one, is terminated. -/
def quotes_balanced (s : List Char) : Prop :=
  s.count '"' % 2 = 0

/-- The number branch of `scan_ident_or_number` behind the sign, which has
taken `k` characters: the digits and the test of what follows them. -/
def number_tail (k : Nat) (t : List Char) : Option Nat :=
  match t with
  | [] => none
  | d :: _ =>
    if !isdigit d then none
    else
      let n := run_length isdigit t
      match t.drop n with
      | [] => some (k + n)
      | e :: _ => if isalpha e || e = '_' then none else some (k + n)

/-- The tokenizer `tz'` reads the text of `tz` with ` ;` appended, from the
same place, and the quotes `tz` has left to read are balanced. -/
def Appended (tz tz' : Tokenizer) : Prop :=
  tz'.rest = tz.rest ++ [' ', ';'] ∧ quotes_balanced tz.rest

/-- The tokenizer after `k` calls of `next`. -/
def Tokenizer.after (tz : Tokenizer) : Nat → Tokenizer
  | 0 => tz
  | k + 1 => (tz.next.2).after k

/-- The table `people3` after the update of the witness of C30 has thrown. -/
def people3_zed : Table :=
  { people3 with rows := [⟨[.make_str "zed", .make_int 30]⟩,
      ⟨[.make_str "bob", .make_int 25]⟩, ⟨[.make_str "carol", .make_int 35]⟩] }

/-- Whether what the grammar asks for is the punctuation mark `k`. -/
def Pat.is_punct (k : Punct) : Pat → Bool
  | .punct j => decide (j = k)
  | _ => false

/-- No comma of the pattern has a closing parenthesis right behind it; `pc`
tells whether a comma stands right in front of the pattern. -/
def no_comma_rparen (pc : Bool) : List Pat → Bool
  | [] => true
  | p :: ps => !(pc && p.is_punct .RPAREN) && no_comma_rparen (p.is_punct .COMMA) ps

/-- Whether a comma is the last of what the grammar asks for; `pc` tells
whether a comma stands right in front of the pattern. -/
def ends_comma (pc : Bool) : List Pat → Bool
  | [] => pc
  | p :: ps => ends_comma (p.is_punct .COMMA) ps

/-- A field as the CSV format asks for it: between double quotes, every double
quote of the field written twice. -/
def csv_quoted (v : List Char) : List Char :=
  '"' :: v.flatMap (fun c => if c = '"' then ['"', '"'] else [c]) ++ ['"']

/-- A line as the CSV format asks for it: the fields as `csv_escape` writes
them, joined by commas, and a newline. -/
def csv_line (fields : List String) : List Char :=
  [','].intercalate (fields.map fun f => (csv_escape f).data) ++ ['\n']

/-- The width of column `i`: the maximum length among header `i` and the
cells `i` of the rows. -/
def column_width (r : QueryResult) (i : Nat) : Nat :=
  (r.rows.map fun row => (row.getD i "").length).foldl max (r.headers.getD i "").length

/-- The widths of the columns, one per header. -/
def column_widths (r : QueryResult) : List Nat :=
  (List.range r.headers.length).map (column_width r)

/-- A border line: `+` and, per column, `w + 2` dashes and `+`. -/
def border_line (ws : List Nat) : List Char :=
  '+' :: ws.flatMap fun w => List.replicate (w + 2) '-' ++ ['+']

/-- A cell left-aligned in `w` characters: the cell and blanks behind it. -/
def padded (w : Nat) (cell : String) : List Char :=
  cell.data ++ List.replicate (w - cell.length) ' '

/-- A content line: `|` and, per column, a blank, the padded cell, a blank and
`|`. -/
def content_line (ws : List Nat) (cells : List String) : List Char :=
  '|' :: (List.zipWith (fun w c => ' ' :: padded w c ++ [' ', '|']) ws cells).flatten

/-- The table as the format describes it, each line with its newline. -/
def ascii_table (r : QueryResult) : List Char :=
  border_line (column_widths r) ++ ['\n'] ++
    (content_line (column_widths r) r.headers ++ ['\n']) ++
    (border_line (column_widths r) ++ ['\n']) ++
    (r.rows.flatMap fun row => content_line (column_widths r) row ++ ['\n']) ++
    (border_line (column_widths r) ++ ['\n'])

/-- Every row has as many cells as there are headers. -/
def QueryResult.rectangular (r : QueryResult) : Prop :=
  ∀ row ∈ r.rows, row.length = r.headers.length

/-- Every header and every cell is shorter than `2^31` characters, so that its
size is an `int`. -/
def QueryResult.sizes_fit (r : QueryResult) : Prop :=
  (∀ h ∈ r.headers, h.length < 2 ^ 31) ∧ ∀ row ∈ r.rows, ∀ c ∈ row, c.length < 2 ^ 31

/-- A cell of `2^31` characters. -/
def long_cell : String :=
  String.mk (List.replicate (2 ^ 31) 'a')

/-- A text without the white space around it. -/
def trim (s : List Char) : List Char :=
  ((s.dropWhile isspace).reverse.dropWhile isspace).reverse

/-- Every `;` of the text lies inside a double-quoted span of the text: the
number of double quotes in front of it is odd. -/
def semicolons_quoted (s : List Char) : Prop :=
  ∀ p, s.get? p = some ';' → (s.take p).count '"' % 2 = 1

/-- The statements of a list of segments: each segment trimmed, those that are
empty then left out. -/
def trimmed_statements (segs : List (List Char)) : List String :=
  ((segs.map trim).filter fun s => !s.isEmpty).map String.mk

/-- The byte-wise order on strings can be decided. -/
instance str_lt_decidable (a b : String) : Decidable (str_lt a b) :=
  inferInstanceAs (Decidable (List.Lex (fun x y : Char => x.toNat < y.toNat) a.data b.data))

/-- The relation `v op lit` can be decided. -/
instance holds_decidable (op : Op) (v lit : Value) : Decidable (Value.holds op v lit) := by
  unfold Value.holds
  split <;> infer_instance

/-- A row satisfies the condition, in the words of the specification: there is
no condition, or the row has a cell in the column the condition names, that
cell carries the tag of the literal, and `cell op literal` holds in the order
of that tag (`Value.holds`: integers by value, strings byte-wise). -/
def Table.meets (t : Table) (cond : Option Condition) (r : Row) : Bool :=
  match cond with
  | none => true
  | some c =>
    match t.col_index c.column with
    | .error _ => false
    | .ok idx =>
      match r.cells.get? idx with
      | none => false
      | some v => decide (c.literal.type = v.type ∧ Value.holds c.op v c.literal)

/-- The table of the update test: `people` holding (alice,30), (bob,25). -/
def people2 : Table :=
  { people with rows := [⟨[.make_str "alice", .make_int 30]⟩,
      ⟨[.make_str "bob", .make_int 25]⟩] }

/-! ## Lemmas -/

theorem UMap.findIn_append {β : Type} (l : List (String × β)) (k k' : String) (v : β) :
    UMap.findIn (l ++ [(k, v)]) k' =
      match UMap.findIn l k' with
      | some x => some x
      | none => if k = k' then some v else none := by
  induction l with
  | nil => simp [UMap.findIn]
  | cons hd tl ih =>
    obtain ⟨a, b⟩ := hd
    by_cases h : a = k'
    · simp [UMap.findIn, h]
    · simp [UMap.findIn, h, ih]

theorem UMap.find_emplace {β : Type} (m : UMap β) (k k' : String) (v : β) :
    (m.emplace k v).find k' =
      match m.find k' with
      | some x => some x
      | none => if k = k' then some v else none := by
  unfold UMap.emplace
  cases hk : m.find k with
  | some x =>
    simp only
    cases hk' : m.find k' with
    | some y => rfl
    | none =>
      have : k ≠ k' := by
        intro h; rw [h] at hk; rw [hk] at hk'; cases hk'
      simp [this]
  | none =>
    simp only [UMap.find]
    rw [UMap.findIn_append]

theorem find_index_columns (cs : List Column) (start : Nat) (m : UMap Nat) (k : String) :
    (Table.index_columns cs start m).find k =
      match m.find k with
      | some i => some i
      | none => first_index cs k start := by
  induction cs generalizing start m with
  | nil => cases h : m.find k <;> simp [Table.index_columns, first_index, h]
  | cons c cs ih =>
    rw [Table.index_columns, ih, UMap.find_emplace]
    cases h : m.find k with
    | some i => rfl
    | none =>
      by_cases hc : c.name = k
      · simp [first_index, hc]
      · simp [first_index, hc]

theorem first_index_spec (cs : List Column) (k : String) (start i : Nat)
    (h : first_index cs k start = some i) :
    start ≤ i ∧ ∃ c, cs.get? (i - start) = some c ∧ c.name = k := by
  induction cs generalizing start with
  | nil => simp [first_index] at h
  | cons c cs ih =>
    unfold first_index at h
    by_cases hc : c.name = k
    · simp [hc] at h
      subst h
      simp [hc]
    · simp [hc] at h
      obtain ⟨h1, c', h2, h3⟩ := ih _ h
      refine ⟨by omega, c', ?_, h3⟩
      have : i - start = (i - (start + 1)) + 1 := by omega
      rw [this]
      simpa using h2

/-- Under `SchemaOK`, a name that `col_index` resolves is the name of the
column at the returned index. -/
theorem col_index_column (t : Table) (h : t.SchemaOK) (k : String) (idx : Nat)
    (hk : t.col_index k = .ok idx) :
    ∃ c, t.columns.get? idx = some c ∧ c.name = k := by
  unfold Table.col_index at hk
  rw [h, find_index_columns] at hk
  simp only [UMap.find, UMap.findIn] at hk
  cases hf : first_index t.columns k 0 with
  | none => simp [hf] at hk
  | some i =>
    simp [hf] at hk
    subst hk
    obtain ⟨_, c, h2, h3⟩ := first_index_spec _ _ _ _ hf
    exact ⟨c, by simpa using h2, h3⟩

theorem col_index_lt (t : Table) (h : t.SchemaOK) (k : String) (idx : Nat)
    (hk : t.col_index k = .ok idx) : idx < t.columns.length := by
  obtain ⟨c, hc, _⟩ := col_index_column t h k idx hk
  exact (List.get?_eq_some.mp hc).1

theorem typed_iff (cols : List Column) (r : Row) :
    Row.Typed cols r ↔ (r.cells.length = cols.length ∧
      ∀ i c, cols.get? i = some c → ∃ v, r.cells.get? i = some v ∧ v.type = c.type) := by
  unfold Row.Typed
  constructor
  · intro h
    have hlen : r.cells.length = cols.length := by
      have := congrArg List.length h
      simpa using this
    refine ⟨hlen, ?_⟩
    intro i c hc
    have hi : i < cols.length := (List.get?_eq_some.mp hc).1
    have hi' : i < r.cells.length := by omega
    refine ⟨r.cells[i], by simp [List.getElem?_eq_getElem hi'], ?_⟩
    have h1 : (r.cells.map Value.type)[i]? = (cols.map Column.type)[i]? := by rw [h]
    simp only [List.getElem?_map, List.getElem?_eq_getElem hi', List.getElem?_eq_getElem hi,
      Option.map_some'] at h1
    have h2 : cols[i] = c := by
      have := (List.get?_eq_some.mp hc).2
      simpa using this
    rw [← h2]
    exact Option.some.inj h1
  · rintro ⟨hlen, h⟩
    apply List.ext_getElem?
    intro i
    simp only [List.getElem?_map]
    by_cases hi : i < cols.length
    · obtain ⟨v, hv, hvt⟩ := h i cols[i] (by simp [List.getElem?_eq_getElem hi])
      rw [List.get?_eq_getElem?] at hv
      rw [hv, List.getElem?_eq_getElem hi]
      simp [hvt]
    · have h1 : cols[i]? = none := List.getElem?_eq_none (by omega)
      have h2 : r.cells[i]? = none := List.getElem?_eq_none (by omega)
      rw [h1, h2]; rfl

theorem inv_iff (t : Table) : t.Inv ↔ ∀ r ∈ t.rows, Row.Typed t.columns r := by
  unfold Table.Inv
  constructor
  · intro h r hr; exact (typed_iff _ _).mpr (h r hr)
  · intro h r hr; exact (typed_iff _ _).mp (h r hr)

theorem typed_get (cols : List Column) (r : Row) (h : Row.Typed cols r) (i : Nat) (c : Column)
    (hc : cols.get? i = some c) : ∃ v, r.cells.get? i = some v ∧ v.type = c.type :=
  ((typed_iff cols r).mp h).2 i c hc

theorem typed_length (cols : List Column) (r : Row) (h : Row.Typed cols r) :
    r.cells.length = cols.length :=
  ((typed_iff cols r).mp h).1

theorem compare_same_tag (v o : Value) (h : v.type = o.type) : ∃ cmp, v.compare o = .ok cmp := by
  unfold Value.compare
  simp only [h, ne_eq, not_true_eq_false, if_false]
  split
  · split
    · exact ⟨_, rfl⟩
    · split <;> exact ⟨_, rfl⟩
  · split
    · exact ⟨_, rfl⟩
    · split <;> exact ⟨_, rfl⟩

theorem compare_other_tag (v o : Value) (h : v.type ≠ o.type) :
    v.compare o = .error (.TypeError "Type mismatch in comparison") := by
  unfold Value.compare
  simp [h]

theorem matches_failure (c : Condition) (t : Table) (r : Row) (hr : Row.Typed t.columns r)
    (e : Exn) (h : c.failure t = some e) : c.matches t r = .error e := by
  unfold Condition.failure at h
  unfold Condition.matches
  cases hi : t.col_index c.column with
  | error e' => simp [hi] at h; simp [h]
  | ok idx =>
    simp only [hi] at h ⊢
    cases hc : t.columns.get? idx with
    | none =>
      simp only [hc] at h
      have hlen := typed_length _ _ hr
      have : r.cells.get? idx = none := by
        rw [List.get?_eq_none] at hc ⊢
        omega
      simp only [this]
      simpa using h
    | some col =>
      simp only [hc] at h
      obtain ⟨v, hv, hvt⟩ := typed_get _ _ hr idx col hc
      simp only [hv]
      by_cases hty : col.type = c.literal.type
      · simp [hty] at h
      · simp only [ne_eq, hty, not_false_eq_true, if_true, Option.some.injEq] at h
        rw [compare_other_tag v c.literal (by rw [hvt]; exact hty)]
        simp [h]

theorem matches_no_failure (c : Condition) (t : Table) (r : Row) (hr : Row.Typed t.columns r)
    (h : c.failure t = none) : ∃ b, c.matches t r = .ok b := by
  unfold Condition.failure at h
  unfold Condition.matches
  cases hi : t.col_index c.column with
  | error e' => simp [hi] at h
  | ok idx =>
    simp only [hi] at h ⊢
    cases hc : t.columns.get? idx with
    | none => rw [hc] at h; exact absurd h (by simp)
    | some col =>
      simp only [hc] at h
      obtain ⟨v, hv, hvt⟩ := typed_get _ _ hr idx col hc
      simp only [hv]
      by_cases hty : col.type = c.literal.type
      · obtain ⟨cmp, hcmp⟩ := compare_same_tag v c.literal (by rw [hvt]; exact hty)
        rw [hcmp]
        exact ⟨_, rfl⟩
      · simp [hty] at h

/-- On rows typed like the columns, a condition either throws the same
exception on every row or evaluates on every row. -/
theorem row_matches_uniform (t : Table) (cond : Option Condition) :
    (∃ e, ∀ r, Row.Typed t.columns r → t.row_matches r cond = .error e) ∨
    (∀ r, Row.Typed t.columns r → ∃ b, t.row_matches r cond = .ok b) := by
  cases cond with
  | none => right; intro r _; exact ⟨true, rfl⟩
  | some c =>
    cases hf : c.failure t with
    | some e => left; exact ⟨e, fun r hr => matches_failure c t r hr e hf⟩
    | none => right; exact fun r hr => matches_no_failure c t r hr hf

theorem remove_if_tail_ok (pred : Row → Except Exn Bool) (kept holes rest : List Row)
    (h : ∀ x ∈ rest, ∃ b, pred x = .ok b) :
    ∃ junk, remove_if_tail pred kept holes rest =
      (kept ++ rest.filter (keeps pred) ++ junk,
        .ok (kept ++ rest.filter (keeps pred)).length) := by
  induction rest generalizing kept holes with
  | nil => exact ⟨holes, by simp [remove_if_tail]⟩
  | cons x rest ih =>
    obtain ⟨b, hb⟩ := h x (List.mem_cons_self _ _)
    have h' : ∀ y ∈ rest, ∃ b, pred y = .ok b := fun y hy => h y (List.mem_cons_of_mem _ hy)
    cases b with
    | true =>
      obtain ⟨junk, hj⟩ := ih kept (holes ++ [x]) h'
      refine ⟨junk, ?_⟩
      simp only [remove_if_tail, hb, hj]
      simp [List.filter_cons, keeps, hb]
    | false =>
      obtain ⟨junk, hj⟩ := ih (kept ++ [x]) (holes.tail ++ [⟨[]⟩]) h'
      refine ⟨junk, ?_⟩
      simp only [remove_if_tail, hb, hj]
      simp [List.filter_cons, keeps, hb]

theorem remove_if_tail_error (pred : Row → Except Exn Bool) (kept holes rest : List Row)
    (h : ∃ x ∈ rest, ∃ e, pred x = .error e) :
    ∃ rows e, remove_if_tail pred kept holes rest = (rows, .error e) := by
  induction rest generalizing kept holes with
  | nil => obtain ⟨x, hx, _⟩ := h; cases hx
  | cons x rest ih =>
    cases hp : pred x with
    | error e => exact ⟨kept ++ holes ++ x :: rest, e, by simp only [remove_if_tail, hp]⟩
    | ok b =>
      have h' : ∃ y ∈ rest, ∃ e, pred y = .error e := by
        obtain ⟨y, hy, e, he⟩ := h
        rcases List.mem_cons.mp hy with rfl | hy
        · rw [hp] at he; cases he
        · exact ⟨y, hy, e, he⟩
      cases b with
      | true =>
        obtain ⟨rows, e, hr⟩ := ih kept (holes ++ [x]) h'
        exact ⟨rows, e, by simp [remove_if_tail, hp, hr]⟩
      | false =>
        obtain ⟨rows, e, hr⟩ := ih (kept ++ [x]) (holes.tail ++ [⟨[]⟩]) h'
        exact ⟨rows, e, by simp [remove_if_tail, hp, hr]⟩

theorem remove_if_find_ok (pred : Row → Except Exn Bool) (front rest : List Row)
    (h : ∀ x ∈ rest, ∃ b, pred x = .ok b) :
    ∃ junk, remove_if_find pred front rest =
      (front ++ rest.filter (keeps pred) ++ junk,
        .ok (front ++ rest.filter (keeps pred)).length) := by
  induction rest generalizing front with
  | nil => exact ⟨[], by simp [remove_if_find]⟩
  | cons x rest ih =>
    obtain ⟨b, hb⟩ := h x (List.mem_cons_self _ _)
    have h' : ∀ y ∈ rest, ∃ b, pred y = .ok b := fun y hy => h y (List.mem_cons_of_mem _ hy)
    cases b with
    | true =>
      obtain ⟨junk, hj⟩ := remove_if_tail_ok pred front [x] rest h'
      refine ⟨junk, ?_⟩
      simp only [remove_if_find, hb, hj]
      simp [List.filter_cons, keeps, hb]
    | false =>
      obtain ⟨junk, hj⟩ := ih (front ++ [x]) h'
      refine ⟨junk, ?_⟩
      simp only [remove_if_find, hb, hj]
      simp [List.filter_cons, keeps, hb]

theorem remove_if_find_error (pred : Row → Except Exn Bool) (front rest : List Row)
    (h : ∃ x ∈ rest, ∃ e, pred x = .error e) :
    ∃ rows e, remove_if_find pred front rest = (rows, .error e) := by
  induction rest generalizing front with
  | nil => obtain ⟨x, hx, _⟩ := h; cases hx
  | cons x rest ih =>
    cases hp : pred x with
    | error e => exact ⟨front ++ x :: rest, e, by simp only [remove_if_find, hp]⟩
    | ok b =>
      have h' : ∃ y ∈ rest, ∃ e, pred y = .error e := by
        obtain ⟨y, hy, e, he⟩ := h
        rcases List.mem_cons.mp hy with rfl | hy
        · rw [hp] at he; cases he
        · exact ⟨y, hy, e, he⟩
      cases b with
      | true =>
        obtain ⟨rows, e, hr⟩ := remove_if_tail_error pred front [x] rest h'
        exact ⟨rows, e, by simp [remove_if_find, hp, hr]⟩
      | false =>
        obtain ⟨rows, e, hr⟩ := ih (front ++ [x]) h'
        exact ⟨rows, e, by simp [remove_if_find, hp, hr]⟩

/-- When the condition evaluates on every row, `delete_where` succeeds,
keeps exactly the rows on which it is false, and returns the difference. -/
theorem delete_where_ok (t : Table) (cond : Option Condition)
    (h : ∀ r ∈ t.rows, ∃ b, t.row_matches r cond = .ok b) :
    t.delete_where cond =
      ({ t with rows := t.rows.filter (t.rejects cond) },
        .ok (t.rows.length - (t.rows.filter (t.rejects cond)).length)) := by
  obtain ⟨junk, hj⟩ := remove_if_find_ok (fun r => t.row_matches r cond) [] t.rows h
  have hk : keeps (fun r => t.row_matches r cond) = t.rejects cond := by
    funext r; rfl
  unfold Table.delete_where remove_if
  simp only [hj, hk]
  simp

theorem delete_where_error (t : Table) (cond : Option Condition)
    (h : ∃ r ∈ t.rows, ∃ e, t.row_matches r cond = .error e) :
    ∃ t1 e, t.delete_where cond = (t1, .error e) := by
  obtain ⟨rows, e, hr⟩ := remove_if_find_error (fun r => t.row_matches r cond) [] t.rows h
  exact ⟨{ t with rows := rows }, e, by simp only [Table.delete_where, remove_if, hr]⟩

/-- When the condition throws on the first row, nothing has been moved. -/
theorem delete_where_first_error (t : Table) (cond : Option Condition) (r : Row)
    (rest : List Row) (e : Exn) (hrows : t.rows = r :: rest)
    (h : t.row_matches r cond = .error e) :
    t.delete_where cond = (t, .error e) := by
  unfold Table.delete_where remove_if
  rw [hrows]
  simp only [remove_if_find, h, List.nil_append]
  rw [← hrows]

theorem rejects_count (t : Table) (cond : Option Condition) (rows : List Row)
    (h : ∀ r ∈ rows, ∃ b, t.row_matches r cond = .ok b) :
    rows.countP (t.satisfies cond) + (rows.filter (t.rejects cond)).length = rows.length := by
  induction rows with
  | nil => simp
  | cons x rows ih =>
    obtain ⟨b, hb⟩ := h x (List.mem_cons_self _ _)
    have ih' := ih (fun y hy => h y (List.mem_cons_of_mem _ hy))
    cases b <;> simp [List.countP_cons, List.filter_cons, Table.satisfies, Table.rejects, hb] <;> omega

theorem insert_row_cells_typed (cols : List Column) (rv : List (Option Value))
    (cells : List Value) (h : Table.insert_row_cells cols rv = .ok cells) :
    Row.Typed cols ⟨cells⟩ := by
  unfold Row.Typed
  induction cols generalizing rv cells with
  | nil =>
    simp only [Table.insert_row_cells, Except.ok.injEq] at h
    subst h; rfl
  | cons c cs ih =>
    cases rv with
    | nil => simp [Table.insert_row_cells] at h
    | cons ov rest =>
      cases ov with
      | some v =>
        simp only [Table.insert_row_cells] at h
        by_cases hty : v.type = c.type
        · simp only [ne_eq, hty, not_true_eq_false, if_false] at h
          cases hrec : Table.insert_row_cells cs rest with
          | error e => simp [hrec] at h
          | ok cells' =>
            simp only [hrec, Except.ok.injEq] at h
            subst h
            have := ih rest cells' hrec
            simp only [List.map_cons, hty]
            simpa using this
        · simp [hty] at h
      | none =>
        simp only [Table.insert_row_cells] at h
        cases hrec : Table.insert_row_cells cs rest with
        | error e => simp [hrec] at h
        | ok cells' =>
          simp only [hrec, Except.ok.injEq] at h
          subst h
          have := ih rest cells' hrec
          have hd : (Value.default_of c.type).type = c.type := by
            unfold Value.default_of
            cases c.type <;> simp [Value.make_int, Value.make_str]
          simp only [List.map_cons, hd]
          simpa using this

/-- A present value of the wrong tag makes the row loop throw `TypeError`. -/
theorem insert_row_cells_mismatch (cols : List Column) (rv : List (Option Value))
    (hlen : rv.length = cols.length)
    (h : ∃ i v c, rv.get? i = some (some v) ∧ cols.get? i = some c ∧ v.type ≠ c.type) :
    ∃ msg, Table.insert_row_cells cols rv = .error (.TypeError msg) := by
  induction cols generalizing rv with
  | nil =>
    obtain ⟨i, v, c, _, hc, _⟩ := h
    simp at hc
  | cons c cs ih =>
    cases rv with
    | nil => simp at hlen
    | cons ov rest =>
      have hlen' : rest.length = cs.length := by simpa using hlen
      obtain ⟨i, v, c', hv, hc, hne⟩ := h
      cases ov with
      | some w =>
        by_cases hty : w.type = c.type
        · cases i with
          | zero =>
            simp at hv hc
            subst hv; subst hc
            exact absurd hty hne
          | succ i =>
            obtain ⟨msg, hmsg⟩ := ih rest hlen' ⟨i, v, c', by simpa using hv, by simpa using hc, hne⟩
            exact ⟨msg, by simp [Table.insert_row_cells, hty, hmsg]⟩
        · exact ⟨"Type mismatch on insert into column " ++ c.name,
            by simp only [Table.insert_row_cells, ne_eq, hty, not_false_eq_true, if_true]⟩
      | none =>
        cases i with
        | zero => simp at hv
        | succ i =>
          obtain ⟨msg, hmsg⟩ := ih rest hlen' ⟨i, v, c', by simpa using hv, by simpa using hc, hne⟩
          exact ⟨msg, by simp [Table.insert_row_cells, hmsg]⟩

theorem insert_row_cells_ok (cols : List Column) (rv : List (Option Value))
    (hlen : rv.length = cols.length)
    (h : ∀ i v c, rv.get? i = some (some v) → cols.get? i = some c → v.type = c.type) :
    Table.insert_row_cells cols rv = .ok (filled_cells cols rv) := by
  induction cols generalizing rv with
  | nil => cases rv <;> simp [Table.insert_row_cells, filled_cells]
  | cons c cs ih =>
    cases rv with
    | nil => simp at hlen
    | cons ov rest =>
      have hlen' : rest.length = cs.length := by simpa using hlen
      have h' : ∀ i v c, rest.get? i = some (some v) → cs.get? i = some c → v.type = c.type :=
        fun i v c hv hc => h (i + 1) v c (by simpa using hv) (by simpa using hc)
      cases ov with
      | some w =>
        have hty : w.type = c.type := h 0 w c (by simp) (by simp)
        simp [Table.insert_row_cells, filled_cells, hty, ih rest hlen' h']
      | none =>
        simp [Table.insert_row_cells, filled_cells, ih rest hlen' h']

theorem filled_cells_get (cols : List Column) (rv : List (Option Value))
    (hlen : rv.length = cols.length) (j : Nat) (c : Column) (hc : cols.get? j = some c) :
    ∃ ov, rv.get? j = some ov ∧
      (filled_cells cols rv).get? j = some (match ov with
        | some v => v
        | none => Value.default_of c.type) := by
  induction cols generalizing rv j with
  | nil => simp at hc
  | cons c0 cs ih =>
    cases rv with
    | nil => simp at hlen
    | cons ov rest =>
      have hlen' : rest.length = cs.length := by simpa using hlen
      cases j with
      | zero =>
        simp at hc
        subst hc
        exact ⟨ov, by simp, by simp [filled_cells]⟩
      | succ j =>
        obtain ⟨ov', h1, h2⟩ := ih rest hlen' j (by simpa using hc)
        exact ⟨ov', by simpa using h1, by simpa [filled_cells] using h2⟩

theorem filled_cells_length (cols : List Column) (rv : List (Option Value))
    (hlen : rv.length = cols.length) : (filled_cells cols rv).length = cols.length := by
  induction cols generalizing rv with
  | nil => cases rv <;> simp [filled_cells]
  | cons c0 cs ih =>
    cases rv with
    | nil => simp at hlen
    | cons ov rest => simp [filled_cells, ih rest (by simpa using hlen)]

/-- Whatever `insert_row` is given, the table it leaves is the old one or the
old one with one more row, typed like the columns. -/
theorem insert_row_shape (t : Table) (rv : List (Option Value)) :
    (t.insert_row rv).1 = t ∨
      ∃ r, Row.Typed t.columns r ∧ (t.insert_row rv).1 = { t with rows := t.rows ++ [r] } := by
  unfold Table.insert_row
  by_cases hlen : rv.length = t.columns.length
  · simp only [ne_eq, hlen, not_true_eq_false, if_false]
    cases hc : Table.insert_row_cells t.columns rv with
    | error e => left; rfl
    | ok cells => right; exact ⟨⟨cells⟩, insert_row_cells_typed _ _ _ hc, rfl⟩
  · left; simp [hlen]

theorem set_typed (cols : List Column) (cells : List Value) (idx : Nat) (c : Column) (v : Value)
    (h : Row.Typed cols ⟨cells⟩) (hc : cols.get? idx = some c) (hv : v.type = c.type) :
    Row.Typed cols ⟨cells.set idx v⟩ := by
  unfold Row.Typed at h ⊢
  simp only at h ⊢
  rw [List.map_set, hv, ← h]
  have hi : idx < cols.length := (List.get?_eq_some.mp hc).1
  have hlen : cells.length = cols.length := by simpa using congrArg List.length h
  have hcell : (cells.map Value.type)[idx]? = some c.type := by
    rw [h]; simp only [List.getElem?_map]
    rw [List.get?_eq_getElem?] at hc
    rw [hc]; rfl
  apply List.ext_getElem?
  intro k
  rw [List.getElem?_set]
  by_cases hk : idx = k
  · subst hk
    simp only [if_true, List.length_map]
    rw [hcell]; simp; omega
  · simp [hk]

theorem update_cells_typed (t : Table) (sets : List (String × Value)) (idxs : List Nat)
    (cells : List Value) (h : Row.Typed t.columns ⟨cells⟩) :
    Row.Typed t.columns ⟨(t.update_cells sets idxs cells).1⟩ := by
  induction sets generalizing idxs cells with
  | nil => simpa [Table.update_cells] using h
  | cons p sets ih =>
    cases idxs with
    | nil => simpa [Table.update_cells] using h
    | cons idx idxs =>
      unfold Table.update_cells
      cases hc : t.columns.get? idx with
      | none => simpa using h
      | some c =>
        simp only
        by_cases hty : p.2.type = c.type
        · simp only [ne_eq, hty, not_true_eq_false, if_false]
          by_cases hi : idx < cells.length
          · simp only [hi, if_true]
            exact ih idxs _ (set_typed _ _ _ _ _ h hc hty)
          · simpa [hi] using h
        · simpa [hty] using h

theorem update_rows_typed (t : Table) (sets : List (String × Value)) (idxs : List Nat)
    (cond : Option Condition) (rows : List Row) (count : Nat)
    (h : ∀ r ∈ rows, Row.Typed t.columns r) :
    ∀ r ∈ (t.update_rows sets idxs cond rows count).1, Row.Typed t.columns r := by
  induction rows generalizing count with
  | nil => simp [Table.update_rows]
  | cons r rest ih =>
    have hr := h r (List.mem_cons_self _ _)
    have hrest : ∀ r ∈ rest, Row.Typed t.columns r := fun y hy => h y (List.mem_cons_of_mem _ hy)
    unfold Table.update_rows
    cases hm : t.row_matches r cond with
    | error e => simpa using h
    | ok b =>
      cases b with
      | false =>
        simp only
        intro y hy
        rcases List.mem_cons.mp hy with rfl | hy
        · exact hr
        · exact ih count hrest y hy
      | true =>
        simp only
        have hcells := update_cells_typed t sets idxs r.cells hr
        cases hu : t.update_cells sets idxs r.cells with
        | mk cells oe =>
          rw [hu] at hcells
          cases oe with
          | some e =>
            simp only
            intro y hy
            rcases List.mem_cons.mp hy with rfl | hy
            · exact hcells
            · exact hrest y hy
          | none =>
            simp only
            intro y hy
            rcases List.mem_cons.mp hy with rfl | hy
            · exact hcells
            · exact ih (count + 1) hrest y hy

theorem set_indices_length (t : Table) (sets : List (String × Value)) (idxs : List Nat)
    (h : t.set_indices sets = .ok idxs) :
    List.Forall₂ (fun (p : String × Value) idx => t.col_index p.1 = .ok idx) sets idxs := by
  induction sets generalizing idxs with
  | nil =>
    simp only [Table.set_indices, Except.ok.injEq] at h
    subst h; exact List.Forall₂.nil
  | cons p ps ih =>
    unfold Table.set_indices at h
    cases hi : t.col_index p.1 with
    | error e => simp [hi] at h
    | ok idx =>
      simp only [hi] at h
      cases hrec : t.set_indices ps with
      | error e => simp [hrec] at h
      | ok idxs' =>
        simp only [hrec, Except.ok.injEq] at h
        subst h
        exact List.Forall₂.cons hi (ih idxs' hrec)

/-- What a completed assignment loop leaves in the cells of one row. -/
theorem update_cells_done (t : Table) (sets : List (String × Value)) (idxs : List Nat)
    (cells cells1 : List Value)
    (hidx : List.Forall₂ (fun (p : String × Value) idx => t.col_index p.1 = .ok idx) sets idxs)
    (h : t.update_cells sets idxs cells = (cells1, none)) :
    cells1.length = cells.length ∧
      ∀ j v, cells.get? j = some v →
        cells1.get? j = some (match t.last_named sets j with
          | some w => w
          | none => v) := by
  induction hidx generalizing cells with
  | nil =>
    simp only [Table.update_cells, Prod.mk.injEq, and_true] at h
    subst h
    exact ⟨rfl, fun j v hv => by simpa [Table.last_named] using hv⟩
  | @cons p idx sets idxs hp _ ih =>
    unfold Table.update_cells at h
    cases hc : t.columns.get? idx with
    | none => rw [hc] at h; simp at h
    | some c =>
      simp only [hc] at h
      by_cases hty : p.2.type = c.type
      · simp only [ne_eq, hty, not_true_eq_false, if_false] at h
        by_cases hi : idx < cells.length
        · simp only [hi, if_true] at h
          obtain ⟨hlen, hget⟩ := ih _ h
          refine ⟨by simpa using hlen, ?_⟩
          intro j v hv
          have hj : j < cells.length := (List.get?_eq_some.mp hv).1
          simp only [Table.last_named, hp]
          by_cases hij : idx = j
          · subst hij
            have := hget idx p.2 (by simp [List.getElem?_set, hi])
            rw [this]
            cases t.last_named sets idx <;> simp
          · have := hget j v (by
              rw [List.get?_eq_getElem?] at hv ⊢
              rw [List.getElem?_set]; simp [hij, hv])
            rw [this]
            cases t.last_named sets j <;> simp [hij]
        · simp [hi] at h
      · simp [hty] at h

/-- What a completed row loop leaves: matching rows carry the cells of the
assignment loop, the others are untouched, and the count is the number of
matching rows added to the count at entry. -/
theorem update_rows_done (t : Table) (sets : List (String × Value)) (idxs : List Nat)
    (cond : Option Condition) (rows rows1 : List Row) (count n : Nat)
    (hidx : List.Forall₂ (fun (p : String × Value) idx => t.col_index p.1 = .ok idx) sets idxs)
    (h : t.update_rows sets idxs cond rows count = (rows1, .ok n)) :
    n = count + rows.countP (t.satisfies cond) ∧
    rows1.length = rows.length ∧
    (∀ r ∈ rows, ∃ b, t.row_matches r cond = .ok b) ∧
    ∀ i r, rows.get? i = some r → ∃ r1, rows1.get? i = some r1 ∧
      (t.satisfies cond r = false → r1 = r) ∧
      (t.satisfies cond r = true → r1.cells.length = r.cells.length ∧
        ∀ j v, r.cells.get? j = some v →
          r1.cells.get? j = some (match t.last_named sets j with
            | some w => w
            | none => v)) := by
  induction rows generalizing rows1 count with
  | nil =>
    simp only [Table.update_rows, Prod.mk.injEq, Except.ok.injEq] at h
    obtain ⟨h1, h2⟩ := h
    subst h1; subst h2
    simp
  | cons r rest ih =>
    unfold Table.update_rows at h
    cases hm : t.row_matches r cond with
    | error e => simp [hm] at h
    | ok b =>
      cases b with
      | false =>
        simp only [hm, Prod.mk.injEq] at h
        obtain ⟨h1, h2⟩ := h
        obtain ⟨hn, hlen, hall, hrow⟩ := ih (t.update_rows sets idxs cond rest count).1 count
          (by rw [← h2])
        have hs : t.satisfies cond r = false := by simp [Table.satisfies, hm]
        subst h1
        refine ⟨by simp [List.countP_cons, hs, hn], by simp [hlen], ?_, ?_⟩
        · intro y hy
          rcases List.mem_cons.mp hy with rfl | hy
          · exact ⟨_, hm⟩
          · exact hall y hy
        · intro i r' hr'
          cases i with
          | zero =>
            simp at hr'
            subst hr'
            exact ⟨r, by simp, fun _ => rfl, fun h' => (by rw [hs] at h'; cases h')⟩
          | succ i =>
            obtain ⟨r1, hr1, hrest⟩ := hrow i r' (by simpa using hr')
            exact ⟨r1, by simpa using hr1, hrest⟩
      | true =>
        simp only [hm] at h
        cases hu : t.update_cells sets idxs r.cells with
        | mk cells oe =>
          cases oe with
          | some e => simp [hu] at h
          | none =>
            simp only [hu, Prod.mk.injEq] at h
            obtain ⟨h1, h2⟩ := h
            obtain ⟨hn, hlen, hall, hrow⟩ :=
              ih (t.update_rows sets idxs cond rest (count + 1)).1 (count + 1) (by rw [← h2])
            have hs : t.satisfies cond r = true := by simp [Table.satisfies, hm]
            obtain ⟨hclen, hcget⟩ := update_cells_done t sets idxs r.cells cells hidx hu
            subst h1
            refine ⟨by simp [List.countP_cons, hs, hn]; omega, by simp [hlen], ?_, ?_⟩
            · intro y hy
              rcases List.mem_cons.mp hy with rfl | hy
              · exact ⟨_, hm⟩
              · exact hall y hy
            · intro i r' hr'
              cases i with
              | zero =>
                simp at hr'
                subst hr'
                exact ⟨⟨cells⟩, by simp, fun h' => (by rw [hs] at h'; cases h'),
                  fun _ => ⟨hclen, hcget⟩⟩
              | succ i =>
                obtain ⟨r1, hr1, hrest⟩ := hrow i r' (by simpa using hr')
                exact ⟨r1, by simpa using hr1, hrest⟩

theorem delete_where_typed (t : Table) (cond : Option Condition)
    (h : ∀ r ∈ t.rows, Row.Typed t.columns r) :
    (t.delete_where cond).1.name = t.name ∧
    (t.delete_where cond).1.columns = t.columns ∧
    (t.delete_where cond).1.name2idx = t.name2idx ∧
    ∀ r ∈ (t.delete_where cond).1.rows, Row.Typed t.columns r := by
  rcases row_matches_uniform t cond with ⟨e, he⟩ | hok
  · cases hrows : t.rows with
    | nil =>
      rw [delete_where_ok t cond (by simp [hrows])]
      simp [hrows]
    | cons r rest =>
      have hr : t.row_matches r cond = .error e := he r (h r (by simp [hrows]))
      rw [delete_where_first_error t cond r rest e hrows hr]
      exact ⟨rfl, rfl, rfl, h⟩
  · rw [delete_where_ok t cond (fun r hr => hok r (h r hr))]
    refine ⟨rfl, rfl, rfl, ?_⟩
    intro r hr
    exact h r (List.mem_of_mem_filter hr)

theorem update_where_typed (t : Table) (sets : List (String × Value)) (cond : Option Condition)
    (h : ∀ r ∈ t.rows, Row.Typed t.columns r) :
    (t.update_where sets cond).1.name = t.name ∧
    (t.update_where sets cond).1.columns = t.columns ∧
    (t.update_where sets cond).1.name2idx = t.name2idx ∧
    ∀ r ∈ (t.update_where sets cond).1.rows, Row.Typed t.columns r := by
  unfold Table.update_where
  cases hi : t.set_indices sets with
  | error e => exact ⟨rfl, rfl, rfl, h⟩
  | ok idxs => exact ⟨rfl, rfl, rfl, update_rows_typed t sets idxs cond t.rows 0 h⟩

theorem insert_row_typed (t : Table) (rv : List (Option Value))
    (h : ∀ r ∈ t.rows, Row.Typed t.columns r) :
    (t.insert_row rv).1.name = t.name ∧
    (t.insert_row rv).1.columns = t.columns ∧
    (t.insert_row rv).1.name2idx = t.name2idx ∧
    ∀ r ∈ (t.insert_row rv).1.rows, Row.Typed t.columns r := by
  rcases insert_row_shape t rv with h1 | ⟨r, hr, h1⟩
  · rw [h1]; exact ⟨rfl, rfl, rfl, h⟩
  · rw [h1]
    refine ⟨rfl, rfl, rfl, ?_⟩
    intro y hy
    simp only [List.mem_append, List.mem_singleton] at hy
    rcases hy with hy | rfl
    · exact h y hy
    · exact hr

theorem step_typed (t t1 : Table) (hs : Table.Step t t1)
    (h : ∀ r ∈ t.rows, Row.Typed t.columns r) :
    t1.name = t.name ∧ t1.columns = t.columns ∧ t1.name2idx = t.name2idx ∧
      ∀ r ∈ t1.rows, Row.Typed t.columns r := by
  cases hs with
  | insert_row rv => exact insert_row_typed t rv h
  | delete_where cond => exact delete_where_typed t cond h
  | update_where sets cond => exact update_where_typed t sets cond h

theorem reach_typed (t0 t : Table) (hr : Relation.ReflTransGen Table.Step t0 t)
    (h : ∀ r ∈ t0.rows, Row.Typed t0.columns r) :
    t.name = t0.name ∧ t.columns = t0.columns ∧ t.name2idx = t0.name2idx ∧
      ∀ r ∈ t.rows, Row.Typed t.columns r := by
  induction hr with
  | refl => exact ⟨rfl, rfl, rfl, h⟩
  | tail _ hstep ih =>
    obtain ⟨h1, h2, h3, h4⟩ := ih
    obtain ⟨s1, s2, s3, s4⟩ := step_typed _ _ hstep h4
    refine ⟨s1.trans h1, s2.trans h2, s3.trans h3, ?_⟩
    rw [s2]; exact s4

theorem create_table_fresh (d d1 : Database) (n : String) (cols : List Column)
    (hc : d.create_table n cols = (d1, .ok ())) :
    d.tables.find n = none ∧ d1.table n = .ok (Table.new n cols) := by
  unfold Database.create_table at hc
  cases hf : d.tables.find n with
  | some t0 => simp [UMap.count, hf] at hc
  | none =>
    simp only [UMap.count, hf, Option.isSome_none, Bool.false_eq_true, if_false, ne_eq,
      not_true_eq_false, Prod.mk.injEq, and_true] at hc
    subst hc
    refine ⟨rfl, ?_⟩
    unfold Database.table
    simp only
    rw [UMap.find_emplace, hf]
    simp

theorem col_indices_forall (t : Table) (names : List String) (idxs : List Nat)
    (h : t.col_indices names = .ok idxs) :
    List.Forall₂ (fun name idx => t.col_index name = .ok idx) names idxs := by
  induction names generalizing idxs with
  | nil =>
    simp only [Table.col_indices, Except.ok.injEq] at h
    subst h; exact List.Forall₂.nil
  | cons c cs ih =>
    unfold Table.col_indices at h
    cases hi : t.col_index c with
    | error e => simp [hi] at h
    | ok idx =>
      simp only [hi] at h
      cases hrec : t.col_indices cs with
      | error e => simp [hrec] at h
      | ok idxs' =>
        simp only [hrec, Except.ok.injEq] at h
        subst h
        exact List.Forall₂.cons hi (ih idxs' hrec)

theorem select_headers_ok (t : Table) (proj : List Nat) (hs : List String)
    (h : t.select_headers proj = .ok hs) :
    hs.map some = proj.map (fun idx => (t.columns.get? idx).map Column.name) := by
  induction proj generalizing hs with
  | nil =>
    simp only [Table.select_headers, Except.ok.injEq] at h
    subst h; rfl
  | cons idx proj ih =>
    unfold Table.select_headers at h
    cases hc : t.columns.get? idx with
    | none => rw [hc] at h; simp at h
    | some c =>
      rw [hc] at h
      simp only at h
      cases hrec : t.select_headers proj with
      | error e => simp [hrec] at h
      | ok hs' =>
        simp only [hrec, Except.ok.injEq] at h
        subst h
        simp only [List.map_cons, hc, Option.map_some', ih hs' hrec]

theorem project_row_ok (row : Row) (proj : List Nat) (out : List String)
    (h : Table.project_row row proj = .ok out) :
    out.map some = proj.map (fun idx => (row.cells.get? idx).map Value.to_string) := by
  induction proj generalizing out with
  | nil =>
    simp only [Table.project_row, Except.ok.injEq] at h
    subst h; rfl
  | cons idx proj ih =>
    unfold Table.project_row at h
    cases hc : row.cells.get? idx with
    | none => rw [hc] at h; simp at h
    | some c =>
      rw [hc] at h
      simp only at h
      cases hrec : Table.project_row row proj with
      | error e => simp [hrec] at h
      | ok out' =>
        simp only [hrec, Except.ok.injEq] at h
        subst h
        simp only [List.map_cons, hc, Option.map_some', ih out' hrec]

theorem select_rows_ok (t : Table) (proj : List Nat) (cond : Option Condition)
    (rows : List Row) (outs : List (List String))
    (h : t.select_rows proj cond rows = .ok outs) :
    outs.map (fun out => out.map some) =
      (rows.filter (t.satisfies cond)).map
        (fun r => proj.map (fun idx => (r.cells.get? idx).map Value.to_string)) := by
  induction rows generalizing outs with
  | nil =>
    simp only [Table.select_rows, Except.ok.injEq] at h
    subst h; rfl
  | cons r rest ih =>
    unfold Table.select_rows at h
    cases hm : t.row_matches r cond with
    | error e => simp [hm] at h
    | ok b =>
      cases b with
      | false =>
        simp only [hm] at h
        have hs : t.satisfies cond r = false := by simp [Table.satisfies, hm]
        simp only [List.filter_cons, hs, Bool.false_eq_true, if_false]
        exact ih outs h
      | true =>
        simp only [hm] at h
        have hs : t.satisfies cond r = true := by simp [Table.satisfies, hm]
        cases hp : Table.project_row r proj with
        | error e => simp [hp] at h
        | ok out =>
          simp only [hp] at h
          cases hrec : t.select_rows proj cond rest with
          | error e => simp [hrec] at h
          | ok outs' =>
            simp only [hrec, Except.ok.injEq] at h
            subst h
            simp only [List.filter_cons, hs, if_true, List.map_cons, ih outs' hrec,
              project_row_ok r proj out hp]

theorem last_named_rows (t : Table) (rows : List Row) (ps : List (String × Value)) (j : Nat) :
    Table.last_named { t with rows := rows } ps j = t.last_named ps j := by
  induction ps with
  | nil => rfl
  | cons p ps ih =>
    simp only [Table.last_named, ih]
    rfl

theorem last_named_mem (t : Table) (ps : List (String × Value)) (j : Nat) (v : Value)
    (h : t.last_named ps j = some v) : ∃ p ∈ ps, t.col_index p.1 = .ok j ∧ p.2 = v := by
  induction ps with
  | nil => simp [Table.last_named] at h
  | cons p ps ih =>
    unfold Table.last_named at h
    cases hl : t.last_named ps j with
    | some w =>
      simp only [hl, Option.some.injEq] at h
      subst h
      obtain ⟨q, hq, h1, h2⟩ := ih hl
      exact ⟨q, List.mem_cons_of_mem _ hq, h1, h2⟩
    | none =>
      simp only [hl] at h
      cases hc : t.col_index p.1 with
      | error e => simp [hc] at h
      | ok idx =>
        simp only [hc] at h
        by_cases hij : idx = j
        · simp only [hij, if_true, Option.some.injEq] at h
          exact ⟨p, List.mem_cons_self _ _, by rw [hc, hij], h⟩
        · simp [hij] at h

theorem last_named_none (t : Table) (ps : List (String × Value)) (j : Nat) :
    t.last_named ps j = none ↔ ∀ p ∈ ps, t.col_index p.1 ≠ .ok j := by
  induction ps with
  | nil => simp [Table.last_named]
  | cons p ps ih =>
    unfold Table.last_named
    cases hl : t.last_named ps j with
    | some w =>
      simp only [false_iff, reduceCtorEq]
      intro hall
      have := ih.mpr (fun q hq => hall q (List.mem_cons_of_mem _ hq))
      rw [hl] at this; cases this
    | none =>
      have hps := ih.mp hl
      simp only
      cases hc : t.col_index p.1 with
      | error e =>
        simp only [true_iff]
        intro q hq
        rcases List.mem_cons.mp hq with rfl | hq
        · rw [hc]; simp
        · exact hps q hq
      | ok idx =>
        simp only
        by_cases hij : idx = j
        · simp only [hij, if_true, false_iff, reduceCtorEq]
          intro hall
          exact hall p (List.mem_cons_self _ _) (by rw [hc, hij])
        · simp only [hij, if_false, true_iff]
          intro q hq
          rcases List.mem_cons.mp hq with rfl | hq
          · rw [hc]; simp [hij]
          · exact hps q hq

theorem fill_row_vals_ok (t : Table) (ps : List (String × Value)) (idxs : List Nat)
    (hidx : List.Forall₂ (fun (p : String × Value) idx => t.col_index p.1 = .ok idx) ps idxs)
    (rv0 : List (Option Value)) (hb : ∀ idx ∈ idxs, idx < rv0.length) :
    ∃ rv, fill_row_vals idxs (ps.map Prod.snd) rv0 = .ok rv ∧ rv.length = rv0.length ∧
      ∀ j ov, rv0.get? j = some ov →
        rv.get? j = some (match t.last_named ps j with
          | some w => some w
          | none => ov) := by
  induction hidx generalizing rv0 with
  | nil => exact ⟨rv0, rfl, rfl, fun j ov h => by simpa [Table.last_named] using h⟩
  | @cons p idx ps idxs hn _ ih =>
    have hi : idx < rv0.length := hb idx (List.mem_cons_self _ _)
    obtain ⟨rv, h1, h2, h3⟩ := ih (rv0.set idx (some p.2))
      (fun i hi' => by simpa using hb i (List.mem_cons_of_mem _ hi'))
    refine ⟨rv, by simp [fill_row_vals, hi, h1], by simpa using h2, ?_⟩
    intro j ov hov
    have hj : j < rv0.length := (List.get?_eq_some.mp hov).1
    simp only [Table.last_named, hn]
    by_cases hij : idx = j
    · subst hij
      rw [h3 idx (some p.2) (by simp [List.getElem?_set, hi])]
      cases t.last_named ps idx <;> simp
    · rw [h3 j ov (by
        rw [List.get?_eq_getElem?] at hov ⊢
        rw [List.getElem?_set]; simp [hij, hov])]
      cases t.last_named ps j <;> simp [hij]

theorem forall₂_zip_names (t : Table) (names : List String) (idxs : List Nat)
    (hidx : List.Forall₂ (fun name idx => t.col_index name = .ok idx) names idxs)
    (tup : List Value) (hlen : tup.length = names.length) :
    List.Forall₂ (fun (p : String × Value) idx => t.col_index p.1 = .ok idx)
      (names.zip tup) idxs ∧ (names.zip tup).map Prod.snd = tup := by
  induction hidx generalizing tup with
  | nil =>
    cases tup with
    | nil => exact ⟨List.Forall₂.nil, rfl⟩
    | cons v tup => simp at hlen
  | @cons name idx names idxs hn _ ih =>
    cases tup with
    | nil => simp at hlen
    | cons v tup =>
      obtain ⟨h1, h2⟩ := ih tup (by simpa using hlen)
      exact ⟨List.Forall₂.cons hn h1, by rw [List.zip_cons_cons, List.map_cons, h2]⟩

theorem forall₂_idx_lt (t : Table) (hwf : t.SchemaOK) (ps : List (String × Value))
    (idxs : List Nat)
    (hidx : List.Forall₂ (fun (p : String × Value) idx => t.col_index p.1 = .ok idx) ps idxs) :
    ∀ idx ∈ idxs, idx < t.columns.length := by
  induction hidx with
  | nil => simp
  | @cons p idx ps idxs hn _ ih =>
    intro i hi
    rcases List.mem_cons.mp hi with rfl | hi
    · exact col_index_lt t hwf _ _ hn
    · exact ih i hi

theorem col_indices_rows (t : Table) (rows : List Row) (names : List String) :
    Table.col_indices { t with rows := rows } names = t.col_indices names := by
  induction names with
  | nil => rfl
  | cons c cs ih =>
    simp only [Table.col_indices, ih]
    rfl

/-- One INSERT tuple of the right length whose literals carry the declared
tags appends the row it stands for. -/
theorem insert_one_tuple (t : Table) (hwf : t.SchemaOK) (names : List String) (idxs : List Nat)
    (hidx : List.Forall₂ (fun name idx => t.col_index name = .ok idx) names idxs)
    (tup : List Value) (hlen : tup.length = names.length)
    (hty : ∀ p ∈ names.zip tup, ∀ idx c, t.col_index p.1 = .ok idx →
      t.columns.get? idx = some c → p.2.type = c.type) :
    ∃ rv, fill_row_vals idxs tup (List.replicate t.columns.length none) = .ok rv ∧
      t.insert_row rv = ({ t with rows := t.rows ++ [t.row_of_tuple names tup] }, .ok ()) := by
  obtain ⟨hz, hsnd⟩ := forall₂_zip_names t names idxs hidx tup hlen
  obtain ⟨rv, h1, h2, h3⟩ := fill_row_vals_ok t (names.zip tup) idxs hz
    (List.replicate t.columns.length none)
    (fun idx hmem => by simpa using forall₂_idx_lt t hwf _ _ hz idx hmem)
  rw [hsnd] at h1
  refine ⟨rv, h1, ?_⟩
  have hrvlen : rv.length = t.columns.length := by simpa using h2
  have hrv : ∀ j, j < t.columns.length → rv.get? j = some (t.last_named (names.zip tup) j) := by
    intro j hj
    have := h3 j none (by simp [List.getElem?_replicate, hj])
    rw [this]
    cases t.last_named (names.zip tup) j <;> rfl
  have hcells : Table.insert_row_cells t.columns rv = .ok (filled_cells t.columns rv) := by
    apply insert_row_cells_ok _ _ hrvlen
    intro i v c hv hc
    have hi : i < t.columns.length := (List.get?_eq_some.mp hc).1
    rw [hrv i hi] at hv
    obtain ⟨p, hp, hp1, hp2⟩ := last_named_mem t _ i v (Option.some.inj hv)
    rw [← hp2]
    exact hty p hp i c hp1 hc
  unfold Table.insert_row
  simp only [ne_eq, hrvlen, not_true_eq_false, if_false, hcells]
  congr 2
  unfold Table.row_of_tuple
  congr 3
  apply List.ext_getElem?
  intro j
  by_cases hj : j < t.columns.length
  · obtain ⟨ov, ho1, ho2⟩ := filled_cells_get t.columns rv hrvlen j t.columns[j]
      (by simp [List.getElem?_eq_getElem hj])
    rw [hrv j hj] at ho1
    cases ho1
    rw [List.get?_eq_getElem?] at ho2
    rw [ho2]
    cases hl : t.last_named (names.zip tup) j <;>
      simp [List.getElem?_eq_getElem hj, List.enum, hl]
  · rw [List.getElem?_eq_none (by rw [filled_cells_length _ _ hrvlen]; omega),
      List.getElem?_eq_none (by simp; omega)]

theorem row_of_tuple_rows (t : Table) (rows : List Row) (names : List String)
    (tup : List Value) :
    Table.row_of_tuple { t with rows := rows } names tup = t.row_of_tuple names tup := by
  unfold Table.row_of_tuple
  simp only [last_named_rows]

/-- The tuple loop of INSERT on tuples that are all of the right length and
rightly tagged appends the rows they stand for, in tuple order. -/
theorem insert_tuples_ok (s : StmtInsert) (t : Table) (hwf : t.SchemaOK) (idxs : List Nat)
    (hidx : List.Forall₂ (fun name idx => t.col_index name = .ok idx) s.columns idxs)
    (tuples : List (List Value))
    (hlen : ∀ tup ∈ tuples, tup.length = s.columns.length)
    (hty : ∀ tup ∈ tuples, ∀ p ∈ s.columns.zip tup, ∀ idx c, t.col_index p.1 = .ok idx →
      t.columns.get? idx = some c → p.2.type = c.type)
    (rows : List Row) :
    insert_tuples s idxs { t with rows := rows } tuples =
      ({ t with rows := rows ++ tuples.map (t.row_of_tuple s.columns) }, .ok ()) := by
  induction tuples generalizing rows with
  | nil => simp [insert_tuples]
  | cons tup rest ih =>
    have hl : tup.length = s.columns.length := hlen tup (List.mem_cons_self _ _)
    obtain ⟨rv, h1, h2⟩ := insert_one_tuple { t with rows := rows } hwf s.columns idxs hidx tup hl
      (hty tup (List.mem_cons_self _ _))
    unfold insert_tuples
    simp only [ne_eq, hl, not_true_eq_false, if_false]
    simp only at h1
    rw [h1]
    simp only
    rw [h2]
    simp only
    rw [ih (fun x hx => hlen x (List.mem_cons_of_mem _ hx))
      (fun x hx => hty x (List.mem_cons_of_mem _ hx))]
    simp [row_of_tuple_rows]

theorem row_of_tuple_get (t : Table) (names : List String) (tup : List Value) (j : Nat)
    (c : Column) (hc : t.columns.get? j = some c) :
    (t.row_of_tuple names tup).cells.get? j = some (match t.last_named (names.zip tup) j with
      | some w => w
      | none => Value.default_of c.type) := by
  unfold Table.row_of_tuple
  rw [List.get?_eq_getElem?] at hc ⊢
  simp only [List.getElem?_map, List.enum]
  simp [hc]

theorem first_index_complete (cs : List Column) (k : String) (start : Nat)
    (h : ∃ c ∈ cs, c.name = k) : ∃ i, first_index cs k start = some i := by
  induction cs generalizing start with
  | nil => obtain ⟨c, hc, _⟩ := h; cases hc
  | cons c cs ih =>
    unfold first_index
    by_cases hc : c.name = k
    · exact ⟨start, by simp [hc]⟩
    · simp only [hc, if_false]
      apply ih
      obtain ⟨c', hc', hk⟩ := h
      rcases List.mem_cons.mp hc' with rfl | hc'
      · exact absurd hk hc
      · exact ⟨c', hc', hk⟩

/-- Under `SchemaOK`, `col_index` resolves exactly the names of columns. -/
theorem col_index_exists (t : Table) (h : t.SchemaOK) (k : String)
    (hk : ∃ c ∈ t.columns, c.name = k) : ∃ idx, t.col_index k = .ok idx := by
  obtain ⟨i, hi⟩ := first_index_complete t.columns k 0 hk
  refine ⟨i, ?_⟩
  unfold Table.col_index
  rw [h, find_index_columns]
  simp [UMap.find, UMap.findIn, hi]

theorem col_indices_exists (t : Table) (names : List String)
    (h : ∀ name ∈ names, ∃ idx, t.col_index name = .ok idx) :
    ∃ idxs, t.col_indices names = .ok idxs := by
  induction names with
  | nil => exact ⟨[], rfl⟩
  | cons c cs ih =>
    obtain ⟨idx, hi⟩ := h c (List.mem_cons_self _ _)
    obtain ⟨idxs, hr⟩ := ih (fun n hn => h n (List.mem_cons_of_mem _ hn))
    exact ⟨idx :: idxs, by simp [Table.col_indices, hi, hr]⟩

theorem col_index_inj (t : Table) (h : t.SchemaOK) (a b : String) (idx : Nat)
    (ha : t.col_index a = .ok idx) (hb : t.col_index b = .ok idx) : a = b := by
  obtain ⟨c, hc, hca⟩ := col_index_column t h a idx ha
  obtain ⟨c', hc', hcb⟩ := col_index_column t h b idx hb
  rw [hc] at hc'
  cases hc'
  rw [← hca, ← hcb]

/-- The literal at a position of the column list that is the last one naming
its column is the one `last_named` finds for that column. -/
theorem last_named_zip_pos (t : Table) (names : List String) (tup : List Value)
    (hlen : tup.length = names.length) (k : Nat) (name : String) (v : Value) (idx : Nat)
    (hn : names.get? k = some name) (hv : tup.get? k = some v)
    (hi : t.col_index name = .ok idx)
    (hlast : ∀ k' name', k < k' → names.get? k' = some name' → t.col_index name' ≠ .ok idx) :
    t.last_named (names.zip tup) idx = some v := by
  induction names generalizing tup k with
  | nil => simp at hn
  | cons n0 names ih =>
    cases tup with
    | nil => simp at hv
    | cons v0 tup =>
      rw [List.zip_cons_cons]
      unfold Table.last_named
      cases k with
      | zero =>
        simp only [List.get?_cons_zero, Option.some.injEq] at hn hv
        subst hn; subst hv
        have hnone : t.last_named (names.zip tup) idx = none := by
          rw [last_named_none]
          intro p hp
          have hp1 : p.1 ∈ names := (List.of_mem_zip hp).1
          obtain ⟨l, hl⟩ := List.mem_iff_get.mp hp1
          apply hlast (l.1 + 1) p.1 (by omega)
          rw [List.get?_cons_succ, List.get?_eq_get l.2, hl]
        simp [hnone, hi]
      | succ k =>
        have := ih tup (by simpa using hlen) k (by simpa using hn) (by simpa using hv)
          (fun k' name' hk' hn' => hlast (k' + 1) name' (by omega) (by simpa using hn'))
        simp [this]

theorem last_named_zip_none (t : Table) (names : List String) (tup : List Value) (j : Nat)
    (h : ∀ name ∈ names, t.col_index name ≠ .ok j) :
    t.last_named (names.zip tup) j = none := by
  rw [last_named_none]
  intro p hp
  exact h p.1 (List.of_mem_zip hp).1

theorem set_indices_exists (t : Table) (sets : List (String × Value))
    (h : ∀ p ∈ sets, ∃ idx, t.col_index p.1 = .ok idx) :
    ∃ idxs, t.set_indices sets = .ok idxs := by
  induction sets with
  | nil => exact ⟨[], rfl⟩
  | cons p ps ih =>
    obtain ⟨idx, hi⟩ := h p (List.mem_cons_self _ _)
    obtain ⟨idxs, hr⟩ := ih (fun q hq => h q (List.mem_cons_of_mem _ hq))
    exact ⟨idx :: idxs, by simp [Table.set_indices, hi, hr]⟩

/-- On a row typed like the columns, an assignment list with an ill-tagged
value ends the assignment loop with `TypeError`. -/
theorem update_cells_type_error (t : Table) (hwf : t.SchemaOK) (sets : List (String × Value))
    (idxs : List Nat)
    (hidx : List.Forall₂ (fun (p : String × Value) idx => t.col_index p.1 = .ok idx) sets idxs)
    (cells : List Value) (hcells : Row.Typed t.columns ⟨cells⟩)
    (hbad : ∃ p ∈ sets, ∃ idx c, t.col_index p.1 = .ok idx ∧ t.columns.get? idx = some c ∧
      p.2.type ≠ c.type) :
    ∃ cells1 msg, t.update_cells sets idxs cells = (cells1, some (.TypeError msg)) := by
  induction hidx generalizing cells with
  | nil => obtain ⟨p, hp, _⟩ := hbad; cases hp
  | @cons p idx sets idxs hp _ ih =>
    obtain ⟨c, hc, _⟩ := col_index_column t hwf p.1 idx hp
    unfold Table.update_cells
    simp only [hc]
    by_cases hty : p.2.type = c.type
    · have hi : idx < cells.length := by
        have := typed_length _ _ hcells
        simp only at this
        rw [this]
        exact col_index_lt t hwf _ _ hp
      simp only [ne_eq, hty, not_true_eq_false, if_false, hi, if_true]
      apply ih _ (set_typed _ _ _ _ _ hcells hc hty)
      obtain ⟨q, hq, idx', c', h1, h2, h3⟩ := hbad
      rcases List.mem_cons.mp hq with rfl | hq
      · rw [hp] at h1
        cases h1
        rw [hc] at h2
        cases h2
        exact absurd hty h3
      · exact ⟨q, hq, idx', c', h1, h2, h3⟩
    · exact ⟨cells, "Type mismatch in UPDATE for column " ++ c.name, by simp [hty]⟩

theorem update_rows_type_error (t : Table) (hwf : t.SchemaOK) (sets : List (String × Value))
    (idxs : List Nat)
    (hidx : List.Forall₂ (fun (p : String × Value) idx => t.col_index p.1 = .ok idx) sets idxs)
    (hbad : ∃ p ∈ sets, ∃ idx c, t.col_index p.1 = .ok idx ∧ t.columns.get? idx = some c ∧
      p.2.type ≠ c.type)
    (cond : Option Condition) (rows : List Row) (count : Nat)
    (htyped : ∀ r ∈ rows, Row.Typed t.columns r)
    (hall : ∀ r ∈ rows, ∃ b, t.row_matches r cond = .ok b)
    (hrow : ∃ r ∈ rows, t.satisfies cond r = true) :
    ∃ msg, (t.update_rows sets idxs cond rows count).2 = .error (.TypeError msg) := by
  induction rows generalizing count with
  | nil => obtain ⟨r, hr, _⟩ := hrow; cases hr
  | cons r rest ih =>
    obtain ⟨b, hb⟩ := hall r (List.mem_cons_self _ _)
    unfold Table.update_rows
    cases b with
    | false =>
      simp only [hb]
      apply ih count (fun y hy => htyped y (List.mem_cons_of_mem _ hy))
        (fun y hy => hall y (List.mem_cons_of_mem _ hy))
      obtain ⟨y, hy, hs⟩ := hrow
      rcases List.mem_cons.mp hy with rfl | hy
      · simp [Table.satisfies, hb] at hs
      · exact ⟨y, hy, hs⟩
    | true =>
      simp only [hb]
      obtain ⟨cells1, msg, hu⟩ := update_cells_type_error t hwf sets idxs hidx r.cells
        (htyped r (List.mem_cons_self _ _)) hbad
      exact ⟨msg, by rw [hu]⟩

theorem rejects_eq_not_satisfies (t : Table) (cond : Option Condition) (r : Row)
    (h : ∃ b, t.row_matches r cond = .ok b) : t.rejects cond r = !t.satisfies cond r := by
  obtain ⟨b, hb⟩ := h
  cases b <;> simp [Table.rejects, Table.satisfies, hb]

theorem delete_where_evaluates (t : Table) (cond : Option Condition) (t1 : Table) (n : Nat)
    (h : t.delete_where cond = (t1, .ok n)) :
    ∀ r ∈ t.rows, ∃ b, t.row_matches r cond = .ok b := by
  intro r hr
  cases hm : t.row_matches r cond with
  | ok b => exact ⟨b, rfl⟩
  | error e =>
    obtain ⟨t2, e2, h2⟩ := delete_where_error t cond ⟨r, hr, e, hm⟩
    rw [h2] at h
    cases h

/-- The value of the last pair naming a column, read off a position. -/
theorem last_named_pos (t : Table) (ps : List (String × Value)) (k : Nat)
    (p : String × Value) (idx : Nat)
    (hp : ps.get? k = some p) (hi : t.col_index p.1 = .ok idx)
    (hlast : ∀ k' p', k < k' → ps.get? k' = some p' → t.col_index p'.1 ≠ .ok idx) :
    t.last_named ps idx = some p.2 := by
  induction ps generalizing k with
  | nil => simp at hp
  | cons p0 ps ih =>
    unfold Table.last_named
    cases k with
    | zero =>
      simp only [List.get?_cons_zero, Option.some.injEq] at hp
      subst hp
      have hnone : t.last_named ps idx = none := by
        rw [last_named_none]
        intro q hq
        obtain ⟨l, hl⟩ := List.mem_iff_get.mp hq
        apply hlast (l.1 + 1) q (by omega)
        rw [List.get?_cons_succ, List.get?_eq_get l.2, hl]
      simp [hnone, hi]
    | succ k =>
      have := ih k (by simpa using hp)
        (fun k' p' hk' hp' => hlast (k' + 1) p' (by omega) (by simpa using hp'))
      simp [this]

theorem char_toNat_inj (a b : Char) (h : a.toNat = b.toNat) : a = b := by
  rw [← Char.ofNat_toNat a, ← Char.ofNat_toNat b, h]

theorem string_compare_lt_iff (a b : List Char) :
    string_compare a b < 0 ↔ List.Lex (fun x y : Char => x.toNat < y.toNat) a b := by
  induction a generalizing b with
  | nil =>
    cases b with
    | nil => simp [string_compare]
    | cons y ys => simp [string_compare, List.Lex.nil]
  | cons x xs ih =>
    cases b with
    | nil => simp [string_compare]
    | cons y ys =>
      unfold string_compare
      by_cases h1 : x.toNat < y.toNat
      · simp only [h1, if_true]
        exact ⟨fun _ => List.Lex.rel h1, fun _ => by decide⟩
      · by_cases h2 : y.toNat < x.toNat
        · simp only [h1, h2, if_false, if_true]
          constructor
          · intro h; exact absurd h (by decide)
          · intro h
            cases h with
            | cons h' => exact absurd h2 (lt_irrefl _)
            | rel h' => exact absurd h' h1
        · have hxy : x = y := char_toNat_inj x y (by omega)
          subst hxy
          simp only [h1, if_false]
          rw [ih ys]
          constructor
          · intro h; exact List.Lex.cons h
          · intro h
            cases h with
            | cons h' => exact h'
            | rel h' => exact absurd h' h1

theorem string_compare_swap (a b : List Char) :
    string_compare a b > 0 ↔ string_compare b a < 0 := by
  induction a generalizing b with
  | nil => cases b <;> simp [string_compare]
  | cons x xs ih =>
    cases b with
    | nil => simp [string_compare]
    | cons y ys =>
      unfold string_compare
      by_cases h1 : x.toNat < y.toNat
      · have h2 : ¬ y.toNat < x.toNat := by omega
        simp [h1, h2]
      · by_cases h2 : y.toNat < x.toNat
        · simp [h1, h2]
        · simp only [h1, h2, if_false]
          exact ih ys

theorem string_compare_eq_iff (a b : List Char) :
    (¬ string_compare a b < 0 ∧ ¬ string_compare a b > 0) ↔ a = b := by
  induction a generalizing b with
  | nil => cases b <;> simp [string_compare]
  | cons x xs ih =>
    cases b with
    | nil => simp [string_compare]
    | cons y ys =>
      unfold string_compare
      by_cases h1 : x.toNat < y.toNat
      · have : x ≠ y := by rintro rfl; exact absurd h1 (lt_irrefl _)
        simp [h1, this]
      · by_cases h2 : y.toNat < x.toNat
        · have : x ≠ y := by rintro rfl; exact absurd h2 (lt_irrefl _)
          simp [h1, h2, this]
        · have hxy : x = y := char_toNat_inj x y (by omega)
          subst hxy
          simp only [h1, if_false, List.cons.injEq, true_and]
          exact ih ys

theorem string_lt_iff (a b : String) : string_lt a b = true ↔ str_lt a b := by
  simp only [string_lt, decide_eq_true_eq]
  exact string_compare_lt_iff _ _

theorem string_gt_iff (a b : String) : string_gt a b = true ↔ str_lt b a := by
  simp only [string_gt, decide_eq_true_eq]
  rw [string_compare_swap]
  exact string_compare_lt_iff _ _

theorem string_neither_iff (a b : String) :
    (¬ str_lt a b ∧ ¬ str_lt b a) ↔ a = b := by
  rw [← string_lt_iff, ← string_gt_iff]
  simp only [string_lt, string_gt, decide_eq_true_eq]
  rw [string_compare_eq_iff]
  constructor
  · intro h; exact String.ext h
  · intro h; rw [h]

theorem str_lt_asymm (a b : String) (h : str_lt a b) : ¬ str_lt b a := by
  rw [← string_lt_iff] at h
  rw [← string_gt_iff]
  simp only [string_lt, string_gt, decide_eq_true_eq] at h ⊢
  omega

/-- The three-way outcome read through an operator: with `lt` and `gt` two
exclusive alternatives and equality the third. -/
theorem apply_three_way (op : Op) (lt gt : Prop) [Decidable lt] [Decidable gt]
    (hex : lt → ¬ gt) :
    (op.apply (if lt then -1 else if gt then 1 else 0) = true) ↔
      (match op with
        | .EQ => ¬ lt ∧ ¬ gt
        | .NEQ => lt ∨ gt
        | .LT => lt
        | .GT => gt
        | .LE => lt ∨ (¬ lt ∧ ¬ gt)
        | .GE => gt ∨ (¬ lt ∧ ¬ gt)) := by
  by_cases h1 : lt
  · have h2 : ¬ gt := hex h1
    cases op <;> simp [Op.apply, h1, h2]
  · by_cases h2 : gt
    · cases op <;> simp [Op.apply, h1, h2]
    · cases op <;> simp [Op.apply, h1, h2]

theorem compare_int (v o : Value) (hv : v.type = .INT) (ho : o.type = .INT) :
    v.compare o = .ok (if v.i < o.i then -1 else if o.i < v.i then 1 else 0) := by
  unfold Value.compare
  simp only [hv, ho, ne_eq, not_true_eq_false, if_false, if_true, gt_iff_lt]
  split
  · rfl
  · split <;> rfl

theorem compare_str (v o : Value) (hv : v.type = .STR) (ho : o.type = .STR) :
    v.compare o = .ok (if string_lt v.s o.s = true then -1
      else if string_gt v.s o.s = true then 1 else 0) := by
  unfold Value.compare
  simp only [hv, ho, ne_eq, not_true_eq_false, if_false, reduceCtorEq]
  split
  · rfl
  · split <;> rfl

/-- Calling `compare` and applying the operator decides `v op lit` when the
tags agree. -/
theorem compare_apply (op : Op) (v lit : Value) (hty : lit.type = v.type) :
    ∃ cmp, v.compare lit = .ok cmp ∧ (op.apply cmp = true ↔ Value.holds op v lit) := by
  cases hv : v.type with
  | INT =>
    rw [hv] at hty
    refine ⟨_, compare_int v lit hv hty, ?_⟩
    rw [apply_three_way op _ _ (fun h => by omega)]
    unfold Value.holds
    rw [hv]
    cases op <;> simp only <;> omega
  | STR =>
    rw [hv] at hty
    refine ⟨_, compare_str v lit hv hty, ?_⟩
    rw [apply_three_way op _ _ (fun h => by
      rw [string_lt_iff] at h
      rw [string_gt_iff]
      exact str_lt_asymm _ _ h)]
    unfold Value.holds
    rw [hv]
    have heq := string_neither_iff v.s lit.s
    cases op <;> simp only [string_lt_iff, string_gt_iff, heq]
    · rw [ne_eq, ← heq]; tauto

theorem select_headers_total (t : Table) (proj : List Nat)
    (h : ∀ idx ∈ proj, idx < t.columns.length) : ∃ hs, t.select_headers proj = .ok hs := by
  induction proj with
  | nil => exact ⟨[], rfl⟩
  | cons idx proj ih =>
    have hi : idx < t.columns.length := h idx (List.mem_cons_self _ _)
    obtain ⟨hs, hhs⟩ := ih (fun i hi => h i (List.mem_cons_of_mem _ hi))
    refine ⟨t.columns[idx].name :: hs, ?_⟩
    unfold Table.select_headers
    rw [List.get?_eq_getElem?, List.getElem?_eq_getElem hi]
    simp only [hhs]

theorem forall₂_names_lt (t : Table) (hwf : t.SchemaOK) (names : List String)
    (idxs : List Nat)
    (hidx : List.Forall₂ (fun name idx => t.col_index name = .ok idx) names idxs) :
    ∀ idx ∈ idxs, idx < t.columns.length := by
  induction hidx with
  | nil => simp
  | @cons name idx names idxs hn _ ih =>
    intro i hi
    rcases List.mem_cons.mp hi with rfl | hi
    · exact col_index_lt t hwf _ _ hn
    · exact ih i hi

/-- A valid projection (`*`, or names that are all columns) is built, and its
headers are read without leaving the column vector. -/
theorem projection_total (t : Table) (hwf : t.SchemaOK) (out_cols : List String) (star : Bool)
    (h : star = true ∨ ∀ name ∈ out_cols, ∃ c ∈ t.columns, c.name = name) :
    ∃ proj hs, t.build_projection out_cols star = .ok proj ∧ t.select_headers proj = .ok hs := by
  unfold Table.build_projection
  cases star with
  | true =>
    obtain ⟨hs, hhs⟩ := select_headers_total t (List.range t.columns.length)
      (fun idx hi => List.mem_range.mp hi)
    exact ⟨_, hs, rfl, hhs⟩
  | false =>
    have h' : ∀ name ∈ out_cols, ∃ c ∈ t.columns, c.name = name := by
      rcases h with h | h
      · cases h
      · exact h
    obtain ⟨idxs, hidxs⟩ := col_indices_exists t out_cols
      (fun name hn => col_index_exists t hwf name (h' name hn))
    obtain ⟨hs, hhs⟩ := select_headers_total t idxs
      (forall₂_names_lt t hwf out_cols idxs (col_indices_forall t out_cols idxs hidxs))
    exact ⟨idxs, hs, by simpa using hidxs, hhs⟩

/-- A condition on an existing column whose literal has another tag than the
column throws `TypeError` on every row typed like the columns. -/
theorem matches_type_error (t : Table) (c : Condition) (idx : Nat) (col : Column)
    (hidx : t.col_index c.column = .ok idx) (hcol : t.columns.get? idx = some col)
    (hty : c.literal.type ≠ col.type) (r : Row) (hr : Row.Typed t.columns r) :
    t.row_matches r (some c) = .error (.TypeError "Type mismatch in comparison") := by
  apply matches_failure c t r hr
  unfold Condition.failure
  simp only [hidx, hcol]
  simp [Ne.symm hty]

theorem col_index_defined (t : Table) (k : String) : Defined (t.col_index k) := by
  intro w h
  unfold Table.col_index at h
  cases hf : t.name2idx.find k <;> simp [hf] at h

theorem insert_row_cells_defined (cols : List Column) (rv : List (Option Value))
    (hlen : rv.length = cols.length) : Defined (Table.insert_row_cells cols rv) := by
  induction cols generalizing rv with
  | nil => intro w h; simp [Table.insert_row_cells] at h
  | cons c cs ih =>
    cases rv with
    | nil => simp at hlen
    | cons ov rest =>
      have ih' := ih rest (by simpa using hlen)
      intro w h
      unfold Table.insert_row_cells at h
      cases ov with
      | some v =>
        simp only at h
        by_cases hty : v.type = c.type
        · simp only [ne_eq, hty, not_true_eq_false, if_false] at h
          cases hrec : Table.insert_row_cells cs rest with
          | error e =>
            simp only [hrec, Except.error.injEq] at h
            exact ih' w (by rw [hrec, h])
          | ok cells => simp [hrec] at h
        · simp [hty] at h
      | none =>
        simp only at h
        cases hrec : Table.insert_row_cells cs rest with
        | error e =>
          simp only [hrec, Except.error.injEq] at h
          exact ih' w (by rw [hrec, h])
        | ok cells => simp [hrec] at h

/-- Whatever it is given, `insert_row` never leaves its vectors. -/
theorem insert_row_defined (t : Table) (rv : List (Option Value)) :
    Defined (t.insert_row rv).2 := by
  intro w h
  unfold Table.insert_row at h
  by_cases hlen : rv.length = t.columns.length
  · simp only [ne_eq, hlen, not_true_eq_false, if_false] at h
    cases hc : Table.insert_row_cells t.columns rv with
    | error e =>
      simp only [hc, Except.error.injEq] at h
      exact insert_row_cells_defined _ _ hlen w (by rw [hc, h])
    | ok cells => simp [hc] at h
  · simp [hlen] at h

theorem row_matches_defined (t : Table) (hwf : t.SchemaOK) (cond : Option Condition) (r : Row)
    (hr : Row.Typed t.columns r) : Defined (t.row_matches r cond) := by
  intro w h
  cases cond with
  | none => simp [Table.row_matches] at h
  | some c =>
    cases hf : c.failure t with
    | none =>
      obtain ⟨b, hb⟩ := matches_no_failure c t r hr hf
      simp only [Table.row_matches] at h
      rw [hb] at h
      cases h
    | some e =>
      have he := matches_failure c t r hr e hf
      simp only [Table.row_matches] at h
      rw [he] at h
      cases h
      unfold Condition.failure at hf
      cases hi : t.col_index c.column with
      | error e' =>
        simp only [hi, Option.some.injEq] at hf
        exact col_index_defined t c.column w (by rw [hi, hf])
      | ok idx =>
        obtain ⟨col, hcol, _⟩ := col_index_column t hwf _ _ hi
        simp only [hi, hcol] at hf
        by_cases hty : col.type = c.literal.type <;> simp [hty] at hf

theorem remove_if_tail_error_from (pred : Row → Except Exn Bool) (kept holes rest rows : List Row)
    (e : Exn) (h : remove_if_tail pred kept holes rest = (rows, .error e)) :
    ∃ x ∈ rest, pred x = .error e := by
  induction rest generalizing kept holes with
  | nil => simp [remove_if_tail] at h
  | cons x rest ih =>
    unfold remove_if_tail at h
    cases hp : pred x with
    | error e' =>
      simp only [hp, Prod.mk.injEq, Except.error.injEq] at h
      exact ⟨x, List.mem_cons_self _ _, by rw [hp, h.2]⟩
    | ok b =>
      cases b with
      | true =>
        simp only [hp] at h
        obtain ⟨y, hy, hye⟩ := ih _ _ h
        exact ⟨y, List.mem_cons_of_mem _ hy, hye⟩
      | false =>
        simp only [hp] at h
        obtain ⟨y, hy, hye⟩ := ih _ _ h
        exact ⟨y, List.mem_cons_of_mem _ hy, hye⟩

theorem remove_if_find_error_from (pred : Row → Except Exn Bool) (front rest rows : List Row)
    (e : Exn) (h : remove_if_find pred front rest = (rows, .error e)) :
    ∃ x ∈ rest, pred x = .error e := by
  induction rest generalizing front with
  | nil => simp [remove_if_find] at h
  | cons x rest ih =>
    unfold remove_if_find at h
    cases hp : pred x with
    | error e' =>
      simp only [hp, Prod.mk.injEq, Except.error.injEq] at h
      exact ⟨x, List.mem_cons_self _ _, by rw [hp, h.2]⟩
    | ok b =>
      cases b with
      | true =>
        simp only [hp] at h
        obtain ⟨y, hy, hye⟩ := remove_if_tail_error_from pred _ _ _ _ e h
        exact ⟨y, List.mem_cons_of_mem _ hy, hye⟩
      | false =>
        simp only [hp] at h
        obtain ⟨y, hy, hye⟩ := ih _ h
        exact ⟨y, List.mem_cons_of_mem _ hy, hye⟩

/-- An exception leaving `delete_where` is the one the condition threw on
some stored row. -/
theorem delete_where_error_from (t : Table) (cond : Option Condition) (e : Exn)
    (h : (t.delete_where cond).2 = .error e) :
    ∃ r ∈ t.rows, t.row_matches r cond = .error e := by
  unfold Table.delete_where remove_if at h
  cases hr : remove_if_find (fun r => t.row_matches r cond) [] t.rows with
  | mk rows res =>
    cases res with
    | error e' =>
      simp only [hr, Except.error.injEq] at h
      subst h
      exact remove_if_find_error_from _ _ _ _ _ hr
    | ok n => simp [hr] at h

theorem delete_where_defined (t : Table) (hwf : t.SchemaOK) (hinv : t.Inv)
    (cond : Option Condition) : Defined (t.delete_where cond).2 := by
  intro w h
  obtain ⟨r, hr, he⟩ := delete_where_error_from t cond _ h
  exact row_matches_defined t hwf cond r ((inv_iff t).mp hinv r hr) w he

theorem set_indices_defined (t : Table) (sets : List (String × Value)) :
    Defined (t.set_indices sets) := by
  induction sets with
  | nil => intro w h; simp [Table.set_indices] at h
  | cons p ps ih =>
    intro w h
    unfold Table.set_indices at h
    cases hi : t.col_index p.1 with
    | error e =>
      simp only [hi, Except.error.injEq] at h
      exact col_index_defined t p.1 w (by rw [hi, h])
    | ok idx =>
      simp only [hi] at h
      cases hrec : t.set_indices ps with
      | error e =>
        simp only [hrec, Except.error.injEq] at h
        exact ih w (by rw [hrec, h])
      | ok idxs => simp [hrec] at h

theorem update_cells_defined (t : Table) (hwf : t.SchemaOK) (sets : List (String × Value))
    (idxs : List Nat)
    (hidx : List.Forall₂ (fun (p : String × Value) idx => t.col_index p.1 = .ok idx) sets idxs)
    (cells : List Value) (hcells : Row.Typed t.columns ⟨cells⟩) :
    ∀ w, (t.update_cells sets idxs cells).2 ≠ some (.Undefined w) := by
  induction hidx generalizing cells with
  | nil => intro w h; simp [Table.update_cells] at h
  | @cons p idx sets idxs hp _ ih =>
    obtain ⟨c, hc, _⟩ := col_index_column t hwf p.1 idx hp
    intro w h
    unfold Table.update_cells at h
    simp only [hc] at h
    by_cases hty : p.2.type = c.type
    · have hi : idx < cells.length := by
        have := typed_length _ _ hcells
        simp only at this
        rw [this]
        exact col_index_lt t hwf _ _ hp
      simp only [ne_eq, hty, not_true_eq_false, if_false, hi, if_true] at h
      exact ih _ (set_typed _ _ _ _ _ hcells hc hty) w h
    · simp [hty] at h

theorem update_rows_defined (t : Table) (hwf : t.SchemaOK) (sets : List (String × Value))
    (idxs : List Nat)
    (hidx : List.Forall₂ (fun (p : String × Value) idx => t.col_index p.1 = .ok idx) sets idxs)
    (cond : Option Condition) (rows : List Row) (count : Nat)
    (htyped : ∀ r ∈ rows, Row.Typed t.columns r) :
    Defined (t.update_rows sets idxs cond rows count).2 := by
  induction rows generalizing count with
  | nil => intro w h; simp [Table.update_rows] at h
  | cons r rest ih =>
    have hr := htyped r (List.mem_cons_self _ _)
    have ih' := fun count => ih count (fun y hy => htyped y (List.mem_cons_of_mem _ hy))
    intro w h
    unfold Table.update_rows at h
    cases hm : t.row_matches r cond with
    | error e =>
      simp only [hm, Except.error.injEq] at h
      exact row_matches_defined t hwf cond r hr w (by rw [hm, h])
    | ok b =>
      cases b with
      | false =>
        simp only [hm] at h
        exact ih' count w h
      | true =>
        simp only [hm] at h
        cases hu : t.update_cells sets idxs r.cells with
        | mk cells oe =>
          cases oe with
          | some e =>
            simp only [hu, Except.error.injEq] at h
            exact update_cells_defined t hwf sets idxs hidx r.cells hr w (by rw [hu, h])
          | none =>
            simp only [hu] at h
            exact ih' (count + 1) w h

theorem update_where_defined (t : Table) (hwf : t.SchemaOK) (hinv : t.Inv)
    (sets : List (String × Value)) (cond : Option Condition) :
    Defined (t.update_where sets cond).2 := by
  intro w h
  unfold Table.update_where at h
  cases hi : t.set_indices sets with
  | error e =>
    simp only [hi, Except.error.injEq] at h
    exact set_indices_defined t sets w (by rw [hi, h])
  | ok idxs =>
    simp only [hi] at h
    exact update_rows_defined t hwf sets idxs (set_indices_length t sets idxs hi) cond t.rows 0
      ((inv_iff t).mp hinv) w h

/-- A table reached from a constructed one has the index map of its columns
and satisfies the invariant, so no mutating call on it leaves a vector: the
undefined-behaviour marker of the embedding is out of reach. -/
theorem reached_calls_defined (n : String) (cols : List Column) (t : Table)
    (hr : Relation.ReflTransGen Table.Step (Table.new n cols) t) :
    t.SchemaOK ∧ t.Inv ∧
    (∀ rv, Defined (t.insert_row rv).2) ∧
    (∀ cond, Defined (t.delete_where cond).2) ∧
    (∀ sets cond, Defined (t.update_where sets cond).2) := by
  obtain ⟨_, h2, h3, h4⟩ := reach_typed _ _ hr (by simp [Table.new])
  have hwf : t.SchemaOK := by
    unfold Table.SchemaOK
    rw [h3, h2]
    rfl
  have hinv : t.Inv := (inv_iff t).mpr h4
  exact ⟨hwf, hinv, fun rv => insert_row_defined t rv,
    fun cond => delete_where_defined t hwf hinv cond,
    fun sets cond => update_where_defined t hwf hinv sets cond⟩

theorem col_indices_defined (t : Table) (names : List String) :
    Defined (t.col_indices names) := by
  induction names with
  | nil => intro w h; simp [Table.col_indices] at h
  | cons c cs ih =>
    intro w h
    unfold Table.col_indices at h
    cases hi : t.col_index c with
    | error e =>
      simp only [hi, Except.error.injEq] at h
      exact col_index_defined t c w (by rw [hi, h])
    | ok idx =>
      simp only [hi] at h
      cases hrec : t.col_indices cs with
      | error e =>
        simp only [hrec, Except.error.injEq] at h
        exact ih w (by rw [hrec, h])
      | ok idxs => simp [hrec] at h

theorem project_row_total (row : Row) (proj : List Nat)
    (h : ∀ idx ∈ proj, idx < row.cells.length) : ∃ out, Table.project_row row proj = .ok out := by
  induction proj with
  | nil => exact ⟨[], rfl⟩
  | cons idx proj ih =>
    have hi : idx < row.cells.length := h idx (List.mem_cons_self _ _)
    obtain ⟨out, hout⟩ := ih (fun i hi => h i (List.mem_cons_of_mem _ hi))
    refine ⟨row.cells[idx].to_string :: out, ?_⟩
    unfold Table.project_row
    rw [List.get?_eq_getElem?, List.getElem?_eq_getElem hi]
    simp only [hout]

theorem select_rows_defined (t : Table) (hwf : t.SchemaOK) (proj : List Nat)
    (hproj : ∀ idx ∈ proj, idx < t.columns.length) (cond : Option Condition)
    (rows : List Row) (htyped : ∀ r ∈ rows, Row.Typed t.columns r) :
    Defined (t.select_rows proj cond rows) := by
  induction rows with
  | nil => intro w h; simp [Table.select_rows] at h
  | cons r rest ih =>
    have hr := htyped r (List.mem_cons_self _ _)
    have ih' := ih (fun y hy => htyped y (List.mem_cons_of_mem _ hy))
    intro w h
    unfold Table.select_rows at h
    cases hm : t.row_matches r cond with
    | error e =>
      simp only [hm, Except.error.injEq] at h
      exact row_matches_defined t hwf cond r hr w (by rw [hm, h])
    | ok b =>
      cases b with
      | false =>
        simp only [hm] at h
        exact ih' w h
      | true =>
        simp only [hm] at h
        obtain ⟨out, hout⟩ := project_row_total r proj
          (fun idx hi => by rw [typed_length _ _ hr]; exact hproj idx hi)
        simp only [hout] at h
        cases hrec : t.select_rows proj cond rest with
        | error e =>
          simp only [hrec, Except.error.injEq] at h
          exact ih' w (by rw [hrec, h])
        | ok outs => simp [hrec] at h

/-- On a table with the index map of its columns that satisfies the
invariant, `select_where` never leaves a vector. -/
theorem select_where_defined (t : Table) (hwf : t.SchemaOK) (hinv : t.Inv)
    (out_cols : List String) (star : Bool) (cond : Option Condition) :
    Defined (t.select_where out_cols star cond) := by
  intro w h
  unfold Table.select_where at h
  cases hp : t.build_projection out_cols star with
  | error e =>
    simp only [hp, Except.error.injEq] at h
    subst h
    unfold Table.build_projection at hp
    cases star with
    | true => simp at hp
    | false =>
      simp only [Bool.false_eq_true, if_false] at hp
      exact col_indices_defined t out_cols w hp
  | ok proj =>
    simp only [hp] at h
    have hproj : ∀ idx ∈ proj, idx < t.columns.length := by
      unfold Table.build_projection at hp
      cases star with
      | true =>
        simp only [if_true, Except.ok.injEq] at hp
        subst hp
        exact fun idx hi => List.mem_range.mp hi
      | false =>
        simp only [Bool.false_eq_true, if_false] at hp
        exact forall₂_names_lt t hwf out_cols proj (col_indices_forall t out_cols proj hp)
    obtain ⟨hs, hhs⟩ := select_headers_total t proj hproj
    simp only [hhs] at h
    cases hr : t.select_rows proj cond t.rows with
    | error e =>
      simp only [hr, Except.error.injEq] at h
      exact select_rows_defined t hwf proj hproj cond t.rows ((inv_iff t).mp hinv) w
        (by rw [hr, h])
    | ok rows => simp [hr] at h

theorem UMap.findIn_assignIn {β : Type} (l : List (String × β)) (k k' : String) (v : β) :
    UMap.findIn (UMap.assignIn l k v) k' =
      if k' = k then (UMap.findIn l k).map (fun _ => v) else UMap.findIn l k' := by
  induction l with
  | nil => simp [UMap.assignIn, UMap.findIn]
  | cons hd tl ih =>
    obtain ⟨a, b⟩ := hd
    unfold UMap.assignIn
    by_cases ha : a = k
    · subst ha
      by_cases hk : k' = a
      · subst hk
        simp [UMap.findIn]
      · have hk2 : ¬ a = k' := fun h => hk h.symm
        simp [UMap.findIn, hk, hk2]
    · by_cases hk : k' = k
      · subst hk
        simp [UMap.findIn, ha, ih]
      · by_cases hak : a = k'
        · subst hak
          simp [UMap.findIn, ha]
        · simp [UMap.findIn, ha, hak, ih, hk]

/-- Writing through the reference to one table leaves every other lookup as
it was, and makes the lookup of that table return what was written. -/
theorem table_assign (d : Database) (n : String) (t t1 : Table) (h : d.table n = .ok t) :
    (Database.mk (d.tables.assign n t1)).table n = .ok t1 ∧
    ∀ m, m ≠ n → (Database.mk (d.tables.assign n t1)).table m = d.table m := by
  have hf : d.tables.find n = some t := by
    unfold Database.table at h
    cases hf : d.tables.find n with
    | none => simp [hf] at h
    | some t' =>
      simp only [hf, Except.ok.injEq] at h
      rw [h]
  constructor
  · unfold Database.table UMap.find UMap.assign
    simp only
    rw [UMap.findIn_assignIn]
    unfold UMap.find at hf
    simp [hf]
  · intro m hm
    unfold Database.table UMap.find UMap.assign
    simp only
    rw [UMap.findIn_assignIn]
    simp [hm]

theorem findIn_assignIn_isSome {β : Type} (l : List (String × β)) (k k' : String) (v : β) :
    (UMap.findIn (UMap.assignIn l k v) k').isSome = (UMap.findIn l k').isSome := by
  rw [UMap.findIn_assignIn]
  by_cases h : k' = k
  · subst h
    cases UMap.findIn l k' <;> simp
  · simp [h]

theorem table_isOk_iff (d : Database) (n : String) :
    d.table n = .error (.DBError ("Unknown table: " ++ n)) ↔ d.tables.find n = none := by
  unfold Database.table
  cases d.tables.find n <;> simp

theorem table_cases (d : Database) (n : String) :
    d.table n = .error (.DBError ("Unknown table: " ++ n)) ∨ ∃ t, d.table n = .ok t := by
  unfold Database.table
  cases d.tables.find n with
  | none => left; rfl
  | some t => right; exact ⟨t, rfl⟩

theorem assign_find_none (d : Database) (k n : String) (t1 : Table) :
    (d.tables.assign k t1).find n = none ↔ d.tables.find n = none := by
  have := findIn_assignIn_isSome d.tables.entries k n t1
  unfold UMap.find UMap.assign
  simp only
  cases h1 : UMap.findIn (UMap.assignIn d.tables.entries k t1) n <;>
    cases h2 : UMap.findIn d.tables.entries n <;> simp [h1, h2] at this ⊢

theorem create_table_find_none (d : Database) (n : String) (cols : List Column) (m : String) :
    (d.create_table n cols).1.tables.find m = none ↔ (d.tables.find m = none ∧ n ≠ m) := by
  unfold Database.create_table UMap.count
  by_cases hc : (d.tables.find n).isSome = true
  · simp only [hc, if_true, ne_eq, one_ne_zero, not_false_eq_true]
    constructor
    · intro h
      refine ⟨h, ?_⟩
      intro hnm
      rw [hnm, h] at hc
      cases hc
    · intro h; exact h.1
  · simp only [hc, if_false, ne_eq, not_true_eq_false, Bool.false_eq_true, zero_ne_one,
      not_false_eq_true, if_true]
    rw [UMap.find_emplace]
    cases hm : d.tables.find m with
    | some t0 => simp
    | none =>
      by_cases hk : n = m
      · simp [hk]
      · simp [hk]

/-- Executing a statement adds the name of a CreateTable statement to the
names the database knows and changes the set of names in no other way. -/
theorem execute_find_none (d : Database) (s : Statement) (n : String) :
    (execute d s).1.tables.find n = none ↔
      (d.tables.find n = none ∧ ∀ cols, s ≠ .Create ⟨n, cols⟩) := by
  cases s with
  | Create c =>
    have hexec : (execute d (.Create c)).1 = (d.create_table c.name c.columns).1 := by
      simp only [execute]
      cases hr : d.create_table c.name c.columns with
      | mk d1 res => cases res <;> rfl
    rw [hexec, create_table_find_none]
    constructor
    · rintro ⟨h1, h2⟩
      refine ⟨h1, ?_⟩
      intro cols heq
      cases heq
      exact h2 rfl
    · rintro ⟨h1, h2⟩
      refine ⟨h1, ?_⟩
      intro heq
      exact h2 c.columns (by cases c; simp only at heq; rw [heq])
  | Insert c =>
    have hne : ∀ cols, Statement.Insert c ≠ .Create ⟨n, cols⟩ := fun _ h => by cases h
    simp only [execute]
    cases ht : d.table c.table with
    | error e => simp [hne]
    | ok t =>
      simp only
      cases hi : t.col_indices c.columns with
      | error e => simp [hne]
      | ok idxs =>
        simp only
        cases hr : insert_tuples c idxs t c.values with
        | mk t1 res =>
          cases res <;> simp [assign_find_none, hne]
  | Delete c =>
    have hne : ∀ cols, Statement.Delete c ≠ .Create ⟨n, cols⟩ := fun _ h => by cases h
    simp only [execute]
    cases ht : d.table c.table with
    | error e => simp [hne]
    | ok t =>
      simp only
      cases hr : t.delete_where c.«where» with
      | mk t1 res =>
        cases res <;> simp [assign_find_none, hne]
  | Update c =>
    have hne : ∀ cols, Statement.Update c ≠ .Create ⟨n, cols⟩ := fun _ h => by cases h
    simp only [execute]
    cases ht : d.table c.table with
    | error e => simp [hne]
    | ok t =>
      simp only
      cases hr : t.update_where c.sets c.«where» with
      | mk t1 res =>
        cases res <;> simp [assign_find_none, hne]
  | Select c =>
    have hne : ∀ cols, Statement.Select c ≠ .Create ⟨n, cols⟩ := fun _ h => by cases h
    simp only [execute]
    cases ht : d.table c.table with
    | error e => simp [hne]
    | ok t =>
      simp only
      cases hr : t.select_where c.columns c.star c.«where» <;> simp [hne]

theorem run_statements_find_none (d : Database) (stmts : List Statement) (n : String) :
    (run_statements d stmts).tables.find n = none ↔
      (d.tables.find n = none ∧ ∀ cols, Statement.Create ⟨n, cols⟩ ∉ stmts) := by
  induction stmts generalizing d with
  | nil => simp [run_statements]
  | cons s rest ih =>
    rw [run_statements, ih, execute_find_none]
    constructor
    · rintro ⟨⟨h1, h2⟩, h3⟩
      refine ⟨h1, ?_⟩
      intro cols hmem
      rcases List.mem_cons.mp hmem with h | h
      · exact h2 cols h.symm
      · exact h3 cols h
    · rintro ⟨h1, h2⟩
      exact ⟨⟨h1, fun cols h => h2 cols (by rw [h]; exact List.mem_cons_self _ _)⟩,
        fun cols h => h2 cols (List.mem_cons_of_mem _ h)⟩

theorem first_index_none (cs : List Column) (k : String) (start : Nat)
    (h : ∀ c ∈ cs, c.name ≠ k) : first_index cs k start = none := by
  induction cs generalizing start with
  | nil => rfl
  | cons c cs ih =>
    unfold first_index
    have hc : c.name ≠ k := h c (List.mem_cons_self _ _)
    simp only [hc, if_false]
    exact ih _ (fun c' hc' => h c' (List.mem_cons_of_mem _ hc'))

/-- Under `SchemaOK`, `col_index` throws `DBError` for a name that is not the
name of a column. -/
theorem col_index_unknown (t : Table) (h : t.SchemaOK) (k : String)
    (hk : ∀ c ∈ t.columns, c.name ≠ k) :
    t.col_index k = .error (.DBError ("Unknown column: " ++ k)) := by
  unfold Table.col_index
  rw [h, find_index_columns]
  simp [UMap.find, UMap.findIn, first_index_none t.columns k 0 hk]

theorem col_index_error_kind (t : Table) (k : String) (e : Exn)
    (h : t.col_index k = .error e) : e = .DBError ("Unknown column: " ++ k) := by
  unfold Table.col_index at h
  cases hf : t.name2idx.find k with
  | none => simp only [hf, Except.error.injEq] at h; exact h.symm
  | some idx => simp [hf] at h

/-- The name loop throws the `DBError` of the first name that does not
resolve. -/
theorem col_indices_unknown (t : Table) (names : List String)
    (h : ∃ name ∈ names, ∃ e, t.col_index name = .error e) :
    ∃ name ∈ names, t.col_indices names = .error (.DBError ("Unknown column: " ++ name)) := by
  induction names with
  | nil => obtain ⟨name, hn, _⟩ := h; cases hn
  | cons c cs ih =>
    unfold Table.col_indices
    cases hi : t.col_index c with
    | error e =>
      have := col_index_error_kind t c e hi
      exact ⟨c, List.mem_cons_self _ _, by simp only [this]⟩
    | ok idx =>
      simp only
      have h' : ∃ name ∈ cs, ∃ e, t.col_index name = .error e := by
        obtain ⟨name, hn, e, he⟩ := h
        rcases List.mem_cons.mp hn with rfl | hn
        · rw [hi] at he; cases he
        · exact ⟨name, hn, e, he⟩
      obtain ⟨name, hn, hname⟩ := ih h'
      exact ⟨name, List.mem_cons_of_mem _ hn, by simp only [hname]⟩

theorem set_indices_unknown (t : Table) (sets : List (String × Value))
    (h : ∃ p ∈ sets, ∃ e, t.col_index p.1 = .error e) :
    ∃ p ∈ sets, t.set_indices sets = .error (.DBError ("Unknown column: " ++ p.1)) := by
  induction sets with
  | nil => obtain ⟨p, hp, _⟩ := h; cases hp
  | cons q qs ih =>
    unfold Table.set_indices
    cases hi : t.col_index q.1 with
    | error e =>
      have := col_index_error_kind t q.1 e hi
      exact ⟨q, List.mem_cons_self _ _, by simp only [this]⟩
    | ok idx =>
      simp only
      have h' : ∃ p ∈ qs, ∃ e, t.col_index p.1 = .error e := by
        obtain ⟨p, hp, e, he⟩ := h
        rcases List.mem_cons.mp hp with rfl | hp
        · rw [hi] at he; cases he
        · exact ⟨p, hp, e, he⟩
      obtain ⟨p, hp, hpe⟩ := ih h'
      exact ⟨p, List.mem_cons_of_mem _ hp, by simp only [hpe]⟩

/-- The row buffer the tuple loop hands to `insert_row`. -/
theorem tuple_row_vals (t : Table) (hwf : t.SchemaOK) (names : List String) (idxs : List Nat)
    (hidx : List.Forall₂ (fun name idx => t.col_index name = .ok idx) names idxs)
    (tup : List Value) (hlen : tup.length = names.length) :
    ∃ rv, fill_row_vals idxs tup (List.replicate t.columns.length none) = .ok rv ∧
      rv.length = t.columns.length ∧
      ∀ j, j < t.columns.length → rv.get? j = some (t.last_named (names.zip tup) j) := by
  obtain ⟨hz, hsnd⟩ := forall₂_zip_names t names idxs hidx tup hlen
  obtain ⟨rv, h1, h2, h3⟩ := fill_row_vals_ok t (names.zip tup) idxs hz
    (List.replicate t.columns.length none)
    (fun idx hmem => by simpa using forall₂_idx_lt t hwf _ _ hz idx hmem)
  rw [hsnd] at h1
  refine ⟨rv, h1, by simpa using h2, ?_⟩
  intro j hj
  have := h3 j none (by simp [List.getElem?_replicate, hj])
  rw [this]
  cases t.last_named (names.zip tup) j <;> rfl

theorem insert_valid_tuple (t : Table) (hwf : t.SchemaOK) (names : List String)
    (idxs : List Nat)
    (hidx : List.Forall₂ (fun name idx => t.col_index name = .ok idx) names idxs)
    (tup : List Value) (hv : t.tuple_valid names tup) :
    ∃ rv, fill_row_vals idxs tup (List.replicate t.columns.length none) = .ok rv ∧
      t.insert_row rv = ({ t with rows := t.rows ++ [t.row_of_tuple names tup] }, .ok ()) := by
  obtain ⟨hlen, hty⟩ := hv
  obtain ⟨rv, h1, hrvlen, hrv⟩ := tuple_row_vals t hwf names idxs hidx tup hlen
  refine ⟨rv, h1, ?_⟩
  have hcells : Table.insert_row_cells t.columns rv = .ok (filled_cells t.columns rv) := by
    apply insert_row_cells_ok _ _ hrvlen
    intro i v c hv hc
    have hi : i < t.columns.length := (List.get?_eq_some.mp hc).1
    rw [hrv i hi] at hv
    exact hty i v c (Option.some.inj hv) hc
  unfold Table.insert_row
  simp only [ne_eq, hrvlen, not_true_eq_false, if_false, hcells]
  congr 2
  unfold Table.row_of_tuple
  congr 3
  apply List.ext_getElem?
  intro j
  by_cases hj : j < t.columns.length
  · obtain ⟨ov, ho1, ho2⟩ := filled_cells_get t.columns rv hrvlen j t.columns[j]
      (by simp [List.getElem?_eq_getElem hj])
    rw [hrv j hj] at ho1
    cases ho1
    rw [List.get?_eq_getElem?] at ho2
    rw [ho2]
    cases hl : t.last_named (names.zip tup) j <;>
      simp [List.getElem?_eq_getElem hj, List.enum, hl]
  · rw [List.getElem?_eq_none (by rw [filled_cells_length _ _ hrvlen]; omega),
      List.getElem?_eq_none (by simp; omega)]

theorem insert_ill_typed_tuple (t : Table) (hwf : t.SchemaOK) (names : List String)
    (idxs : List Nat)
    (hidx : List.Forall₂ (fun name idx => t.col_index name = .ok idx) names idxs)
    (tup : List Value) (hlen : tup.length = names.length)
    (hbad : ¬ t.tuple_valid names tup) :
    ∃ rv msg, fill_row_vals idxs tup (List.replicate t.columns.length none) = .ok rv ∧
      t.insert_row rv = (t, .error (.TypeError msg)) := by
  obtain ⟨rv, h1, hrvlen, hrv⟩ := tuple_row_vals t hwf names idxs hidx tup hlen
  have hex : ∃ j v c, t.last_named (names.zip tup) j = some v ∧ t.columns.get? j = some c ∧
      v.type ≠ c.type := by
    by_contra hno
    apply hbad
    refine ⟨hlen, ?_⟩
    intro j v c hl hc
    by_contra hne
    exact hno ⟨j, v, c, hl, hc, hne⟩
  obtain ⟨j, v, c, hl, hc, hne⟩ := hex
  have hj : j < t.columns.length := (List.get?_eq_some.mp hc).1
  obtain ⟨msg, hmsg⟩ := insert_row_cells_mismatch t.columns rv hrvlen
    ⟨j, v, c, by rw [hrv j hj, hl], hc, hne⟩
  exact ⟨rv, msg, h1, by simp [Table.insert_row, hrvlen, hmsg]⟩

theorem tuple_valid_rows (t : Table) (rows : List Row) (names : List String)
    (tup : List Value) :
    Table.tuple_valid { t with rows := rows } names tup ↔ t.tuple_valid names tup := by
  unfold Table.tuple_valid
  simp only [last_named_rows]

/-- The tuple loop of INSERT appends the rows of the valid tuples in front of
the first invalid one and stops there with its exception. -/
theorem insert_tuples_stop (s : StmtInsert) (t : Table) (hwf : t.SchemaOK) (idxs : List Nat)
    (hidx : List.Forall₂ (fun name idx => t.col_index name = .ok idx) s.columns idxs)
    (good : List (List Value)) (bad : List Value) (rest : List (List Value))
    (hgood : ∀ tup ∈ good, t.tuple_valid s.columns tup)
    (hbad : ¬ t.tuple_valid s.columns bad) (rows : List Row) :
    ∃ e, insert_tuples s idxs { t with rows := rows } (good ++ bad :: rest) =
        ({ t with rows := rows ++ good.map (t.row_of_tuple s.columns) }, .error e) ∧
      (bad.length ≠ s.columns.length →
        e = .DBError "INSERT values tuple length mismatch") ∧
      (bad.length = s.columns.length → ∃ msg, e = .TypeError msg) := by
  induction good generalizing rows with
  | nil =>
    by_cases hl : bad.length = s.columns.length
    · obtain ⟨rv, msg, h1, h2⟩ := insert_ill_typed_tuple { t with rows := rows } hwf s.columns
        idxs hidx bad hl ((tuple_valid_rows t rows _ _).not.mpr hbad)
      refine ⟨.TypeError msg, ?_, fun h => absurd hl h, fun _ => ⟨msg, rfl⟩⟩
      simp only [List.nil_append, insert_tuples, ne_eq, hl, not_true_eq_false, if_false,
        List.map_nil, List.append_nil]
      simp only at h1
      rw [h1]
      simp only
      rw [h2]
    · refine ⟨.DBError "INSERT values tuple length mismatch", ?_, fun _ => rfl,
        fun h => absurd h hl⟩
      simp [insert_tuples, hl]
  | cons tup good ih =>
    have hv := hgood tup (List.mem_cons_self _ _)
    obtain ⟨rv, h1, h2⟩ := insert_valid_tuple { t with rows := rows } hwf s.columns idxs hidx tup
      ((tuple_valid_rows t rows _ _).mpr hv)
    obtain ⟨e, he, hd, hty⟩ := ih (fun x hx => hgood x (List.mem_cons_of_mem _ hx))
      (rows ++ [t.row_of_tuple s.columns tup])
    refine ⟨e, ?_, hd, hty⟩
    rw [List.cons_append, insert_tuples]
    simp only [ne_eq, hv.1, not_true_eq_false, if_false]
    simp only at h1
    rw [h1]
    simp only
    rw [h2]
    simp only [row_of_tuple_rows]
    rw [he]
    simp

theorem mem_zip_pos {α β : Type} (as : List α) (bs : List β) (p : α × β) (h : p ∈ as.zip bs) :
    ∃ k, as.get? k = some p.1 ∧ bs.get? k = some p.2 := by
  induction as generalizing bs with
  | nil => simp at h
  | cons a as ih =>
    cases bs with
    | nil => simp at h
    | cons b bs =>
      rw [List.zip_cons_cons] at h
      rcases List.mem_cons.mp h with rfl | h
      · exact ⟨0, rfl, rfl⟩
      · obtain ⟨k, h1, h2⟩ := ih bs h
        exact ⟨k + 1, by simpa using h1, by simpa using h2⟩

theorem nodup_get_ne {α : Type} (l : List α) (hnd : l.Nodup) (k k' : Nat) (a b : α)
    (hk : l.get? k = some a) (hk' : l.get? k' = some b) (hlt : k < k') : b ≠ a := by
  intro hab
  subst hab
  rw [List.get?_eq_getElem?] at hk hk'
  have h1 : k < l.length := (List.getElem?_eq_some.mp hk).1
  have h2 : k' < l.length := (List.getElem?_eq_some.mp hk').1
  have e1 : l[k] = b := (List.getElem?_eq_some.mp hk).2
  have e2 : l[k'] = b := (List.getElem?_eq_some.mp hk').2
  have h3 : l[k] = l[k'] := e1.trans e2.symm
  have := (List.Nodup.getElem_inj_iff hnd).mp h3
  omega

/-- When no column is named twice, a tuple is valid exactly when it has one
literal per name and every literal carries the declared type of the column it
is named for. -/
theorem tuple_valid_nodup (t : Table) (hwf : t.SchemaOK) (names : List String)
    (hnd : names.Nodup) (tup : List Value) :
    t.tuple_valid names tup ↔
      (tup.length = names.length ∧ ∀ p ∈ names.zip tup, ∀ idx c,
        t.col_index p.1 = .ok idx → t.columns.get? idx = some c → p.2.type = c.type) := by
  unfold Table.tuple_valid
  constructor
  · rintro ⟨hlen, hty⟩
    refine ⟨hlen, ?_⟩
    intro p hp idx c hi hc
    obtain ⟨k, hk1, hk2⟩ := mem_zip_pos names tup p hp
    apply hty idx p.2 c _ hc
    exact last_named_zip_pos t names tup hlen k p.1 p.2 idx hk1 hk2 hi
      (fun k' name' hlt hn' hi' =>
        nodup_get_ne names hnd k k' p.1 name' hk1 hn' hlt (col_index_inj t hwf _ _ idx hi' hi))
  · rintro ⟨hlen, hty⟩
    refine ⟨hlen, ?_⟩
    intro j v c hl hc
    obtain ⟨p, hp, hp1, hp2⟩ := last_named_mem t _ j v hl
    rw [← hp2]
    exact hty p hp j c hp1 hc

theorem rest_skip_ws (tz : Tokenizer) :
    tz.skip_ws.rest = tz.rest.drop (run_length isspace tz.rest) := by
  simp only [Tokenizer.skip_ws, Tokenizer.rest, List.drop_drop]

theorem drop_succ_of_drop_cons {α : Type} (l : List α) (k : Nat) (c : α) (cs : List α)
    (h : l.drop k = c :: cs) : l.drop (k + 1) = cs := by
  have : l.drop (k + 1) = (l.drop k).drop 1 := by
    rw [List.drop_drop]
  rw [this, h]
  rfl

theorem next_symbol_shift (tz : Tokenizer) (c : Char) (cs : List Char) :
    Tokenizer.next_symbol tz c cs =
      ((Tokenizer.next_symbol ⟨"", 0⟩ c cs).1,
        { tz with i := tz.i + (Tokenizer.next_symbol ⟨"", 0⟩ c cs).2.i }) := by
  unfold Tokenizer.next_symbol
  simp only
  by_cases h1 : c = '*'
  · simp only [h1, if_true, Nat.add_zero]
  simp only [h1, if_false]
  by_cases h2 : c = ','
  · simp only [h2, if_true, Nat.add_zero]
  simp only [h2, if_false]
  by_cases h3 : c = '('
  · simp only [h3, if_true, Nat.add_zero]
  simp only [h3, if_false]
  by_cases h4 : c = ')'
  · simp only [h4, if_true, Nat.add_zero]
  simp only [h4, if_false]
  by_cases h5 : c = ';'
  · simp only [h5, if_true, Nat.add_zero]
  simp only [h5, if_false]
  by_cases h6 : c = '='
  · simp only [h6, if_true, Nat.add_zero]
  simp only [h6, if_false]
  by_cases h7 : c = '!'
  · simp only [h7, if_true]
    split <;> simp
  simp only [h7, if_false]
  by_cases h8 : c = '<'
  · simp only [h8, if_true]
    split <;> simp
  simp only [h8, if_false]
  by_cases h9 : c = '>'
  · simp only [h9, if_true]
    split <;> simp
  simp only [h9, if_false, Nat.add_zero]

/-- `next` reads only the characters from the cursor on, and moves only the
cursor. -/
theorem next_eq_lex (tz : Tokenizer) :
    tz.next = ((lex tz.rest).1, { tz with i := tz.i + (lex tz.rest).2 }) := by
  have hrest := rest_skip_ws tz
  unfold Tokenizer.next lex
  simp only
  rw [hrest]
  cases hs : tz.rest.drop (run_length isspace tz.rest) with
  | nil => simp [lex_token, Tokenizer.skip_ws]
  | cons c cs =>
    simp only [lex_token]
    by_cases hq : c = '"'
    · simp only [hq, if_true, Tokenizer.scan_string]
      have : tz.skip_ws.input.data.drop (tz.skip_ws.i + 1) = cs := by
        apply drop_succ_of_drop_cons _ _ c
        have := hrest
        rw [hs] at this
        simpa [Tokenizer.rest] using this
      rw [this]
      simp only [Tokenizer.skip_ws]
      congr 2
      omega
    · simp only [hq, if_false]
      by_cases hw : (isalpha c || c = '_' || c = '-' || isdigit c) = true
      · simp only [hw, if_true, Tokenizer.scan_ident_or_number, lex_word]
        rw [hrest, hs]
        simp only
        generalize (if (c = '-' || isdigit c) = true then number_span (c :: cs) else none) = num
        cases num <;> simp [Tokenizer.skip_ws, Nat.add_assoc]
      · simp only [hw, if_false, lex_symbol]
        rw [next_symbol_shift]
        simp [Tokenizer.skip_ws, Nat.add_assoc]

theorem char_eq_iff (a b : Char) : a = b ↔ a.toNat = b.toNat :=
  ⟨fun h => by rw [h], char_toNat_inj a b⟩

theorem isdigit_iff (c : Char) : isdigit c = true ↔ 48 ≤ c.toNat ∧ c.toNat ≤ 57 := by
  simp [isdigit]

theorem isalpha_iff (c : Char) :
    isalpha c = true ↔ (65 ≤ c.toNat ∧ c.toNat ≤ 90) ∨ (97 ≤ c.toNat ∧ c.toNat ≤ 122) := by
  simp [isalpha]

theorem isspace_iff (c : Char) :
    isspace c = true ↔ c.toNat = 32 ∨ (9 ≤ c.toNat ∧ c.toNat ≤ 13) := by
  simp [isspace]

theorem ident_char_iff (c : Char) :
    ident_char c = true ↔
      ((65 ≤ c.toNat ∧ c.toNat ≤ 90) ∨ (97 ≤ c.toNat ∧ c.toNat ≤ 122)) ∨
        (48 ≤ c.toNat ∧ c.toNat ≤ 57) ∨ c.toNat = 95 ∨ c.toNat = 46 := by
  simp only [ident_char, isalnum, Bool.or_eq_true, isalpha_iff, isdigit_iff, decide_eq_true_eq,
    char_eq_iff c '_', char_eq_iff c '.']
  have h1 : ('_' : Char).toNat = 95 := rfl
  have h2 : ('.' : Char).toNat = 46 := rfl
  rw [h1, h2]
  tauto

theorem isalpha_us_iff (c : Char) :
    isalpha_us c = true ↔
      ((65 ≤ c.toNat ∧ c.toNat ≤ 90) ∨ (97 ≤ c.toNat ∧ c.toNat ≤ 122)) ∨ c.toNat = 95 := by
  simp only [isalpha_us, Bool.or_eq_true, isalpha_iff, decide_eq_true_eq, char_eq_iff c '_']
  have h1 : ('_' : Char).toNat = 95 := rfl
  rw [h1]

theorem quote_iff (c : Char) : c = '"' ↔ c.toNat = 34 := char_eq_iff c '"'

theorem minus_iff (c : Char) : c = '-' ↔ c.toNat = 45 := char_eq_iff c '-'

theorem underscore_iff (c : Char) : c = '_' ↔ c.toNat = 95 := char_eq_iff c '_'

/-- The test at the head of `next` that sends a character to
`scan_ident_or_number`. -/
theorem word_start_iff (c : Char) :
    (isalpha c || c = '_' || c = '-' || isdigit c) = true ↔
      ((65 ≤ c.toNat ∧ c.toNat ≤ 90) ∨ (97 ≤ c.toNat ∧ c.toNat ≤ 122)) ∨ c.toNat = 95 ∨
        c.toNat = 45 ∨ (48 ≤ c.toNat ∧ c.toNat ≤ 57) := by
  simp only [Bool.or_eq_true, isalpha_iff, isdigit_iff, decide_eq_true_eq, minus_iff,
    underscore_iff]
  tauto

theorem run_length_le (p : Char → Bool) (s : List Char) : run_length p s ≤ s.length := by
  induction s with
  | nil => simp [run_length]
  | cons c cs ih =>
    simp only [run_length]
    split
    · simp only [List.length_cons]; omega
    · omega

theorem run_length_append (p : Char → Bool) (a b : List Char)
    (ha : a.all p = true) (hb : starts_with p b = false) :
    run_length p (a ++ b) = a.length := by
  induction a with
  | nil =>
    cases b with
    | nil => rfl
    | cons e r =>
      simp only [starts_with] at hb
      simp [run_length, hb]
  | cons c cs ih =>
    simp only [List.all_cons, Bool.and_eq_true] at ha
    simp [run_length, ha.1, ih ha.2]

theorem run_length_zero (p : Char → Bool) (s : List Char) (h : starts_with p s = false) :
    run_length p s = 0 := by
  have := run_length_append p [] s rfl h
  simpa using this

theorem take_run_length_all (p : Char → Bool) (s : List Char) :
    (s.take (run_length p s)).all p = true := by
  induction s with
  | nil => simp [run_length]
  | cons c cs ih =>
    simp only [run_length]
    by_cases h : p c = true
    · simp [h, ih]
    · simp [h]

theorem drop_run_length_stops (p : Char → Bool) (s : List Char) :
    starts_with p (s.drop (run_length p s)) = false := by
  induction s with
  | nil => simp [run_length, starts_with]
  | cons c cs ih =>
    simp only [run_length]
    by_cases h : p c = true
    · simp [h, ih]
    · simp [h, starts_with]

/-- White space in front of a token is skipped. -/
theorem lex_skip (ws s : List Char) (hws : ws.all isspace = true)
    (hs : starts_with isspace s = false) :
    lex (ws ++ s) = ((lex_token s).1, ws.length + (lex_token s).2) := by
  simp only [lex, run_length_append isspace ws s hws hs, List.drop_left]

/-- The number branch on a sign, digits and what ends them. -/
theorem number_span_digits (sign ds rest : List Char)
    (hsign : sign = [] ∨ sign = ['-']) (hne : ds ≠ []) (hds : ds.all isdigit = true)
    (hmax : starts_with isdigit rest = false) (hend : starts_with isalpha_us rest = false) :
    number_span (sign ++ ds ++ rest) = some (sign.length + ds.length) := by
  obtain ⟨d, ds', rfl⟩ := List.exists_cons_of_ne_nil hne
  have hd : isdigit d = true := by
    simp only [List.all_cons, Bool.and_eq_true] at hds
    exact hds.1
  have hdm : ¬ d = '-' := by
    rw [minus_iff]
    have := (isdigit_iff d).1 hd
    omega
  have hrun : run_length isdigit (d :: ds' ++ rest) = (d :: ds').length :=
    run_length_append isdigit (d :: ds') rest hds hmax
  have hdrop : (d :: ds' ++ rest).drop (d :: ds').length = rest := List.drop_left _ _
  rcases hsign with rfl | rfl
  · simp only [List.nil_append, List.cons_append, number_span, hdm, if_false, hd,
      Bool.not_true, Bool.false_eq_true]
    rw [← List.cons_append, hrun, hdrop]
    cases rest with
    | nil => simp
    | cons e r =>
      simp only [starts_with, isalpha_us] at hend
      simp [hend]
  · simp only [List.cons_append, List.nil_append, List.singleton_append, number_span,
      if_true, hd, Bool.not_true, Bool.false_eq_true, if_false]
    rw [← List.cons_append, hrun, hdrop]
    cases rest with
    | nil => simp
    | cons e r =>
      simp only [starts_with, isalpha_us] at hend
      simp [hend]

/-- A number behind the white space is lexed as one NUMBER token. -/
theorem lex_token_number (sign ds rest : List Char)
    (hsign : sign = [] ∨ sign = ['-']) (hne : ds ≠ []) (hds : ds.all isdigit = true)
    (hmax : starts_with isdigit rest = false) (hend : starts_with isalpha_us rest = false) :
    lex_token (sign ++ ds ++ rest) =
      (⟨.NUMBER, String.mk (sign ++ ds)⟩, sign.length + ds.length) := by
  have hspan := number_span_digits sign ds rest hsign hne hds hmax hend
  obtain ⟨d, ds', rfl⟩ := List.exists_cons_of_ne_nil hne
  have hd : isdigit d = true := by
    simp only [List.all_cons, Bool.and_eq_true] at hds
    exact hds.1
  have hdn := (isdigit_iff d).1 hd
  have htake : (sign ++ (d :: ds') ++ rest).take (sign.length + (d :: ds').length)
      = sign ++ (d :: ds') := by
    rw [← List.length_append]
    exact List.take_left _ _
  rcases hsign with rfl | rfl
  · have hq : ¬ d = '"' := by rw [quote_iff]; omega
    have hw : (isalpha d || d = '_' || d = '-' || isdigit d) = true := by
      rw [word_start_iff]; omega
    have hfirst : (d = '-' || isdigit d) = true := by simp [hd]
    simp only [List.nil_append, List.cons_append] at hspan htake ⊢
    simp only [lex_token, hq, if_false, hw, if_true, lex_word, hfirst, hspan, htake]
  · simp only [List.cons_append, List.nil_append, List.singleton_append] at hspan htake ⊢
    simp only [List.length_singleton, List.length_cons] at hspan htake
    simp only [List.length_nil, Nat.zero_add] at hspan htake
    simp [lex_token, lex_word, hspan]
    rw [htake]

theorem run_length_append_left (p : Char → Bool) (w rest : List Char) (e : Char)
    (r : List Char) (h : w.drop (run_length p w) = e :: r) :
    run_length p (w ++ rest) = run_length p w ∧
      (w ++ rest).drop (run_length p w) = e :: (r ++ rest) := by
  induction w with
  | nil => simp [run_length] at h
  | cons c cs ih =>
    by_cases hc : p c = true
    · simp only [run_length, hc, if_true, List.drop_succ_cons] at h
      have := ih h
      simp [run_length, hc, this.1, this.2]
    · simp only [run_length, hc, Bool.false_eq_true, if_false, List.drop_zero] at h
      simp only [List.cons.injEq] at h
      obtain ⟨rfl, rfl⟩ := h
      simp [run_length, hc]

/-- The number branch gives up on an identifier that starts with a digit. -/
theorem number_span_ident (w rest : List Char) (h : is_ident w = true)
    (hd : starts_with isdigit w = true) : number_span (w ++ rest) = none := by
  simp only [is_ident, Bool.and_eq_true] at h
  cases w with
  | nil => simp [starts_with] at hd
  | cons c cs =>
    simp only [starts_with] at hd
    have hcm : ¬ c = '-' := by
      rw [minus_iff]
      have := (isdigit_iff c).1 hd
      omega
    cases hdrop : (c :: cs).drop (run_length isdigit (c :: cs)) with
    | nil => rw [hdrop] at h; simp [starts_with] at h
    | cons e r =>
      have he : isalpha_us e = true := by
        have := h.2
        rw [hdrop] at this
        exact this
      have hrun := run_length_append_left isdigit (c :: cs) rest e r hdrop
      simp only [List.cons_append] at hrun
      simp only [List.cons_append, number_span, hcm, if_false, hd, Bool.not_true,
        Bool.false_eq_true]
      rw [hrun.1, hrun.2]
      simp only [isalpha_us] at he
      simp [he]

/-- An identifier and what ends it are lexed as one IDENT token. -/
theorem lex_token_ident (w rest : List Char) (h : is_ident w = true)
    (hstop : starts_with ident_char rest = false) :
    lex_token (w ++ rest) = (⟨.IDENT, String.mk w⟩, w.length) := by
  have hall : w.all ident_char = true := by
    simp only [is_ident, Bool.and_eq_true] at h
    exact h.1
  have hlen := run_length_append ident_char w rest hall hstop
  cases w with
  | nil => simp [is_ident, run_length, starts_with] at h
  | cons c cs =>
    have hc : ident_char c = true := by
      simp only [List.all_cons, Bool.and_eq_true] at hall
      exact hall.1
    have hcn := (ident_char_iff c).1 hc
    have hstart : isalpha_us c = true ∨ isdigit c = true := by
      by_cases hd : isdigit c = true
      · exact Or.inr hd
      · left
        simp only [is_ident, Bool.and_eq_true, run_length, hd, Bool.false_eq_true, if_false,
          List.drop_zero, starts_with] at h
        exact h.2
    have hq : ¬ c = '"' := by rw [quote_iff]; omega
    have hdot : c.toNat ≠ 46 := by
      rcases hstart with h1 | h1
      · have := (isalpha_us_iff c).1 h1; omega
      · have := (isdigit_iff c).1 h1; omega
    have hw : (isalpha c || c = '_' || c = '-' || isdigit c) = true := by
      rw [word_start_iff]; omega
    have hnum : (if (c = '-' || isdigit c) = true then number_span (c :: cs ++ rest) else none)
        = none := by
      by_cases hd : isdigit c = true
      · simp only [hd, Bool.or_true, if_true]
        exact number_span_ident (c :: cs) rest h (by simpa [starts_with] using hd)
      · have hcm : ¬ c = '-' := by
          rw [minus_iff]
          have := (isdigit_iff c).not.1 hd
          omega
        simp [hd, hcm]
    simp only [List.cons_append] at hlen hnum ⊢
    simp only [lex_token, hq, if_false, hw, if_true, lex_word, hnum, hlen]
    rw [← List.cons_append, List.take_left]

/-- A `-` with no digit behind it: the token is an IDENT with the empty text
and no character is read. -/
theorem lex_token_minus (cs : List Char) (hnd : starts_with isdigit cs = false) :
    lex_token ('-' :: cs) = (⟨.IDENT, ""⟩, 0) := by
  have hspan : number_span ('-' :: cs) = none := by
    cases cs with
    | nil => simp [number_span]
    | cons d r =>
      simp only [starts_with] at hnd
      simp [number_span, hnd]
  have hrun : run_length ident_char ('-' :: cs) = 0 := by
    simp [run_length, ident_char, isalnum, isalpha, isdigit]
  simp [lex_token, lex_word, hspan, hrun, isalpha, isdigit]

theorem not_space_of_word_start (c : Char)
    (h : (isalpha c || c = '_' || c = '-' || isdigit c) = true) : isspace c = false := by
  have h1 := (word_start_iff c).1 h
  have h2 := (isspace_iff c).not
  cases hs : isspace c with
  | false => rfl
  | true =>
    exfalso
    have := (isspace_iff c).1 hs
    omega

theorem all_ident_of_digits (ds : List Char) (h : ds.all isdigit = true) :
    ds.all ident_char = true := by
  apply List.all_eq_true.2
  intro x hx
  have hx' := List.all_eq_true.1 h x hx
  have := (isdigit_iff x).1 hx'
  apply (ident_char_iff x).2
  omega

/-- The call `next` on a tokenizer whose unread characters are white space
`ws` and then `s`, which does not start with white space. -/
theorem next_of_rest (tz : Tokenizer) (ws s : List Char) (hrest : tz.rest = ws ++ s)
    (hws : ws.all isspace = true) (hs : starts_with isspace s = false) :
    tz.next = ((lex_token s).1, { tz with i := tz.i + (ws.length + (lex_token s).2) }) := by
  rw [next_eq_lex, hrest, lex_skip ws s hws hs]

theorem scan_string_loop_le (cs : List Char) : (scan_string_loop cs).2 ≤ cs.length := by
  induction cs with
  | nil => simp [scan_string_loop]
  | cons c cs ih =>
    simp only [scan_string_loop]
    split
    · simp
    · simp only [List.length_cons]; omega

theorem scan_string_loop_no_quote (cs : List Char) : '"' ∉ (scan_string_loop cs).1 := by
  induction cs with
  | nil => simp [scan_string_loop]
  | cons c cs ih =>
    simp only [scan_string_loop]
    split
    · simp
    · rename_i hc
      simp only [List.mem_cons, not_or]
      exact ⟨fun h => hc h.symm, ih⟩

/-- A string literal with its closing quote: the loop stops behind the quote. -/
theorem scan_string_loop_closed (str rest : List Char) (h : '"' ∉ str) :
    scan_string_loop (str ++ '"' :: rest) = (str, str.length + 1) := by
  induction str with
  | nil => simp [scan_string_loop]
  | cons c cs ih =>
    simp only [List.mem_cons, not_or] at h
    have hc : ¬ c = '"' := fun e => h.1 e.symm
    simp [scan_string_loop, hc, ih h.2]

theorem number_span_bounds (s : List Char) (n : Nat) (h : number_span s = some n) :
    0 < n ∧ n ≤ s.length := by
  cases s with
  | nil => simp [number_span] at h
  | cons c cs =>
    simp only [number_span] at h
    split at h
    · simp at h
    · rename_i d r ht
      split at h
      · simp at h
      · rename_i hd
        simp only [Bool.not_eq_true, Bool.not_eq_false] at hd
        have hd' : isdigit d = true := by simpa using hd
        have hpos : 0 < run_length isdigit (d :: r) := by simp [run_length, hd']
        have hle := run_length_le isdigit (d :: r)
        have hlen : (d :: r).length ≤ (c :: cs).length := by
          rw [← ht]
          split <;> simp
        have hn : n = (if c = '-' then 1 else 0) + run_length isdigit (d :: r) := by
          rw [ht] at h
          split at h
          · simpa using h.symm
          · split at h
            · simp at h
            · simpa using h.symm
        have hsign : (if c = '-' then 1 else 0) + (d :: r).length ≤ (c :: cs).length := by
          by_cases hc : c = '-'
          · simp only [hc, if_true] at ht ⊢
            rw [← ht]
            simp only [List.length_cons]
            omega
          · simp only [hc, if_false] at ht ⊢
            rw [← ht]
            simp
        omega

/-- The `switch` of `next` never returns an IDENT, NUMBER, STRING or END
token, and reads one or two characters. -/
theorem lex_symbol_facts (c : Char) (cs : List Char) :
    (lex_symbol c cs).1.type ≠ .IDENT ∧ (lex_symbol c cs).1.type ≠ .NUMBER ∧
    (lex_symbol c cs).1.type ≠ .STRING ∧ (lex_symbol c cs).1.type ≠ .END ∧
    0 < (lex_symbol c cs).2 ∧ (lex_symbol c cs).2 ≤ (c :: cs).length := by
  have hfe : ∀ b : Bool, (match cs with | [] => false | d :: _ => decide (d = '=')) = b →
      b = true → 1 ≤ cs.length := by
    intro b hb hbt
    cases cs with
    | nil => simp at hb; rw [hb] at hbt; simp at hbt
    | cons d r => simp
  unfold lex_symbol Tokenizer.next_symbol
  simp only
  by_cases h1 : c = '*'
  · simp [h1]
  simp only [h1, if_false]
  by_cases h2 : c = ','
  · simp [h2]
  simp only [h2, if_false]
  by_cases h3 : c = '('
  · simp [h3]
  simp only [h3, if_false]
  by_cases h4 : c = ')'
  · simp [h4]
  simp only [h4, if_false]
  by_cases h5 : c = ';'
  · simp [h5]
  simp only [h5, if_false]
  by_cases h6 : c = '='
  · simp [h6]
  simp only [h6, if_false]
  by_cases h7 : c = '!'
  · simp only [h7, if_true]
    split
    · rename_i hb
      have := hfe _ rfl hb
      simp; omega
    · simp
  simp only [h7, if_false]
  by_cases h8 : c = '<'
  · simp only [h8, if_true]
    split
    · rename_i hb
      have := hfe _ rfl hb
      simp; omega
    · simp
  simp only [h8, if_false]
  by_cases h9 : c = '>'
  · simp only [h9, if_true]
    split
    · rename_i hb
      have := hfe _ rfl hb
      simp; omega
    · simp
  simp [h9]

theorem lex_word_le (s : List Char) : (lex_word s).2 ≤ s.length := by
  unfold lex_word
  simp only
  split
  · rename_i n hn
    cases s with
    | nil => simp at hn
    | cons c cs =>
      simp only at hn
      split at hn
      · exact (number_span_bounds _ _ hn).2
      · simp at hn
  · exact run_length_le _ _

theorem lex_token_le (s : List Char) : (lex_token s).2 ≤ s.length := by
  cases s with
  | nil => simp [lex_token]
  | cons c cs =>
    simp only [lex_token]
    split
    · have := scan_string_loop_le cs
      simp only [List.length_cons]
      omega
    · split
      · exact lex_word_le _
      · exact (lex_symbol_facts c cs).2.2.2.2.2

theorem lex_le (s : List Char) : (lex s).2 ≤ s.length := by
  have h1 := lex_token_le (s.drop (run_length isspace s))
  have h2 := run_length_le isspace s
  simp only [lex, List.length_drop] at h1 ⊢
  omega

/-- What `lex_word` returns: a NUMBER token over at least one character, or
the IDENT token of the longest run of identifier characters. -/
theorem lex_word_cases (s : List Char) :
    ((lex_word s).1.type = .NUMBER ∧ 0 < (lex_word s).2) ∨
    (lex_word s = (⟨.IDENT, String.mk (s.take (run_length ident_char s))⟩,
        run_length ident_char s) ∧
      (match s with
        | [] => none
        | c :: _ => if c = '-' || isdigit c then number_span s else none) = none) := by
  unfold lex_word
  simp only
  split
  · rename_i n hn
    left
    cases s with
    | nil => simp at hn
    | cons c cs =>
      simp only at hn
      split at hn
      · exact ⟨rfl, (number_span_bounds _ _ hn).1⟩
      · simp at hn
  · rename_i hn
    right
    exact ⟨rfl, hn⟩

/-- Every token but END and the IDENT with the empty text moves the cursor. -/
theorem lex_token_progress (s : List Char) (hend : (lex_token s).1.type ≠ .END)
    (hid : (lex_token s).1 ≠ ⟨.IDENT, ""⟩) : 0 < (lex_token s).2 := by
  cases s with
  | nil => simp [lex_token] at hend
  | cons c cs =>
    simp only [lex_token] at hend hid ⊢
    split
    · omega
    · rename_i hq
      simp only [hq, if_false] at hid
      split
      · rename_i hw
        simp only [hw, if_true] at hid
        rcases lex_word_cases (c :: cs) with h | h
        · exact h.2
        · rw [h.1] at hid ⊢
          simp only
          by_contra h0
          have h0' : run_length ident_char (c :: cs) = 0 := by omega
          rw [h0'] at hid
          exact hid rfl
      · exact (lex_symbol_facts c cs).2.2.2.2.1

theorem lex_progress (s : List Char) (hend : (lex s).1.type ≠ .END)
    (hid : (lex s).1 ≠ ⟨.IDENT, ""⟩) : 0 < (lex s).2 := by
  have := lex_token_progress (s.drop (run_length isspace s)) hend hid
  simp only [lex]
  omega

theorem run_length_all_append (p : Char → Bool) (a b : List Char) (ha : a.all p = true) :
    run_length p (a ++ b) = a.length + run_length p b := by
  induction a with
  | nil => simp
  | cons c cs ih =>
    simp only [List.all_cons, Bool.and_eq_true] at ha
    simp [run_length, ha.1, ih ha.2]
    omega

theorem is_ident_of_parts (ds tail : List Char) (e : Char) (hds : ds.all isdigit = true)
    (he : isalpha_us e = true) (htail : tail.all ident_char = true) :
    is_ident (ds ++ e :: tail) = true := by
  have hrl : run_length isdigit (ds ++ e :: tail) = ds.length := by
    apply run_length_append isdigit _ _ hds
    simp only [starts_with]
    have := (isalpha_us_iff e).1 he
    cases h : isdigit e with
    | false => rfl
    | true =>
      have := (isdigit_iff e).1 h
      omega
  simp only [is_ident, Bool.and_eq_true]
  constructor
  · simp only [List.all_append, Bool.and_eq_true, List.all_cons]
    refine ⟨all_ident_of_digits ds hds, ?_, htail⟩
    have := (isalpha_us_iff e).1 he
    apply (ident_char_iff e).2
    omega
  · rw [hrl, List.drop_left]
    exact he

theorem take_ident_parts (ds r : List Char) (e : Char) (hds : ds.all isdigit = true)
    (he : ident_char e = true) :
    (ds ++ e :: r).take (run_length ident_char (ds ++ e :: r)) =
      ds ++ e :: r.take (run_length ident_char r) := by
  rw [run_length_all_append _ _ _ (all_ident_of_digits _ hds)]
  simp only [run_length, he, if_true]
  rw [List.take_append, List.take_succ_cons]

/-- An IDENT token with a text is an identifier in the sense of `is_ident`. -/
theorem lex_token_ident_text (s : List Char) (hty : (lex_token s).1.type = .IDENT)
    (hne : (lex_token s).1.text ≠ "") : is_ident (lex_token s).1.text.data = true := by
  cases s with
  | nil => simp [lex_token] at hty
  | cons c cs =>
    simp only [lex_token] at hty hne ⊢
    by_cases hq : c = '"'
    · simp [hq] at hty
    simp only [hq, if_false] at hty hne ⊢
    by_cases hw : (isalpha c || c = '_' || c = '-' || isdigit c) = true
    · simp only [hw, if_true] at hty hne ⊢
      rcases lex_word_cases (c :: cs) with h | h
      · rw [h.1] at hty
        exact absurd hty (by decide)
      · obtain ⟨h1, h2⟩ := h
        rw [h1] at hne ⊢
        simp only at h2 hne ⊢
        -- the digits in front, and the letter or underscore behind them
        have hsplit : ∃ e r, (c :: cs).drop (run_length isdigit (c :: cs)) = e :: r ∧
            isalpha_us e = true := by
          by_cases hd : isdigit c = true
          · simp only [hd, Bool.or_true, if_true] at h2
            have hcm : ¬ c = '-' := by
              rw [minus_iff]
              have := (isdigit_iff c).1 hd
              omega
            simp only [number_span, hcm, if_false, hd, Bool.not_true, Bool.false_eq_true] at h2
            split at h2
            · simp at h2
            · rename_i e r he
              split at h2
              · rename_i hal
                exact ⟨e, r, he, hal⟩
              · simp at h2
          · have hcm : ¬ c = '-' := by
              intro hc
              apply hne
              have : run_length ident_char (c :: cs) = 0 := by
                rw [hc]
                simp [run_length, ident_char, isalnum, isalpha, isdigit]
              rw [this]
              rfl
            refine ⟨c, cs, by simp [run_length, hd], ?_⟩
            have h3 := (word_start_iff c).1 hw
            have h4 := (minus_iff c).not.1 hcm
            have h5 := (isdigit_iff c).not.1 hd
            apply (isalpha_us_iff c).2
            omega
        obtain ⟨e, r, hdrop, he⟩ := hsplit
        have hdec : c :: cs = (c :: cs).take (run_length isdigit (c :: cs)) ++ e :: r := by
          rw [← hdrop, List.take_append_drop]
        have hds := take_run_length_all isdigit (c :: cs)
        have heid : ident_char e = true := by
          have := (isalpha_us_iff e).1 he
          apply (ident_char_iff e).2
          omega
        have key : ∀ s : List Char, s = s.take (run_length isdigit s) ++ e :: r →
            (s.take (run_length isdigit s)).all isdigit = true →
            is_ident (s.take (run_length ident_char s)) = true := by
          intro s hs hd
          generalize s.take (run_length isdigit s) = ds at hs hd
          subst hs
          rw [take_ident_parts ds r e hd heid]
          exact is_ident_of_parts _ _ e hd he (take_run_length_all ident_char r)
        exact key _ hdec hds
    · simp only [hw, Bool.false_eq_true, if_false] at hty
      exact absurd hty (lex_symbol_facts c cs).1

/-- A STRING token holds no double quote. -/
theorem lex_token_string_text (s : List Char) (hty : (lex_token s).1.type = .STRING) :
    '"' ∉ (lex_token s).1.text.data := by
  cases s with
  | nil => simp [lex_token] at hty
  | cons c cs =>
    simp only [lex_token] at hty ⊢
    by_cases hq : c = '"'
    · simp only [hq, if_true]
      exact scan_string_loop_no_quote cs
    · simp only [hq, if_false] at hty ⊢
      by_cases hw : (isalpha c || c = '_' || c = '-' || isdigit c) = true
      · simp only [hw, if_true] at hty
        rcases lex_word_cases (c :: cs) with h | h
        · rw [h.1] at hty
          exact absurd hty (by decide)
        · rw [h.1] at hty
          simp at hty
      · simp only [hw, Bool.false_eq_true, if_false] at hty
        exact absurd hty (lex_symbol_facts c cs).2.2.1

theorem next_fst (tz : Tokenizer) : tz.next.1 = (lex tz.rest).1 := by
  rw [next_eq_lex]

theorem next_snd (tz : Tokenizer) : tz.next.2 = { tz with i := tz.i + (lex tz.rest).2 } := by
  rw [next_eq_lex]

theorem next_input (tz : Tokenizer) : tz.next.2.input = tz.input := by
  rw [next_snd]

theorem next_rest (tz : Tokenizer) : tz.next.2.rest = tz.rest.drop (lex tz.rest).2 := by
  rw [next_snd]
  simp only [Tokenizer.rest, List.drop_drop]

theorem rest_length_le (tz : Tokenizer) : tz.rest.length ≤ tz.input.length := by
  unfold Tokenizer.rest String.length
  rw [List.length_drop]
  exact Nat.sub_le _ _

theorem next_rest_le (tz : Tokenizer) : tz.next.2.rest.length ≤ tz.rest.length := by
  rw [next_rest, List.length_drop]
  omega

theorem next_progress (tz : Tokenizer) (hend : tz.next.1.type ≠ .END)
    (hid : tz.next.1 ≠ ⟨.IDENT, ""⟩) : tz.next.2.rest.length < tz.rest.length := by
  rw [next_fst] at hend hid
  have h1 := lex_progress tz.rest hend hid
  have h2 := lex_le tz.rest
  rw [next_rest, List.length_drop]
  omega

theorem next_ident_text (tz : Tokenizer) (hty : tz.next.1.type = .IDENT)
    (hne : tz.next.1.text ≠ "") : is_ident tz.next.1.text.data = true := by
  rw [next_fst] at hty hne ⊢
  exact lex_token_ident_text _ hty hne

theorem next_string_text (tz : Tokenizer) (hty : tz.next.1.type = .STRING) :
    '"' ∉ tz.next.1.text.data := by
  rw [next_fst] at hty ⊢
  exact lex_token_string_text _ hty

theorem lex_token_empty_ident (s : List Char) (h : (lex_token s).1 = ⟨.IDENT, ""⟩) :
    (lex_token s).2 = 0 := by
  by_contra h0
  have hpos : 0 < (lex_token s).2 := by omega
  cases s with
  | nil => simp [lex_token] at hpos
  | cons c cs =>
    simp only [lex_token] at h hpos
    by_cases hq : c = '"'
    · simp [hq] at h
    simp only [hq, if_false] at h hpos
    by_cases hw : (isalpha c || c = '_' || c = '-' || isdigit c) = true
    · simp only [hw, if_true] at h hpos
      rcases lex_word_cases (c :: cs) with h1 | h1
      · rw [h] at h1
        exact absurd h1.1 (by decide)
      · rw [h1.1] at h hpos
        have : (List.take (run_length ident_char (c :: cs)) (c :: cs)).length = 0 := by
          have := congrArg (fun t : Token => t.text.data) h
          simp only at this
          rw [this]
          rfl
        rw [List.length_take] at this
        simp only [List.length_cons] at this
        simp only at hpos
        omega
    · simp only [hw, Bool.false_eq_true, if_false] at h
      have := (lex_symbol_facts c cs).1
      rw [h] at this
      exact this rfl

/-- Once `next` has returned the IDENT token with the empty text, it returns it
again and again, without moving. -/
theorem next_stuck (tz : Tokenizer) (h : tz.next.1 = ⟨.IDENT, ""⟩) : Stuck tz.next.2 := by
  have hl : (lex_token (tz.rest.drop (run_length isspace tz.rest))).1 = ⟨.IDENT, ""⟩ := by
    rw [next_fst] at h
    exact h
  have h0 := lex_token_empty_ident _ hl
  have hrest : tz.next.2.rest = tz.rest.drop (run_length isspace tz.rest) := by
    rw [next_rest]
    simp only [lex, h0, Nat.add_zero]
  have hws : run_length isspace tz.next.2.rest = 0 := by
    rw [hrest]
    exact run_length_zero _ _ (drop_run_length_stops _ _)
  unfold Stuck
  rw [next_eq_lex tz.next.2]
  have hlex : lex tz.next.2.rest = (⟨.IDENT, ""⟩, 0) := by
    simp only [lex, hws, List.drop_zero, Nat.zero_add]
    rw [hrest]
    exact Prod.ext hl h0
  rw [hlex]
  rfl

theorem reads_append (a b : List Pat) (tz tzm tz' : Tokenizer) (h1 : Reads tz a tzm)
    (h2 : Reads tzm b tz') : Reads tz (a ++ b) tz' := by
  induction a generalizing tz with
  | nil =>
    simp only [Reads] at h1
    subst h1
    exact h2
  | cons p ps ih => exact ⟨h1.1, ih _ h1.2⟩

theorem reads_split (a b : List Pat) (tz tz' : Tokenizer) (h : Reads tz (a ++ b) tz') :
    ∃ tzm, Reads tz a tzm ∧ Reads tzm b tz' := by
  induction a generalizing tz with
  | nil => exact ⟨tz, rfl, h⟩
  | cons p ps ih =>
    obtain ⟨tzm, h1, h2⟩ := ih _ h.2
    exact ⟨tzm, ⟨h.1, h1⟩, h2⟩

theorem reads_input (ps : List Pat) (tz tz' : Tokenizer) (h : Reads tz ps tz') :
    tz'.input = tz.input := by
  induction ps generalizing tz with
  | nil =>
    simp only [Reads] at h
    rw [h]
  | cons p ps ih => rw [ih _ h.2, next_input]

theorem reads_stuck (ps : List Pat) (tz tz' : Tokenizer) (hs : Stuck tz)
    (h : Reads tz ps tz') : tz' = tz := by
  induction ps with
  | nil => exact h
  | cons p ps ih =>
    have h2 := h.2
    unfold Stuck at hs
    rw [hs] at h2
    exact ih h2

theorem peek_eq (tz : Tokenizer) : tz.peek = tz.next.1 := rfl

theorem expect_ident_ok (tz : Tokenizer) (kw : String) (h : tz.next.1 = ⟨.IDENT, kw⟩) :
    expect_ident tz kw = .ok tz.next.2 := by
  simp [expect_ident, h]

theorem expect_ident_any_ok (tz : Tokenizer) (w : String) (h : tz.next.1 = ⟨.IDENT, w⟩) :
    expect_ident_any tz = .ok (w, tz.next.2) := by
  simp [expect_ident_any, h]

theorem expect_ok (t : Token) (tt : TokType) (what : String) (h : t.type = tt) :
    expect t tt what = .ok () := by
  simp [expect, h]

theorem parse_literal_type (t : Token) (v : Value) (h : parse_literal t = .ok v) :
    t.type = .NUMBER ∨ t.type = .STRING := by
  unfold parse_literal at h
  by_cases h1 : t.type = .NUMBER
  · exact Or.inl h1
  · by_cases h2 : t.type = .STRING
    · exact Or.inr h2
    · simp [h1, h2] at h

theorem reads_rest_le (ps : List Pat) (tz tz' : Tokenizer) (h : Reads tz ps tz') :
    tz'.rest.length ≤ tz.rest.length := by
  induction ps generalizing tz with
  | nil =>
    simp only [Reads] at h
    rw [h]
  | cons p ps ih => exact Nat.le_trans (ih _ h.2) (next_rest_le tz)

/-- A punctuation mark moves the cursor. -/
theorem punct_progress (tz : Tokenizer) (k : Punct) (h : tz.next.1.type = k.type) :
    tz.next.2.rest.length < tz.rest.length := by
  apply next_progress
  · rw [h]; cases k <;> decide
  · intro h'
    rw [h'] at h
    cases k <;> exact absurd h (by decide)

/-- The literals of a tuple behind the first one, up to the closing parenthesis. -/
theorem tuple_loop_complete_rest (vs : List Value) :
    ∀ (fuel : Nat) (tz tz' : Tokenizer) (acc : List Value), tz.rest.length < fuel →
      Reads tz (sep_items (vs.map fun v => [Pat.lit v]) ++ [Pat.punct .RPAREN]) tz' →
      tuple_loop fuel tz acc false = some (.ok (acc ++ vs, tz')) := by
  induction vs with
  | nil =>
    intro fuel tz tz' acc hf h
    obtain ⟨f, rfl⟩ : ∃ f, fuel = f + 1 := ⟨fuel - 1, by omega⟩
    simp only [List.map_nil, sep_items, List.nil_append, Reads, Pat.matches, Punct.type] at h
    simp [tuple_loop, peek_eq, h.1, h.2]
  | cons v vs ih =>
    intro fuel tz tz' acc hf h
    obtain ⟨f, rfl⟩ : ∃ f, fuel = f + 1 := ⟨fuel - 1, by omega⟩
    simp only [List.map_cons, sep_items, List.cons_append, List.nil_append, Reads, Pat.matches,
      Punct.type] at h
    obtain ⟨hc, hl, hrest⟩ := h
    have hprog := punct_progress tz .COMMA hc
    have hle := next_rest_le tz.next.2
    have := ih f tz.next.2.next.2 tz' (acc ++ [v]) (by omega) hrest
    simp [tuple_loop, peek_eq, hc, expect_comma_unless, expect, hl, this]

/-- The literals of a tuple, from behind the opening parenthesis on. -/
theorem tuple_loop_complete (vs : List Value) (fuel : Nat) (tz tz' : Tokenizer)
    (hf : tz.rest.length + 1 < fuel)
    (h : Reads tz (commasep (vs.map fun v => [Pat.lit v]) ++ [Pat.punct .RPAREN]) tz') :
    tuple_loop fuel tz [] true = some (.ok (vs, tz')) := by
  obtain ⟨f, rfl⟩ : ∃ f, fuel = f + 1 := ⟨fuel - 1, by omega⟩
  cases vs with
  | nil =>
    simp only [List.map_nil, commasep, List.nil_append, Reads, Pat.matches, Punct.type] at h
    simp [tuple_loop, peek_eq, h.1, h.2]
  | cons v vs =>
    simp only [List.map_cons, commasep, List.cons_append, List.nil_append, Reads,
      Pat.matches] at h
    obtain ⟨hl, hrest⟩ := h
    have hty : tz.next.1.type ≠ .RPAREN := by
      rcases parse_literal_type _ _ hl with h1 | h1 <;> rw [h1] <;> decide
    have hle := next_rest_le tz
    have := tuple_loop_complete_rest vs f tz.next.2 tz' [v] (by omega) hrest
    simp [tuple_loop, peek_eq, hty, expect_comma_unless, hl, this]

theorem insert_columns_loop_complete_rest (cs : List String) :
    ∀ (fuel : Nat) (tz tz' : Tokenizer) (acc : List String), tz.rest.length < fuel →
      Reads tz (sep_items (cs.map fun c => [Pat.word c]) ++ [Pat.punct .RPAREN]) tz' →
      insert_columns_loop fuel tz acc false = some (.ok (acc ++ cs, tz')) := by
  induction cs with
  | nil =>
    intro fuel tz tz' acc hf h
    obtain ⟨f, rfl⟩ : ∃ f, fuel = f + 1 := ⟨fuel - 1, by omega⟩
    simp only [List.map_nil, sep_items, List.nil_append, Reads, Pat.matches, Punct.type] at h
    simp [insert_columns_loop, peek_eq, h.1, h.2]
  | cons c cs ih =>
    intro fuel tz tz' acc hf h
    obtain ⟨f, rfl⟩ : ∃ f, fuel = f + 1 := ⟨fuel - 1, by omega⟩
    simp only [List.map_cons, sep_items, List.cons_append, List.nil_append, Reads, Pat.matches,
      Punct.type] at h
    obtain ⟨hc, hw, hrest⟩ := h
    have hprog := punct_progress tz .COMMA hc
    have hle := next_rest_le tz.next.2
    have := ih f tz.next.2.next.2 tz' (acc ++ [c]) (by omega) hrest
    simp [insert_columns_loop, peek_eq, hc, expect_comma_unless, expect, expect_ident_any, hw,
      this]

/-- The column names of an INSERT, from behind the opening parenthesis on. -/
theorem insert_columns_loop_complete (cs : List String) (fuel : Nat) (tz tz' : Tokenizer)
    (hf : tz.rest.length + 1 < fuel)
    (h : Reads tz (commasep (cs.map fun c => [Pat.word c]) ++ [Pat.punct .RPAREN]) tz') :
    insert_columns_loop fuel tz [] true = some (.ok (cs, tz')) := by
  obtain ⟨f, rfl⟩ : ∃ f, fuel = f + 1 := ⟨fuel - 1, by omega⟩
  cases cs with
  | nil =>
    simp only [List.map_nil, commasep, List.nil_append, Reads, Pat.matches, Punct.type] at h
    simp [insert_columns_loop, peek_eq, h.1, h.2]
  | cons c cs =>
    simp only [List.map_cons, commasep, List.cons_append, List.nil_append, Reads,
      Pat.matches] at h
    obtain ⟨hw, hrest⟩ := h
    have hle := next_rest_le tz
    have := insert_columns_loop_complete_rest cs f tz.next.2 tz' [c] (by omega) hrest
    simp [insert_columns_loop, peek_eq, hw, expect_comma_unless, expect_ident_any, this]

theorem create_columns_loop_complete_rest (cs : List Column) :
    ∀ (fuel : Nat) (tz tz' : Tokenizer) (acc : List Column), tz.rest.length < fuel →
      Reads tz (sep_items (cs.map fun c => [Pat.word c.name, Pat.typ c.type]) ++
        [Pat.punct .RPAREN]) tz' →
      create_columns_loop fuel tz acc false = some (.ok (acc ++ cs, tz')) := by
  induction cs with
  | nil =>
    intro fuel tz tz' acc hf h
    obtain ⟨f, rfl⟩ : ∃ f, fuel = f + 1 := ⟨fuel - 1, by omega⟩
    simp only [List.map_nil, sep_items, List.nil_append, Reads, Pat.matches, Punct.type] at h
    simp [create_columns_loop, peek_eq, h.1, h.2]
  | cons c cs ih =>
    intro fuel tz tz' acc hf h
    obtain ⟨f, rfl⟩ : ∃ f, fuel = f + 1 := ⟨fuel - 1, by omega⟩
    simp only [List.map_cons, sep_items, List.cons_append, List.nil_append, Reads, Pat.matches,
      Punct.type] at h
    obtain ⟨hc, hw, hty, hrest⟩ := h
    have hprog := punct_progress tz .COMMA hc
    have hle := next_rest_le tz.next.2
    have hle2 := next_rest_le tz.next.2.next.2
    have := ih f tz.next.2.next.2.next.2 tz' (acc ++ [c]) (by omega) hrest
    simp [create_columns_loop, peek_eq, hc, expect_comma_unless, expect, expect_ident_any, hw,
      hty, this]

/-- The column definitions of a CREATE TABLE, from behind the opening
parenthesis on. -/
theorem create_columns_loop_complete (cs : List Column) (fuel : Nat) (tz tz' : Tokenizer)
    (hf : tz.rest.length + 1 < fuel)
    (h : Reads tz (commasep (cs.map fun c => [Pat.word c.name, Pat.typ c.type]) ++
      [Pat.punct .RPAREN]) tz') :
    create_columns_loop fuel tz [] true = some (.ok (cs, tz')) := by
  obtain ⟨f, rfl⟩ : ∃ f, fuel = f + 1 := ⟨fuel - 1, by omega⟩
  cases cs with
  | nil =>
    simp only [List.map_nil, commasep, List.nil_append, Reads, Pat.matches, Punct.type] at h
    simp [create_columns_loop, peek_eq, h.1, h.2]
  | cons c cs =>
    simp only [List.map_cons, commasep, List.cons_append, List.nil_append, Reads,
      Pat.matches] at h
    obtain ⟨hw, hty, hrest⟩ := h
    have hle := next_rest_le tz
    have hle2 := next_rest_le tz.next.2
    have := create_columns_loop_complete_rest cs f tz.next.2.next.2 tz' [c] (by omega) hrest
    simp [create_columns_loop, peek_eq, hw, expect_comma_unless, expect_ident_any, hty, this]

theorem select_columns_loop_complete (cs : List String) :
    ∀ (fuel : Nat) (tz tz' : Tokenizer) (acc : List String), tz.rest.length < fuel →
      Reads tz (sep_items (cs.map fun c => [Pat.word c])) tz' →
      tz'.peek.type ≠ .COMMA →
      select_columns_loop fuel tz acc = some (.ok (acc ++ cs, tz')) := by
  induction cs with
  | nil =>
    intro fuel tz tz' acc hf h hend
    obtain ⟨f, rfl⟩ : ∃ f, fuel = f + 1 := ⟨fuel - 1, by omega⟩
    simp only [List.map_nil, sep_items, Reads] at h
    subst h
    simp [select_columns_loop, hend]
  | cons c cs ih =>
    intro fuel tz tz' acc hf h hend
    obtain ⟨f, rfl⟩ : ∃ f, fuel = f + 1 := ⟨fuel - 1, by omega⟩
    simp only [List.map_cons, sep_items, List.cons_append, List.nil_append, Reads, Pat.matches,
      Punct.type] at h
    obtain ⟨hc, hw, hrest⟩ := h
    have hprog := punct_progress tz .COMMA hc
    have hle := next_rest_le tz.next.2
    have := ih f tz.next.2.next.2 tz' (acc ++ [c]) (by omega) hrest hend
    simp [select_columns_loop, peek_eq, hc, expect_ident_any, hw, this]

theorem digitChar_toNat (k : Nat) (h : k < 10) : (Nat.digitChar k).toNat = 48 + k := by
  have : k = 0 ∨ k = 1 ∨ k = 2 ∨ k = 3 ∨ k = 4 ∨ k = 5 ∨ k = 6 ∨ k = 7 ∨ k = 8 ∨ k = 9 := by
    omega
  rcases this with h | h | h | h | h | h | h | h | h | h <;> subst h <;> rfl

theorem digits_value_append (a : List Char) (d : Char) :
    digits_value (a ++ [d]) = digits_value a * 10 + (d.toNat - 48) := by
  simp [digits_value, List.foldl_append]

/-- The digits `Nat.toDigits` writes in front of what it is given: decimal
digits, at least one, with the value of the number. -/
theorem toDigitsCore_spec (fuel : Nat) : ∀ (n : Nat) (acc : List Char), n < fuel →
    ∃ ds : List Char, Nat.toDigitsCore 10 fuel n acc = ds ++ acc ∧ ds ≠ [] ∧
      ds.all isdigit = true ∧ digits_value ds = n := by
  induction fuel with
  | zero => intro n acc h; omega
  | succ f ih =>
    intro n acc h
    have hd : (Nat.digitChar (n % 10)).toNat = 48 + n % 10 :=
      digitChar_toNat _ (Nat.mod_lt _ (by decide))
    have hdig : isdigit (Nat.digitChar (n % 10)) = true := by
      rw [isdigit_iff, hd]
      have := Nat.mod_lt n (show 10 > 0 by decide)
      omega
    simp only [Nat.toDigitsCore]
    by_cases h0 : n / 10 = 0
    · refine ⟨[Nat.digitChar (n % 10)], by simp [h0], by simp, by simp [hdig], ?_⟩
      simp only [digits_value, List.foldl_cons, List.foldl_nil, hd]
      omega
    · have hlt : n / 10 < f := by omega
      obtain ⟨ds, h1, h2, h3, h4⟩ := ih (n / 10) (Nat.digitChar (n % 10) :: acc) hlt
      refine ⟨ds ++ [Nat.digitChar (n % 10)], by simp [h0, h1], by simp, ?_, ?_⟩
      · simp [List.all_append, h3, hdig]
      · rw [digits_value_append, h4, hd]
        omega

theorem toDigits_spec (n : Nat) :
    (Nat.toDigits 10 n) ≠ [] ∧ (Nat.toDigits 10 n).all isdigit = true ∧
      digits_value (Nat.toDigits 10 n) = n := by
  obtain ⟨ds, h1, h2, h3, h4⟩ := toDigitsCore_spec (n + 1) n [] (by omega)
  simp only [List.append_nil] at h1
  simp only [Nat.toDigits, h1]
  exact ⟨h2, h3, h4⟩

/-- The base-10 text of an integer: an optional `-` and the digits of its
absolute value. -/
theorem int_toString_data (n : Int) :
    (toString n).data =
      (if n < 0 then ['-'] else []) ++ Nat.toDigits 10 n.natAbs := by
  cases n with
  | ofNat m =>
    have : ¬ (Int.ofNat m < 0) := by simp
    simp only [this, if_false, List.nil_append, Int.natAbs_ofNat]
    rfl
  | negSucc m =>
    have : Int.negSucc m < 0 := Int.negSucc_lt_zero m
    simp only [this, if_true]
    rfl

theorem run_length_all (p : Char → Bool) (a : List Char) (ha : a.all p = true) :
    run_length p a = a.length := by
  have := run_length_all_append p a [] ha
  simpa [run_length] using this

/-- The library call `stoll` on an optional `-` and digits: the whole text is
read, and its value returned when it is in the range of `long long`. -/
theorem stoll_number (sign ds : List Char) (hsign : sign = [] ∨ sign = ['-']) (hne : ds ≠ [])
    (hds : ds.all isdigit = true) (hr : in_range (literal_value sign ds)) :
    stoll (String.mk (sign ++ ds)) = some (literal_value sign ds, (sign ++ ds).length) := by
  obtain ⟨d, ds', rfl⟩ := List.exists_cons_of_ne_nil hne
  have hd : isdigit d = true := by
    simp only [List.all_cons, Bool.and_eq_true] at hds
    exact hds.1
  have hdn := (isdigit_iff d).1 hd
  have hrl := run_length_all isdigit (d :: ds') hds
  have hpos : run_length isdigit (d :: ds') ≠ 0 := by
    rw [hrl]; simp
  obtain ⟨hr1, hr2⟩ := hr
  rcases hsign with rfl | rfl
  · have hsp : isspace d = false := not_space_of_word_start d (by simp [hd])
    have hm : ¬ d = '-' := by rw [minus_iff]; omega
    have hp : ¬ d = '+' := by rw [char_eq_iff]; have : ('+' : Char).toNat = 43 := rfl; omega
    have hws : run_length isspace (d :: ds') = 0 := by simp [run_length, hsp]
    simp only [literal_value, if_true] at hr1 hr2 ⊢
    simp only [stoll, List.nil_append, hws, List.drop_zero, hm, hp, decide_False,
      Bool.or_self, Bool.false_eq_true, if_false, hpos, hrl, List.take_length]
    have h1 : ¬ ((digits_value (d :: ds') : Int) < -9223372036854775808) := by omega
    have h2 : ¬ (9223372036854775807 < (digits_value (d :: ds') : Int)) := by omega
    simp [h1, h2]
  · have hws : run_length isspace ('-' :: d :: ds') = 0 := by
      simp [run_length, isspace]
    have hne' : ¬ (['-'] : List Char) = [] := by simp
    simp only [literal_value, hne', if_false] at hr1 hr2 ⊢
    have h1 : ¬ (-(digits_value (d :: ds') : Int) < -9223372036854775808) := by omega
    have h2 : ¬ (9223372036854775807 < -(digits_value (d :: ds') : Int)) := by omega
    simp [stoll, hws, hpos, hrl, h1, h2]
    omega

/-- An integer literal in the range of `long long` is parsed to its value. -/
theorem parse_literal_number (sign ds : List Char) (hsign : sign = [] ∨ sign = ['-'])
    (hne : ds ≠ []) (hds : ds.all isdigit = true) (hr : in_range (literal_value sign ds)) :
    parse_literal ⟨.NUMBER, String.mk (sign ++ ds)⟩ =
      .ok (Value.make_int (literal_value sign ds)) := by
  simp [parse_literal, stoll_number sign ds hsign hne hds hr, String.length]

theorem literal_value_toString (n : Int) :
    literal_value (if n < 0 then ['-'] else []) (Nat.toDigits 10 n.natAbs) = n := by
  have h3 := (toDigits_spec n.natAbs).2.2
  by_cases hn : n < 0
  · have hne' : ¬ (['-'] : List Char) = [] := by simp
    simp only [hn, if_true, literal_value, h3, hne', if_false]
    omega
  · simp only [hn, if_false, literal_value, h3, if_true]
    omega

/-- The base-10 text of an integer in the range of `long long` is parsed back
to it. -/
theorem parse_literal_toString (n : Int) (hr : in_range n) :
    parse_literal ⟨.NUMBER, toString n⟩ = .ok (Value.make_int n) := by
  obtain ⟨h1, h2, h3⟩ := toDigits_spec n.natAbs
  have hv := literal_value_toString n
  have := parse_literal_number (if n < 0 then ['-'] else []) (Nat.toDigits 10 n.natAbs)
    (by by_cases hn : n < 0 <;> simp [hn]) h1 h2 (by rw [hv]; exact hr)
  rw [hv, ← int_toString_data] at this
  exact this

theorem scan_string_loop_append (cs q : List Char) (h : '"' ∈ cs) :
    scan_string_loop (cs ++ q) = scan_string_loop cs := by
  induction cs with
  | nil => simp at h
  | cons c cs ih =>
    by_cases hc : c = '"'
    · simp [scan_string_loop, hc]
    · have h' : '"' ∈ cs := by
        rcases List.mem_cons.1 h with e | e
        · exact absurd e.symm hc
        · exact e
      simp [scan_string_loop, hc, ih h']

theorem scan_string_loop_count (cs : List Char) (h : '"' ∈ cs) :
    (cs.take (scan_string_loop cs).2).count '"' = 1 := by
  induction cs with
  | nil => simp at h
  | cons c cs ih =>
    by_cases hc : c = '"'
    · simp [scan_string_loop, hc]
    · have h' : '"' ∈ cs := by
        rcases List.mem_cons.1 h with e | e
        · exact absurd e.symm hc
        · exact e
      have hc' : ¬ (c == '"') = true := by simpa using hc
      simp [scan_string_loop, hc, ih h', List.count_cons, hc']

theorem run_length_append_delim (p : Char → Bool) (hp : p ' ' = false) (s r : List Char) :
    run_length p (s ++ ' ' :: r) = run_length p s := by
  induction s with
  | nil => simp [run_length, hp]
  | cons c cs ih =>
    by_cases hc : p c = true
    · simp [run_length, hc, ih]
    · simp [run_length, hc]

theorem count_quote_of_all (p : Char → Bool) (hp : p '"' = false) (s : List Char)
    (h : s.all p = true) : s.count '"' = 0 := by
  rw [List.count_eq_zero]
  intro hm
  have := List.all_eq_true.1 h _ hm
  rw [hp] at this
  exact absurd this (by decide)

theorem count_take_drop (s : List Char) (n : Nat) :
    s.count '"' = (s.take n).count '"' + (s.drop n).count '"' := by
  conv => lhs; rw [← List.take_append_drop n s]
  rw [List.count_append]

/-- The number branch in terms of its tail. -/
theorem number_span_eq (c : Char) (cs : List Char) :
    number_span (c :: cs) =
      number_tail (if c = '-' then 1 else 0) (if c = '-' then cs else c :: cs) := rfl

theorem number_tail_append (d : Char) (t' r : List Char) (k : Nat) :
    number_tail k (d :: t' ++ ' ' :: r) = number_tail k (d :: t') := by
  have hrl := run_length_append_delim isdigit (by decide) (d :: t') r
  simp only [List.cons_append] at hrl ⊢
  simp only [number_tail]
  rw [hrl]
  by_cases hd : isdigit d = true
  · simp only [hd, Bool.not_true, Bool.false_eq_true, if_false]
    cases hdrop : (d :: t').drop (run_length isdigit (d :: t')) with
    | nil =>
      have hlen : (d :: t').length ≤ run_length isdigit (d :: t') :=
        List.drop_eq_nil_iff.1 hdrop
      have hle := run_length_le isdigit (d :: t')
      have heq : run_length isdigit (d :: t') = (d :: t').length := by omega
      rw [← List.cons_append, heq, List.drop_left]
      simp [isalpha]
    | cons e rest =>
      have := (run_length_append_left isdigit (d :: t') (' ' :: r) e rest hdrop).2
      simp only [List.cons_append] at this
      rw [this]
  · simp [hd]

theorem number_span_append (c : Char) (cs r : List Char) :
    number_span (c :: cs ++ ' ' :: r) = number_span (c :: cs) := by
  rw [List.cons_append, number_span_eq, number_span_eq]
  by_cases hc : c = '-'
  · simp only [hc, if_true]
    cases cs with
    | nil => simp [number_tail, isdigit]
    | cons d t' => exact number_tail_append d t' r 1
  · simp only [hc, if_false]
    exact number_tail_append c cs r 0

theorem number_tail_some (k : Nat) (t : List Char) (n : Nat) (h : number_tail k t = some n) :
    n = k + run_length isdigit t := by
  cases t with
  | nil => simp [number_tail] at h
  | cons d t' =>
    simp only [number_tail] at h
    split at h
    · simp at h
    · split at h
      · simpa using h.symm
      · split at h
        · simp at h
        · simpa using h.symm

/-- A NUMBER token holds no double quote. -/
theorem number_span_count (c : Char) (cs : List Char) (n : Nat)
    (h : number_span (c :: cs) = some n) : ((c :: cs).take n).count '"' = 0 := by
  rw [number_span_eq] at h
  have hn := number_tail_some _ _ _ h
  by_cases hc : c = '-'
  · simp only [hc, if_true] at hn
    subst hc
    rw [hn, Nat.add_comm, List.take_succ_cons, List.count_cons]
    have := count_quote_of_all isdigit (by decide) _ (take_run_length_all isdigit cs)
    rw [this]
    rfl
  · simp only [hc, if_false, Nat.zero_add] at hn
    rw [hn]
    exact count_quote_of_all isdigit (by decide) _ (take_run_length_all isdigit (c :: cs))

theorem lex_word_append (c : Char) (cs r : List Char) :
    lex_word (c :: cs ++ ' ' :: r) = lex_word (c :: cs) := by
  have hns := number_span_append c cs r
  have hrl := run_length_append_delim ident_char (by decide) (c :: cs) r
  simp only [List.cons_append] at hns hrl
  simp only [lex_word, List.cons_append, hns, hrl]
  cases hnum : (if (c = '-' || isdigit c) = true then number_span (c :: cs) else none) with
  | none =>
    simp only
    have hle := run_length_le ident_char (c :: cs)
    rw [← List.cons_append, List.take_append_of_le_length hle]
  | some n =>
    simp only
    have hb : n ≤ (c :: cs).length := by
      by_cases hcond : (c = '-' || isdigit c) = true
      · rw [if_pos hcond] at hnum
        exact (number_span_bounds _ _ hnum).2
      · rw [if_neg hcond] at hnum
        simp at hnum
    rw [← List.cons_append, List.take_append_of_le_length hb]

/-- A NUMBER or IDENT token holds no double quote. -/
theorem lex_word_count (c : Char) (cs : List Char) :
    ((c :: cs).take (lex_word (c :: cs)).2).count '"' = 0 := by
  simp only [lex_word]
  cases hnum : (if (c = '-' || isdigit c) = true then number_span (c :: cs) else none) with
  | none =>
    simp only
    exact count_quote_of_all ident_char (by decide) _ (take_run_length_all ident_char (c :: cs))
  | some n =>
    simp only
    by_cases hcond : (c = '-' || isdigit c) = true
    · rw [if_pos hcond] at hnum
      exact number_span_count c cs n hnum
    · rw [if_neg hcond] at hnum
      simp at hnum

theorem lex_symbol_append (c : Char) (cs r : List Char) :
    lex_symbol c (cs ++ ' ' :: r) = lex_symbol c cs := by
  cases cs with
  | nil => simp [lex_symbol, Tokenizer.next_symbol]
  | cons d t => simp [lex_symbol, Tokenizer.next_symbol]

theorem lex_symbol_two (c : Char) (cs : List Char) :
    (lex_symbol c cs).2 = 1 ∨ ((lex_symbol c cs).2 = 2 ∧ ∃ r, cs = '=' :: r) := by
  have hfe : ∀ b : Bool, (match cs with | [] => false | d :: _ => decide (d = '=')) = b →
      b = true → ∃ r, cs = '=' :: r := by
    intro b hb hbt
    cases cs with
    | nil => simp at hb; rw [hb] at hbt; simp at hbt
    | cons d r =>
      simp only at hb
      rw [← hb] at hbt
      exact ⟨r, by simpa using hbt⟩
  unfold lex_symbol Tokenizer.next_symbol
  simp only
  by_cases h1 : c = '*'
  · simp [h1]
  simp only [h1, if_false]
  by_cases h2 : c = ','
  · simp [h2]
  simp only [h2, if_false]
  by_cases h3 : c = '('
  · simp [h3]
  simp only [h3, if_false]
  by_cases h4 : c = ')'
  · simp [h4]
  simp only [h4, if_false]
  by_cases h5 : c = ';'
  · simp [h5]
  simp only [h5, if_false]
  by_cases h6 : c = '='
  · simp [h6]
  simp only [h6, if_false]
  by_cases h7 : c = '!'
  · simp only [h7, if_true]
    split
    · rename_i hb
      exact Or.inr ⟨by simp, hfe _ rfl hb⟩
    · simp
  simp only [h7, if_false]
  by_cases h8 : c = '<'
  · simp only [h8, if_true]
    split
    · rename_i hb
      exact Or.inr ⟨by simp, hfe _ rfl hb⟩
    · simp
  simp only [h8, if_false]
  by_cases h9 : c = '>'
  · simp only [h9, if_true]
    split
    · rename_i hb
      exact Or.inr ⟨by simp, hfe _ rfl hb⟩
    · simp
  simp [h9]

theorem lex_symbol_count (c : Char) (cs : List Char) (hc : ¬ c = '"') :
    ((c :: cs).take (lex_symbol c cs).2).count '"' = 0 := by
  have hc' : ¬ (c == '"') = true := by simpa using hc
  rcases lex_symbol_two c cs with h | ⟨h, r, rfl⟩
  · rw [h]
    simp [List.count_cons, hc']
  · rw [h]
    simp [List.count_cons, hc']

/-- One token of a text and of the text with ` ;` (or anything behind a
blank) appended: the same token, unless it is a string that the text leaves
open; and the characters of the token hold an even number of double quotes. -/
theorem lex_token_sim (c : Char) (cs r : List Char) (hcl : c = '"' → '"' ∈ cs) :
    lex_token (c :: cs ++ ' ' :: r) = lex_token (c :: cs) ∧
      ((c :: cs).take (lex_token (c :: cs)).2).count '"' % 2 = 0 := by
  by_cases hq : c = '"'
  · have hmem := hcl hq
    subst hq
    constructor
    · simp [lex_token, scan_string_loop_append cs (' ' :: r) hmem]
    · have := scan_string_loop_count cs hmem
      simp only [lex_token, if_true]
      rw [Nat.add_comm, List.take_succ_cons, List.count_cons, this]
      rfl
  · by_cases hw : (isalpha c || c = '_' || c = '-' || isdigit c) = true
    · have h1 := lex_word_append c cs r
      have h2 := lex_word_count c cs
      simp only [List.cons_append] at h1
      simp only [lex_token, List.cons_append, hq, if_false, hw, if_true, h1, h2]
      simp
    · have h1 := lex_symbol_append c cs r
      have h2 := lex_symbol_count c cs hq
      simp only [lex_token, List.cons_append, hq, if_false, hw, Bool.false_eq_true, h1, h2]
      simp

theorem lex_token_ne_end (c : Char) (cs : List Char) : (lex_token (c :: cs)).1.type ≠ .END := by
  simp only [lex_token]
  split
  · simp
  · split
    · rcases lex_word_cases (c :: cs) with h | h
      · rw [h.1]; decide
      · rw [h.1]; simp
    · exact (lex_symbol_facts c cs).2.2.2.1

/-- The token `next` returns is END only when nothing but white space is left. -/
theorem lex_end_iff (s : List Char) :
    (lex s).1.type = .END ↔ s.drop (run_length isspace s) = [] := by
  simp only [lex]
  cases h : s.drop (run_length isspace s) with
  | nil => simp [lex_token]
  | cons c cs =>
    simp only [reduceCtorEq, iff_false]
    exact lex_token_ne_end c cs

/-- One call of `next` on a text with balanced quotes and on the text with
` ;` (or anything behind a blank) appended, when the text has a token left. -/
theorem lex_sim (s r : List Char) (hb : quotes_balanced s) (hne : (lex s).1.type ≠ .END) :
    lex (s ++ ' ' :: r) = lex s ∧ quotes_balanced (s.drop (lex s).2) := by
  cases hd : s.drop (run_length isspace s) with
  | nil => exact absurd ((lex_end_iff s).2 hd) hne
  | cons c cs =>
    have hrl := run_length_append_left isspace s (' ' :: r) c cs hd
    have hws : (s.take (run_length isspace s)).count '"' = 0 :=
      count_quote_of_all isspace (by decide) _ (take_run_length_all isspace s)
    have hsplit := count_take_drop s (run_length isspace s)
    rw [hws, hd, Nat.zero_add] at hsplit
    have hcl : c = '"' → '"' ∈ cs := by
      intro hc
      by_contra hmem
      have h0 : cs.count '"' = 0 := List.count_eq_zero.2 hmem
      unfold quotes_balanced at hb
      rw [hsplit, hc, List.count_cons, h0] at hb
      simp at hb
    obtain ⟨h1, h2⟩ := lex_token_sim c cs r hcl
    constructor
    · simp only [lex, hrl.1, hrl.2, hd]
      rw [← List.cons_append, h1]
    · simp only [lex, hd]
      unfold quotes_balanced at hb ⊢
      rw [← List.drop_drop, hd]
      have hsplit2 := count_take_drop (c :: cs) (lex_token (c :: cs)).2
      omega

/-- At the end of a text, `next` on the text with ` ;` appended returns the
semicolon. -/
theorem lex_end (s : List Char) (hend : (lex s).1.type = .END) :
    lex (s ++ [' ', ';']) = (⟨.SEMICOLON, ";"⟩, s.length + 2) := by
  have hd := (lex_end_iff s).1 hend
  have hlen : run_length isspace s = s.length := by
    have h1 := List.drop_eq_nil_iff.1 hd
    have h2 := run_length_le isspace s
    omega
  have hall : s.all isspace = true := by
    have := take_run_length_all isspace s
    rw [hlen, List.take_length] at this
    exact this
  have hr : run_length isspace (s ++ [' ', ';']) = s.length + 1 := by
    rw [run_length_all_append _ _ _ hall]
    rfl
  simp only [lex, hr]
  have hdrop : (s ++ [' ', ';']).drop (s.length + 1) = [';'] := by
    rw [← List.drop_drop, List.drop_left]
    rfl
  rw [hdrop]
  rfl

theorem scan_string_loop_open (str : List Char) (h : '"' ∉ str) :
    scan_string_loop str = (str, str.length) := by
  induction str with
  | nil => rfl
  | cons c cs ih =>
    simp only [List.mem_cons, not_or] at h
    have hc : ¬ c = '"' := fun e => h.1 e.symm
    simp [scan_string_loop, hc, ih h.2]

theorem quote_not_space : starts_with isspace ('"' :: s) = false := by
  simp [starts_with, isspace]

/-- The call `next` in front of white space and a closed string literal. -/
theorem next_string_closed (tz : Tokenizer) (ws str tail : List Char)
    (hws : ws.all isspace = true) (hq : '"' ∉ str)
    (hrest : tz.rest = ws ++ '"' :: (str ++ '"' :: tail)) :
    tz.next = (⟨.STRING, String.mk str⟩, { tz with i := tz.i + (ws.length + (1 + (str.length + 1))) }) := by
  rw [next_of_rest tz ws _ hrest hws quote_not_space]
  simp [lex_token, scan_string_loop_closed str tail hq]

/-- The call `next` in front of white space and a string literal that is not
closed. -/
theorem next_string_open (tz : Tokenizer) (ws str : List Char)
    (hws : ws.all isspace = true) (hq : '"' ∉ str)
    (hrest : tz.rest = ws ++ '"' :: str) :
    tz.next = (⟨.STRING, String.mk str⟩, { tz with i := tz.i + (ws.length + (1 + str.length)) }) := by
  rw [next_of_rest tz ws _ hrest hws quote_not_space]
  simp [lex_token, scan_string_loop_open str hq]

theorem rest_shift (tz : Tokenizer) (k : Nat) :
    Tokenizer.rest { tz with i := tz.i + k } = tz.rest.drop k := by
  simp [Tokenizer.rest, List.drop_drop, Nat.add_comm]

theorem after_stuck (tz : Tokenizer) (h : Stuck tz) (k : Nat) : tz.after k = tz := by
  induction k with
  | zero => rfl
  | succ k ih =>
    unfold Stuck at h
    simp only [Tokenizer.after, h]
    exact ih

/-- The empty IDENT token is returned in front of a `-` only. -/
theorem lex_token_empty_ident_minus (s : List Char) (h : (lex_token s).1 = ⟨.IDENT, ""⟩) :
    starts_with (fun c => c = '-') s = true := by
  cases s with
  | nil => simp [lex_token] at h
  | cons c cs =>
    simp only [lex_token] at h
    by_cases hq : c = '"'
    · simp [hq] at h
    simp only [hq, if_false] at h
    by_cases hw : (isalpha c || c = '_' || c = '-' || isdigit c) = true
    · simp only [hw, if_true] at h
      rcases lex_word_cases (c :: cs) with h1 | h1
      · rw [h] at h1
        exact absurd h1.1 (by decide)
      · rw [h1.1] at h
        have hlen : (List.take (run_length ident_char (c :: cs)) (c :: cs)).length = 0 := by
          have := congrArg (fun t : Token => t.text.data) h
          simp only at this
          rw [this]
          rfl
        rw [List.length_take] at hlen
        simp only [List.length_cons] at hlen
        have hz : run_length ident_char (c :: cs) = 0 := by omega
        have hic : ident_char c = false := by
          by_contra hc
          simp only [Bool.not_eq_false] at hc
          simp [run_length, hc] at hz
        have h1 := (word_start_iff c).1 hw
        have h2 : ¬ _ := fun x => (Bool.eq_false_iff.1 hic) ((ident_char_iff c).2 x)
        simp only [starts_with, decide_eq_true_eq, minus_iff]
        omega
    · simp only [hw, Bool.false_eq_true, if_false] at h
      have := (lex_symbol_facts c cs).1
      rw [h] at this
      exact absurd rfl this

/-- Behind the END token comes the END token. -/
theorem next_end_again (tz : Tokenizer) (h : tz.next.1.type = .END) :
    tz.next.2.next.1.type = .END := by
  rw [next_fst] at h
  have hd := (lex_end_iff _).1 h
  have h0 : (lex tz.rest).2 = run_length isspace tz.rest := by
    simp [lex, hd, lex_token]
  have hr : tz.next.2.rest = [] := by
    rw [next_rest, h0, hd]
  rw [next_fst, hr]
  rfl

theorem after_end (tz : Tokenizer) (h : tz.next.1.type = .END) (k : Nat) :
    (tz.after k).next.1.type = .END := by
  induction k generalizing tz with
  | zero => exact h
  | succ k ih => exact ih _ (next_end_again tz h)

theorem next_cursor (tz : Tokenizer) : tz.next.2.i = tz.i + (lex tz.rest).2 := by
  rw [next_snd]

/-- Within as many calls as there are unread characters, `next` returns END or
the empty IDENT token. -/
theorem after_bound (n : Nat) (tz : Tokenizer) (hn : tz.rest.length ≤ n) :
    ∃ k, k ≤ n ∧ ((tz.after k).next.1.type = .END ∨ (tz.after k).next.1 = ⟨.IDENT, ""⟩) := by
  induction n generalizing tz with
  | zero =>
    refine ⟨0, Nat.le_refl _, Or.inl ?_⟩
    have : tz.rest = [] := List.length_eq_zero.1 (Nat.le_zero.1 hn)
    show tz.next.1.type = .END
    rw [next_fst, this]
    rfl
  | succ n ih =>
    by_cases hend : tz.next.1.type = .END
    · exact ⟨0, Nat.zero_le _, Or.inl hend⟩
    by_cases hid : tz.next.1 = ⟨.IDENT, ""⟩
    · exact ⟨0, Nat.zero_le _, Or.inr hid⟩
    have hp := next_progress tz hend hid
    obtain ⟨k, hk, h⟩ := ih tz.next.2 (by omega)
    exact ⟨k + 1, by omega, h⟩

theorem first_index_iff (cs : List Column) (k : String) (start i : Nat) :
    first_index cs k start = some i ↔
      start ≤ i ∧ (∃ c, cs.get? (i - start) = some c ∧ c.name = k) ∧
        ∀ j c, j < i - start → cs.get? j = some c → c.name ≠ k := by
  induction cs generalizing start with
  | nil => simp [first_index]
  | cons c cs ih =>
    unfold first_index
    by_cases hc : c.name = k
    · simp only [hc, if_true, Option.some.injEq]
      constructor
      · intro h
        subst h
        simp [hc]
      · rintro ⟨h1, _, h3⟩
        by_contra hne
        have hpos : 0 < i - start := by omega
        exact h3 0 c hpos (by simp) hc
    · simp only [hc, if_false]
      rw [ih]
      constructor
      · rintro ⟨h1, ⟨c', h2, h2'⟩, h3⟩
        have e : i - start = (i - (start + 1)) + 1 := by omega
        refine ⟨by omega, ⟨c', ?_, h2'⟩, ?_⟩
        · rw [e]
          simpa using h2
        · intro j d hj hd
          cases j with
          | zero =>
            simp only [List.get?_cons_zero, Option.some.injEq] at hd
            subst hd
            exact hc
          | succ j =>
            simp only [List.get?_cons_succ] at hd
            exact h3 j d (by omega) hd
      · rintro ⟨h1, ⟨c', h2, h2'⟩, h3⟩
        have hne : i ≠ start := by
          intro e
          subst e
          simp only [Nat.sub_self, List.get?_cons_zero, Option.some.injEq] at h2
          subst h2
          exact hc h2'
        have e : i - start = (i - (start + 1)) + 1 := by omega
        rw [e] at h2
        refine ⟨by omega, ⟨c', by simpa using h2, h2'⟩, ?_⟩
        intro j d hj hd
        exact h3 (j + 1) d (by omega) (by simpa using hd)

/-- Under `SchemaOK`, `col_index` is the search for the first column of that
name. -/
theorem col_index_first (t : Table) (h : t.SchemaOK) (k : String) :
    t.col_index k =
      match first_index t.columns k 0 with
      | some i => .ok i
      | none => .error (.DBError ("Unknown column: " ++ k)) := by
  unfold Table.col_index
  rw [h, find_index_columns]
  cases hf : first_index t.columns k 0 <;> simp [UMap.find, UMap.findIn, hf]

theorem new_schema_ok (n : String) (cols : List Column) : (Table.new n cols).SchemaOK := rfl

theorem col_index_ok_iff (t : Table) (h : t.SchemaOK) (k : String) (i : Nat) :
    t.col_index k = .ok i ↔
      (∃ c, t.columns.get? i = some c ∧ c.name = k) ∧
        ∀ j c, j < i → t.columns.get? j = some c → c.name ≠ k := by
  rw [col_index_first t h]
  cases hf : first_index t.columns k 0 with
  | none =>
    simp only [reduceCtorEq, false_iff]
    intro hh
    have := (first_index_iff t.columns k 0 i).2 ⟨Nat.zero_le _, by simpa using hh.1, by simpa using hh.2⟩
    rw [hf] at this
    cases this
  | some i' =>
    simp only [Except.ok.injEq]
    constructor
    · intro e
      subst e
      have := (first_index_iff t.columns k 0 i').1 hf
      exact ⟨by simpa using this.2.1, by simpa using this.2.2⟩
    · intro hh
      have := (first_index_iff t.columns k 0 i).2 ⟨Nat.zero_le _, by simpa using hh.1, by simpa using hh.2⟩
      rw [hf] at this
      exact Option.some.inj this

theorem col_index_error_iff (t : Table) (h : t.SchemaOK) (k : String) :
    (∃ e, t.col_index k = .error e) ↔ ∀ c ∈ t.columns, c.name ≠ k := by
  constructor
  · rintro ⟨e, he⟩ c hc hk
    obtain ⟨idx, hi⟩ := col_index_exists t h k ⟨c, hc, hk⟩
    rw [hi] at he
    cases he
  · intro hh
    exact ⟨_, col_index_unknown t h k hh⟩

theorem col_indices_mem (t : Table) (names : List String) (idxs : List Nat)
    (h : t.col_indices names = .ok idxs) (j : Nat) (hj : j ∈ idxs) :
    ∃ name ∈ names, t.col_index name = .ok j := by
  induction names generalizing idxs with
  | nil =>
    simp only [Table.col_indices, Except.ok.injEq] at h
    subst h
    cases hj
  | cons c cs ih =>
    unfold Table.col_indices at h
    cases hi : t.col_index c with
    | error e => simp [hi] at h
    | ok idx =>
      simp only [hi] at h
      cases hr : t.col_indices cs with
      | error e => simp [hr] at h
      | ok rest =>
        simp only [hr, Except.ok.injEq] at h
        subst h
        rcases List.mem_cons.mp hj with rfl | hj
        · exact ⟨c, List.mem_cons_self _ _, hi⟩
        · obtain ⟨name, hn, hname⟩ := ih rest hr hj
          exact ⟨name, List.mem_cons_of_mem _ hn, hname⟩

theorem set_indices_mem (t : Table) (sets : List (String × Value)) (idxs : List Nat)
    (h : t.set_indices sets = .ok idxs) (j : Nat) (hj : j ∈ idxs) :
    ∃ p ∈ sets, t.col_index p.1 = .ok j := by
  have hf := set_indices_length t sets idxs h
  clear h
  induction hf with
  | nil => cases hj
  | @cons p idx sets idxs hp _ ih =>
    rcases List.mem_cons.mp hj with rfl | hj
    · exact ⟨p, List.mem_cons_self _ _, hp⟩
    · obtain ⟨q, hq, hq'⟩ := ih hj
      exact ⟨q, List.mem_cons_of_mem _ hq, hq'⟩

/-- Under `SchemaOK`, the headers of a projection that was built are read. -/
theorem headers_of_projection (t : Table) (hwf : t.SchemaOK) (out_cols : List String)
    (star : Bool) (proj : List Nat) (hp : t.build_projection out_cols star = .ok proj) :
    ∃ hs, t.select_headers proj = .ok hs := by
  apply select_headers_total
  unfold Table.build_projection at hp
  cases star with
  | true =>
    simp only [if_true, Except.ok.injEq] at hp
    subst hp
    exact fun idx hi => List.mem_range.mp hi
  | false =>
    simp only [Bool.false_eq_true, if_false] at hp
    exact forall₂_names_lt t hwf out_cols proj (col_indices_forall t out_cols proj hp)

theorem matches_unknown (t : Table) (hwf : t.SchemaOK) (c : Condition)
    (hc : ∀ col ∈ t.columns, col.name ≠ c.column) (r : Row) :
    t.row_matches r (some c) = .error (.DBError ("Unknown column: " ++ c.column)) := by
  simp only [Table.row_matches, Condition.matches, col_index_unknown t hwf c.column hc]

/-- The assignment loop that throws on a row typed like the columns: it has
stopped at the first assignment whose tag is not the type of its column, and
only cells that the assignments in front of that one name can differ. -/
theorem update_cells_fail (t : Table) (hwf : t.SchemaOK) (sets : List (String × Value))
    (idxs : List Nat)
    (hidx : List.Forall₂ (fun (p : String × Value) idx => t.col_index p.1 = .ok idx) sets idxs)
    (cells cells1 : List Value) (e : Exn) (hcells : Row.Typed t.columns ⟨cells⟩)
    (h : t.update_cells sets idxs cells = (cells1, some e)) :
    ∃ sets1 p sets2, sets = sets1 ++ p :: sets2 ∧
      (∀ q ∈ sets1, ∃ idx c, t.col_index q.1 = .ok idx ∧ t.columns.get? idx = some c ∧
        q.2.type = c.type) ∧
      (∃ idx c, t.col_index p.1 = .ok idx ∧ t.columns.get? idx = some c ∧ p.2.type ≠ c.type ∧
        e = .TypeError ("Type mismatch in UPDATE for column " ++ c.name)) ∧
      cells1.length = cells.length ∧
      ∀ j, cells1.get? j ≠ cells.get? j → ∃ q ∈ sets1, t.col_index q.1 = .ok j := by
  induction hidx generalizing cells with
  | nil => simp [Table.update_cells] at h
  | @cons p idx sets idxs hp _ ih =>
    obtain ⟨c, hc, _⟩ := col_index_column t hwf p.1 idx hp
    unfold Table.update_cells at h
    simp only [hc] at h
    by_cases hty : p.2.type = c.type
    · have hi : idx < cells.length := by
        have := typed_length _ _ hcells
        simp only at this
        rw [this]
        exact col_index_lt t hwf _ _ hp
      simp only [ne_eq, hty, not_true_eq_false, if_false, hi, if_true] at h
      obtain ⟨sets1, q, sets2, h1, h2, h3, h4, h5⟩ :=
        ih (cells.set idx p.2) (set_typed _ _ _ _ _ hcells hc hty) h
      refine ⟨p :: sets1, q, sets2, by rw [h1]; rfl, ?_, h3, by simpa using h4, ?_⟩
      · intro x hx
        rcases List.mem_cons.mp hx with rfl | hx
        · exact ⟨idx, c, hp, hc, hty⟩
        · exact h2 x hx
      · intro j hj
        by_cases hji : j = idx
        · subst hji
          exact ⟨p, List.mem_cons_self _ _, hp⟩
        · have hset : (cells.set idx p.2).get? j = cells.get? j := by
            simp only [List.get?_eq_getElem?]
            exact List.getElem?_set_ne (fun x => hji x.symm)
          obtain ⟨x, hx, hx'⟩ := h5 j (by rw [hset]; exact hj)
          exact ⟨x, List.mem_cons_of_mem _ hx, hx'⟩
    · simp only [ne_eq, hty, not_false_eq_true, if_true, Prod.mk.injEq, Option.some.injEq] at h
      obtain ⟨rfl, rfl⟩ := h
      exact ⟨[], p, sets, rfl, by simp, ⟨idx, c, hp, hc, hty, rfl⟩, rfl, by simp⟩

/-- The row loop that throws, on rows typed like the columns: either the
condition threw on a row and no row has changed, or the assignment loop threw
on the first row that satisfies the condition, and no other row has changed. -/
theorem update_rows_fail (t : Table) (hwf : t.SchemaOK) (sets : List (String × Value))
    (idxs : List Nat)
    (hidx : List.Forall₂ (fun (p : String × Value) idx => t.col_index p.1 = .ok idx) sets idxs)
    (cond : Option Condition) (rows rows1 : List Row) (count : Nat) (e : Exn)
    (htyped : ∀ r ∈ rows, Row.Typed t.columns r)
    (h : t.update_rows sets idxs cond rows count = (rows1, .error e)) :
    ((∃ r ∈ rows, t.row_matches r cond = .error e) ∧ rows1 = rows) ∨
    ∃ pre r post cells1, rows = pre ++ r :: post ∧ rows1 = pre ++ ⟨cells1⟩ :: post ∧
      (∀ x ∈ pre, t.satisfies cond x = false) ∧ t.satisfies cond r = true ∧
      t.update_cells sets idxs r.cells = (cells1, some e) := by
  induction rows generalizing rows1 count with
  | nil => simp [Table.update_rows] at h
  | cons r rest ih =>
    have hr := htyped r (List.mem_cons_self _ _)
    have hrest : ∀ y ∈ rest, Row.Typed t.columns y :=
      fun y hy => htyped y (List.mem_cons_of_mem _ hy)
    unfold Table.update_rows at h
    cases hm : t.row_matches r cond with
    | error e' =>
      simp only [hm, Prod.mk.injEq, Except.error.injEq] at h
      obtain ⟨rfl, rfl⟩ := h
      exact Or.inl ⟨⟨r, List.mem_cons_self _ _, hm⟩, rfl⟩
    | ok b =>
      cases b with
      | false =>
        cases hrec : t.update_rows sets idxs cond rest count with
        | mk o1 o2 =>
        simp only [hm, hrec, Prod.mk.injEq] at h
        obtain ⟨h1, h2⟩ := h
        subst h2
        rcases ih o1 count hrest hrec with
          ⟨⟨x, hx, hx'⟩, hsame⟩ | ⟨pre, x, post, cells1, e1, e2, e3, e4, e5⟩
        · left
          refine ⟨⟨x, List.mem_cons_of_mem _ hx, hx'⟩, ?_⟩
          rw [hsame] at h1
          exact h1.symm
        · right
          rw [e2] at h1
          refine ⟨r :: pre, x, post, cells1, by rw [e1]; rfl, h1.symm, ?_, e4, e5⟩
          intro y hy
          rcases List.mem_cons.mp hy with rfl | hy
          · simp [Table.satisfies, hm]
          · exact e3 y hy
      | true =>
        simp only [hm] at h
        cases hu : t.update_cells sets idxs r.cells with
        | mk cells oe =>
          cases oe with
          | none =>
            exfalso
            cases hrec : t.update_rows sets idxs cond rest (count + 1) with
            | mk o1 o2 =>
            simp only [hu, hrec, Prod.mk.injEq] at h
            obtain ⟨h1, h2⟩ := h
            subst h2
            rcases ih o1 (count + 1) hrest hrec with
              ⟨⟨x, hx, hx'⟩, _⟩ | ⟨pre, x, post, cells1, e1, e2, e3, e4, e5⟩
            · rcases row_matches_uniform t cond with ⟨e0, hall⟩ | hall
              · rw [hall r hr] at hm
                cases hm
              · obtain ⟨b, hb⟩ := hall x (hrest x hx)
                rw [hb] at hx'
                cases hx'
            · have hxt : Row.Typed t.columns ⟨x.cells⟩ :=
                hrest x (by rw [e1]; exact List.mem_append_right _ (List.mem_cons_self _ _))
              obtain ⟨sets1, p, sets2, hs, _, ⟨idx, c, hp1, hp2, hp3, _⟩, _, _⟩ :=
                update_cells_fail t hwf sets idxs hidx x.cells cells1 e hxt e5
              obtain ⟨c1, msg, hbad⟩ := update_cells_type_error t hwf sets idxs hidx r.cells hr
                ⟨p, by rw [hs]; exact List.mem_append_right _ (List.mem_cons_self _ _),
                  idx, c, hp1, hp2, hp3⟩
              rw [hu] at hbad
              cases hbad
          | some e' =>
            simp only [hu, Prod.mk.injEq, Except.error.injEq] at h
            obtain ⟨rfl, rfl⟩ := h
            exact Or.inr ⟨[], r, rest, cells, rfl, rfl, by simp, by simp [Table.satisfies, hm], hu⟩

theorem next_i_le (tz : Tokenizer) : tz.i ≤ tz.next.2.i := by
  rw [next_cursor]
  omega

theorem next_i_lt (tz : Tokenizer) (hend : tz.next.1.type ≠ .END)
    (hid : tz.next.1 ≠ ⟨.IDENT, ""⟩) : tz.i < tz.next.2.i := by
  rw [next_cursor]
  rw [next_fst] at hend hid
  have := lex_progress tz.rest hend hid
  omega

/-- A token that is no IDENT and not END moves the cursor. -/
theorem next_i_lt_of_type (tz : Tokenizer) (hend : tz.next.1.type ≠ .END)
    (hid : tz.next.1.type ≠ .IDENT) : tz.i < tz.next.2.i :=
  next_i_lt tz hend (fun h => hid (by rw [h]))

theorem reads_i_le (ps : List Pat) (tz tz' : Tokenizer) (h : Reads tz ps tz') :
    tz.i ≤ tz'.i := by
  induction ps generalizing tz with
  | nil =>
    simp only [Reads] at h
    rw [h]
  | cons p ps ih => exact Nat.le_trans (next_i_le tz) (ih _ h.2)

theorem ncr_append (a b : List Pat) (pc : Bool) :
    no_comma_rparen pc (a ++ b) = (no_comma_rparen pc a && no_comma_rparen (ends_comma pc a) b) := by
  induction a generalizing pc with
  | nil => simp [no_comma_rparen, ends_comma]
  | cons p ps ih => simp [no_comma_rparen, ends_comma, ih, Bool.and_assoc]

theorem ends_comma_append (a b : List Pat) (pc : Bool) :
    ends_comma pc (a ++ b) = ends_comma (ends_comma pc a) b := by
  induction a generalizing pc with
  | nil => simp [ends_comma]
  | cons p ps ih => simp [ends_comma, ih]

theorem sep_items_ncr (items : List (List Pat))
    (h : ∀ it ∈ items, ∀ pc, no_comma_rparen pc it = true ∧ ends_comma pc it = false) :
    ∀ pc, no_comma_rparen pc (sep_items items) = true ∧
      ends_comma pc (sep_items items) = (items.isEmpty && pc) := by
  induction items with
  | nil => intro pc; simp [sep_items, no_comma_rparen, ends_comma]
  | cons it rest ih =>
    intro pc
    have hit := h it (List.mem_cons_self _ _)
    have hrest := ih (fun x hx => h x (List.mem_cons_of_mem _ hx))
    simp [sep_items, no_comma_rparen, ends_comma, Pat.is_punct, ncr_append,
      ends_comma_append, (hit _).1, (hit _).2, (hrest _).1, (hrest _).2]

theorem commasep_ncr (items : List (List Pat))
    (h : ∀ it ∈ items, ∀ pc, no_comma_rparen pc it = true ∧ ends_comma pc it = false) :
    ∀ pc, no_comma_rparen pc (commasep items) = true ∧
      ends_comma pc (commasep items) = (items.isEmpty && pc) := by
  cases items with
  | nil => intro pc; simp [commasep, no_comma_rparen, ends_comma]
  | cons it rest =>
    intro pc
    have hit := h it (List.mem_cons_self _ _)
    have hrest := sep_items_ncr rest (fun x hx => h x (List.mem_cons_of_mem _ hx))
    simp [commasep, ncr_append, ends_comma_append, (hit _).1, (hit _).2, (hrest _).1,
      (hrest _).2]

theorem tuple_pat_ncr (tup : List Value) (pc : Bool) :
    no_comma_rparen pc (tuple_pat tup) = true ∧ ends_comma pc (tuple_pat tup) = false := by
  have h := commasep_ncr (tup.map fun v => [Pat.lit v]) (by
    intro it hit pc
    obtain ⟨v, _, rfl⟩ := List.mem_map.1 hit
    simp [no_comma_rparen, ends_comma, Pat.is_punct])
  simp [tuple_pat, no_comma_rparen, ends_comma, Pat.is_punct, ncr_append,
    ends_comma_append, (h _).1, (h _).2]

theorem where_pat_ncr (w : Option Condition) :
    no_comma_rparen false (where_pat w) = true := by
  cases w <;> simp [where_pat, no_comma_rparen, Pat.is_punct]

/-- In the grammar of a statement no comma has a closing parenthesis right
behind it. -/
theorem pattern_ncr (S : Statement) : no_comma_rparen false S.pattern = true := by
  cases S with
  | Create s =>
    have h := commasep_ncr (s.columns.map fun c => [Pat.word c.name, Pat.typ c.type]) (by
      intro it hit pc
      obtain ⟨v, _, rfl⟩ := List.mem_map.1 hit
      simp [no_comma_rparen, ends_comma, Pat.is_punct])
    simp [Statement.pattern, no_comma_rparen, ends_comma, Pat.is_punct, ncr_append,
      ends_comma_append, (h _).1, (h _).2]
  | Insert s =>
    have h := commasep_ncr (s.columns.map fun c => [Pat.word c]) (by
      intro it hit pc
      obtain ⟨v, _, rfl⟩ := List.mem_map.1 hit
      simp [no_comma_rparen, ends_comma, Pat.is_punct])
    have h2 := commasep_ncr (s.values.map tuple_pat) (by
      intro it hit pc
      obtain ⟨v, _, rfl⟩ := List.mem_map.1 hit
      exact tuple_pat_ncr v pc)
    simp [Statement.pattern, no_comma_rparen, ends_comma, Pat.is_punct, ncr_append,
      ends_comma_append, (h _).1, (h _).2, (h2 _).1]
  | Delete s =>
    simp [Statement.pattern, no_comma_rparen, ends_comma, Pat.is_punct, where_pat_ncr]
  | Update s =>
    have h := commasep_ncr (s.sets.map fun a => [Pat.word a.1, Pat.punct .EQUAL, Pat.lit a.2]) (by
      intro it hit pc
      obtain ⟨v, _, rfl⟩ := List.mem_map.1 hit
      simp [no_comma_rparen, ends_comma, Pat.is_punct])
    simp [Statement.pattern, no_comma_rparen, ends_comma, Pat.is_punct, ncr_append,
      ends_comma_append, (h _).1, (h _).2, where_pat_ncr]
  | Select s =>
    have h := commasep_ncr (s.columns.map fun c => [Pat.word c]) (by
      intro it hit pc
      obtain ⟨v, _, rfl⟩ := List.mem_map.1 hit
      simp [no_comma_rparen, ends_comma, Pat.is_punct])
    cases hs : s.star <;>
    simp [Statement.pattern, hs, no_comma_rparen, ends_comma, Pat.is_punct, ncr_append,
      ends_comma_append, (h _).1, (h _).2, where_pat_ncr]

theorem ncr_get (ps : List Pat) (pc : Bool) (h : no_comma_rparen pc ps = true) (k : Nat)
    (p q : Pat) (hp : ps.get? k = some p) (hq : ps.get? (k + 1) = some q)
    (hpc : p.is_punct .COMMA = true) : q.is_punct .RPAREN = false := by
  induction ps generalizing pc k with
  | nil => simp at hp
  | cons a ps ih =>
    simp only [no_comma_rparen, Bool.and_eq_true] at h
    cases k with
    | zero =>
      simp only [List.get?_cons_zero, Option.some.injEq] at hp
      subst hp
      simp only [Nat.zero_add, List.get?_cons_succ] at hq
      cases ps with
      | nil => simp at hq
      | cons b ps =>
        simp only [List.get?_cons_zero, Option.some.injEq] at hq
        subst hq
        have := h.2
        simp only [no_comma_rparen, hpc, Bool.true_and, Bool.and_eq_true,
          Bool.not_eq_true'] at this
        exact this.1
    | succ k =>
      simp only [List.get?_cons_succ] at hp hq
      exact ih _ h.2 k hp hq

theorem matches_punct (p : Pat) (t : Token) (k : Punct) (hk : k = .COMMA ∨ k = .RPAREN)
    (hm : p.matches t) (ht : t.type = k.type) : p.is_punct k = true := by
  cases p with
  | word w =>
    simp only [Pat.matches] at hm
    rw [hm] at ht
    cases k <;> cases ht
  | punct j =>
    simp only [Pat.matches] at hm
    rw [hm] at ht
    cases j <;> cases k <;> first | rfl | cases ht
  | lit v =>
    simp only [Pat.matches] at hm
    rcases parse_literal_type _ _ hm with h | h <;> rw [h] at ht <;> cases k <;> cases ht
  | op o =>
    simp only [Pat.matches, parse_op] at hm
    rcases hk with rfl | rfl <;> simp only [Punct.type] at ht <;> rw [ht] at hm <;> cases hm
  | typ d =>
    simp only [Pat.matches, parse_type] at hm
    by_cases hi : t.type = .IDENT
    · rw [hi] at ht
      cases k <;> cases ht
    · simp [hi] at hm

theorem after_add (tz : Tokenizer) (a b : Nat) : tz.after (a + b) = (tz.after a).after b := by
  induction a generalizing tz with
  | zero => simp [Tokenizer.after]
  | succ a ih =>
    have : a + 1 + b = (a + b) + 1 := by omega
    rw [this]
    simp only [Tokenizer.after]
    exact ih _

/-- The tokens that meet a pattern, by their position. -/
theorem reads_after (ps : List Pat) (tz tz' : Tokenizer) (h : Reads tz ps tz') :
    (∀ k p, ps.get? k = some p → p.matches (tz.after k).next.1) ∧ tz' = tz.after ps.length := by
  induction ps generalizing tz with
  | nil =>
    simp only [Reads] at h
    exact ⟨fun k p hp => by simp at hp, h⟩
  | cons q ps ih =>
    obtain ⟨h1, h2⟩ := ih _ h.2
    refine ⟨?_, ?_⟩
    · intro k p hp
      cases k with
      | zero =>
        simp only [List.get?_cons_zero, Option.some.injEq] at hp
        subst hp
        exact h.1
      | succ k =>
        simp only [List.get?_cons_succ] at hp
        exact h1 k p hp
    · rw [h2]
      rfl

/-- Behind the tokens of a statement that `parse_statement` returns, every
token is END. -/
theorem after_pattern_end (text : String) (S : Statement) (tzf : Tokenizer)
    (hr : Reads (Tokenizer.init text) S.pattern tzf) (heof : tzf.eof = true) (k : Nat)
    (hk : S.pattern.length ≤ k) : ((Tokenizer.init text).after k).next.1.type = .END := by
  obtain ⟨_, h2⟩ := reads_after _ _ _ hr
  have : k = S.pattern.length + (k - S.pattern.length) := by omega
  rw [this, after_add, ← h2]
  apply after_end
  simpa [Tokenizer.eof, Tokenizer.peek] using heof

theorem csv_escape_loop_eq (out v : List Char) :
    csv_escape_loop out v = out ++ v.flatMap (fun c => if c = '"' then ['"', '"'] else [c]) := by
  induction v generalizing out with
  | nil => simp [csv_escape_loop]
  | cons c cs ih =>
    simp only [csv_escape_loop, ih, List.flatMap_cons]
    by_cases hc : c = '"' <;> simp [hc]

theorem csv_fields_loop_succ (i : Nat) (fields : List String) (oss : String) :
    (csv_fields_loop (i + 1) fields oss).data
      = oss.data ++ (fields.flatMap fun f => ',' :: (csv_escape f).data) := by
  induction fields generalizing i oss with
  | nil => simp [csv_fields_loop]
  | cons f fs ih =>
    simp only [csv_fields_loop, ih, List.flatMap_cons]
    simp

theorem intercalate_comma (x : List Char) (xs : List (List Char)) :
    [','].intercalate (x :: xs) = x ++ xs.flatMap fun f => ',' :: f := by
  induction xs generalizing x with
  | nil => simp [List.intercalate]
  | cons y ys ih =>
    have := ih y
    simp only [List.intercalate, List.intersperse, List.flatten] at this ⊢
    simp [this]

theorem csv_fields_loop_zero (fields : List String) (oss : String) :
    (csv_fields_loop 0 fields oss ++ "\n").data = oss.data ++ csv_line fields := by
  cases fields with
  | nil => simp [csv_fields_loop, csv_line, List.intercalate]
  | cons f fs =>
    simp only [csv_fields_loop, csv_line, List.map_cons, intercalate_comma]
    rw [String.data_append, csv_fields_loop_succ]
    simp [List.flatMap_map]

theorem csv_rows_loop_eq (rows : List (List String)) (oss : String) :
    (csv_rows_loop rows oss).data = oss.data ++ (rows.map csv_line).flatten := by
  induction rows generalizing oss with
  | nil => simp [csv_rows_loop]
  | cons row rows ih =>
    simp only [csv_rows_loop, ih, csv_fields_loop_zero, List.map_cons, List.flatten_cons,
      List.append_assoc]

theorem widen_row_eq (ws : List Nat) (row : List String) (h : row.length = ws.length) :
    widen_row ws row = .ok (List.zipWith (fun w (c : String) => max w c.length) ws row) := by
  induction ws generalizing row with
  | nil =>
    cases row with
    | nil => rfl
    | cons c cs => simp at h
  | cons w ws ih =>
    cases row with
    | nil => simp at h
    | cons c cs =>
      simp only [List.length_cons, Nat.add_right_cancel_iff] at h
      simp [widen_row, ih cs h]

theorem widths_loop_eq (ws : List Nat) (rows : List (List String))
    (h : ∀ row ∈ rows, row.length = ws.length) :
    ∃ out, widths_loop ws rows = .ok out ∧ out.length = ws.length ∧
      ∀ i, out.getD i 0 = (rows.map fun row => (row.getD i "").length).foldl max (ws.getD i 0) := by
  induction rows generalizing ws with
  | nil => exact ⟨ws, rfl, rfl, fun i => rfl⟩
  | cons row rows ih =>
    have hrow := h row (List.mem_cons_self _ _)
    have hlen : (List.zipWith (fun w (c : String) => max w c.length) ws row).length = ws.length := by
      simp [hrow]
    obtain ⟨out, h1, h2, h3⟩ := ih (List.zipWith (fun w (c : String) => max w c.length) ws row)
      (fun r hr => by rw [hlen]; exact h r (List.mem_cons_of_mem _ hr))
    refine ⟨out, by simp [widths_loop, widen_row_eq ws row hrow, h1], by rw [h2, hlen], ?_⟩
    intro i
    rw [h3 i]
    simp only [List.map_cons, List.foldl_cons]
    congr 1
    by_cases hi : i < ws.length
    · have hi' : i < row.length := by omega
      simp [List.getD_eq_getElem?_getD, List.getElem?_zipWith, List.getElem?_eq_getElem hi,
        List.getElem?_eq_getElem hi']
    · have hi' : ¬ i < row.length := by omega
      simp [List.getD_eq_getElem?_getD, List.getElem?_zipWith,
        List.getElem?_eq_none (Nat.le_of_not_lt hi), List.getElem?_eq_none (Nat.le_of_not_lt hi')]

theorem widths_of_rectangular (r : QueryResult) (h : r.rectangular) :
    widths_loop (r.headers.map String.length) r.rows = .ok (column_widths r) := by
  obtain ⟨out, h1, h2, h3⟩ := widths_loop_eq (r.headers.map String.length) r.rows
    (fun row hr => by rw [List.length_map]; exact h row hr)
  rw [h1]
  congr 1
  apply List.ext_getElem
  · simp [column_widths, h2]
  · intro i hi1 hi2
    have := h3 i
    rw [List.getD_eq_getElem?_getD, List.getElem?_eq_getElem hi1] at this
    simp only [Option.getD_some] at this
    rw [this]
    simp only [column_widths, List.getElem_map, List.getElem_range, column_width]
    congr 1
    rw [List.length_map] at h2
    have hi : i < r.headers.length := by omega
    simp [List.getD_eq_getElem?_getD, List.getElem?_eq_getElem hi]

theorem foldl_max_lt (l : List Nat) (a B : Nat) (ha : a < B) (hl : ∀ x ∈ l, x < B) :
    l.foldl max a < B := by
  induction l generalizing a with
  | nil => exact ha
  | cons x xs ih =>
    simp only [List.foldl_cons]
    apply ih
    · have := hl x (List.mem_cons_self _ _)
      omega
    · exact fun y hy => hl y (List.mem_cons_of_mem _ hy)

theorem le_foldl_max (l : List Nat) (a : Nat) :
    a ≤ l.foldl max a ∧ ∀ x ∈ l, x ≤ l.foldl max a := by
  induction l generalizing a with
  | nil => simp
  | cons x xs ih =>
    simp only [List.foldl_cons]
    obtain ⟨h1, h2⟩ := ih (max a x)
    refine ⟨by omega, ?_⟩
    intro y hy
    rcases List.mem_cons.mp hy with rfl | hy
    · omega
    · exact h2 y hy

theorem getD_length_lt (l : List String) (i B : Nat) (hB : 0 < B) (h : ∀ c ∈ l, c.length < B) :
    (l.getD i "").length < B := by
  rw [List.getD_eq_getElem?_getD]
  cases hi : l[i]? with
  | none => simpa using hB
  | some c => exact h c (List.getElem?_mem hi)

theorem column_width_lt (r : QueryResult) (h : r.sizes_fit) (i : Nat) :
    column_width r i < 2 ^ 31 := by
  apply foldl_max_lt
  · exact getD_length_lt _ _ _ (by norm_num) h.1
  · intro x hx
    obtain ⟨row, hrow, rfl⟩ := List.mem_map.1 hx
    exact getD_length_lt _ _ _ (by norm_num) (h.2 row hrow)

theorem column_widths_lt (r : QueryResult) (h : r.sizes_fit) :
    ∀ w ∈ column_widths r, w < 2 ^ 31 := by
  intro w hw
  obtain ⟨i, _, rfl⟩ := List.mem_map.1 hw
  exact column_width_lt r h i

theorem size_to_int_small (n : Nat) (h : n < 2 ^ 31) : size_to_int n = n := by
  have h1 : n % 2 ^ 32 = n := Nat.mod_eq_of_lt (by omega)
  simp only [size_to_int, h1, h, if_true]

theorem put_left_small (w : Nat) (c : String) (h : w < 2 ^ 31) :
    (put_left (size_to_int w) c).data = padded w c := by
  simp only [put_left, size_to_int_small w h, padded, String.data_append]
  congr 2
  omega

theorem ascii_line_loop_data (ws : List Nat) (s : String) :
    (ascii_line_loop ws s).data
      = s.data ++ ws.flatMap fun w => List.replicate (w + 2) '-' ++ ['+'] := by
  induction ws generalizing s with
  | nil => simp [ascii_line_loop]
  | cons w ws ih =>
    simp only [ascii_line_loop, ih, List.flatMap_cons]
    simp

theorem ascii_line_data (ws : List Nat) : (ascii_line ws).data = border_line ws := by
  simp [ascii_line, ascii_line_loop_data, border_line]

theorem fmt_row_loop_data (ws : List Nat) (cells : List String) (s : String)
    (hw : ∀ w ∈ ws, w < 2 ^ 31) (hlen : cells.length ≤ ws.length) :
    ∃ out, fmt_row_loop ws cells s = .ok out ∧
      out.data = s.data ++
        (List.zipWith (fun w c => ' ' :: padded w c ++ [' ', '|']) ws cells).flatten := by
  induction ws generalizing cells s with
  | nil =>
    cases cells with
    | nil => exact ⟨s, rfl, by simp⟩
    | cons c cs => simp at hlen
  | cons w ws ih =>
    cases cells with
    | nil => exact ⟨s, rfl, by simp⟩
    | cons c cs =>
      simp only [List.length_cons, Nat.add_le_add_iff_right] at hlen
      obtain ⟨out, h1, h2⟩ := ih cs (s ++ " " ++ put_left (size_to_int w) c ++ " |")
        (fun x hx => hw x (List.mem_cons_of_mem _ hx)) hlen
      refine ⟨out, by simp only [fmt_row_loop, h1], ?_⟩
      rw [h2]
      simp only [String.data_append, put_left_small w c (hw w (List.mem_cons_self _ _)),
        List.zipWith_cons_cons, List.flatten_cons]
      simp

theorem fmt_row_data (ws : List Nat) (cells : List String)
    (hw : ∀ w ∈ ws, w < 2 ^ 31) (hlen : cells.length ≤ ws.length) :
    ∃ out, fmt_row ws cells = .ok out ∧ out.data = content_line ws cells := by
  obtain ⟨out, h1, h2⟩ := fmt_row_loop_data ws cells "|" hw hlen
  exact ⟨out, h1, by rw [h2]; rfl⟩

theorem ascii_rows_loop_data (ws : List Nat) (rows : List (List String)) (oss : String)
    (hw : ∀ w ∈ ws, w < 2 ^ 31) (hlen : ∀ row ∈ rows, row.length ≤ ws.length) :
    ∃ out, ascii_rows_loop ws rows oss = .ok out ∧
      out.data = oss.data ++ rows.flatMap fun row => content_line ws row ++ ['\n'] := by
  induction rows generalizing oss with
  | nil => exact ⟨oss, rfl, by simp⟩
  | cons row rows ih =>
    obtain ⟨l, hl1, hl2⟩ := fmt_row_data ws row hw (hlen row (List.mem_cons_self _ _))
    obtain ⟨out, h1, h2⟩ := ih (oss ++ l ++ "\n")
      (fun x hx => hlen x (List.mem_cons_of_mem _ hx))
    refine ⟨out, by simp only [ascii_rows_loop, hl1, h1], ?_⟩
    rw [h2]
    simp only [String.data_append, hl2, List.flatMap_cons]
    simp

/-- The table of a rectangular result whose sizes fit. -/
theorem to_ascii_table (r : QueryResult) (hrect : r.rectangular) (hfit : r.sizes_fit) :
    ∃ out, to_ascii r = .ok out ∧ out.data = ascii_table r := by
  have hw := column_widths_lt r hfit
  have hn : (column_widths r).length = r.headers.length := by simp [column_widths]
  obtain ⟨h, hh1, hh2⟩ := fmt_row_data (column_widths r) r.headers hw (by omega)
  obtain ⟨oss, ho1, ho2⟩ := ascii_rows_loop_data (column_widths r) r.rows
    (ascii_line (column_widths r) ++ "\n" ++ h ++ "\n" ++ ascii_line (column_widths r) ++ "\n")
    hw (fun row hr => by rw [hn, hrect row hr])
  refine ⟨oss ++ ascii_line (column_widths r) ++ "\n",
    by simp only [to_ascii, widths_of_rectangular r hrect, hh1, ho1], ?_⟩
  simp only [String.data_append, ho2, hh2, ascii_line_data, ascii_table]
  simp

theorem foldl_max_attained (l : List Nat) (a : Nat) :
    l.foldl max a = a ∨ l.foldl max a ∈ l := by
  induction l generalizing a with
  | nil => exact Or.inl rfl
  | cons x xs ih =>
    simp only [List.foldl_cons, List.mem_cons]
    rcases ih (max a x) with h | h
    · rw [h]
      rcases Nat.le_total a x with hax | hax
      · rw [Nat.max_eq_right hax]
        exact Or.inr (Or.inl rfl)
      · rw [Nat.max_eq_left hax]
        exact Or.inl rfl
    · exact Or.inr (Or.inr h)

theorem border_line_length (ws : List Nat) :
    (border_line ws).length = 1 + (ws.map fun w => w + 3).sum := by
  induction ws with
  | nil => rfl
  | cons w ws ih =>
    simp only [border_line, List.flatMap_cons, List.length_cons, List.length_append,
      List.length_replicate, List.map_cons, List.sum_cons] at ih ⊢
    simp only [List.length_nil] at ih ⊢
    omega

theorem padded_length (w : Nat) (c : String) (h : c.length ≤ w) : (padded w c).length = w := by
  simp only [padded, List.length_append, List.length_replicate]
  show c.length + (w - c.length) = w
  omega

theorem content_line_length (ws : List Nat) (cells : List String)
    (h : List.Forall₂ (fun w (c : String) => c.length ≤ w) ws cells) :
    (content_line ws cells).length = 1 + (ws.map fun w => w + 3).sum := by
  induction h with
  | nil => rfl
  | @cons w c ws cells hwc _ ih =>
    simp only [content_line, List.zipWith_cons_cons, List.flatten_cons, List.length_cons,
      List.length_append, padded_length w c hwc, List.map_cons, List.sum_cons] at ih ⊢
    simp only [List.length_nil] at ih ⊢
    omega

theorem cell_le_column_width (r : QueryResult) (i : Nat) :
    (r.headers.getD i "").length ≤ column_width r i ∧
    ∀ row ∈ r.rows, (row.getD i "").length ≤ column_width r i := by
  obtain ⟨h1, h2⟩ := le_foldl_max (r.rows.map fun row => (row.getD i "").length)
    (r.headers.getD i "").length
  exact ⟨h1, fun row hrow => h2 _ (List.mem_map.2 ⟨row, hrow, rfl⟩)⟩

theorem cells_fit_widths (r : QueryResult) (cells : List String)
    (hlen : cells.length = r.headers.length)
    (h : ∀ i, (cells.getD i "").length ≤ column_width r i) :
    List.Forall₂ (fun w (c : String) => c.length ≤ w) (column_widths r) cells := by
  rw [List.forall₂_iff_get]
  refine ⟨by simp [column_widths, hlen], ?_⟩
  intro i h1 h2
  have := h i
  rw [List.getD_eq_getElem?_getD, List.getElem?_eq_getElem h2] at this
  simpa [column_widths] using this

theorem size_to_int_wraps : size_to_int (2 ^ 31) = -(2 ^ 31) := by
  simp only [size_to_int]
  norm_num

theorem put_left_negative (w : Nat) (c : String) : put_left (-(w : Int)) c = c := by
  have : (-(w : Int) - (c.length : Int)).toNat = 0 := by
    apply Int.toNat_eq_zero.2
    have : (0 : Int) ≤ c.length := Int.ofNat_nonneg _
    omega
  simp only [put_left, this, List.replicate_zero]
  apply String.ext
  simp

/-- A cell in a column of width `2^31` is written without blanks behind it. -/
theorem fmt_row_wide (c : String) : fmt_row [2 ^ 31] [c] = .ok ("| " ++ c ++ " |") := by
  have e0 : ("|" : String) ++ " " = "| " := by decide
  have e1 : (-(2 ^ 31) : Int) = -((2 ^ 31 : Nat) : Int) := by norm_num
  simp only [fmt_row, fmt_row_loop, size_to_int_wraps, e0]
  rw [e1, put_left_negative]

theorem widths_long_cell (big : String) (hbig : big.length = 2 ^ 31) :
    widths_loop (["h"].map String.length) [[big], ["b"]] = .ok [2 ^ 31] := by
  have hh : ("h" : String).length = 1 := rfl
  have hb : ("b" : String).length = 1 := rfl
  simp only [List.map_cons, List.map_nil, hh, widths_loop, widen_row, hbig, hb]
  norm_num

/-- The output of `to_ascii` on two rows, from the widths and the lines. -/
theorem to_ascii_two_rows (headers row1 row2 : List String) (ws : List Nat)
    (h l1 l2 : String) (hw : widths_loop (headers.map String.length) [row1, row2] = .ok ws)
    (hh : fmt_row ws headers = .ok h) (h1 : fmt_row ws row1 = .ok l1)
    (h2 : fmt_row ws row2 = .ok l2) :
    to_ascii ⟨headers, [row1, row2]⟩
      = .ok (ascii_line ws ++ "\n" ++ h ++ "\n" ++ ascii_line ws ++ "\n" ++ l1 ++ "\n" ++
          l2 ++ "\n" ++ ascii_line ws ++ "\n") := by
  simp only [to_ascii, hw, hh, ascii_rows_loop, h1, h2]

/-- The output of `to_ascii` on one header, a cell of `2^31` characters and a
cell of one character. -/
theorem to_ascii_long_cell (big : String) (hbig : big.length = 2 ^ 31) :
    to_ascii ⟨["h"], [[big], ["b"]]⟩
      = .ok (ascii_line [2 ^ 31] ++ "\n" ++ ("| " ++ "h" ++ " |") ++ "\n" ++
          ascii_line [2 ^ 31] ++ "\n" ++ ("| " ++ big ++ " |") ++ "\n" ++
          ("| " ++ "b" ++ " |") ++ "\n" ++ ascii_line [2 ^ 31] ++ "\n") :=
  to_ascii_two_rows ["h"] [big] ["b"] [2 ^ 31] _ _ _ (widths_long_cell big hbig)
    (fmt_row_wide "h") (fmt_row_wide big) (fmt_row_wide "b")

theorem widths_of_long_cell (big : String) (hbig : big.length = 2 ^ 31) :
    column_widths ⟨["h"], [[big], ["b"]]⟩ = [2 ^ 31] := by
  have hh : ("h" : String).length = 1 := rfl
  have hb : ("b" : String).length = 1 := rfl
  simp [column_widths, column_width, List.range_succ, hbig, hh, hb]

theorem long_cell_length : long_cell.length = 2 ^ 31 := by
  show (List.replicate (2 ^ 31) 'a').length = 2 ^ 31
  exact List.length_replicate _ _

theorem drop_run_length (p : Char → Bool) (s : List Char) :
    s.drop (run_length p s) = s.dropWhile p := by
  induction s with
  | nil => rfl
  | cons c cs ih =>
    by_cases h : p c = true
    · simp [run_length, h, ih, List.dropWhile]
    · simp [run_length, h, List.dropWhile]

theorem trim_end_loop_eq (a : List Char) (b : List Char) :
    ∀ c : List Char, trim_end_loop (a ++ b ++ c) a.length (a.length + b.length)
      = a.length + (b.reverse.dropWhile isspace).length := by
  induction b using List.reverseRecOn with
  | nil =>
    intro c
    simp only [List.length_nil, Nat.add_zero, List.reverse_nil, List.dropWhile_nil]
    cases h : a.length with
    | zero => rfl
    | succ n => simp [trim_end_loop]
  | append_singleton b x ih =>
    intro c
    have hlen : a.length + (b ++ [x]).length = (a.length + b.length) + 1 := by simp; omega
    have hget : (a ++ (b ++ [x]) ++ c).get? (a.length + b.length) = some x := by
      have e : a ++ (b ++ [x]) ++ c = (a ++ b) ++ x :: c := by simp
      rw [e, List.get?_eq_getElem?, List.getElem?_append_right (by simp)]
      simp
    rw [hlen]
    simp only [trim_end_loop, hget]
    have hgt : a.length + b.length + 1 > a.length := by omega
    by_cases hx : isspace x = true
    · simp only [hgt, decide_True, hx, Bool.and_self, if_true]
      have := ih ([x] ++ c)
      simp only [List.append_assoc] at this ⊢
      rw [this]
      simp [List.dropWhile, hx]
    · simp only [hx, Bool.and_false, Bool.false_eq_true, if_false]
      simp [List.dropWhile, hx]
      omega

theorem take_reverse_dropWhile (p : Char → Bool) (t : List Char) :
    t.take (t.reverse.dropWhile p).length = (t.reverse.dropWhile p).reverse := by
  have h := List.takeWhile_append_dropWhile p t.reverse
  have ht : t = (t.reverse.dropWhile p).reverse ++ (t.reverse.takeWhile p).reverse := by
    rw [← List.reverse_append, h, List.reverse_reverse]
  have key : ∀ d tw : List Char, (d.reverse ++ tw.reverse).take d.length = d.reverse := by
    intro d tw
    rw [← List.length_reverse d]
    exact List.take_left _ _
  have := key (t.reverse.dropWhile p) (t.reverse.takeWhile p)
  rw [← ht] at this
  exact this

/-- What the trimming of `split_statements` takes of `cur`. -/
theorem trim_code (cur : List Char) :
    trim_end_loop cur (run_length isspace cur) cur.length
      = run_length isspace cur + (trim cur).length ∧
    (cur.drop (run_length isspace cur)).take
      (trim_end_loop cur (run_length isspace cur) cur.length - run_length isspace cur)
      = trim cur := by
  have hle := run_length_le isspace cur
  have h := trim_end_loop_eq (cur.take (run_length isspace cur))
    (cur.drop (run_length isspace cur)) []
  have hl : (cur.take (run_length isspace cur)).length = run_length isspace cur := by
    simp [hle]
  simp only [List.append_nil, List.take_append_drop, hl, List.length_drop] at h
  have hsum : run_length isspace cur + (cur.length - run_length isspace cur) = cur.length := by
    omega
  rw [hsum] at h
  have htrim : (trim cur).length
      = ((cur.drop (run_length isspace cur)).reverse.dropWhile isspace).length := by
    simp [trim, drop_run_length]
  refine ⟨by rw [h, htrim], ?_⟩
  rw [h, Nat.add_sub_cancel_left, take_reverse_dropWhile, drop_run_length]
  rfl

theorem semicolons_quoted_snoc (cur : List Char) (c : Char) (h : semicolons_quoted cur)
    (hc : c = ';' → cur.count '"' % 2 = 1) : semicolons_quoted (cur ++ [c]) := by
  intro p hp
  rw [List.get?_eq_getElem?] at hp
  by_cases hlt : p < cur.length
  · rw [List.getElem?_append_left hlt] at hp
    rw [List.take_append_of_le_length (Nat.le_of_lt hlt)]
    exact h p (by rw [List.get?_eq_getElem?]; exact hp)
  · by_cases heq : p = cur.length
    · subst heq
      rw [List.getElem?_append_right (Nat.le_refl _)] at hp
      simp only [Nat.sub_self, List.getElem?_cons_zero, Option.some.injEq] at hp
      rw [List.take_left]
      exact hc hp
    · rw [List.getElem?_eq_none (by simp; omega)] at hp
      cases hp

theorem trimmed_statements_cons (seg : List Char) (segs : List (List Char)) :
    trimmed_statements (seg :: segs)
      = (if (trim seg).length > 0 then [String.mk (trim seg)] else []) ++
          trimmed_statements segs := by
  simp only [trimmed_statements, List.map_cons, List.filter_cons]
  cases h : trim seg with
  | nil => simp
  | cons x xs => simp

/-- The loop of `split_statements`: it cuts the text at the `;` that have an
even number of double quotes in front of them. -/
theorem split_loop_spec (cs : List Char) :
    ∀ (out : List String) (cur : List Char) (q : Bool),
      (q = true ↔ cur.count '"' % 2 = 1) → semicolons_quoted cur →
      ∃ segs tail, cur ++ cs = (segs.flatMap fun seg => seg ++ [';']) ++ tail ∧
        (∀ seg ∈ segs, quotes_balanced seg ∧ semicolons_quoted seg) ∧
        semicolons_quoted tail ∧
        split_loop cs out cur q = out ++ trimmed_statements segs := by
  induction cs with
  | nil =>
    intro out cur q _ hsq
    exact ⟨[], cur, by simp, by simp, hsq, by simp [split_loop, trimmed_statements]⟩
  | cons c cs ih =>
    intro out cur q hq hsq
    by_cases hc : c = '"'
    · subst hc
      obtain ⟨segs, tail, h1, h2, h3, h4⟩ := ih out (cur ++ ['"']) (!q)
        (by
          rw [List.count_append]
          have : List.count '"' ['"'] = 1 := rfl
          rw [this]
          cases q
          · simp only [Bool.not_false, true_iff]
            have : ¬ cur.count '"' % 2 = 1 := fun h => by simpa using hq.2 h
            omega
          · simp only [Bool.not_true, Bool.false_eq_true, false_iff]
            have := hq.1 rfl
            omega)
        (semicolons_quoted_snoc cur '"' hsq (fun h => by cases h))
      refine ⟨segs, tail, by rw [← h1]; simp, h2, h3, ?_⟩
      simp only [split_loop, if_true, h4]
    · by_cases hs : c = ';' ∧ q = false
      · obtain ⟨rfl, rfl⟩ := hs
        have hbal : quotes_balanced cur := by
          unfold quotes_balanced
          have : ¬ cur.count '"' % 2 = 1 := fun h => by simpa using hq.2 h
          omega
        have hout : (if trim_end_loop cur (run_length isspace cur) cur.length
              > run_length isspace cur then
            out ++ [String.mk ((cur.drop (run_length isspace cur)).take
              (trim_end_loop cur (run_length isspace cur) cur.length - run_length isspace cur))]
            else out)
            = out ++ (if (trim cur).length > 0 then [String.mk (trim cur)] else []) := by
          rw [(trim_code cur).2, (trim_code cur).1]
          by_cases hl : (trim cur).length > 0
          · have : run_length isspace cur + (trim cur).length > run_length isspace cur := by
              omega
            rw [if_pos this, if_pos hl]
          · have : ¬ run_length isspace cur + (trim cur).length > run_length isspace cur := by
              omega
            rw [if_neg this, if_neg hl, List.append_nil]
        obtain ⟨segs, tail, h1, h2, h3, h4⟩ := ih
          (out ++ (if (trim cur).length > 0 then [String.mk (trim cur)] else [])) [] false
          (by simp) (by intro p hp; simp at hp)
        refine ⟨cur :: segs, tail, ?_, ?_, h3, ?_⟩
        · simp only [List.nil_append] at h1
          simp [h1]
        · intro seg hseg
          rcases List.mem_cons.mp hseg with rfl | hseg
          · exact ⟨hbal, hsq⟩
          · exact h2 seg hseg
        · have hne : ¬ (';' : Char) = '"' := by decide
          simp only [split_loop, hne, if_false, Bool.not_false, Bool.and_true, decide_True,
            if_true]
          rw [hout, h4, trimmed_statements_cons, List.append_assoc]
      · obtain ⟨segs, tail, h1, h2, h3, h4⟩ := ih out (cur ++ [c]) q
          (by
            rw [List.count_append]
            have : List.count '"' [c] = 0 := by
              simp [List.count_cons, hc]
            rw [this]
            exact hq)
          (semicolons_quoted_snoc cur c hsq (fun h => by
            have : q = true := by
              cases q
              · exact absurd ⟨h, rfl⟩ hs
              · rfl
            exact hq.1 this))
        refine ⟨segs, tail, by rw [← h1]; simp, h2, h3, ?_⟩
        have hcond : (decide (c = ';') && !q) = false := by
          cases q
          · simp only [Bool.not_false, Bool.and_true, decide_eq_false_iff_not]
            exact fun h => hs ⟨h, rfl⟩
          · simp
        simp only [split_loop, hc, if_false, hcond, Bool.false_eq_true, h4]

/-- A text that has a `;` behind a part with an even number of double quotes
has a `;` that is not inside a double-quoted span. -/
theorem not_semicolons_quoted (a r : List Char) (ha : quotes_balanced a) :
    ¬ semicolons_quoted (a ++ ';' :: r) := by
  intro h
  have := h a.length (by
    rw [List.get?_eq_getElem?, List.getElem?_append_right (Nat.le_refl _)]
    simp)
  rw [List.take_left] at this
  unfold quotes_balanced at ha
  omega

/-- The first segment of a text is determined. -/
theorem first_segment_unique (a a' r r' : List Char) (h : a ++ ';' :: r = a' ++ ';' :: r')
    (ha : quotes_balanced a) (hs : semicolons_quoted a)
    (ha' : quotes_balanced a') (hs' : semicolons_quoted a') : a = a' ∧ r = r' := by
  rcases List.append_eq_append_iff.1 h with ⟨m, h1, h2⟩ | ⟨m, h1, h2⟩
  · cases m with
    | nil =>
      simp only [List.append_nil] at h1
      simp only [List.nil_append, List.cons.injEq, true_and] at h2
      exact ⟨h1.symm, h2⟩
    | cons x m =>
      simp only [List.cons_append, List.cons.injEq] at h2
      rw [h1, ← h2.1] at hs'
      exact absurd hs' (not_semicolons_quoted a m ha)
  · cases m with
    | nil =>
      simp only [List.append_nil] at h1
      simp only [List.nil_append, List.cons.injEq, true_and] at h2
      exact ⟨h1, h2.symm⟩
    | cons x m =>
      simp only [List.cons_append, List.cons.injEq] at h2
      rw [h1, ← h2.1] at hs
      exact absurd hs (not_semicolons_quoted a' m ha')

/-- The segments of a text and what is left behind them are determined. -/
theorem segments_unique (segs : List (List Char)) :
    ∀ (segs' : List (List Char)) (tail tail' : List Char),
      (segs.flatMap fun seg => seg ++ [';']) ++ tail
        = (segs'.flatMap fun seg => seg ++ [';']) ++ tail' →
      (∀ seg ∈ segs, quotes_balanced seg ∧ semicolons_quoted seg) → semicolons_quoted tail →
      (∀ seg ∈ segs', quotes_balanced seg ∧ semicolons_quoted seg) → semicolons_quoted tail' →
      segs = segs' ∧ tail = tail' := by
  induction segs with
  | nil =>
    intro segs' tail tail' h _ ht h2 _
    cases segs' with
    | nil => exact ⟨rfl, by simpa using h⟩
    | cons a' segs' =>
      exfalso
      simp only [List.flatMap_nil, List.nil_append, List.flatMap_cons, List.append_assoc,
        List.singleton_append] at h
      rw [h] at ht
      exact not_semicolons_quoted a' _ (h2 a' (List.mem_cons_self _ _)).1 ht
  | cons a segs ih =>
    intro segs' tail tail' h h1 ht h2 ht'
    cases segs' with
    | nil =>
      exfalso
      simp only [List.flatMap_nil, List.nil_append, List.flatMap_cons, List.append_assoc,
        List.singleton_append] at h
      rw [← h] at ht'
      exact not_semicolons_quoted a _ (h1 a (List.mem_cons_self _ _)).1 ht'
    | cons a' segs' =>
      simp only [List.flatMap_cons, List.append_assoc, List.singleton_append] at h
      obtain ⟨e1, e2⟩ := first_segment_unique a a' _ _ h (h1 a (List.mem_cons_self _ _)).1
        (h1 a (List.mem_cons_self _ _)).2 (h2 a' (List.mem_cons_self _ _)).1
        (h2 a' (List.mem_cons_self _ _)).2
      obtain ⟨e3, e4⟩ := ih segs' tail tail' e2
        (fun x hx => h1 x (List.mem_cons_of_mem _ hx)) ht
        (fun x hx => h2 x (List.mem_cons_of_mem _ hx)) ht'
      exact ⟨by rw [e1, e3], e4⟩

theorem starts_with_dropWhile (p : Char → Bool) (s : List Char) :
    starts_with p (s.dropWhile p) = false := by
  rw [← drop_run_length]
  exact drop_run_length_stops p s

/-- A text is white space, the trimmed text and white space. -/
theorem trim_decomp (s : List Char) :
    ∃ w1 w2, s = w1 ++ (trim s ++ w2) ∧ w1.all isspace = true ∧ w2.all isspace = true := by
  refine ⟨s.takeWhile isspace, ((s.dropWhile isspace).reverse.takeWhile isspace).reverse,
    ?_, ?_, ?_⟩
  · have h := List.takeWhile_append_dropWhile isspace (s.dropWhile isspace).reverse
    have ht : s.dropWhile isspace
        = ((s.dropWhile isspace).reverse.dropWhile isspace).reverse ++
          ((s.dropWhile isspace).reverse.takeWhile isspace).reverse := by
      rw [← List.reverse_append, h, List.reverse_reverse]
    unfold trim
    rw [← ht, List.takeWhile_append_dropWhile]
  · rw [List.all_eq_true]
    intro c hc
    exact List.mem_takeWhile_imp hc
  · rw [List.all_eq_true]
    intro c hc
    exact List.mem_takeWhile_imp (List.mem_reverse.1 hc)

theorem trim_no_leading (s : List Char) : starts_with isspace (trim s) = false := by
  have h := starts_with_dropWhile isspace s
  obtain ⟨w1, w2, _, _, _⟩ := trim_decomp s
  have ht : s.dropWhile isspace = trim s ++
      ((s.dropWhile isspace).reverse.takeWhile isspace).reverse := by
    have h' := List.takeWhile_append_dropWhile isspace (s.dropWhile isspace).reverse
    unfold trim
    rw [← List.reverse_append, h', List.reverse_reverse]
  cases hc : trim s with
  | nil => rfl
  | cons x xs =>
    rw [ht, hc] at h
    exact h

theorem trim_no_trailing (s : List Char) : starts_with isspace (trim s).reverse = false := by
  unfold trim
  rw [List.reverse_reverse]
  exact starts_with_dropWhile isspace _

theorem trim_count (s : List Char) : (trim s).count '"' = s.count '"' := by
  obtain ⟨w1, w2, h, h1, h2⟩ := trim_decomp s
  conv_rhs => rw [h]
  rw [List.count_append, List.count_append, count_quote_of_all isspace (by decide) w1 h1,
    count_quote_of_all isspace (by decide) w2 h2]
  omega

theorem semicolons_quoted_trim (s : List Char) (hs : semicolons_quoted s) :
    semicolons_quoted (trim s) := by
  obtain ⟨w1, w2, h, h1, _⟩ := trim_decomp s
  intro p hp
  have hlt : p < (trim s).length := by
    by_contra hge
    rw [List.get?_eq_getElem?, List.getElem?_eq_none (by omega)] at hp
    cases hp
  have hget : s.get? (w1.length + p) = some ';' := by
    rw [List.get?_eq_getElem?] at hp ⊢
    rw [h, List.getElem?_append_right (by omega), Nat.add_sub_cancel_left,
      List.getElem?_append_left hlt]
    exact hp
  have := hs _ hget
  rw [h, List.take_append, List.count_append, count_quote_of_all isspace (by decide) w1 h1,
    List.take_append_of_le_length (Nat.le_of_lt hlt)] at this
  simpa using this

theorem trim_eq_nil_iff (s : List Char) : trim s = [] ↔ s.all isspace = true := by
  constructor
  · intro ht
    obtain ⟨w1, w2, h, h1, h2⟩ := trim_decomp s
    rw [h, ht]
    simp [h1, h2]
  · intro h
    have : s.dropWhile isspace = [] := by
      rw [List.dropWhile_eq_nil_iff]
      exact fun c hc => List.all_eq_true.1 h c hc
    simp [trim, this]

theorem mem_trimmed_statements (segs : List (List Char)) (s : String)
    (h : s ∈ trimmed_statements segs) : ∃ seg ∈ segs, s.data = trim seg ∧ trim seg ≠ [] := by
  simp only [trimmed_statements, List.mem_map, List.mem_filter] at h
  obtain ⟨t, ⟨⟨seg, hseg, rfl⟩, hne⟩, rfl⟩ := h
  refine ⟨seg, hseg, rfl, ?_⟩
  intro he
  rw [he] at hne
  simp at hne

theorem trimmed_statements_length (segs : List (List Char)) :
    (trimmed_statements segs).length = (segs.filter fun seg => !seg.all isspace).length := by
  induction segs with
  | nil => rfl
  | cons seg segs ih =>
    rw [trimmed_statements_cons, List.length_append, ih, List.filter_cons]
    by_cases h : seg.all isspace = true
    · have := (trim_eq_nil_iff seg).2 h
      simp [h, this]
    · have hne : trim seg ≠ [] := fun he => h ((trim_eq_nil_iff seg).1 he)
      have hpos : (trim seg).length > 0 := List.length_pos.2 hne
      simp [h, hpos]
      omega

/-- The library call `stoll` on an optional `-` and digits whose value is not
in the range of `long long`: `std::out_of_range`. -/
theorem stoll_out_of_range (sign ds : List Char) (hsign : sign = [] ∨ sign = ['-'])
    (hne : ds ≠ []) (hds : ds.all isdigit = true) (hr : ¬ in_range (literal_value sign ds)) :
    stoll (String.mk (sign ++ ds)) = none := by
  obtain ⟨d, ds', rfl⟩ := List.exists_cons_of_ne_nil hne
  have hd : isdigit d = true := by
    simp only [List.all_cons, Bool.and_eq_true] at hds
    exact hds.1
  have hdn := (isdigit_iff d).1 hd
  have hrl := run_length_all isdigit (d :: ds') hds
  have hpos : run_length isdigit (d :: ds') ≠ 0 := by
    rw [hrl]; simp
  unfold in_range at hr
  rcases hsign with rfl | rfl
  · have hsp : isspace d = false := not_space_of_word_start d (by simp [hd])
    have hm : ¬ d = '-' := by rw [minus_iff]; omega
    have hp : ¬ d = '+' := by rw [char_eq_iff]; have : ('+' : Char).toNat = 43 := rfl; omega
    have hws : run_length isspace (d :: ds') = 0 := by simp [run_length, hsp]
    simp only [literal_value, if_true] at hr
    simp only [stoll, List.nil_append, hws, List.drop_zero, hm, hp, decide_False,
      Bool.or_self, Bool.false_eq_true, if_false, hpos, hrl, List.take_length]
    have h2 : (9223372036854775807 < (digits_value (d :: ds') : Int)) := by omega
    simp [h2]
  · have hws : run_length isspace ('-' :: d :: ds') = 0 := by
      simp [run_length, isspace]
    have hne' : ¬ (['-'] : List Char) = [] := by simp
    simp only [literal_value, hne', if_false] at hr
    have h1 : (-(digits_value (d :: ds') : Int) < -9223372036854775808) := by omega
    simp [stoll, hws, hpos, hrl, h1]

/-- An integer literal outside the range of `long long` is rejected. -/
theorem parse_literal_out_of_range (sign ds : List Char) (hsign : sign = [] ∨ sign = ['-'])
    (hne : ds ≠ []) (hds : ds.all isdigit = true) (hr : ¬ in_range (literal_value sign ds)) :
    parse_literal ⟨.NUMBER, String.mk (sign ++ ds)⟩ =
      .error (.ParseError ("Invalid integer literal: " ++ String.mk (sign ++ ds))) := by
  simp [parse_literal, stoll_out_of_range sign ds hsign hne hds hr]

theorem number_tail_digits (k : Nat) (t : List Char) (n : Nat) (h : number_tail k t = some n) :
    n = k + run_length isdigit t ∧ 0 < run_length isdigit t := by
  refine ⟨number_tail_some k t n h, ?_⟩
  cases t with
  | nil => simp [number_tail] at h
  | cons d t' =>
    simp only [number_tail] at h
    by_cases hd : isdigit d = true
    · simp [run_length, hd]
    · simp [hd] at h

theorem lex_word_number (c : Char) (cs : List Char)
    (h : (lex_word (c :: cs)).1.type = .NUMBER) :
    ∃ n, number_span (c :: cs) = some n ∧
      (lex_word (c :: cs)).1.text = String.mk ((c :: cs).take n) := by
  cases hn : number_span (c :: cs) with
  | none => simp [lex_word, hn] at h
  | some n =>
    refine ⟨n, rfl, ?_⟩
    by_cases hc : (c = '-' ∨ isdigit c = true)
    · simp [lex_word, hn, hc]
    · simp [lex_word, hn, hc] at h

theorem take_run_ne_nil (p : Char → Bool) (s : List Char) (h : 0 < run_length p s) :
    s.take (run_length p s) ≠ [] := by
  intro he
  have hl := congrArg List.length he
  rw [List.length_take] at hl
  have hle := run_length_le p s
  simp only [List.length_nil] at hl
  omega

/-- The text of a NUMBER token: an optional `-` and at least one digit. -/
theorem number_token_shape (tz : Tokenizer) (h : tz.next.1.type = .NUMBER) :
    ∃ sign ds : List Char, (sign = [] ∨ sign = ['-']) ∧ ds ≠ [] ∧ ds.all isdigit = true ∧
      tz.next.1.text = String.mk (sign ++ ds) := by
  rw [next_fst] at h ⊢
  simp only [lex] at h ⊢
  generalize tz.rest.drop (run_length isspace tz.rest) = s at h ⊢
  cases s with
  | nil => simp [lex_token] at h
  | cons c cs =>
    simp only [lex_token] at h ⊢
    by_cases hq : c = '"'
    · simp [hq] at h
    simp only [hq, if_false] at h ⊢
    by_cases hw : (isalpha c || c = '_' || c = '-' || isdigit c) = true
    · simp only [hw, if_true] at h ⊢
      obtain ⟨n, hspan, htext⟩ := lex_word_number c cs h
      rw [htext]
      rw [number_span_eq] at hspan
      obtain ⟨e1, e2⟩ := number_tail_digits _ _ _ hspan
      by_cases hc : c = '-'
      · subst hc
        simp only [if_true] at e1 e2
        refine ⟨['-'], cs.take (run_length isdigit cs), Or.inr rfl,
          take_run_ne_nil isdigit cs e2, take_run_length_all isdigit cs, ?_⟩
        rw [e1, Nat.add_comm, List.take_succ_cons]
        rfl
      · simp only [hc, if_false, Nat.zero_add] at e1 e2
        refine ⟨[], (c :: cs).take (run_length isdigit (c :: cs)), Or.inl rfl,
          take_run_ne_nil isdigit _ e2, take_run_length_all isdigit (c :: cs), ?_⟩
        rw [e1]
        rfl
    · simp only [hw, Bool.false_eq_true, if_false] at h
      exact absurd h (lex_symbol_facts c cs).2.1

/-- The base-10 text of an integer is lexed as one NUMBER token with that
text, and nothing is left behind it. -/
theorem next_int_text (n : Int) :
    (Tokenizer.init (toString n)).next.1 = ⟨.NUMBER, toString n⟩ ∧
    (Tokenizer.init (toString n)).next.2.rest = [] := by
  obtain ⟨h1, h2, _⟩ := toDigits_spec n.natAbs
  have hsign : (if n < 0 then ['-'] else ([] : List Char)) = [] ∨
      (if n < 0 then ['-'] else ([] : List Char)) = ['-'] := by
    by_cases hn : n < 0 <;> simp [hn]
  have hlex := lex_token_number (if n < 0 then ['-'] else []) (Nat.toDigits 10 n.natAbs) []
    hsign h1 h2 rfl rfl
  rw [List.append_nil, ← int_toString_data] at hlex
  have hs : starts_with isspace (toString n).data = false := by
    rw [int_toString_data]
    obtain ⟨d, ds, hd⟩ := List.exists_cons_of_ne_nil h1
    by_cases hn : n < 0
    · simp [hn, starts_with, isspace]
    · simp only [hn, if_false, List.nil_append, hd, starts_with]
      have : isdigit d = true := by
        rw [hd] at h2
        simp only [List.all_cons, Bool.and_eq_true] at h2
        exact h2.1
      exact not_space_of_word_start d (by simp [this])
  have hn := next_of_rest (Tokenizer.init (toString n)) [] (toString n).data rfl rfl hs
  rw [hlex] at hn
  rw [hn]
  refine ⟨rfl, ?_⟩
  have hlen : (if n < 0 then ['-'] else ([] : List Char)).length + (Nat.toDigits 10 n.natAbs).length
      = (toString n).data.length := by
    rw [int_toString_data, List.length_append]
  simp only [List.length_nil, Nat.zero_add, hlen]
  rw [rest_shift]
  exact List.drop_length _

theorem widen_row_cases (ws : List Nat) (row : List String) :
    (row.length ≤ ws.length → ∃ ws1, widen_row ws row = .ok ws1 ∧ ws1.length = ws.length) ∧
    (ws.length < row.length → widen_row ws row = .error (.Undefined "widths[i]")) := by
  induction ws generalizing row with
  | nil =>
    cases row with
    | nil => exact ⟨fun _ => ⟨[], rfl, rfl⟩, fun h => by simp at h⟩
    | cons c cs => exact ⟨fun h => by simp at h, fun _ => rfl⟩
  | cons w ws ih =>
    cases row with
    | nil => exact ⟨fun _ => ⟨w :: ws, rfl, rfl⟩, fun h => by simp at h⟩
    | cons c cs =>
      constructor
      · intro h
        simp only [List.length_cons, Nat.add_le_add_iff_right] at h
        obtain ⟨ws1, h1, h2⟩ := (ih cs).1 h
        exact ⟨max w c.length :: ws1, by simp [widen_row, h1], by simp [h2]⟩
      · intro h
        simp only [List.length_cons, Nat.add_lt_add_iff_right] at h
        simp [widen_row, (ih cs).2 h]

theorem widths_loop_cases (rows : List (List String)) :
    ∀ ws : List Nat,
      ((∀ row ∈ rows, row.length ≤ ws.length) →
        ∃ ws1, widths_loop ws rows = .ok ws1 ∧ ws1.length = ws.length) ∧
      ((∃ row ∈ rows, ws.length < row.length) →
        widths_loop ws rows = .error (.Undefined "widths[i]")) := by
  induction rows with
  | nil =>
    intro ws
    exact ⟨fun _ => ⟨ws, rfl, rfl⟩, fun ⟨row, hrow, _⟩ => by cases hrow⟩
  | cons row rows ih =>
    intro ws
    by_cases hlen : row.length ≤ ws.length
    · obtain ⟨ws1, h1, h2⟩ := (widen_row_cases ws row).1 hlen
      constructor
      · intro h
        obtain ⟨ws2, h3, h4⟩ := (ih ws1).1 (fun r hr => by
          rw [h2]; exact h r (List.mem_cons_of_mem _ hr))
        exact ⟨ws2, by simp [widths_loop, h1, h3], by rw [h4, h2]⟩
      · rintro ⟨r, hr, hlt⟩
        rcases List.mem_cons.mp hr with rfl | hr
        · omega
        · simp only [widths_loop, h1]
          exact (ih ws1).2 ⟨r, hr, by rw [h2]; exact hlt⟩
    · have hlt : ws.length < row.length := by omega
      constructor
      · intro h
        have := h row (List.mem_cons_self _ _)
        omega
      · intro _
        simp [widths_loop, (widen_row_cases ws row).2 hlt]

theorem fmt_row_loop_ok (ws : List Nat) (cells : List String) (s : String)
    (hlen : cells.length ≤ ws.length) : ∃ out, fmt_row_loop ws cells s = .ok out := by
  induction ws generalizing cells s with
  | nil =>
    cases cells with
    | nil => exact ⟨s, rfl⟩
    | cons c cs => simp at hlen
  | cons w ws ih =>
    cases cells with
    | nil => exact ⟨s, rfl⟩
    | cons c cs =>
      simp only [List.length_cons, Nat.add_le_add_iff_right] at hlen
      obtain ⟨out, h⟩ := ih cs (s ++ " " ++ put_left (size_to_int w) c ++ " |") hlen
      exact ⟨out, by simp only [fmt_row_loop, h]⟩

theorem ascii_rows_loop_ok (ws : List Nat) (rows : List (List String)) (oss : String)
    (hlen : ∀ row ∈ rows, row.length ≤ ws.length) :
    ∃ out, ascii_rows_loop ws rows oss = .ok out := by
  induction rows generalizing oss with
  | nil => exact ⟨oss, rfl⟩
  | cons row rows ih =>
    obtain ⟨l, hl⟩ := fmt_row_loop_ok ws row "|" (hlen row (List.mem_cons_self _ _))
    obtain ⟨out, h⟩ := ih (oss ++ l ++ "\n") (fun r hr => hlen r (List.mem_cons_of_mem _ hr))
    exact ⟨out, by simp only [ascii_rows_loop, fmt_row, hl, h]⟩

/-- On a result none of whose rows has more cells than there are headers,
`to_ascii` stays inside `widths`; on any other result it leaves it. -/
theorem to_ascii_defined (r : QueryResult) :
    ((∀ row ∈ r.rows, row.length ≤ r.headers.length) → ∃ out, to_ascii r = .ok out) ∧
    ((∃ row ∈ r.rows, r.headers.length < row.length) →
      to_ascii r = .error (.Undefined "widths[i]")) := by
  have hc := widths_loop_cases r.rows (r.headers.map String.length)
  rw [List.length_map] at hc
  constructor
  · intro h
    obtain ⟨ws, h1, h2⟩ := hc.1 h
    obtain ⟨hd, hh⟩ := fmt_row_loop_ok ws r.headers "|" (by omega)
    obtain ⟨oss, ho⟩ := ascii_rows_loop_ok ws r.rows
      (ascii_line ws ++ "\n" ++ hd ++ "\n" ++ ascii_line ws ++ "\n")
      (fun row hr => by rw [h2]; exact h row hr)
    exact ⟨oss ++ ascii_line ws ++ "\n", by simp only [to_ascii, h1, fmt_row, hh, ho]⟩
  · intro h
    simp only [to_ascii, hc.2 h]

theorem length_of_map_some {α β : Type} (l : List α) (m : List β) (f : β → Option α)
    (h : l.map some = m.map f) : l.length = m.length := by
  have := congrArg List.length h
  simpa using this

/-- The shape of a result of `select_where`. -/
theorem select_where_shape (t : Table) (out_cols : List String) (star : Bool)
    (cond : Option Condition) (qr : QueryResult)
    (h : t.select_where out_cols star cond = .ok qr) :
    ∃ proj, t.build_projection out_cols star = .ok proj ∧
      proj.length = (if star then t.columns.length else out_cols.length) ∧
      qr.headers.length = proj.length ∧ ∀ row ∈ qr.rows, row.length = proj.length := by
  unfold Table.select_where at h
  cases hp : t.build_projection out_cols star with
  | error e => simp [hp] at h
  | ok proj =>
    simp only [hp] at h
    cases hh : t.select_headers proj with
    | error e => simp [hh] at h
    | ok headers =>
      simp only [hh] at h
      cases hr : t.select_rows proj cond t.rows with
      | error e => simp [hr] at h
      | ok rows =>
        simp only [hr, Except.ok.injEq] at h
        subst h
        refine ⟨proj, rfl, ?_, length_of_map_some _ _ _ (select_headers_ok t proj headers hh), ?_⟩
        · cases star with
          | true =>
            simp only [Table.build_projection, if_true, Except.ok.injEq] at hp
            simp [← hp]
          | false =>
            simp only [Table.build_projection, Bool.false_eq_true, if_false] at hp
            simp only [Bool.false_eq_true, if_false]
            exact (List.Forall₂.length_eq (col_indices_forall t out_cols proj hp)).symm
        · intro row hrow
          have hrows := select_rows_ok t proj cond t.rows rows hr
          have hmem : row.map some ∈ rows.map (fun out => out.map some) :=
            List.mem_map.2 ⟨row, hrow, rfl⟩
          rw [hrows] at hmem
          obtain ⟨r, _, he⟩ := List.mem_map.1 hmem
          exact length_of_map_some _ _ _ he.symm

/-- Under `SchemaOK` and the invariant, the indices of a projection are inside
every stored row. -/
theorem projection_in_rows (t : Table) (hwf : t.SchemaOK) (hinv : t.Inv)
    (out_cols : List String) (star : Bool) (proj : List Nat)
    (hp : t.build_projection out_cols star = .ok proj) :
    ∀ idx ∈ proj, idx < t.columns.length ∧ ∀ r ∈ t.rows, idx < r.cells.length := by
  have hlt : ∀ idx ∈ proj, idx < t.columns.length := by
    unfold Table.build_projection at hp
    cases star with
    | true =>
      simp only [if_true, Except.ok.injEq] at hp
      subst hp
      exact fun idx hi => List.mem_range.mp hi
    | false =>
      simp only [Bool.false_eq_true, if_false] at hp
      exact forall₂_names_lt t hwf out_cols proj (col_indices_forall t out_cols proj hp)
  intro idx hidx
  refine ⟨hlt idx hidx, fun r hr => ?_⟩
  rw [(hinv r hr).1]
  exact hlt idx hidx

/-- In front of a `-` that starts no number the first iteration of the loop
over the column names of an INSERT takes the empty IDENT as a column name and
goes on to the second one with the cursor where it was; the second one asks
for a comma and throws. -/
theorem insert_columns_stuck (tz : Tokenizer) (hs : Stuck tz) (fuel : Nat)
    (cols : List String) :
    tz.peek.type ≠ .RPAREN ∧ expect_comma_unless true tz = .ok tz ∧
    expect_ident_any tz = .ok ("", tz) ∧
    insert_columns_loop (fuel + 1) tz cols true
      = insert_columns_loop fuel tz (cols ++ [""]) false ∧
    insert_columns_loop (fuel + 2) tz cols true = some (.error (.ParseError "Expected ','")) := by
  unfold Stuck at hs
  have hp : tz.peek.type ≠ .RPAREN := by
    simp only [Tokenizer.peek, hs]
    decide
  have hc : expect_comma_unless true tz = .ok tz := rfl
  have hi : expect_ident_any tz = .ok ("", tz) := by
    simp only [expect_ident_any, hs]
    rfl
  have h1 : ∀ fuel, insert_columns_loop (fuel + 1) tz cols true
      = insert_columns_loop fuel tz (cols ++ [""]) false := by
    intro fuel
    simp only [insert_columns_loop, hp, if_false, hc, hi]
  refine ⟨hp, hc, hi, h1 fuel, ?_⟩
  rw [h1 (fuel + 1)]
  have hcomma : expect_comma_unless false tz = .error (.ParseError "Expected ','") := by
    simp only [expect_comma_unless, hs, expect]
    rfl
  simp only [insert_columns_loop, hp, if_false, hcomma]

/-- The tuple loop of INSERT on valid tuples appends the rows they stand for,
in tuple order, and returns. -/
theorem insert_tuples_valid (s : StmtInsert) (t : Table) (hwf : t.SchemaOK) (idxs : List Nat)
    (hidx : List.Forall₂ (fun name idx => t.col_index name = .ok idx) s.columns idxs)
    (tuples : List (List Value))
    (hgood : ∀ tup ∈ tuples, t.tuple_valid s.columns tup) (rows : List Row) :
    insert_tuples s idxs { t with rows := rows } tuples =
      ({ t with rows := rows ++ tuples.map (t.row_of_tuple s.columns) }, .ok ()) := by
  induction tuples generalizing rows with
  | nil => simp [insert_tuples]
  | cons tup rest ih =>
    have hv := hgood tup (List.mem_cons_self _ _)
    obtain ⟨rv, h1, h2⟩ := insert_valid_tuple { t with rows := rows } hwf s.columns idxs hidx tup
      ((tuple_valid_rows t rows _ _).mpr hv)
    rw [insert_tuples]
    simp only [ne_eq, hv.1, not_true_eq_false, if_false]
    simp only at h1
    rw [h1]
    simp only
    rw [h2]
    simp only [row_of_tuple_rows]
    rw [ih (fun x hx => hgood x (List.mem_cons_of_mem _ hx))]
    simp

/-- For `people(name str, age int)` a tuple of a string and an integer given
for (name, age) is valid. -/
theorem people_tuple_valid (a : String) (n : Int) :
    people.tuple_valid ["name", "age"] [.make_str a, .make_int n] := by
  refine ⟨rfl, ?_⟩
  intro j v c hl hc
  have hj : j < 2 := (List.get?_eq_some.mp hc).1
  interval_cases j
  · have h0 : people.last_named (["name", "age"].zip [Value.make_str a, Value.make_int n]) 0
        = some (Value.make_str a) := rfl
    have c0 : people.columns.get? 0 = some ⟨"name", .STR⟩ := rfl
    rw [h0] at hl; rw [c0] at hc
    cases hl; cases hc; rfl
  · have h1 : people.last_named (["name", "age"].zip [Value.make_str a, Value.make_int n]) 1
        = some (Value.make_int n) := rfl
    have c1 : people.columns.get? 1 = some ⟨"age", .INT⟩ := rfl
    rw [h1] at hl; rw [c1] at hc
    cases hl; cases hc; rfl

/-- Both names of the column list (name, age) are columns of `people`. -/
theorem people_names_exist :
    ∀ name ∈ ["name", "age"], ∃ c ∈ people.columns, c.name = name := by
  intro name hn
  simp only [List.mem_cons, List.mem_singleton, List.mem_nil_iff, or_false] at hn
  rcases hn with rfl | rfl
  · exact ⟨⟨"name", .STR⟩, by simp [people, Table.new, people_columns], rfl⟩
  · exact ⟨⟨"age", .INT⟩, by simp [people, Table.new, people_columns], rfl⟩

/-- Evaluating the condition on a row gives `true` exactly when the row
satisfies it in the words of the specification. -/
theorem meets_eq_satisfies (t : Table) (cond : Option Condition) (r : Row) :
    t.meets cond r = t.satisfies cond r := by
  cases cond with
  | none => rfl
  | some c =>
    cases hi : t.col_index c.column with
    | error e =>
      simp only [Table.meets, Table.satisfies, Table.row_matches, Condition.matches, hi]
    | ok idx =>
      cases hv : r.cells.get? idx with
      | none =>
        simp only [Table.meets, Table.satisfies, Table.row_matches, Condition.matches, hi, hv]
      | some v =>
        by_cases hty : c.literal.type = v.type
        · obtain ⟨cmp, hcmp, hiff⟩ := compare_apply c.op v c.literal hty
          simp only [Table.meets, Table.satisfies, Table.row_matches, Condition.matches, hi, hv,
            hcmp]
          cases hb : c.op.apply cmp with
          | true =>
            have := hiff.mp hb
            simp [hty, this]
          | false =>
            have : ¬ Value.holds c.op v c.literal := fun hh => by
              have := hiff.mpr hh
              rw [hb] at this
              cases this
            simp [this]
        · simp only [Table.meets, Table.satisfies, Table.row_matches, Condition.matches, hi, hv,
            compare_other_tag v c.literal (fun h => hty h.symm)]
          simp [hty]

/-- The indices of the assignments depend on the names only. -/
theorem set_indices_names (t : Table) (sets sets1 : List (String × Value))
    (h : sets1.map Prod.fst = sets.map Prod.fst) :
    t.set_indices sets1 = t.set_indices sets := by
  induction sets generalizing sets1 with
  | nil =>
    cases sets1 with
    | nil => rfl
    | cons q qs => simp at h
  | cons p ps ih =>
    cases sets1 with
    | nil => simp at h
    | cons q qs =>
      simp only [List.map_cons, List.cons.injEq] at h
      unfold Table.set_indices
      rw [h.1, ih qs h.2]

/-- The row loop of `update_where` on rows none of which satisfies the
condition: no row is touched and no assignment is looked at; the loop returns
the count it was entered with when the condition evaluates on every row, and
throws the exception of the condition otherwise. -/
theorem update_rows_no_match (t : Table) (sets : List (String × Value)) (idxs : List Nat)
    (cond : Option Condition) (rows : List Row) (count : Nat)
    (hno : ∀ r ∈ rows, t.satisfies cond r = false) :
    (t.update_rows sets idxs cond rows count).1 = rows ∧
    ((∀ r ∈ rows, ∃ b, t.row_matches r cond = .ok b) →
      (t.update_rows sets idxs cond rows count).2 = .ok count) ∧
    (∀ e, (∀ r ∈ rows, t.row_matches r cond = .error e) → rows ≠ [] →
      (t.update_rows sets idxs cond rows count).2 = .error e) ∧
    ∀ sets1 idxs1, t.update_rows sets1 idxs1 cond rows count
      = t.update_rows sets idxs cond rows count := by
  induction rows with
  | nil =>
    refine ⟨rfl, fun _ => rfl, fun e _ h => absurd rfl h, fun _ _ => rfl⟩
  | cons r rest ih =>
    obtain ⟨ih1, ih2, -, ih4⟩ := ih (fun x hx => hno x (List.mem_cons_of_mem _ hx))
    have hr := hno r (List.mem_cons_self _ _)
    cases hm : t.row_matches r cond with
    | error e0 =>
      have hu : ∀ s i, t.update_rows s i cond (r :: rest) count = (r :: rest, .error e0) := by
        intro s i
        simp only [Table.update_rows, hm]
      refine ⟨by rw [hu], ?_, ?_, fun s i => by rw [hu, hu]⟩
      · intro hall
        obtain ⟨b, hb⟩ := hall r (List.mem_cons_self _ _)
        rw [hm] at hb
        cases hb
      · intro e hall _
        have := hall r (List.mem_cons_self _ _)
        rw [hm] at this
        cases this
        rw [hu]
    | ok b =>
      cases b with
      | true => simp [Table.satisfies, hm] at hr
      | false =>
        have hu : ∀ s i, t.update_rows s i cond (r :: rest) count =
            (r :: (t.update_rows s i cond rest count).1,
              (t.update_rows s i cond rest count).2) := by
          intro s i
          simp only [Table.update_rows, hm]
        refine ⟨by rw [hu, ih1], ?_, ?_, fun s i => by rw [hu, hu, ih4 s i]⟩
        · intro hall
          rw [hu]
          exact ih2 (fun x hx => hall x (List.mem_cons_of_mem _ hx))
        · intro e hall _
          have := hall r (List.mem_cons_self _ _)
          rw [hm] at this
          cases this

/-- What `update_where` does when no stored row satisfies the condition, on a
table whose rows are typed like its columns and for assignments that name
columns. -/
theorem update_where_no_match (t : Table) (hwf : t.SchemaOK) (hinv : t.Inv)
    (sets : List (String × Value)) (cond : Option Condition)
    (hnames : ∀ p ∈ sets, ∃ c ∈ t.columns, c.name = p.1)
    (hno : ∀ r ∈ t.rows, t.meets cond r = false) :
    ((t.rows = [] ∨ ∀ c, cond = some c → c.failure t = none) →
      t.update_where sets cond = (t, .ok 0)) ∧
    (∀ c e, cond = some c → c.failure t = some e → t.rows ≠ [] →
      t.update_where sets cond = (t, .error e)) ∧
    (∀ sets1 : List (String × Value), sets1.map Prod.fst = sets.map Prod.fst →
      t.update_where sets1 cond = t.update_where sets cond) := by
  have htyped := (inv_iff t).mp hinv
  obtain ⟨idxs, hidxs⟩ := set_indices_exists t sets
    (fun p hp => col_index_exists t hwf p.1 (hnames p hp))
  have hno1 : ∀ r ∈ t.rows, t.satisfies cond r = false := fun r hr => by
    rw [← meets_eq_satisfies]
    exact hno r hr
  obtain ⟨h1, h2, h3, h4⟩ := update_rows_no_match t sets idxs cond t.rows 0 hno1
  have hpair : ∀ res, (t.update_rows sets idxs cond t.rows 0).2 = res →
      t.update_where sets cond = (t, res) := by
    intro res hres
    simp only [Table.update_where, hidxs]
    rw [h1, hres]
  refine ⟨?_, ?_, ?_⟩
  · intro h
    apply hpair
    apply h2
    rcases h with h | h
    · intro r hr
      rw [h] at hr
      cases hr
    · intro r hr
      cases cond with
      | none => exact ⟨true, rfl⟩
      | some c => exact matches_no_failure c t r (htyped r hr) (h c rfl)
  · intro c e hc he hrows
    apply hpair
    apply h3 e _ hrows
    intro r hr
    subst hc
    exact matches_failure c t r (htyped r hr) e he
  · intro sets1 hs
    simp only [Table.update_where, set_indices_names t sets sets1 hs, hidxs]
    rw [h4 sets1 idxs]

/-! ## The parser on the tokens it reads

In this section `next` is not unfolded: the lemmas above say what it returns. -/

section

attribute [local irreducible] Tokenizer.next

theorem reads_cons {p : Pat} {ps : List Pat} {tz tz' : Tokenizer} (h : Reads tz (p :: ps) tz') :
    ∃ t tz1, tz.next = (t, tz1) ∧ p.matches t ∧ Reads tz1 ps tz' :=
  ⟨tz.next.1, tz.next.2, rfl, h.1, h.2⟩

theorem reads_cons_mk {p : Pat} {ps : List Pat} {tz tz1 tz' : Tokenizer} {t : Token}
    (hn : tz.next = (t, tz1)) (hm : p.matches t) (h : Reads tz1 ps tz') :
    Reads tz (p :: ps) tz' := by
  have h1 : tz.next.1 = t := by rw [hn]
  have h2 : tz.next.2 = tz1 := by rw [hn]
  exact ⟨h1 ▸ hm, h2 ▸ h⟩

theorem next_le_flat {tz tz1 : Tokenizer} {t : Token} (hn : tz.next = (t, tz1)) :
    tz1.rest.length ≤ tz.rest.length := by
  have := next_rest_le tz
  rw [hn] at this
  exact this

theorem next_input_flat {tz tz1 : Tokenizer} {t : Token} (hn : tz.next = (t, tz1)) :
    tz1.input = tz.input := by
  have := next_input tz
  rw [hn] at this
  exact this

theorem punct_progress_flat {tz tz1 : Tokenizer} {t : Token} (hn : tz.next = (t, tz1))
    (k : Punct) (h : t.type = k.type) : tz1.rest.length < tz.rest.length := by
  have := punct_progress tz k (by rw [hn]; exact h)
  rw [hn] at this
  exact this

theorem peek_flat {tz tz1 : Tokenizer} {t : Token} (hn : tz.next = (t, tz1)) : tz.peek = t := by
  rw [peek_eq, hn]

/-- The assignments of an UPDATE behind the first one. -/
theorem update_sets_loop_complete_rest (sets : List (String × Value)) :
    ∀ (fuel : Nat) (tz tz' : Tokenizer) (acc : List (String × Value)),
      tz.rest.length < fuel → tz.peek.type = .COMMA →
      Reads tz (sep_items
        (sets.map fun a => [Pat.word a.1, Pat.punct .EQUAL, Pat.lit a.2])) tz' →
      tz'.peek.type ≠ .COMMA →
      update_sets_loop fuel tz acc false = some (.ok (acc ++ sets, tz')) := by
  induction sets with
  | nil =>
    intro fuel tz tz' acc hf hpk h hend
    have : tz' = tz := h
    subst this
    exact absurd hpk hend
  | cons a sets ih =>
    intro fuel tz tz' acc hf hpk h hend
    obtain ⟨f, rfl⟩ : ∃ f, fuel = f + 1 := ⟨fuel - 1, by omega⟩
    have h' : Reads tz (Pat.punct .COMMA :: Pat.word a.1 :: Pat.punct .EQUAL :: Pat.lit a.2 ::
        sep_items (sets.map fun a => [Pat.word a.1, Pat.punct .EQUAL, Pat.lit a.2])) tz' := h
    obtain ⟨t1, tz1, hn1, hm1, h1⟩ := reads_cons h'
    obtain ⟨t2, tz2, hn2, hm2, h2⟩ := reads_cons h1
    obtain ⟨t3, tz3, hn3, hm3, h3⟩ := reads_cons h2
    obtain ⟨t4, tz4, hn4, hm4, h4⟩ := reads_cons h3
    simp only [Pat.matches, Punct.type] at hm1 hm2 hm3 hm4
    have hprog := punct_progress_flat hn1 .COMMA hm1
    have hle2 := next_le_flat hn2
    have hle3 := next_le_flat hn3
    have hle4 := next_le_flat hn4
    cases sets with
    | nil =>
      have : tz' = tz4 := h4
      subst this
      have hend' : ¬ tz'.next.1.type = .COMMA := hend
      simp [update_sets_loop, peek_eq, hn1, hn2, hn3, hn4, hm1, hm2, hm3, hm4,
        expect_ident_any, expect, hend']
    | cons b sets =>
      have hpk' : tz4.peek.type = .COMMA := by
        have h4' : Reads tz4 (Pat.punct .COMMA :: (Pat.word b.1 :: Pat.punct .EQUAL ::
          Pat.lit b.2 :: sep_items
            (sets.map fun a => [Pat.word a.1, Pat.punct .EQUAL, Pat.lit a.2]))) tz' := h4
        obtain ⟨t5, tz5, hn5, hm5, -⟩ := reads_cons h4'
        rw [peek_flat hn5]
        exact hm5
      have := ih f tz4 tz' (acc ++ [a]) (by omega) hpk' h4 hend
      have hpk'' : tz4.next.1.type = .COMMA := hpk'
      simp [update_sets_loop, peek_eq, hn1, hn2, hn3, hn4, hm1, hm2, hm3, hm4,
        expect_ident_any, expect, hpk'', this]

/-- The assignments of an UPDATE, from behind `SET` on. -/
theorem update_sets_loop_complete (sets : List (String × Value)) (hne : sets ≠ [])
    (fuel : Nat) (tz tz' : Tokenizer) (hf : tz.rest.length + 1 < fuel)
    (h : Reads tz (commasep
      (sets.map fun a => [Pat.word a.1, Pat.punct .EQUAL, Pat.lit a.2])) tz')
    (hend : tz'.peek.type ≠ .COMMA) :
    update_sets_loop fuel tz [] true = some (.ok (sets, tz')) := by
  obtain ⟨f, rfl⟩ : ∃ f, fuel = f + 1 := ⟨fuel - 1, by omega⟩
  obtain ⟨a, sets, rfl⟩ := List.exists_cons_of_ne_nil hne
  have h' : Reads tz (Pat.word a.1 :: Pat.punct .EQUAL :: Pat.lit a.2 ::
      sep_items (sets.map fun a => [Pat.word a.1, Pat.punct .EQUAL, Pat.lit a.2])) tz' := h
  obtain ⟨t2, tz2, hn2, hm2, h2⟩ := reads_cons h'
  obtain ⟨t3, tz3, hn3, hm3, h3⟩ := reads_cons h2
  obtain ⟨t4, tz4, hn4, hm4, h4⟩ := reads_cons h3
  simp only [Pat.matches, Punct.type] at hm2 hm3 hm4
  have hle2 := next_le_flat hn2
  have hle3 := next_le_flat hn3
  have hle4 := next_le_flat hn4
  cases sets with
  | nil =>
    have : tz' = tz4 := h4
    subst this
    have hend' : ¬ tz'.next.1.type = .COMMA := hend
    simp [update_sets_loop, peek_eq, hn2, hn3, hn4, hm2, hm3, hm4,
      expect_ident_any, expect, hend']
  | cons b sets =>
    have hpk' : tz4.peek.type = .COMMA := by
      have h4' : Reads tz4 (Pat.punct .COMMA :: (Pat.word b.1 :: Pat.punct .EQUAL ::
        Pat.lit b.2 :: sep_items
          (sets.map fun a => [Pat.word a.1, Pat.punct .EQUAL, Pat.lit a.2]))) tz' := h4
      obtain ⟨t5, tz5, hn5, hm5, -⟩ := reads_cons h4'
      rw [peek_flat hn5]
      exact hm5
    have := update_sets_loop_complete_rest (b :: sets) f tz4 tz' [a] (by omega) hpk' h4 hend
    have hpk'' : tz4.next.1.type = .COMMA := hpk'
    simp [update_sets_loop, peek_eq, hn2, hn3, hn4, hm2, hm3, hm4,
      expect_ident_any, expect, hpk'', this]

/-- One tuple of an INSERT, from its opening parenthesis on. -/
theorem tuple_complete (tup : List Value) (fuel : Nat) (tz tz' : Tokenizer)
    (hf : tz.rest.length + 1 < fuel) (h : Reads tz (tuple_pat tup) tz') :
    expect tz.next.1 .LPAREN "'('" = .ok () ∧
      tuple_loop fuel tz.next.2 [] true = some (.ok (tup, tz')) := by
  have h' : Reads tz (Pat.punct .LPAREN ::
      (commasep (tup.map fun v => [Pat.lit v]) ++ [Pat.punct .RPAREN])) tz' := h
  have hle := next_rest_le tz
  exact ⟨expect_ok _ _ _ h'.1, tuple_loop_complete tup fuel tz.next.2 tz' (by omega) h'.2⟩

/-- The tuples of an INSERT behind the first one. -/
theorem insert_values_loop_complete_rest (tups : List (List Value)) :
    ∀ (fuel : Nat) (tz tz' : Tokenizer) (acc : List (List Value)),
      tz.rest.length < fuel → tz.peek.type = .COMMA →
      Reads tz (sep_items (tups.map tuple_pat)) tz' →
      tz'.peek.type ≠ .COMMA →
      insert_values_loop fuel tz acc false = some (.ok (acc ++ tups, tz')) := by
  induction tups with
  | nil =>
    intro fuel tz tz' acc hf hpk h hend
    have : tz' = tz := h
    subst this
    exact absurd hpk hend
  | cons tup tups ih =>
    intro fuel tz tz' acc hf hpk h hend
    obtain ⟨f, rfl⟩ : ∃ f, fuel = f + 1 := ⟨fuel - 1, by omega⟩
    have h' : Reads tz (Pat.punct .COMMA :: (tuple_pat tup ++ sep_items (tups.map tuple_pat)))
        tz' := h
    obtain ⟨t1, tz1, hn1, hm1, h1⟩ := reads_cons h'
    simp only [Pat.matches, Punct.type] at hm1
    obtain ⟨tz2, ht, hrest'⟩ := reads_split _ _ _ _ h1
    have hprog := punct_progress_flat hn1 .COMMA hm1
    have hin := next_input_flat hn1
    have hbound : tz1.rest.length + 1 < loop_bound tz := by
      simp only [loop_bound]
      have := rest_length_le tz
      omega
    obtain ⟨hexp, hloop⟩ := tuple_complete tup (loop_bound tz) tz1 tz2 hbound ht
    have hle1 := reads_rest_le _ _ _ ht
    cases tups with
    | nil =>
      have : tz' = tz2 := hrest'
      subst this
      have hend' : ¬ tz'.next.1.type = .COMMA := hend
      simp [insert_values_loop, peek_eq, hn1, hm1, hexp, hloop, hend']
    | cons tup2 tups =>
      have hpk' : tz2.peek.type = .COMMA := by
        have h4' : Reads tz2 (Pat.punct .COMMA ::
          (tuple_pat tup2 ++ sep_items (tups.map tuple_pat))) tz' := hrest'
        obtain ⟨t5, tz5, hn5, hm5, -⟩ := reads_cons h4'
        rw [peek_flat hn5]
        exact hm5
      have := ih f tz2 tz' (acc ++ [tup]) (by omega) hpk' hrest' hend
      have hpk'' : tz2.next.1.type = .COMMA := hpk'
      simp [insert_values_loop, peek_eq, hn1, hm1, hexp, hloop, hpk'', this]

/-- The tuples of an INSERT, from behind `VALUES` on. -/
theorem insert_values_loop_complete (tups : List (List Value)) (hne : tups ≠ [])
    (fuel : Nat) (tz tz' : Tokenizer) (hf : tz.rest.length + 1 < fuel)
    (h : Reads tz (commasep (tups.map tuple_pat)) tz')
    (hend : tz'.peek.type ≠ .COMMA) :
    insert_values_loop fuel tz [] true = some (.ok (tups, tz')) := by
  obtain ⟨f, rfl⟩ : ∃ f, fuel = f + 1 := ⟨fuel - 1, by omega⟩
  obtain ⟨tup, tups, rfl⟩ := List.exists_cons_of_ne_nil hne
  have h' : Reads tz (tuple_pat tup ++ sep_items (tups.map tuple_pat)) tz' := h
  obtain ⟨tz2, ht, hrest'⟩ := reads_split _ _ _ _ h'
  have hbound : tz.rest.length + 1 < loop_bound tz := by
    simp only [loop_bound]
    have := rest_length_le tz
    omega
  obtain ⟨hexp, hloop⟩ := tuple_complete tup (loop_bound tz) tz tz2 hbound ht
  have hle1 := reads_rest_le _ _ _ ht
  cases tups with
  | nil =>
    have : tz' = tz2 := hrest'
    subst this
    have hend' : ¬ tz'.next.1.type = .COMMA := hend
    simp [insert_values_loop, peek_eq, hexp, hloop, hend']
  | cons tup2 tups =>
    have hpk' : tz2.peek.type = .COMMA := by
      have h4' : Reads tz2 (Pat.punct .COMMA ::
        (tuple_pat tup2 ++ sep_items (tups.map tuple_pat))) tz' := hrest'
      obtain ⟨t5, tz5, hn5, hm5, -⟩ := reads_cons h4'
      rw [peek_flat hn5]
      exact hm5
    have := insert_values_loop_complete_rest (tup2 :: tups) f tz2 tz' [tup] (by omega) hpk'
      hrest' hend
    have hpk'' : tz2.next.1.type = .COMMA := hpk'
    simp [insert_values_loop, peek_eq, hexp, hloop, hpk'', this]

/-- The optional WHERE clause. -/
theorem parse_where_complete (w : Option Condition) (tz tz' : Tokenizer)
    (h : Reads tz (where_pat w) tz')
    (hend : ¬ (tz'.peek.type = .IDENT ∧ tz'.peek.text = "WHERE")) :
    parse_where tz = .ok (w, tz') := by
  cases w with
  | none =>
    have : tz' = tz := h
    subst this
    simp only [parse_where]
    rw [if_neg hend]
  | some c =>
    have h' : Reads tz [Pat.word "WHERE", Pat.word c.column, Pat.op c.op, Pat.lit c.literal]
        tz' := h
    obtain ⟨t1, tz1, hn1, hm1, h1⟩ := reads_cons h'
    obtain ⟨t2, tz2, hn2, hm2, h2⟩ := reads_cons h1
    obtain ⟨t3, tz3, hn3, hm3, h3⟩ := reads_cons h2
    obtain ⟨t4, tz4, hn4, hm4, h4⟩ := reads_cons h3
    have : tz' = tz4 := h4
    subst this
    simp only [Pat.matches] at hm1 hm2 hm3 hm4
    simp [parse_where, peek_eq, hn1, hn2, hn3, hn4, hm1, hm2, hm3, hm4]

theorem bound_flat (tz0 tz : Tokenizer) (h : tz.input = tz0.input) :
    tz.rest.length + 1 < loop_bound tz0 := by
  have := rest_length_le tz
  rw [h] at this
  simp only [loop_bound]
  omega

/-- The CREATE branch on the tokens of a CREATE TABLE statement. -/
theorem parse_create_complete (s : StmtCreate) (tz tzf : Tokenizer)
    (h : Reads tz ([Pat.word "TABLE", Pat.word s.name, Pat.punct .LPAREN] ++
      commasep (s.columns.map fun c => [Pat.word c.name, Pat.typ c.type]) ++
      [Pat.punct .RPAREN]) tzf) :
    parse_create tz = finish tzf "CREATE TABLE" (.Create s) := by
  have h' : Reads tz (Pat.word "TABLE" :: Pat.word s.name :: Pat.punct .LPAREN ::
      (commasep (s.columns.map fun c => [Pat.word c.name, Pat.typ c.type]) ++
        [Pat.punct .RPAREN])) tzf := h
  obtain ⟨t1, tz1, hn1, hm1, h1⟩ := reads_cons h'
  obtain ⟨t2, tz2, hn2, hm2, h2⟩ := reads_cons h1
  obtain ⟨t3, tz3, hn3, hm3, h3⟩ := reads_cons h2
  simp only [Pat.matches, Punct.type] at hm1 hm2 hm3
  have hin : tz3.input = tz.input := by
    rw [next_input_flat hn3, next_input_flat hn2, next_input_flat hn1]
  have hloop := create_columns_loop_complete s.columns (loop_bound tz) tz3 tzf
    (bound_flat tz tz3 hin) h3
  simp [parse_create, expect_ident, expect_ident_any, expect, hn1, hn2, hn3, hm1, hm2, hm3,
    hloop]

/-- The INSERT branch on the tokens of an INSERT statement. -/
theorem parse_insert_complete (s : StmtInsert) (hne : s.values ≠ []) (tz tzf : Tokenizer)
    (h : Reads tz ([Pat.word "INTO", Pat.word s.table, Pat.punct .LPAREN] ++
      commasep (s.columns.map fun c => [Pat.word c]) ++
      [Pat.punct .RPAREN, Pat.word "VALUES"] ++ commasep (s.values.map tuple_pat)) tzf)
    (hend : tzf.peek.type ≠ .COMMA) :
    parse_insert tz = finish tzf "INSERT" (.Insert s) := by
  have h' : Reads tz (Pat.word "INTO" :: Pat.word s.table :: Pat.punct .LPAREN ::
      ((commasep (s.columns.map fun c => [Pat.word c]) ++ [Pat.punct .RPAREN]) ++
        (Pat.word "VALUES" :: commasep (s.values.map tuple_pat)))) tzf := by
    simpa using h
  obtain ⟨t1, tz1, hn1, hm1, h1⟩ := reads_cons h'
  obtain ⟨t2, tz2, hn2, hm2, h2⟩ := reads_cons h1
  obtain ⟨t3, tz3, hn3, hm3, h3⟩ := reads_cons h2
  obtain ⟨tz4, h4, h5⟩ := reads_split _ _ _ _ h3
  obtain ⟨t5, tz5, hn5, hm5, h6⟩ := reads_cons h5
  simp only [Pat.matches, Punct.type] at hm1 hm2 hm3 hm5
  have hin3 : tz3.input = tz.input := by
    rw [next_input_flat hn3, next_input_flat hn2, next_input_flat hn1]
  have hin5 : tz5.input = tz.input := by
    rw [next_input_flat hn5, reads_input _ _ _ h4, hin3]
  have hloop := insert_columns_loop_complete s.columns (loop_bound tz) tz3 tz4
    (bound_flat tz tz3 hin3) h4
  have hvals := insert_values_loop_complete s.values hne (loop_bound tz) tz5 tzf
    (bound_flat tz tz5 hin5) h6 hend
  simp [parse_insert, expect_ident, expect_ident_any, expect, hn1, hn2, hn3, hn5, hm1, hm2,
    hm3, hm5, hloop, hvals]

/-- The DELETE branch on the tokens of a DELETE statement. -/
theorem parse_delete_complete (s : StmtDelete) (tz tzf : Tokenizer)
    (h : Reads tz ([Pat.word "FROM", Pat.word s.table] ++ where_pat s.where) tzf)
    (hend : ¬ (tzf.peek.type = .IDENT ∧ tzf.peek.text = "WHERE")) :
    parse_delete tz = finish tzf "DELETE" (.Delete s) := by
  have h' : Reads tz (Pat.word "FROM" :: Pat.word s.table :: where_pat s.where) tzf := h
  obtain ⟨t1, tz1, hn1, hm1, h1⟩ := reads_cons h'
  obtain ⟨t2, tz2, hn2, hm2, h2⟩ := reads_cons h1
  simp only [Pat.matches] at hm1 hm2
  have hw := parse_where_complete s.where tz2 tzf h2 hend
  simp [parse_delete, expect_ident, expect_ident_any, hn1, hn2, hm1, hm2, hw]

/-- What follows the last item of a list that a WHERE clause or the end of
the statement follows is no comma. -/
theorem where_no_comma (w : Option Condition) (tz tzf : Tokenizer)
    (h : Reads tz (where_pat w) tzf) (hend : tzf.peek.type ≠ .COMMA) :
    tz.peek.type ≠ .COMMA := by
  cases w with
  | none =>
    have : tzf = tz := h
    rw [← this]
    exact hend
  | some c =>
    have h' : Reads tz (Pat.word "WHERE" :: [Pat.word c.column, Pat.op c.op,
      Pat.lit c.literal]) tzf := h
    obtain ⟨t1, tz1, hn1, hm1, -⟩ := reads_cons h'
    simp only [Pat.matches] at hm1
    rw [peek_flat hn1, hm1]
    decide

/-- The UPDATE branch on the tokens of an UPDATE statement. -/
theorem parse_update_complete (s : StmtUpdate) (hne : s.sets ≠ []) (tz tzf : Tokenizer)
    (h : Reads tz ([Pat.word s.table, Pat.word "SET"] ++
      commasep (s.sets.map fun a => [Pat.word a.1, Pat.punct .EQUAL, Pat.lit a.2]) ++
      where_pat s.where) tzf)
    (hend : EndOK tzf) :
    parse_update tz = finish tzf "UPDATE" (.Update s) := by
  have h' : Reads tz (Pat.word s.table :: Pat.word "SET" ::
      (commasep (s.sets.map fun a => [Pat.word a.1, Pat.punct .EQUAL, Pat.lit a.2]) ++
        where_pat s.where)) tzf := h
  obtain ⟨t1, tz1, hn1, hm1, h1⟩ := reads_cons h'
  obtain ⟨t2, tz2, hn2, hm2, h2⟩ := reads_cons h1
  obtain ⟨tz3, h3, h4⟩ := reads_split _ _ _ _ h2
  simp only [Pat.matches] at hm1 hm2
  have hin2 : tz2.input = tz.input := by
    rw [next_input_flat hn2, next_input_flat hn1]
  have hsets := update_sets_loop_complete s.sets hne (loop_bound tz) tz2 tz3
    (bound_flat tz tz2 hin2) h3 (where_no_comma s.where tz3 tzf h4 hend.1)
  have hw := parse_where_complete s.where tz3 tzf h4 hend.2
  simp [parse_update, expect_ident, expect_ident_any, hn1, hn2, hm1, hm2, hsets, hw]

/-- The SELECT branch on the tokens of a SELECT statement. -/
theorem parse_select_complete (s : StmtSelect)
    (hshape : if s.star then s.columns = [] else s.columns ≠ []) (tz tzf : Tokenizer)
    (h : Reads tz ((if s.star then [Pat.punct .STAR]
        else commasep (s.columns.map fun c => [Pat.word c])) ++
      [Pat.word "FROM", Pat.word s.table] ++ where_pat s.where) tzf)
    (hend : ¬ (tzf.peek.type = .IDENT ∧ tzf.peek.text = "WHERE")) :
    parse_select tz = finish tzf "SELECT" (.Select s) := by
  obtain ⟨tbl, cols, star, w⟩ := s
  simp only at hshape h ⊢
  rw [List.append_assoc] at h
  obtain ⟨tz1, h1, h2⟩ := reads_split _ _ _ _ h
  have h2' : Reads tz1 (Pat.word "FROM" :: Pat.word tbl :: where_pat w) tzf := h2
  obtain ⟨t3, tz3, hn3, hm3, h3⟩ := reads_cons h2'
  obtain ⟨t4, tz4, hn4, hm4, h4⟩ := reads_cons h3
  simp only [Pat.matches] at hm3 hm4
  have hw := parse_where_complete w tz4 tzf h4 hend
  have hcols : select_columns tz = some (.ok ((cols, star), tz1)) := by
    cases star with
    | true =>
      simp only [if_true] at hshape h1
      subst hshape
      obtain ⟨t1, tz1', hn1, hm1, h1'⟩ := reads_cons h1
      have : tz1 = tz1' := h1'
      subst this
      simp only [Pat.matches, Punct.type] at hm1
      simp [select_columns, hn1, hm1]
    | false =>
      simp only [Bool.false_eq_true, if_false] at hshape h1
      obtain ⟨c, cols, rfl⟩ := List.exists_cons_of_ne_nil hshape
      have h1' : Reads tz (Pat.word c :: sep_items (cols.map fun c => [Pat.word c])) tz1 := h1
      obtain ⟨t1, tz1', hn1, hm1, h1''⟩ := reads_cons h1'
      simp only [Pat.matches] at hm1
      have hpk : tz1.peek.type ≠ .COMMA := by
        rw [peek_flat hn3, hm3]
        decide
      have hin : tz1'.input = tz.input := next_input_flat hn1
      have hb := bound_flat tz tz1' hin
      have hloop := select_columns_loop_complete cols (loop_bound tz) tz1' tz1 [c]
        (by omega) h1'' hpk
      simp [select_columns, hn1, hm1, hloop]
  simp [parse_select, hcols, expect_ident, expect_ident_any, hn3, hn4, hm3, hm4, hw]

/-- Completeness of `parse_statement` on the tokens: when the tokens of the text
are those the grammar asks for the statement `S`, the parser gets through every
loop within its bound and arrives at its final check with `S`. -/
theorem parse_statement_run_complete (text : String) (S : Statement) (tzf : Tokenizer)
    (hshape : S.shape_ok) (h : Reads (Tokenizer.init text) S.pattern tzf) (hend : EndOK tzf) :
    parse_statement_run text = finish tzf S.what S := by
  cases S with
  | Create s =>
    have h' : Reads (Tokenizer.init text) (Pat.word "CREATE" ::
      ([Pat.word "TABLE", Pat.word s.name, Pat.punct .LPAREN] ++
      commasep (s.columns.map fun c => [Pat.word c.name, Pat.typ c.type]) ++
      [Pat.punct .RPAREN])) tzf := h
    obtain ⟨t1, tz1, hn1, hm1, h1⟩ := reads_cons h'
    simp only [Pat.matches] at hm1
    simp [parse_statement_run, hn1, hm1, parse_create_complete s tz1 tzf h1, Statement.what]
  | Insert s =>
    have h' : Reads (Tokenizer.init text) (Pat.word "INSERT" ::
      ([Pat.word "INTO", Pat.word s.table, Pat.punct .LPAREN] ++
      commasep (s.columns.map fun c => [Pat.word c]) ++
      [Pat.punct .RPAREN, Pat.word "VALUES"] ++ commasep (s.values.map tuple_pat))) tzf := h
    obtain ⟨t1, tz1, hn1, hm1, h1⟩ := reads_cons h'
    simp only [Pat.matches] at hm1
    simp [parse_statement_run, hn1, hm1, parse_insert_complete s hshape tz1 tzf h1 hend.1,
      Statement.what]
  | Delete s =>
    have h' : Reads (Tokenizer.init text) (Pat.word "DELETE" ::
      ([Pat.word "FROM", Pat.word s.table] ++ where_pat s.where)) tzf := h
    obtain ⟨t1, tz1, hn1, hm1, h1⟩ := reads_cons h'
    simp only [Pat.matches] at hm1
    simp [parse_statement_run, hn1, hm1, parse_delete_complete s tz1 tzf h1 hend.2,
      Statement.what]
  | Update s =>
    have h' : Reads (Tokenizer.init text) (Pat.word "UPDATE" ::
      ([Pat.word s.table, Pat.word "SET"] ++
      commasep (s.sets.map fun a => [Pat.word a.1, Pat.punct .EQUAL, Pat.lit a.2]) ++
      where_pat s.where)) tzf := h
    obtain ⟨t1, tz1, hn1, hm1, h1⟩ := reads_cons h'
    simp only [Pat.matches] at hm1
    simp [parse_statement_run, hn1, hm1, parse_update_complete s hshape tz1 tzf h1 hend,
      Statement.what]
  | Select s =>
    have h' : Reads (Tokenizer.init text) (Pat.word "SELECT" ::
      ((if s.star then [Pat.punct .STAR]
        else commasep (s.columns.map fun c => [Pat.word c])) ++
      [Pat.word "FROM", Pat.word s.table] ++ where_pat s.where)) tzf := h
    obtain ⟨t1, tz1, hn1, hm1, h1⟩ := reads_cons h'
    simp only [Pat.matches] at hm1
    simp [parse_statement_run, hn1, hm1, parse_select_complete s hshape tz1 tzf h1 hend.2,
      Statement.what]

theorem delimited_stops (p : Char → Bool) (hp : p ' ' = false) (rest : List Char)
    (h : Delimited rest) : starts_with p rest = false := by
  rcases h with rfl | ⟨r, rfl⟩
  · rfl
  · exact hp

theorem is_ident_start (w : List Char) (h : is_ident w = true) :
    ∃ c cs, w = c :: cs ∧ (isalpha c || c = '_' || c = '-' || isdigit c) = true := by
  cases w with
  | nil => simp [is_ident, run_length, starts_with] at h
  | cons c cs =>
    refine ⟨c, cs, rfl, ?_⟩
    simp only [is_ident, Bool.and_eq_true] at h
    by_cases hd : isdigit c = true
    · simp [hd]
    · simp only [run_length, hd, Bool.false_eq_true, if_false, List.drop_zero,
        starts_with, isalpha_us] at h
      simp only [Bool.or_eq_true] at h ⊢
      rcases h.2 with h1 | h1
      · exact Or.inl (Or.inl (Or.inl h1))
      · exact Or.inl (Or.inl (Or.inr h1))

/-- A printed identifier is lexed back as the IDENT token. -/
theorem lex_render_word (w : String) (hw : is_ident w.data = true) (rest : List Char)
    (hd : Delimited rest) :
    lex_token (w.data ++ rest) = (⟨.IDENT, w⟩, w.data.length) ∧
      starts_with isspace (w.data ++ rest) = false ∧ 0 < w.data.length := by
  have h1 := lex_token_ident w.data rest hw (delimited_stops _ (by decide) rest hd)
  obtain ⟨c, cs, hc, hstart⟩ := is_ident_start w.data hw
  refine ⟨h1, ?_, ?_⟩
  · rw [hc]
    exact not_space_of_word_start c hstart
  · rw [hc]
    simp

/-- A printed token is lexed back as that token, and the token meets what the
grammar asks. -/
theorem lex_render (p : Pat) (hwf : p.wf) (rest : List Char) (hd : Delimited rest) :
    lex_token (p.token.render ++ rest) = (p.token, p.token.render.length) ∧
      starts_with isspace (p.token.render ++ rest) = false ∧ 0 < p.token.render.length ∧
      p.matches p.token := by
  cases p with
  | word w =>
    obtain ⟨h1, h2, h3⟩ := lex_render_word w hwf rest hd
    exact ⟨h1, h2, h3, rfl⟩
  | typ d =>
    have hid : is_ident d.text.data = true := by cases d <;> decide
    obtain ⟨h1, h2, h3⟩ := lex_render_word d.text hid rest hd
    refine ⟨by cases d <;> exact h1, by cases d <;> exact h2, by cases d <;> exact h3, ?_⟩
    cases d <;> rfl
  | punct k =>
    refine ⟨?_, ?_, ?_, rfl⟩
    · cases k <;>
        simp [Pat.token, Token.render, Punct.type, Punct.text, lex_token, lex_symbol,
          Tokenizer.next_symbol, isalpha, isdigit]
    · cases k <;> rfl
    · cases k <;> decide
  | op o =>
    refine ⟨?_, ?_, ?_, ?_⟩
    · rcases hd with rfl | ⟨r, rfl⟩ <;> cases o <;>
        simp [Pat.token, Token.render, Op.type, Op.text, lex_token, lex_symbol,
          Tokenizer.next_symbol, isalpha, isdigit]
    · cases o <;> rfl
    · cases o <;> decide
    · cases o <;> rfl
  | lit v =>
    rcases hwf with ⟨hv, hr⟩ | ⟨hv, hq⟩
    · have hty : v.type = .INT := by rw [hv]; rfl
      obtain ⟨h1, h2, h3⟩ := toDigits_spec v.i.natAbs
      have hsign : (if v.i < 0 then ['-'] else []) = [] ∨
          (if v.i < 0 then ['-'] else []) = ['-'] := by
        by_cases hn : v.i < 0 <;> simp [hn]
      have hlex := lex_token_number (if v.i < 0 then ['-'] else [])
        (Nat.toDigits 10 v.i.natAbs) rest hsign h1 h2
        (delimited_stops _ (by decide) rest hd) (delimited_stops _ (by decide) rest hd)
      rw [← int_toString_data, ← List.length_append, ← int_toString_data] at hlex
      have htok : (Pat.lit v).token = ⟨.NUMBER, toString v.i⟩ := by
        simp [Pat.token, hty]
      have hrn : (Pat.lit v).token.render = (toString v.i).data := by
        rw [htok]; rfl
      rw [hrn, htok]
      refine ⟨hlex, ?_, ?_, ?_⟩
      · rw [int_toString_data]
        obtain ⟨d, ds, hds⟩ := List.exists_cons_of_ne_nil h1
        have hdig : isdigit d = true := by
          rw [hds] at h2
          simp only [List.all_cons, Bool.and_eq_true] at h2
          exact h2.1
        by_cases hn : v.i < 0
        · simp only [hn, if_true]
          rfl
        · simp only [hn, if_false, List.nil_append, hds, List.cons_append, starts_with]
          exact not_space_of_word_start d (by simp [hdig])
      · rw [int_toString_data]
        have : 0 < (Nat.toDigits 10 v.i.natAbs).length := List.length_pos.2 h1
        simp only [List.length_append]
        omega
      · show parse_literal ⟨.NUMBER, toString v.i⟩ = .ok v
        rw [parse_literal_toString v.i hr, ← hv]
    · have hty : v.type = .STR := by rw [hv]; rfl
      have htok : (Pat.lit v).token = ⟨.STRING, v.s⟩ := by
        simp [Pat.token, hty]
      have hrn : (Pat.lit v).token.render = '"' :: (v.s.data ++ ['"']) := by
        rw [htok]; rfl
      rw [hrn, htok]
      refine ⟨?_, rfl, by simp, ?_⟩
      · have := scan_string_loop_closed v.s.data rest hq
        have e : '"' :: (v.s.data ++ ['"']) ++ rest = '"' :: (v.s.data ++ '"' :: rest) := by
          simp
        rw [e]
        simp only [lex_token, if_true, this]
        refine Prod.ext rfl ?_
        simp only [List.length_cons, List.length_append, List.length_singleton,
          List.length_nil]
        omega
      · show parse_literal ⟨.STRING, v.s⟩ = .ok v
        simp only [parse_literal]
        rw [if_pos trivial, ← hv, if_neg (by decide)]

theorem canonical_lexable (p : Pat) (hwf : p.wf) : p.token.lexable ∧ p.matches p.token := by
  refine ⟨fun rest hd => ?_, (lex_render p hwf [] (Or.inl rfl)).2.2.2⟩
  exact ⟨(lex_render p hwf rest hd).1, (lex_render p hwf rest hd).2.1⟩

/-- One call of `next` in front of a printed token. -/
theorem next_lexable (tz : Tokenizer) (ws : List Char) (t : Token) (rest : List Char)
    (hrest : tz.rest = ws ++ (t.render ++ rest)) (hws : ws.all isspace = true)
    (hl : t.lexable) (hd : Delimited rest) :
    ∃ tz1, tz.next = (t, tz1) ∧ tz1.rest = rest := by
  obtain ⟨h1, h2⟩ := hl rest hd
  have hn := next_of_rest tz ws (t.render ++ rest) hrest hws h2
  rw [h1] at hn
  refine ⟨_, hn, ?_⟩
  simp only [Tokenizer.rest] at hrest ⊢
  rw [← List.drop_drop, hrest, ← List.drop_drop, List.drop_left, List.drop_left]

/-- At the end of the input `next` returns END. -/
theorem eof_of_rest_nil (tz : Tokenizer) (h : tz.rest = []) : tz.eof = true := by
  have hn := next_of_rest tz [] [] (by simpa using h) rfl rfl
  simp [Tokenizer.eof, peek_eq, hn, lex_token]

theorem spaced_cons (t : Token) (ts : List Token) (tail : List Char) :
    spaced (t :: ts) ++ tail =
      t.render ++ (if ts = [] then tail else ' ' :: (spaced ts ++ tail)) := by
  cases ts with
  | nil => simp [spaced]
  | cons t' ts => simp [spaced]

/-- The calls of `next` on printed tokens: they return the tokens one after
the other and stop behind the last one. -/
theorem reads_chain (ps : List Pat) (ts : List Token)
    (h : List.Forall₂ (fun p t => Token.lexable t ∧ Pat.matches p t) ps ts) :
    ∀ (tz : Tokenizer) (ws tail : List Char), ts ≠ [] → ws.all isspace = true →
      Delimited tail → tz.rest = ws ++ (spaced ts ++ tail) →
      ∃ tzf, Reads tz ps tzf ∧ tzf.rest = tail := by
  induction h with
  | nil => intro tz ws tail hne; exact absurd rfl hne
  | @cons p t ps ts hpt _ ih =>
    intro tz ws tail _ hws hd hrest
    rw [spaced_cons] at hrest
    have hd' : Delimited (if ts = [] then tail else ' ' :: (spaced ts ++ tail)) := by
      by_cases hts : ts = []
      · simp only [hts, if_true]; exact hd
      · simp only [hts, if_false]; exact Or.inr ⟨_, rfl⟩
    obtain ⟨tz1, hn, hr1⟩ := next_lexable tz ws t _ hrest hws hpt.1 hd'
    by_cases hts : ts = []
    · subst hts
      cases ‹List.Forall₂ _ ps []›
      simp only [if_true] at hr1
      exact ⟨tz1, reads_cons_mk hn hpt.2 rfl, hr1⟩
    · simp only [hts, if_false] at hr1
      obtain ⟨tzf, hreads, hrf⟩ := ih tz1 [' '] tail hts rfl hd (by simpa using hr1)
      exact ⟨tzf, reads_cons_mk hn hpt.2 hreads, hrf⟩

theorem forall₂_canonical (ps : List Pat) (h : ∀ p ∈ ps, p.wf) :
    List.Forall₂ (fun p t => Token.lexable t ∧ Pat.matches p t) ps (ps.map Pat.token) := by
  induction ps with
  | nil => exact List.Forall₂.nil
  | cons p ps ih =>
    exact List.Forall₂.cons (canonical_lexable p (h p (List.mem_cons_self _ _)))
      (ih fun q hq => h q (List.mem_cons_of_mem _ hq))

theorem endOK_of_eof (tz : Tokenizer) (h : tz.eof = true) : EndOK tz := by
  simp only [Tokenizer.eof, decide_eq_true_eq] at h
  constructor
  · rw [h]; decide
  · rw [h]; simp

/-- When the tokens of the text are those the grammar asks for `S` and nothing
is left behind them, `parse_statement` returns `S`. -/
theorem parse_of_reads (text : String) (S : Statement) (tzf : Tokenizer)
    (hshape : S.shape_ok) (h : Reads (Tokenizer.init text) S.pattern tzf)
    (hrest : tzf.rest = []) : parse_statement text = some (.ok S) := by
  have heof := eof_of_rest_nil tzf hrest
  have := parse_statement_run_complete text S tzf hshape h (endOK_of_eof tzf heof)
  simp [parse_statement, this, finish, heof]

/-- A SELECT with a WHERE clause whose operator token is none of the six
comparison operators is rejected by `parse_op`. -/
theorem where_op_rejected (text t c : String) (tzf : Tokenizer)
    (h : Reads (Tokenizer.init text) [Pat.word "SELECT", Pat.punct .STAR, Pat.word "FROM",
      Pat.word t, Pat.word "WHERE", Pat.word c] tzf)
    (hsym : tzf.next.1.type = .SYMBOL) :
    parse_statement text = some (.error (.ParseError
      "Expected comparison operator (=, !=, <, >, <=, >=)")) := by
  obtain ⟨t1, tz1, hn1, hm1, h1⟩ := reads_cons h
  obtain ⟨t2, tz2, hn2, hm2, h2⟩ := reads_cons h1
  obtain ⟨t3, tz3, hn3, hm3, h3⟩ := reads_cons h2
  obtain ⟨t4, tz4, hn4, hm4, h4⟩ := reads_cons h3
  obtain ⟨t5, tz5, hn5, hm5, h5⟩ := reads_cons h4
  obtain ⟨t6, tz6, hn6, hm6, h6⟩ := reads_cons h5
  have : tzf = tz6 := h6
  subst this
  simp only [Pat.matches, Punct.type] at hm1 hm2 hm3 hm4 hm5 hm6
  have hop : parse_op tzf.next.1 = .error (.ParseError
      "Expected comparison operator (=, !=, <, >, <=, >=)") := by
    simp [parse_op, hsym]
  simp [parse_statement, parse_statement_run, parse_select, select_columns, parse_where,
    expect_ident, expect_ident_any, peek_eq, hn1, hn2, hn3, hn4, hn5, hn6, hm1, hm2, hm3, hm4,
    hm5, hm6, hop]

/-- A `!` with no `=` behind it is the SYMBOL token `!`. -/
theorem next_bang (tz : Tokenizer) (ws tail : List Char) (hrest : tz.rest = ws ++ '!' :: tail)
    (hws : ws.all isspace = true) (htail : starts_with (fun d => d = '=') tail = false) :
    tz.next = (⟨.SYMBOL, "!"⟩, { tz with i := tz.i + (ws.length + 1) }) := by
  rw [next_of_rest tz ws ('!' :: tail) hrest hws rfl]
  cases tail with
  | nil => simp [lex_token, lex_symbol, Tokenizer.next_symbol, isalpha, isdigit]; rfl
  | cons d r =>
    simp only [starts_with, decide_eq_false_iff_not] at htail
    simp [lex_token, lex_symbol, Tokenizer.next_symbol, isalpha, isdigit, htail]
    rfl

/-- The characters `<=` are the one token LE and `>=` the one token GE. -/
theorem next_le_ge (tz : Tokenizer) (ws tail : List Char) (hws : ws.all isspace = true) :
    (tz.rest = ws ++ '<' :: '=' :: tail →
      tz.next = (⟨.LE, "<="⟩, { tz with i := tz.i + (ws.length + 2) })) ∧
    (tz.rest = ws ++ '>' :: '=' :: tail →
      tz.next = (⟨.GE, ">="⟩, { tz with i := tz.i + (ws.length + 2) })) := by
  constructor
  · intro hrest
    rw [next_of_rest tz ws _ hrest hws rfl]
    simp [lex_token, lex_symbol, Tokenizer.next_symbol, isalpha, isdigit]
  · intro hrest
    rw [next_of_rest tz ws _ hrest hws rfl]
    simp [lex_token, lex_symbol, Tokenizer.next_symbol, isalpha, isdigit]

/-- An integer literal is lexed back from its text. -/
theorem number_lexable (sign ds : List Char) (hsign : sign = [] ∨ sign = ['-'])
    (hne : ds ≠ []) (hds : ds.all isdigit = true) :
    Token.lexable ⟨.NUMBER, String.mk (sign ++ ds)⟩ := by
  intro rest hd
  have hlex := lex_token_number sign ds rest hsign hne hds
    (delimited_stops _ (by decide) rest hd) (delimited_stops _ (by decide) rest hd)
  have hr : Token.render ⟨.NUMBER, String.mk (sign ++ ds)⟩ = sign ++ ds := rfl
  rw [hr, List.length_append]
  refine ⟨hlex, ?_⟩
  obtain ⟨d, ds', rfl⟩ := List.exists_cons_of_ne_nil hne
  have hdig : isdigit d = true := by
    simp only [List.all_cons, Bool.and_eq_true] at hds
    exact hds.1
  rcases hsign with rfl | rfl
  · simp only [List.nil_append, List.cons_append, starts_with]
    exact not_space_of_word_start d (by simp [hdig])
  · rfl

theorem forall₂_append {α β : Type} (R : α → β → Prop) (a1 a2 : List α) (b1 b2 : List β)
    (h1 : List.Forall₂ R a1 b1) (h2 : List.Forall₂ R a2 b2) :
    List.Forall₂ R (a1 ++ a2) (b1 ++ b2) := by
  induction h1 with
  | nil => exact h2
  | cons h _ ih => exact List.Forall₂.cons h ih

/-- The tokens of `SELECT * FROM t WHERE c`. -/
theorem select_where_head (t c : String) (ht : is_ident t.data = true)
    (hc : is_ident c.data = true) :
    List.Forall₂ (fun p tok => Token.lexable tok ∧ Pat.matches p tok)
      [Pat.word "SELECT", Pat.punct .STAR, Pat.word "FROM", Pat.word t, Pat.word "WHERE",
        Pat.word c]
      [⟨.IDENT, "SELECT"⟩, ⟨.STAR, "*"⟩, ⟨.IDENT, "FROM"⟩, ⟨.IDENT, t⟩, ⟨.IDENT, "WHERE"⟩,
        ⟨.IDENT, c⟩] := by
  have := forall₂_canonical [Pat.word "SELECT", Pat.punct .STAR, Pat.word "FROM", Pat.word t,
    Pat.word "WHERE", Pat.word c] (by
      intro p hp
      simp only [List.mem_cons, List.mem_singleton, List.not_mem_nil, or_false] at hp
      rcases hp with rfl | rfl | rfl | rfl | rfl | rfl
      · show is_ident "SELECT".data = true; decide
      · trivial
      · show is_ident "FROM".data = true; decide
      · exact ht
      · show is_ident "WHERE".data = true; decide
      · exact hc)
  exact this

/-- The statement `SELECT * FROM t WHERE c OP L` for a literal given by its
token. -/
theorem parse_where_query (t c : String) (ht : is_ident t.data = true)
    (hc : is_ident c.data = true) (o : Op) (lit : Token) (v : Value)
    (hl : lit.lexable) (hv : parse_literal lit = .ok v) :
    parse_statement (where_query t c o.text (String.mk lit.render)) =
      some (.ok (.Select ⟨t, [], true, some ⟨c, o, v⟩⟩)) := by
  have hall : List.Forall₂ (fun p tok => Token.lexable tok ∧ Pat.matches p tok)
      ([Pat.word "SELECT", Pat.punct .STAR, Pat.word "FROM", Pat.word t, Pat.word "WHERE",
        Pat.word c] ++ [Pat.op o, Pat.lit v])
      ([⟨.IDENT, "SELECT"⟩, ⟨.STAR, "*"⟩, ⟨.IDENT, "FROM"⟩, ⟨.IDENT, t⟩, ⟨.IDENT, "WHERE"⟩,
        ⟨.IDENT, c⟩] ++ [(Pat.op o).token, lit]) := by
    apply forall₂_append _ _ _ _ _ (select_where_head t c ht hc)
    exact List.Forall₂.cons (canonical_lexable (Pat.op o) trivial)
      (List.Forall₂.cons ⟨hl, hv⟩ List.Forall₂.nil)
  obtain ⟨tzf, hreads, hrest⟩ := reads_chain _ _ hall
    (Tokenizer.init (where_query t c o.text (String.mk lit.render))) [] [] (by simp) rfl
    (Or.inl rfl) (by
      have r0 : (Pat.op o).token.render = o.text.data := by cases o <;> rfl
      have r1 : ∀ x : String, Token.render ⟨.IDENT, x⟩ = x.data := fun _ => rfl
      have r2 : Token.render ⟨.STAR, "*"⟩ = ['*'] := rfl
      simp [Tokenizer.init, Tokenizer.rest, where_query, spaced, r0, r1, r2])
  exact parse_of_reads _ (.Select ⟨t, [], true, some ⟨c, o, v⟩⟩) tzf rfl hreads hrest

theorem expect_comma_unless_inv (b : Bool) (tz tz1 : Tokenizer)
    (h : expect_comma_unless b tz = .ok tz1) :
    (b = true ∧ tz1 = tz) ∨ (b = false ∧ tz.next.1.type = .COMMA ∧ tz1 = tz.next.2) := by
  cases b with
  | true =>
    simp only [expect_comma_unless, if_true, Except.ok.injEq] at h
    exact Or.inl ⟨rfl, h.symm⟩
  | false =>
    right
    by_cases hc : tz.next.1.type = .COMMA
    · simp [expect_comma_unless, expect, hc] at h
      exact ⟨rfl, hc, h.symm⟩
    · simp [expect_comma_unless, expect, hc] at h

theorem expect_ident_any_inv (tz tz1 : Tokenizer) (w : String)
    (h : expect_ident_any tz = .ok (w, tz1)) : tz.next.1 = ⟨.IDENT, w⟩ ∧ tz1 = tz.next.2 := by
  by_cases hc : tz.next.1.type = .IDENT
  · simp [expect_ident_any, hc] at h
    refine ⟨?_, h.2.symm⟩
    rw [← h.1, ← hc]
  · simp [expect_ident_any, hc] at h

theorem expect_ident_inv (tz tz1 : Tokenizer) (kw : String)
    (h : expect_ident tz kw = .ok tz1) : tz.next.1 = ⟨.IDENT, kw⟩ ∧ tz1 = tz.next.2 := by
  by_cases hc : tz.next.1.type = .IDENT ∧ tz.next.1.text = kw
  · simp [expect_ident, hc.1, hc.2] at h
    refine ⟨?_, h.symm⟩
    rw [← hc.1, ← hc.2]
  · have hc' : tz.next.1.type ≠ .IDENT ∨ tz.next.1.text ≠ kw := by
      by_contra hcon
      simp only [not_or, ne_eq, not_not] at hcon
      exact hc hcon
    simp [expect_ident, hc'] at h

theorem expect_inv (t : Token) (tt : TokType) (what : String)
    (h : expect t tt what = .ok ()) : t.type = tt := by
  by_cases hc : t.type = tt
  · exact hc
  · simp [expect, hc] at h

theorem items_cons_first (it : List Pat) (items : List (List Pat)) :
    items_pat true (it :: items) = it ++ items_pat false items := rfl

theorem items_cons_rest (it : List Pat) (items : List (List Pat)) :
    items_pat false (it :: items) = Pat.punct .COMMA :: (it ++ items_pat false items) := rfl

/-- The first token of an item, read after the comma when there is one. -/
theorem reads_item (b : Bool) (tz tz1 tz' : Tokenizer) (it : List Pat)
    (items : List (List Pat))
    (hc : (b = true ∧ tz1 = tz) ∨ (b = false ∧ tz.next.1.type = .COMMA ∧ tz1 = tz.next.2))
    (h : Reads tz1 (it ++ items_pat false items) tz') :
    Reads tz (items_pat b (it :: items)) tz' := by
  rcases hc with ⟨rfl, rfl⟩ | ⟨rfl, hcomma, rfl⟩
  · exact h
  · exact ⟨hcomma, h⟩

/-- Soundness of the tuple loop: the literals it returns are those of the
tokens it has read. -/
theorem tuple_loop_sound (fuel : Nat) :
    ∀ (tz tz' : Tokenizer) (acc r : List Value) (b : Bool),
      tuple_loop fuel tz acc b = some (.ok (r, tz')) →
      ∃ vs, r = acc ++ vs ∧
        Reads tz (items_pat b (vs.map fun v => [Pat.lit v]) ++ [Pat.punct .RPAREN]) tz' := by
  induction fuel with
  | zero => intro tz tz' acc r b h; simp [tuple_loop] at h
  | succ f ih =>
    intro tz tz' acc r b h
    simp only [tuple_loop] at h
    by_cases hp : tz.peek.type = .RPAREN
    · simp only [hp, if_true, Option.some.injEq, Except.ok.injEq, Prod.mk.injEq] at h
      refine ⟨[], by simp [h.1], ?_⟩
      have : items_pat b ([].map fun v => [Pat.lit v]) = [] := by cases b <;> rfl
      rw [this]
      exact ⟨hp, h.2.symm⟩
    · simp only [hp, if_false] at h
      cases hc : expect_comma_unless b tz with
      | error e => simp [hc] at h
      | ok tz1 =>
        simp only [hc] at h
        cases hl : parse_literal tz1.next.1 with
        | error e => simp [hl] at h
        | ok v =>
          simp only [hl] at h
          obtain ⟨vs, hr, hreads⟩ := ih _ _ _ _ _ h
          refine ⟨v :: vs, by simp [hr], ?_⟩
          have hitem : Reads tz1 ([Pat.lit v] ++ items_pat false (vs.map fun v => [Pat.lit v])
              ++ [Pat.punct .RPAREN]) tz' := ⟨hl, hreads⟩
          rw [List.map_cons]
          have := expect_comma_unless_inv b tz tz1 hc
          rcases this with ⟨rfl, rfl⟩ | ⟨rfl, hcomma, rfl⟩
          · exact hitem
          · exact ⟨hcomma, hitem⟩

theorem items_nil (b : Bool) : items_pat b [] = [] := by cases b <;> rfl

/-- Soundness of the loop over the column names of an INSERT. -/
theorem insert_columns_loop_sound (fuel : Nat) :
    ∀ (tz tz' : Tokenizer) (acc r : List String) (b : Bool),
      insert_columns_loop fuel tz acc b = some (.ok (r, tz')) →
      ∃ cs, r = acc ++ cs ∧
        Reads tz (items_pat b (cs.map fun c => [Pat.word c]) ++ [Pat.punct .RPAREN]) tz' := by
  induction fuel with
  | zero => intro tz tz' acc r b h; simp [insert_columns_loop] at h
  | succ f ih =>
    intro tz tz' acc r b h
    simp only [insert_columns_loop] at h
    by_cases hp : tz.peek.type = .RPAREN
    · simp only [hp, if_true, Option.some.injEq, Except.ok.injEq, Prod.mk.injEq] at h
      refine ⟨[], by simp [h.1], ?_⟩
      rw [List.map_nil, items_nil]
      exact ⟨hp, h.2.symm⟩
    · simp only [hp, if_false] at h
      cases hc : expect_comma_unless b tz with
      | error e => simp [hc] at h
      | ok tz1 =>
        simp only [hc] at h
        cases hl : expect_ident_any tz1 with
        | error e => simp [hl] at h
        | ok res =>
          obtain ⟨c, tz2⟩ := res
          simp only [hl] at h
          obtain ⟨cs, hr, hreads⟩ := ih _ _ _ _ _ h
          obtain ⟨hw, rfl⟩ := expect_ident_any_inv _ _ _ hl
          refine ⟨c :: cs, by simp [hr], ?_⟩
          have hitem : Reads tz1 ([Pat.word c] ++
              items_pat false (cs.map fun c => [Pat.word c]) ++ [Pat.punct .RPAREN]) tz' :=
            ⟨hw, hreads⟩
          rw [List.map_cons]
          rcases expect_comma_unless_inv b tz tz1 hc with ⟨rfl, rfl⟩ | ⟨rfl, hcomma, rfl⟩
          · exact hitem
          · exact ⟨hcomma, hitem⟩

/-- Soundness of the loop over the column definitions of a CREATE TABLE. -/
theorem create_columns_loop_sound (fuel : Nat) :
    ∀ (tz tz' : Tokenizer) (acc r : List Column) (b : Bool),
      create_columns_loop fuel tz acc b = some (.ok (r, tz')) →
      ∃ cs, r = acc ++ cs ∧
        Reads tz (items_pat b (cs.map fun c => [Pat.word c.name, Pat.typ c.type]) ++
          [Pat.punct .RPAREN]) tz' := by
  induction fuel with
  | zero => intro tz tz' acc r b h; simp [create_columns_loop] at h
  | succ f ih =>
    intro tz tz' acc r b h
    simp only [create_columns_loop] at h
    by_cases hp : tz.peek.type = .RPAREN
    · simp only [hp, if_true, Option.some.injEq, Except.ok.injEq, Prod.mk.injEq] at h
      refine ⟨[], by simp [h.1], ?_⟩
      rw [List.map_nil, items_nil]
      exact ⟨hp, h.2.symm⟩
    · simp only [hp, if_false] at h
      cases hc : expect_comma_unless b tz with
      | error e => simp [hc] at h
      | ok tz1 =>
        simp only [hc] at h
        cases hl : expect_ident_any tz1 with
        | error e => simp [hl] at h
        | ok res =>
          obtain ⟨c, tz2⟩ := res
          simp only [hl] at h
          cases hty : parse_type tz2.next.1 with
          | error e => simp [hty] at h
          | ok ty =>
            simp only [hty] at h
            obtain ⟨cs, hr, hreads⟩ := ih _ _ _ _ _ h
            obtain ⟨hw, rfl⟩ := expect_ident_any_inv _ _ _ hl
            refine ⟨⟨c, ty⟩ :: cs, by simp [hr], ?_⟩
            have hitem : Reads tz1 ([Pat.word c, Pat.typ ty] ++
                items_pat false (cs.map fun c => [Pat.word c.name, Pat.typ c.type]) ++
                [Pat.punct .RPAREN]) tz' := ⟨hw, hty, hreads⟩
            rw [List.map_cons]
            rcases expect_comma_unless_inv b tz tz1 hc with ⟨rfl, rfl⟩ | ⟨rfl, hcomma, rfl⟩
            · exact hitem
            · exact ⟨hcomma, hitem⟩

/-- Soundness of the loop over the further columns of a SELECT. -/
theorem select_columns_loop_sound (fuel : Nat) :
    ∀ (tz tz' : Tokenizer) (acc r : List String),
      select_columns_loop fuel tz acc = some (.ok (r, tz')) →
      ∃ cs, r = acc ++ cs ∧ Reads tz (sep_items (cs.map fun c => [Pat.word c])) tz' ∧
        tz'.peek.type ≠ .COMMA := by
  induction fuel with
  | zero => intro tz tz' acc r h; simp [select_columns_loop] at h
  | succ f ih =>
    intro tz tz' acc r h
    simp only [select_columns_loop] at h
    by_cases hp : tz.peek.type = .COMMA
    · simp only [hp, if_true] at h
      cases hl : expect_ident_any tz.next.2 with
      | error e => simp [hl] at h
      | ok res =>
        obtain ⟨c, tz2⟩ := res
        simp only [hl] at h
        obtain ⟨cs, hr, hreads, hend⟩ := ih _ _ _ _ h
        obtain ⟨hw, rfl⟩ := expect_ident_any_inv _ _ _ hl
        exact ⟨c :: cs, by simp [hr], ⟨hp, hw, hreads⟩, hend⟩
    · simp only [hp, if_false, Option.some.injEq, Except.ok.injEq, Prod.mk.injEq] at h
      obtain ⟨rfl, rfl⟩ := h
      exact ⟨[], by simp, rfl, hp⟩

/-- Soundness of the loop over the assignments of an UPDATE. -/
theorem update_sets_loop_sound (fuel : Nat) :
    ∀ (tz tz' : Tokenizer) (acc r : List (String × Value)) (b : Bool),
      update_sets_loop fuel tz acc b = some (.ok (r, tz')) →
      ∃ sets, r = acc ++ sets ∧ (b = true → sets ≠ []) ∧
        Reads tz (items_pat b
          (sets.map fun a => [Pat.word a.1, Pat.punct .EQUAL, Pat.lit a.2])) tz' ∧
        tz'.peek.type ≠ .COMMA := by
  induction fuel with
  | zero => intro tz tz' acc r b h; simp [update_sets_loop] at h
  | succ f ih =>
    intro tz tz' acc r b h
    simp only [update_sets_loop] at h
    by_cases hp : (!b && decide (tz.peek.type ≠ .COMMA)) = true
    · simp only [hp, if_true, Option.some.injEq, Except.ok.injEq, Prod.mk.injEq] at h
      obtain ⟨rfl, rfl⟩ := h
      simp only [Bool.and_eq_true, Bool.not_eq_true', decide_eq_true_eq] at hp
      obtain ⟨rfl, hne⟩ := hp
      exact ⟨[], by simp, by simp, rfl, hne⟩
    · simp only [hp, Bool.false_eq_true, if_false] at h
      have hc : (b = true ∧ (if b = true then tz else tz.next.2) = tz) ∨
          (b = false ∧ tz.next.1.type = .COMMA ∧
            (if b = true then tz else tz.next.2) = tz.next.2) := by
        cases b with
        | true => exact Or.inl ⟨rfl, rfl⟩
        | false =>
          simp only [Bool.not_false, Bool.true_and, decide_eq_true_eq, ne_eq, not_not] at hp
          exact Or.inr ⟨rfl, hp, rfl⟩
      generalize (if b = true then tz else tz.next.2) = tz0 at h hc
      cases hl : expect_ident_any tz0 with
      | error e => simp [hl] at h
      | ok res =>
        obtain ⟨c, tz1⟩ := res
        simp only [hl] at h
        obtain ⟨hw, rfl⟩ := expect_ident_any_inv _ _ _ hl
        cases he : expect tz0.next.2.next.1 .EQUAL "'='" with
        | error e => simp [he] at h
        | ok u =>
          simp only [he] at h
          have heq := expect_inv _ _ _ he
          cases hv : parse_literal tz0.next.2.next.2.next.1 with
          | error e => simp [hv] at h
          | ok v =>
            simp only [hv] at h
            by_cases hp2 : tz0.next.2.next.2.next.2.peek.type ≠ .COMMA
            · rw [if_pos hp2] at h
              simp only [Option.some.injEq, Except.ok.injEq, Prod.mk.injEq] at h
              obtain ⟨rfl, rfl⟩ := h
              refine ⟨[(c, v)], rfl, by simp, ?_, hp2⟩
              have hitem : Reads tz0 ([Pat.word c, Pat.punct .EQUAL, Pat.lit v] ++
                  items_pat false []) tz0.next.2.next.2.next.2 := ⟨hw, heq, hv, rfl⟩
              exact reads_item b tz tz0 _ _ [] hc hitem
            · rw [if_neg hp2] at h
              obtain ⟨sets, hr, -, hreads, hend⟩ := ih _ _ _ _ _ h
              refine ⟨(c, v) :: sets, by simp [hr], by simp, ?_, hend⟩
              have hitem : Reads tz0 ([Pat.word c, Pat.punct .EQUAL, Pat.lit v] ++
                  items_pat false
                    (sets.map fun a => [Pat.word a.1, Pat.punct .EQUAL, Pat.lit a.2])) tz' :=
                ⟨hw, heq, hv, hreads⟩
              exact reads_item b tz tz0 _ _ _ hc hitem

/-- Soundness of the loop over the tuples of an INSERT. -/
theorem insert_values_loop_sound (fuel : Nat) :
    ∀ (tz tz' : Tokenizer) (acc r : List (List Value)) (b : Bool),
      insert_values_loop fuel tz acc b = some (.ok (r, tz')) →
      ∃ tups, r = acc ++ tups ∧ (b = true → tups ≠ []) ∧
        Reads tz (items_pat b (tups.map tuple_pat)) tz' ∧ tz'.peek.type ≠ .COMMA := by
  induction fuel with
  | zero => intro tz tz' acc r b h; simp [insert_values_loop] at h
  | succ f ih =>
    intro tz tz' acc r b h
    simp only [insert_values_loop] at h
    by_cases hp : (!b && decide (tz.peek.type ≠ .COMMA)) = true
    · simp only [hp, if_true, Option.some.injEq, Except.ok.injEq, Prod.mk.injEq] at h
      obtain ⟨rfl, rfl⟩ := h
      simp only [Bool.and_eq_true, Bool.not_eq_true', decide_eq_true_eq] at hp
      obtain ⟨rfl, hne⟩ := hp
      exact ⟨[], by simp, by simp, rfl, hne⟩
    · simp only [hp, Bool.false_eq_true, if_false] at h
      have hc : (b = true ∧ (if b = true then tz else tz.next.2) = tz) ∨
          (b = false ∧ tz.next.1.type = .COMMA ∧
            (if b = true then tz else tz.next.2) = tz.next.2) := by
        cases b with
        | true => exact Or.inl ⟨rfl, rfl⟩
        | false =>
          simp only [Bool.not_false, Bool.true_and, decide_eq_true_eq, ne_eq, not_not] at hp
          exact Or.inr ⟨rfl, hp, rfl⟩
      generalize (if b = true then tz else tz.next.2) = tz0 at h hc
      cases he : expect tz0.next.1 .LPAREN "'('" with
      | error e => simp [he] at h
      | ok u =>
        simp only [he] at h
        have hlp := expect_inv _ _ _ he
        cases ht : tuple_loop (loop_bound tz) tz0.next.2 [] true with
        | none => simp [ht] at h
        | some res =>
          cases res with
          | error e => simp [ht] at h
          | ok pr =>
            obtain ⟨tup, tz1⟩ := pr
            simp only [ht] at h
            obtain ⟨vs, hvs, hreads⟩ := tuple_loop_sound _ _ _ _ _ _ ht
            simp only [List.nil_append] at hvs
            subst hvs
            have htup : Reads tz0 (tuple_pat tup) tz1 := ⟨hlp, hreads⟩
            by_cases hp2 : tz1.peek.type ≠ .COMMA
            · rw [if_pos hp2] at h
              simp only [Option.some.injEq, Except.ok.injEq, Prod.mk.injEq] at h
              obtain ⟨rfl, rfl⟩ := h
              refine ⟨[tup], rfl, by simp, ?_, hp2⟩
              have hitem : Reads tz0 (tuple_pat tup ++ items_pat false []) tz1 :=
                reads_append _ _ _ _ _ htup rfl
              exact reads_item b tz tz0 _ _ [] hc hitem
            · rw [if_neg hp2] at h
              obtain ⟨tups, hr, -, hrest, hend⟩ := ih _ _ _ _ _ h
              refine ⟨tup :: tups, by simp [hr], by simp, ?_, hend⟩
              have hitem : Reads tz0 (tuple_pat tup ++ items_pat false (tups.map tuple_pat))
                  tz' := reads_append _ _ _ _ _ htup hrest
              exact reads_item b tz tz0 _ _ _ hc hitem

/-- Soundness of `parse_where`. -/
theorem parse_where_sound (tz tz' : Tokenizer) (w : Option Condition)
    (h : parse_where tz = .ok (w, tz')) : Reads tz (where_pat w) tz' := by
  simp only [parse_where] at h
  by_cases hp : tz.peek.type = .IDENT ∧ tz.peek.text = "WHERE"
  · rw [if_pos hp] at h
    by_cases hc : tz.next.2.next.1.type = .IDENT
    · simp only [hc, ne_eq, not_true_eq_false, if_false] at h
      cases hop : parse_op tz.next.2.next.2.next.1 with
      | error e => simp [hop] at h
      | ok cop =>
        simp only [hop] at h
        cases hv : parse_literal tz.next.2.next.2.next.2.next.1 with
        | error e => simp [hv] at h
        | ok v =>
          simp only [hv, Except.ok.injEq, Prod.mk.injEq] at h
          obtain ⟨rfl, rfl⟩ := h
          refine ⟨?_, ?_, hop, hv, rfl⟩
          · show tz.next.1 = ⟨.IDENT, "WHERE"⟩
            have h1 : tz.next.1.type = .IDENT := hp.1
            have h2 : tz.next.1.text = "WHERE" := hp.2
            rw [← h1, ← h2]
          · show tz.next.2.next.1 = ⟨.IDENT, tz.next.2.next.1.text⟩
            rw [← hc]
    · simp [hc] at h
  · rw [if_neg hp] at h
    simp only [Except.ok.injEq, Prod.mk.injEq] at h
    obtain ⟨rfl, rfl⟩ := h
    rfl

theorem finish_inv (tz tzf : Tokenizer) (what : String) (s S : Statement)
    (h : finish tz what s = some (.ok (S, tzf))) : S = s ∧ tzf = tz ∧ tz.eof = true := by
  cases he : tz.eof with
  | false => simp [finish, he] at h
  | true =>
    simp only [finish, he, Bool.not_true, Bool.false_eq_true, if_false, Option.some.injEq,
      Except.ok.injEq, Prod.mk.injEq] at h
    exact ⟨h.1.symm, h.2.symm, rfl⟩

/-- Soundness of the CREATE branch. -/
theorem parse_create_sound (tz tzf : Tokenizer) (S : Statement)
    (h : parse_create tz = some (.ok (S, tzf))) :
    ∃ s : StmtCreate, S = .Create s ∧ tzf.eof = true ∧
      Reads tz ([Pat.word "TABLE", Pat.word s.name, Pat.punct .LPAREN] ++
        commasep (s.columns.map fun c => [Pat.word c.name, Pat.typ c.type]) ++
        [Pat.punct .RPAREN]) tzf := by
  simp only [parse_create] at h
  cases h1 : expect_ident tz "TABLE" with
  | error e => simp [h1] at h
  | ok tz1 =>
    simp only [h1] at h
    obtain ⟨hk, rfl⟩ := expect_ident_inv _ _ _ h1
    cases h2 : expect_ident_any tz.next.2 with
    | error e => simp [h2] at h
    | ok res =>
      obtain ⟨tbl, tz2⟩ := res
      simp only [h2] at h
      obtain ⟨hw, rfl⟩ := expect_ident_any_inv _ _ _ h2
      cases h3 : expect tz.next.2.next.2.next.1 .LPAREN "'('" with
      | error e => simp [h3] at h
      | ok u =>
        simp only [h3] at h
        have hlp := expect_inv _ _ _ h3
        cases h4 : create_columns_loop (loop_bound tz) tz.next.2.next.2.next.2 [] true with
        | none => simp [h4] at h
        | some res =>
          cases res with
          | error e => simp [h4] at h
          | ok pr =>
            obtain ⟨cols, tz3⟩ := pr
            simp only [h4] at h
            obtain ⟨rfl, rfl, heof⟩ := finish_inv _ _ _ _ _ h
            obtain ⟨cs, hcs, hreads⟩ := create_columns_loop_sound _ _ _ _ _ _ h4
            simp only [List.nil_append] at hcs
            subst hcs
            exact ⟨⟨tbl, cols⟩, rfl, heof, hk, hw, hlp, hreads⟩

/-- Soundness of the INSERT branch. -/
theorem parse_insert_sound (tz tzf : Tokenizer) (S : Statement)
    (h : parse_insert tz = some (.ok (S, tzf))) :
    ∃ s : StmtInsert, S = .Insert s ∧ tzf.eof = true ∧ s.values ≠ [] ∧
      Reads tz ([Pat.word "INTO", Pat.word s.table, Pat.punct .LPAREN] ++
        commasep (s.columns.map fun c => [Pat.word c]) ++
        [Pat.punct .RPAREN, Pat.word "VALUES"] ++ commasep (s.values.map tuple_pat)) tzf := by
  simp only [parse_insert] at h
  cases h1 : expect_ident tz "INTO" with
  | error e => simp [h1] at h
  | ok tz1 =>
    simp only [h1] at h
    obtain ⟨hk, rfl⟩ := expect_ident_inv _ _ _ h1
    cases h2 : expect_ident_any tz.next.2 with
    | error e => simp [h2] at h
    | ok res =>
      obtain ⟨tbl, tz2⟩ := res
      simp only [h2] at h
      obtain ⟨hw, rfl⟩ := expect_ident_any_inv _ _ _ h2
      cases h3 : expect tz.next.2.next.2.next.1 .LPAREN "'('" with
      | error e => simp [h3] at h
      | ok u =>
        simp only [h3] at h
        have hlp := expect_inv _ _ _ h3
        cases h4 : insert_columns_loop (loop_bound tz) tz.next.2.next.2.next.2 [] true with
        | none => simp [h4] at h
        | some res =>
          cases res with
          | error e => simp [h4] at h
          | ok pr =>
            obtain ⟨cols, tz3⟩ := pr
            simp only [h4] at h
            obtain ⟨cs, hcs, hreads⟩ := insert_columns_loop_sound _ _ _ _ _ _ h4
            simp only [List.nil_append] at hcs
            subst hcs
            cases h5 : expect_ident tz3 "VALUES" with
            | error e => simp [h5] at h
            | ok tz4 =>
              simp only [h5] at h
              obtain ⟨hv, rfl⟩ := expect_ident_inv _ _ _ h5
              cases h6 : insert_values_loop (loop_bound tz) tz3.next.2 [] true with
              | none => simp [h6] at h
              | some res =>
                cases res with
                | error e => simp [h6] at h
                | ok pr =>
                  obtain ⟨values, tz5⟩ := pr
                  simp only [h6] at h
                  obtain ⟨rfl, rfl, heof⟩ := finish_inv _ _ _ _ _ h
                  obtain ⟨tups, htups, hne, hvals, -⟩ := insert_values_loop_sound _ _ _ _ _ _ h6
                  simp only [List.nil_append] at htups
                  subst htups
                  refine ⟨⟨tbl, cols, values⟩, rfl, heof, hne rfl, ?_⟩
                  have hA : Reads tz ([Pat.word "INTO", Pat.word tbl, Pat.punct .LPAREN] ++
                      commasep (cols.map fun c => [Pat.word c]) ++ [Pat.punct .RPAREN]) tz3 :=
                    ⟨hk, hw, hlp, hreads⟩
                  have hB : Reads tz3 ([Pat.word "VALUES"] ++ commasep (values.map tuple_pat))
                      tzf := ⟨hv, hvals⟩
                  have := reads_append _ _ _ _ _ hA hB
                  simpa using this

/-- Soundness of the DELETE branch. -/
theorem parse_delete_sound (tz tzf : Tokenizer) (S : Statement)
    (h : parse_delete tz = some (.ok (S, tzf))) :
    ∃ s : StmtDelete, S = .Delete s ∧ tzf.eof = true ∧
      Reads tz ([Pat.word "FROM", Pat.word s.table] ++ where_pat s.where) tzf := by
  simp only [parse_delete] at h
  cases h1 : expect_ident tz "FROM" with
  | error e => simp [h1] at h
  | ok tz1 =>
    simp only [h1] at h
    obtain ⟨hk, rfl⟩ := expect_ident_inv _ _ _ h1
    cases h2 : expect_ident_any tz.next.2 with
    | error e => simp [h2] at h
    | ok res =>
      obtain ⟨tbl, tz2⟩ := res
      simp only [h2] at h
      obtain ⟨hw, rfl⟩ := expect_ident_any_inv _ _ _ h2
      cases h3 : parse_where tz.next.2.next.2 with
      | error e => simp [h3] at h
      | ok pr =>
        obtain ⟨w, tz3⟩ := pr
        simp only [h3] at h
        obtain ⟨rfl, rfl, heof⟩ := finish_inv _ _ _ _ _ h
        exact ⟨⟨tbl, w⟩, rfl, heof, hk, hw, parse_where_sound _ _ _ h3⟩

/-- Soundness of the UPDATE branch. -/
theorem parse_update_sound (tz tzf : Tokenizer) (S : Statement)
    (h : parse_update tz = some (.ok (S, tzf))) :
    ∃ s : StmtUpdate, S = .Update s ∧ tzf.eof = true ∧ s.sets ≠ [] ∧
      Reads tz ([Pat.word s.table, Pat.word "SET"] ++
        commasep (s.sets.map fun a => [Pat.word a.1, Pat.punct .EQUAL, Pat.lit a.2]) ++
        where_pat s.where) tzf := by
  simp only [parse_update] at h
  cases h2 : expect_ident_any tz with
  | error e => simp [h2] at h
  | ok res =>
    obtain ⟨tbl, tz1⟩ := res
    simp only [h2] at h
    obtain ⟨hw, rfl⟩ := expect_ident_any_inv _ _ _ h2
    cases h1 : expect_ident tz.next.2 "SET" with
    | error e => simp [h1] at h
    | ok tz2 =>
      simp only [h1] at h
      obtain ⟨hk, rfl⟩ := expect_ident_inv _ _ _ h1
      cases h4 : update_sets_loop (loop_bound tz) tz.next.2.next.2 [] true with
      | none => simp [h4] at h
      | some res =>
        cases res with
        | error e => simp [h4] at h
        | ok pr =>
          obtain ⟨sets, tz3⟩ := pr
          simp only [h4] at h
          obtain ⟨ss, hss, hne, hreads, -⟩ := update_sets_loop_sound _ _ _ _ _ _ h4
          simp only [List.nil_append] at hss
          subst hss
          cases h3 : parse_where tz3 with
          | error e => simp [h3] at h
          | ok pr =>
            obtain ⟨w, tz4⟩ := pr
            simp only [h3] at h
            obtain ⟨rfl, rfl, heof⟩ := finish_inv _ _ _ _ _ h
            refine ⟨⟨tbl, sets, w⟩, rfl, heof, hne rfl, hw, hk, ?_⟩
            exact reads_append _ _ _ _ _ hreads (parse_where_sound _ _ _ h3)

/-- Soundness of the column part of the SELECT branch. -/
theorem select_columns_sound (tz tz1 : Tokenizer) (cols : List String) (star : Bool)
    (h : select_columns tz = some (.ok ((cols, star), tz1))) :
    (if star then cols = [] else cols ≠ []) ∧
      Reads tz (if star then [Pat.punct .STAR]
        else commasep (cols.map fun c => [Pat.word c])) tz1 := by
  simp only [select_columns] at h
  by_cases hs : tz.next.1.type = .STAR
  · simp only [hs, if_true, Option.some.injEq, Except.ok.injEq, Prod.mk.injEq] at h
    obtain ⟨⟨rfl, rfl⟩, rfl⟩ := h
    exact ⟨rfl, hs, rfl⟩
  · simp only [hs, if_false] at h
    by_cases hi : tz.next.1.type = .IDENT
    · simp only [hi, if_true] at h
      cases h4 : select_columns_loop (loop_bound tz) tz.next.2 [tz.next.1.text] with
      | none => simp [h4] at h
      | some res =>
        cases res with
        | error e => simp [h4] at h
        | ok pr =>
          obtain ⟨cs, tz2⟩ := pr
          simp only [h4, Option.some.injEq, Except.ok.injEq, Prod.mk.injEq] at h
          obtain ⟨⟨rfl, rfl⟩, rfl⟩ := h
          obtain ⟨more, hmore, hreads, -⟩ := select_columns_loop_sound _ _ _ _ _ h4
          subst hmore
          refine ⟨by simp, ?_⟩
          simp only [Bool.false_eq_true, if_false, List.singleton_append, List.map_cons, commasep]
          refine ⟨?_, hreads⟩
          show tz.next.1 = ⟨.IDENT, tz.next.1.text⟩
          rw [← hi]
    · simp [hi] at h

/-- Soundness of the SELECT branch. -/
theorem parse_select_sound (tz tzf : Tokenizer) (S : Statement)
    (h : parse_select tz = some (.ok (S, tzf))) :
    ∃ s : StmtSelect, S = .Select s ∧ tzf.eof = true ∧
      (if s.star then s.columns = [] else s.columns ≠ []) ∧
      Reads tz ((if s.star then [Pat.punct .STAR]
          else commasep (s.columns.map fun c => [Pat.word c])) ++
        [Pat.word "FROM", Pat.word s.table] ++ where_pat s.where) tzf := by
  simp only [parse_select] at h
  cases h0 : select_columns tz with
  | none => simp [h0] at h
  | some res =>
    cases res with
    | error e => simp [h0] at h
    | ok pr =>
      obtain ⟨⟨cols, star⟩, tz1⟩ := pr
      simp only [h0] at h
      obtain ⟨hshape, hcols⟩ := select_columns_sound _ _ _ _ h0
      cases h1 : expect_ident tz1 "FROM" with
      | error e => simp [h1] at h
      | ok tz2 =>
        simp only [h1] at h
        obtain ⟨hk, rfl⟩ := expect_ident_inv _ _ _ h1
        cases h2 : expect_ident_any tz1.next.2 with
        | error e => simp [h2] at h
        | ok res =>
          obtain ⟨tbl, tz3⟩ := res
          simp only [h2] at h
          obtain ⟨hw, rfl⟩ := expect_ident_any_inv _ _ _ h2
          cases h3 : parse_where tz1.next.2.next.2 with
          | error e => simp [h3] at h
          | ok pr =>
            obtain ⟨w, tz4⟩ := pr
            simp only [h3] at h
            obtain ⟨rfl, rfl, heof⟩ := finish_inv _ _ _ _ _ h
            refine ⟨⟨tbl, cols, star, w⟩, rfl, heof, hshape, ?_⟩
            have hB : Reads tz1 ([Pat.word "FROM", Pat.word tbl] ++ where_pat w) tzf :=
              ⟨hk, hw, parse_where_sound _ _ _ h3⟩
            have := reads_append _ _ _ _ _ hcols hB
            simpa using this

/-- Soundness of `parse_statement`: the statement returned has the shape of the
grammar, the tokens of the text are those the grammar asks for it, and the
tokenizer is at the end of the input. -/
theorem parse_statement_run_sound (text : String) (S : Statement) (tzf : Tokenizer)
    (h : parse_statement_run text = some (.ok (S, tzf))) :
    S.shape_ok ∧ Reads (Tokenizer.init text) S.pattern tzf ∧ tzf.eof = true := by
  simp only [parse_statement_run] at h
  by_cases hi : (Tokenizer.init text).next.1.type = .IDENT
  · simp only [hi, ne_eq, not_true_eq_false, if_false] at h
    have htok : ∀ kw, (Tokenizer.init text).next.1.text = kw →
        (Tokenizer.init text).next.1 = ⟨.IDENT, kw⟩ := by
      intro kw hk
      rw [← hi, ← hk]
    by_cases h1 : (Tokenizer.init text).next.1.text = "CREATE"
    · simp only [h1, if_true] at h
      obtain ⟨s, rfl, heof, hreads⟩ := parse_create_sound _ _ _ h
      exact ⟨trivial, ⟨htok _ h1, hreads⟩, heof⟩
    simp only [h1, if_false] at h
    by_cases h2 : (Tokenizer.init text).next.1.text = "INSERT"
    · simp only [h2, if_true] at h
      obtain ⟨s, rfl, heof, hne, hreads⟩ := parse_insert_sound _ _ _ h
      exact ⟨hne, ⟨htok _ h2, hreads⟩, heof⟩
    simp only [h2, if_false] at h
    by_cases h3 : (Tokenizer.init text).next.1.text = "DELETE"
    · simp only [h3, if_true] at h
      obtain ⟨s, rfl, heof, hreads⟩ := parse_delete_sound _ _ _ h
      exact ⟨trivial, ⟨htok _ h3, hreads⟩, heof⟩
    simp only [h3, if_false] at h
    by_cases h4 : (Tokenizer.init text).next.1.text = "UPDATE"
    · simp only [h4, if_true] at h
      obtain ⟨s, rfl, heof, hne, hreads⟩ := parse_update_sound _ _ _ h
      exact ⟨hne, ⟨htok _ h4, hreads⟩, heof⟩
    simp only [h4, if_false] at h
    by_cases h5 : (Tokenizer.init text).next.1.text = "SELECT"
    · simp only [h5, if_true] at h
      obtain ⟨s, rfl, heof, hshape, hreads⟩ := parse_select_sound _ _ _ h
      exact ⟨hshape, ⟨htok _ h5, by simpa [List.append_assoc] using hreads⟩, heof⟩
    simp [h5] at h
  · simp [hi] at h

/-- The value `stoll` returns is in the range of `long long`. -/
theorem stoll_range (text : String) (v : Int) (pos : Nat) (h : stoll text = some (v, pos)) :
    in_range v := by
  have key : ∀ (c1 : Prop) [Decidable c1] (w : Int) (p : Nat),
      (if c1 then none
        else if (decide (w < -9223372036854775808) || decide (9223372036854775807 < w)) = true
          then none else some (w, p)) = some (v, pos) → in_range v := by
    intro c1 _ w p hk
    by_cases hc : c1
    · simp [hc] at hk
    · rw [if_neg hc] at hk
      by_cases hr : (decide (w < -9223372036854775808) || decide (9223372036854775807 < w))
          = true
      · simp [hr] at hk
      · rw [if_neg hr] at hk
        simp only [Option.some.injEq, Prod.mk.injEq] at hk
        rw [← hk.1]
        simp only [Bool.or_eq_true, decide_eq_true_eq, not_or, not_lt] at hr
        exact hr
  exact key _ _ _ h

/-- What `parse_literal` returns can be written back. -/
theorem parse_literal_printable (t : Token) (v : Value) (h : parse_literal t = .ok v)
    (hq : t.type = .STRING → '"' ∉ t.text.data) : v.printable := by
  simp only [parse_literal] at h
  by_cases h1 : t.type = .NUMBER
  · simp only [h1, if_true] at h
    cases hs : stoll t.text with
    | none => simp [hs] at h
    | some pr =>
      obtain ⟨n, pos⟩ := pr
      simp only [hs] at h
      split at h
      · simp at h
      · simp only [Except.ok.injEq] at h
        subst h
        exact Or.inl ⟨rfl, stoll_range _ _ _ hs⟩
  · simp only [h1, if_false] at h
    by_cases h2 : t.type = .STRING
    · simp only [h2, if_true, Except.ok.injEq] at h
      subst h
      exact Or.inr ⟨rfl, hq h2⟩
    · simp [h2] at h

/-- At the end of a successful parse every name read is an identifier of the
lexer and every literal read can be written back: a tokenizer that has returned
the IDENT token with the empty text never reaches the end of the input. -/
theorem reads_wf (ps : List Pat) :
    ∀ (tz tzf : Tokenizer), Reads tz ps tzf → tzf.eof = true → ∀ p ∈ ps, p.wf := by
  induction ps with
  | nil => intro tz tzf _ _ p hp; simp at hp
  | cons q ps ih =>
    intro tz tzf h heof p hp
    obtain ⟨hm, hrest⟩ := h
    rcases List.mem_cons.1 hp with rfl | hp'
    · cases p with
      | word w =>
        have hm' : tz.next.1 = ⟨.IDENT, w⟩ := hm
        show is_ident w.data = true
        by_cases hw : w = ""
        · exfalso
          subst hw
          have hs := next_stuck tz hm'
          have := reads_stuck ps _ _ hs hrest
          subst this
          unfold Stuck at hs
          simp [Tokenizer.eof, peek_eq, hs] at heof
        · have h1 : tz.next.1.type = .IDENT := by rw [hm']
          have h2 : tz.next.1.text ≠ "" := by rw [hm']; exact hw
          have := next_ident_text tz h1 h2
          rw [hm'] at this
          exact this
      | lit v =>
        exact parse_literal_printable _ _ hm (next_string_text tz)
      | punct k => trivial
      | op o => trivial
      | typ d => trivial
    · exact ih _ _ hrest heof p hp'

theorem pattern_ne_nil (S : Statement) : S.pattern.map Pat.token ≠ [] := by
  cases S <;> simp [Statement.pattern]

/-- The round trip on the tokens: a statement whose names and literals can be
written back is parsed back from its printed form. -/
theorem parse_render (S : Statement) (hshape : S.shape_ok) (hwf : ∀ p ∈ S.pattern, p.wf) :
    parse_statement (render S) = some (.ok S) := by
  obtain ⟨tzf, hreads, hrest⟩ := reads_chain _ _ (forall₂_canonical S.pattern hwf)
    (Tokenizer.init (render S)) [] [] (pattern_ne_nil S) rfl (Or.inl rfl)
    (by simp [Tokenizer.init, Tokenizer.rest, render])
  exact parse_of_reads _ S tzf hshape hreads hrest

theorem parse_statement_inv (text : String) (S : Statement)
    (h : parse_statement text = some (.ok S)) :
    ∃ tzf, parse_statement_run text = some (.ok (S, tzf)) := by
  simp only [parse_statement] at h
  cases hr : parse_statement_run text with
  | none => simp [hr] at h
  | some res =>
    cases res with
    | error e => simp [hr] at h
    | ok pr =>
      obtain ⟨S', tzf⟩ := pr
      simp only [hr, Option.some.injEq, Except.ok.injEq] at h
      subst h
      exact ⟨tzf, rfl⟩

theorem sim_next (tz tz' : Tokenizer) (h : Appended tz tz') (hne : tz.next.1.type ≠ .END) :
    tz'.next.1 = tz.next.1 ∧ Appended tz.next.2 tz'.next.2 := by
  obtain ⟨hr, hb⟩ := h
  rw [next_fst] at hne
  obtain ⟨h1, h2⟩ := lex_sim tz.rest [';'] hb hne
  refine ⟨?_, ?_, ?_⟩
  · rw [next_fst, next_fst, hr, h1]
  · rw [next_rest, next_rest, hr, h1]
    exact List.drop_append_of_le_length (lex_le tz.rest)
  · rw [next_rest]
    exact h2

theorem sim_end (tz tz' : Tokenizer) (h : Appended tz tz') (hend : tz.next.1.type = .END) :
    tz'.next.1 = ⟨.SEMICOLON, ";"⟩ := by
  rw [next_fst] at hend
  rw [next_fst, h.1, lex_end tz.rest hend]

theorem pat_not_end (p : Pat) (t : Token) (hm : p.matches t) : t.type ≠ .END := by
  cases p with
  | word w =>
    have : t = ⟨.IDENT, w⟩ := hm
    rw [this]; simp
  | punct k =>
    have : t.type = k.type := hm
    rw [this]; cases k <;> decide
  | lit v =>
    rcases parse_literal_type t v hm with h | h <;> rw [h] <;> decide
  | op o =>
    have h : parse_op t = .ok o := hm
    intro he
    simp [parse_op, he] at h
  | typ d =>
    have h : parse_type t = .ok d := hm
    intro he
    simp [parse_type, he] at h

/-- The tokens read from a text are read again, one for one, from the text
with ` ;` appended. -/
theorem sim_reads (ps : List Pat) :
    ∀ (tz tz' tzf : Tokenizer), Appended tz tz' → Reads tz ps tzf →
      ∃ tzf', Reads tz' ps tzf' ∧ Appended tzf tzf' := by
  induction ps with
  | nil =>
    intro tz tz' tzf h hr
    have : tzf = tz := hr
    subst this
    exact ⟨tz', rfl, h⟩
  | cons p ps ih =>
    intro tz tz' tzf h hr
    obtain ⟨hm, hrest⟩ := hr
    obtain ⟨h1, h2⟩ := sim_next tz tz' h (pat_not_end p _ hm)
    obtain ⟨tzf', hr', ha⟩ := ih _ _ _ h2 hrest
    exact ⟨tzf', ⟨by rw [h1]; exact hm, hr'⟩, ha⟩

/-- A text that parses and has balanced quotes no longer parses with ` ;`
appended: the final check of `parse_statement` finds the semicolon. -/
theorem parse_appended (text : String) (S : Statement) (tzf : Tokenizer)
    (hrun : parse_statement_run text = some (.ok (S, tzf)))
    (hb : quotes_balanced text.data) :
    parse_statement (text ++ " ;") =
      some (.error (.ParseError ("Unexpected tokens after " ++ S.what))) := by
  obtain ⟨hshape, hreads, heof⟩ := parse_statement_run_sound text S tzf hrun
  have h0 : Appended (Tokenizer.init text) (Tokenizer.init (text ++ " ;")) := by
    refine ⟨?_, ?_⟩
    · simp [Tokenizer.init, Tokenizer.rest]
    · simpa [Tokenizer.init, Tokenizer.rest] using hb
  obtain ⟨tzf', hr', ha⟩ := sim_reads _ _ _ _ h0 hreads
  have hend : tzf.next.1.type = .END := by
    simpa [Tokenizer.eof, peek_eq] using heof
  have hsemi := sim_end tzf tzf' ha hend
  have hok : EndOK tzf' := by
    constructor
    · rw [peek_eq, hsemi]; decide
    · rw [peek_eq, hsemi]; simp
  have hrun' := parse_statement_run_complete (text ++ " ;") S tzf' hshape hr' hok
  have hneof : tzf'.eof = false := by
    simp [Tokenizer.eof, peek_eq, hsemi]
  simp [parse_statement, hrun', finish, hneof]

theorem comma_progress (b : Bool) (tz tz1 : Tokenizer)
    (h : expect_comma_unless b tz = .ok tz1) :
    tz1.rest.length + (if b then 0 else 1) ≤ tz.rest.length := by
  rcases expect_comma_unless_inv b tz tz1 h with ⟨rfl, rfl⟩ | ⟨rfl, hc, rfl⟩
  · simp
  · have := punct_progress tz .COMMA hc
    simp only [Bool.false_eq_true, if_false]
    omega

/-- The tuple loop ends within its bound. -/
theorem tuple_loop_total (fuel : Nat) :
    ∀ (tz : Tokenizer) (acc : List Value) (b : Bool),
      tz.rest.length + (if b then 1 else 0) < fuel → tuple_loop fuel tz acc b ≠ none := by
  induction fuel with
  | zero => intro tz acc b h; omega
  | succ f ih =>
    intro tz acc b h
    simp only [tuple_loop]
    by_cases hp : tz.peek.type = .RPAREN
    · simp [hp]
    · simp only [hp, if_false]
      cases hc : expect_comma_unless b tz with
      | error e => simp
      | ok tz1 =>
        simp only
        cases hl : parse_literal tz1.next.1 with
        | error e => simp
        | ok v =>
          simp only
          apply ih
          have h1 := comma_progress b tz tz1 hc
          have h2 := next_rest_le tz1
          cases b <;> simp at h h1 ⊢ <;> omega

/-- The loop over the column names of an INSERT ends within its bound. -/
theorem insert_columns_loop_total (fuel : Nat) :
    ∀ (tz : Tokenizer) (acc : List String) (b : Bool),
      tz.rest.length + (if b then 1 else 0) < fuel →
      insert_columns_loop fuel tz acc b ≠ none := by
  induction fuel with
  | zero => intro tz acc b h; omega
  | succ f ih =>
    intro tz acc b h
    simp only [insert_columns_loop]
    by_cases hp : tz.peek.type = .RPAREN
    · simp [hp]
    · simp only [hp, if_false]
      cases hc : expect_comma_unless b tz with
      | error e => simp
      | ok tz1 =>
        simp only
        cases hl : expect_ident_any tz1 with
        | error e => simp
        | ok res =>
          obtain ⟨c, tz2⟩ := res
          simp only
          obtain ⟨-, rfl⟩ := expect_ident_any_inv _ _ _ hl
          apply ih
          have h1 := comma_progress b tz tz1 hc
          have h2 := next_rest_le tz1
          cases b <;> simp at h h1 ⊢ <;> omega

/-- The loop over the column definitions of a CREATE TABLE ends within its
bound. -/
theorem create_columns_loop_total (fuel : Nat) :
    ∀ (tz : Tokenizer) (acc : List Column) (b : Bool),
      tz.rest.length + (if b then 1 else 0) < fuel →
      create_columns_loop fuel tz acc b ≠ none := by
  induction fuel with
  | zero => intro tz acc b h; omega
  | succ f ih =>
    intro tz acc b h
    simp only [create_columns_loop]
    by_cases hp : tz.peek.type = .RPAREN
    · simp [hp]
    · simp only [hp, if_false]
      cases hc : expect_comma_unless b tz with
      | error e => simp
      | ok tz1 =>
        simp only
        cases hl : expect_ident_any tz1 with
        | error e => simp
        | ok res =>
          obtain ⟨c, tz2⟩ := res
          simp only
          obtain ⟨-, rfl⟩ := expect_ident_any_inv _ _ _ hl
          cases hty : parse_type tz1.next.2.next.1 with
          | error e => simp
          | ok ty =>
            simp only
            apply ih
            have h1 := comma_progress b tz tz1 hc
            have h2 := next_rest_le tz1
            have h3 := next_rest_le tz1.next.2
            cases b <;> simp at h h1 ⊢ <;> omega

/-- The loop over the further columns of a SELECT ends within its bound. -/
theorem select_columns_loop_total (fuel : Nat) :
    ∀ (tz : Tokenizer) (acc : List String),
      tz.rest.length < fuel → select_columns_loop fuel tz acc ≠ none := by
  induction fuel with
  | zero => intro tz acc h; omega
  | succ f ih =>
    intro tz acc h
    simp only [select_columns_loop]
    by_cases hp : tz.peek.type = .COMMA
    · simp only [hp, if_true]
      cases hl : expect_ident_any tz.next.2 with
      | error e => simp
      | ok res =>
        obtain ⟨c, tz2⟩ := res
        simp only
        obtain ⟨-, rfl⟩ := expect_ident_any_inv _ _ _ hl
        apply ih
        have h1 := punct_progress tz .COMMA hp
        have h2 := next_rest_le tz.next.2
        omega
    · simp [hp]

/-- The consumed comma in front of a further item of a list that ends by
look-ahead. -/
theorem lookahead_progress (b : Bool) (tz : Tokenizer)
    (hp : ¬ (!b && decide (tz.peek.type ≠ .COMMA)) = true) :
    (if b = true then tz else tz.next.2).rest.length + (if b then 0 else 1) ≤
      tz.rest.length := by
  cases b with
  | true => simp
  | false =>
    simp only [Bool.not_false, Bool.true_and, decide_eq_true_eq, ne_eq, not_not] at hp
    have := punct_progress tz .COMMA hp
    simp only [Bool.false_eq_true, if_false]
    omega

/-- The loop over the assignments of an UPDATE ends within its bound. -/
theorem update_sets_loop_total (fuel : Nat) :
    ∀ (tz : Tokenizer) (acc : List (String × Value)) (b : Bool),
      tz.rest.length + (if b then 1 else 0) < fuel →
      update_sets_loop fuel tz acc b ≠ none := by
  induction fuel with
  | zero => intro tz acc b h; omega
  | succ f ih =>
    intro tz acc b h
    simp only [update_sets_loop]
    by_cases hp : (!b && decide (tz.peek.type ≠ .COMMA)) = true
    · rw [if_pos hp]; simp
    · simp only [hp, Bool.false_eq_true, if_false]
      have h0 := lookahead_progress b tz hp
      generalize (if b = true then tz else tz.next.2) = tz0 at h0 ⊢
      cases hl : expect_ident_any tz0 with
      | error e => simp
      | ok res =>
        obtain ⟨c, tz1⟩ := res
        simp only
        obtain ⟨-, rfl⟩ := expect_ident_any_inv _ _ _ hl
        cases he : expect tz0.next.2.next.1 .EQUAL "'='" with
        | error e => simp
        | ok u =>
          simp only
          cases hv : parse_literal tz0.next.2.next.2.next.1 with
          | error e => simp
          | ok v =>
            simp only
            by_cases hp2 : tz0.next.2.next.2.next.2.peek.type ≠ .COMMA
            · rw [if_pos hp2]; simp
            · rw [if_neg hp2]
              apply ih
              have h1 := next_rest_le tz0
              have h2 := next_rest_le tz0.next.2
              have h3 := next_rest_le tz0.next.2.next.2
              cases b <;> simp at h h0 ⊢ <;> omega

/-- The loop over the tuples of an INSERT ends within its bound, for a bound
of the tuple loop above the length of the input. -/
theorem insert_values_loop_total (fuel : Nat) :
    ∀ (tz : Tokenizer) (acc : List (List Value)) (b : Bool),
      tz.rest.length + (if b then 1 else 0) < fuel →
      insert_values_loop fuel tz acc b ≠ none := by
  induction fuel with
  | zero => intro tz acc b h; omega
  | succ f ih =>
    intro tz acc b h
    simp only [insert_values_loop]
    by_cases hp : (!b && decide (tz.peek.type ≠ .COMMA)) = true
    · rw [if_pos hp]; simp
    · simp only [hp, Bool.false_eq_true, if_false]
      have h0 := lookahead_progress b tz hp
      have hin : (if b = true then tz else tz.next.2).input = tz.input := by
        cases b with
        | true => rfl
        | false => exact next_input tz
      generalize (if b = true then tz else tz.next.2) = tz0 at h0 hin ⊢
      cases he : expect tz0.next.1 .LPAREN "'('" with
      | error e => simp
      | ok u =>
        simp only
        have hb : tz0.next.2.rest.length + 1 < loop_bound tz :=
          bound_flat tz tz0.next.2 (by rw [next_input, hin])
        have htot := tuple_loop_total (loop_bound tz) tz0.next.2 [] true
          (by simpa using hb)
        cases ht : tuple_loop (loop_bound tz) tz0.next.2 [] true with
        | none => exact absurd ht htot
        | some res =>
          cases res with
          | error e => simp
          | ok pr =>
            obtain ⟨tup, tz1⟩ := pr
            simp only
            by_cases hp2 : tz1.peek.type ≠ .COMMA
            · rw [if_pos hp2]; simp
            · rw [if_neg hp2]
              apply ih
              obtain ⟨vs, -, hreads⟩ := tuple_loop_sound _ _ _ _ _ _ ht
              have h1 := next_rest_le tz0
              have h2 := reads_rest_le _ _ _ hreads
              cases b <;> simp at h h0 ⊢ <;> omega

theorem finish_total (tz : Tokenizer) (what : String) (s : Statement) :
    finish tz what s ≠ none := by
  simp only [finish]
  split <;> simp

theorem parse_create_total (tz : Tokenizer) : parse_create tz ≠ none := by
  simp only [parse_create]
  cases h1 : expect_ident tz "TABLE" with
  | error e => simp
  | ok tz1 =>
    simp only
    obtain ⟨-, rfl⟩ := expect_ident_inv _ _ _ h1
    cases h2 : expect_ident_any tz.next.2 with
    | error e => simp
    | ok res =>
      obtain ⟨tbl, tz2⟩ := res
      simp only
      obtain ⟨-, rfl⟩ := expect_ident_any_inv _ _ _ h2
      cases h3 : expect tz.next.2.next.2.next.1 .LPAREN "'('" with
      | error e => simp
      | ok u =>
        simp only
        have hb := bound_flat tz tz.next.2.next.2.next.2
          (by rw [next_input, next_input, next_input])
        have htot := create_columns_loop_total (loop_bound tz) tz.next.2.next.2.next.2 [] true
          (by simpa using hb)
        cases h4 : create_columns_loop (loop_bound tz) tz.next.2.next.2.next.2 [] true with
        | none => exact absurd h4 htot
        | some res =>
          cases res with
          | error e => simp
          | ok pr =>
            obtain ⟨cols, tz3⟩ := pr
            exact finish_total _ _ _

theorem parse_insert_total (tz : Tokenizer) : parse_insert tz ≠ none := by
  simp only [parse_insert]
  cases h1 : expect_ident tz "INTO" with
  | error e => simp
  | ok tz1 =>
    simp only
    obtain ⟨-, rfl⟩ := expect_ident_inv _ _ _ h1
    cases h2 : expect_ident_any tz.next.2 with
    | error e => simp
    | ok res =>
      obtain ⟨tbl, tz2⟩ := res
      simp only
      obtain ⟨-, rfl⟩ := expect_ident_any_inv _ _ _ h2
      cases h3 : expect tz.next.2.next.2.next.1 .LPAREN "'('" with
      | error e => simp
      | ok u =>
        simp only
        have hb := bound_flat tz tz.next.2.next.2.next.2
          (by rw [next_input, next_input, next_input])
        have htot := insert_columns_loop_total (loop_bound tz) tz.next.2.next.2.next.2 [] true
          (by simpa using hb)
        cases h4 : insert_columns_loop (loop_bound tz) tz.next.2.next.2.next.2 [] true with
        | none => exact absurd h4 htot
        | some res =>
          cases res with
          | error e => simp
          | ok pr =>
            obtain ⟨cols, tz3⟩ := pr
            simp only
            obtain ⟨cs, -, hreads⟩ := insert_columns_loop_sound _ _ _ _ _ _ h4
            have hin3 : tz3.input = tz.input := by
              rw [reads_input _ _ _ hreads, next_input, next_input, next_input]
            cases h5 : expect_ident tz3 "VALUES" with
            | error e => simp
            | ok tz4 =>
              simp only
              obtain ⟨-, rfl⟩ := expect_ident_inv _ _ _ h5
              have hb2 := bound_flat tz tz3.next.2 (by rw [next_input, hin3])
              have htot2 := insert_values_loop_total (loop_bound tz) tz3.next.2 [] true
                (by simpa using hb2)
              cases h6 : insert_values_loop (loop_bound tz) tz3.next.2 [] true with
              | none => exact absurd h6 htot2
              | some res =>
                cases res with
                | error e => simp
                | ok pr =>
                  obtain ⟨values, tz5⟩ := pr
                  exact finish_total _ _ _

theorem parse_delete_total (tz : Tokenizer) : parse_delete tz ≠ none := by
  simp only [parse_delete]
  cases h1 : expect_ident tz "FROM" with
  | error e => simp
  | ok tz1 =>
    simp only
    cases h2 : expect_ident_any tz1 with
    | error e => simp
    | ok res =>
      obtain ⟨tbl, tz2⟩ := res
      simp only
      cases h3 : parse_where tz2 with
      | error e => simp
      | ok pr =>
        obtain ⟨w, tz3⟩ := pr
        exact finish_total _ _ _

theorem parse_update_total (tz : Tokenizer) : parse_update tz ≠ none := by
  simp only [parse_update]
  cases h2 : expect_ident_any tz with
  | error e => simp
  | ok res =>
    obtain ⟨tbl, tz1⟩ := res
    simp only
    obtain ⟨-, rfl⟩ := expect_ident_any_inv _ _ _ h2
    cases h1 : expect_ident tz.next.2 "SET" with
    | error e => simp
    | ok tz2 =>
      simp only
      obtain ⟨-, rfl⟩ := expect_ident_inv _ _ _ h1
      have hb := bound_flat tz tz.next.2.next.2 (by rw [next_input, next_input])
      have htot := update_sets_loop_total (loop_bound tz) tz.next.2.next.2 [] true
        (by simpa using hb)
      cases h4 : update_sets_loop (loop_bound tz) tz.next.2.next.2 [] true with
      | none => exact absurd h4 htot
      | some res =>
        cases res with
        | error e => simp
        | ok pr =>
          obtain ⟨sets, tz3⟩ := pr
          simp only
          cases h3 : parse_where tz3 with
          | error e => simp
          | ok pr =>
            obtain ⟨w, tz4⟩ := pr
            exact finish_total _ _ _

theorem select_columns_total (tz : Tokenizer) : select_columns tz ≠ none := by
  simp only [select_columns]
  by_cases hs : tz.next.1.type = .STAR
  · simp [hs]
  · simp only [hs, if_false]
    by_cases hi : tz.next.1.type = .IDENT
    · simp only [hi, if_true]
      have hb := bound_flat tz tz.next.2 (next_input tz)
      have htot := select_columns_loop_total (loop_bound tz) tz.next.2 [tz.next.1.text]
        (by omega)
      cases h4 : select_columns_loop (loop_bound tz) tz.next.2 [tz.next.1.text] with
      | none => exact absurd h4 htot
      | some res =>
        cases res with
        | error e => simp
        | ok pr => simp
    · simp [hi]

theorem parse_select_total (tz : Tokenizer) : parse_select tz ≠ none := by
  simp only [parse_select]
  cases h0 : select_columns tz with
  | none => exact absurd h0 (select_columns_total tz)
  | some res =>
    cases res with
    | error e => simp
    | ok pr =>
      obtain ⟨⟨cols, star⟩, tz1⟩ := pr
      simp only
      cases h1 : expect_ident tz1 "FROM" with
      | error e => simp
      | ok tz2 =>
        simp only
        cases h2 : expect_ident_any tz2 with
        | error e => simp
        | ok res =>
          obtain ⟨tbl, tz3⟩ := res
          simp only
          cases h3 : parse_where tz3 with
          | error e => simp
          | ok pr =>
            obtain ⟨w, tz4⟩ := pr
            exact finish_total _ _ _

/-- The bound of the loops is never reached: on every text `parse_statement`
returns a statement or throws. -/
theorem parse_statement_total (text : String) :
    parse_statement_run text ≠ none ∧ parse_statement text ≠ none := by
  have h : parse_statement_run text ≠ none := by
    simp only [parse_statement_run]
    split
    · simp
    · split
      · exact parse_create_total _
      · split
        · exact parse_insert_total _
        · split
          · exact parse_delete_total _
          · split
            · exact parse_update_total _
            · split
              · exact parse_select_total _
              · simp
  refine ⟨h, ?_⟩
  simp only [parse_statement]
  cases hr : parse_statement_run text with
  | none => exact absurd hr h
  | some res =>
    cases res with
    | error e => simp
    | ok pr => simp

theorem parse_type_error (t : Token) (e : Exn) (h : parse_type t = .error e) :
    ∃ msg, e = .ParseError msg := by
  unfold parse_type at h
  split at h
  · exact ⟨_, (Except.error.inj h).symm⟩
  · split at h
    · cases h
    · split at h
      · cases h
      · exact ⟨_, (Except.error.inj h).symm⟩

theorem parse_literal_error (t : Token) (e : Exn) (h : parse_literal t = .error e) :
    ∃ msg, e = .ParseError msg := by
  unfold parse_literal at h
  split at h
  · split at h
    · exact ⟨_, (Except.error.inj h).symm⟩
    · split at h
      · exact ⟨_, (Except.error.inj h).symm⟩
      · cases h
  · split at h
    · cases h
    · exact ⟨_, (Except.error.inj h).symm⟩

theorem parse_op_error (t : Token) (e : Exn) (h : parse_op t = .error e) :
    ∃ msg, e = .ParseError msg := by
  unfold parse_op at h
  split at h <;> first | exact ⟨_, (Except.error.inj h).symm⟩ | cases h

theorem expect_error (t : Token) (tt : TokType) (what : String) (e : Exn)
    (h : expect t tt what = .error e) : ∃ msg, e = .ParseError msg := by
  unfold expect at h
  split at h
  · exact ⟨_, (Except.error.inj h).symm⟩
  · cases h

theorem expect_ident_error (tz : Tokenizer) (kw : String) (e : Exn)
    (h : expect_ident tz kw = .error e) : ∃ msg, e = .ParseError msg := by
  unfold expect_ident at h
  simp only at h
  split at h
  · exact ⟨_, (Except.error.inj h).symm⟩
  · cases h

theorem expect_ident_any_error (tz : Tokenizer) (e : Exn)
    (h : expect_ident_any tz = .error e) : ∃ msg, e = .ParseError msg := by
  unfold expect_ident_any at h
  simp only at h
  split at h
  · exact ⟨_, (Except.error.inj h).symm⟩
  · cases h

theorem expect_comma_unless_error (b : Bool) (tz : Tokenizer) (e : Exn)
    (h : expect_comma_unless b tz = .error e) : ∃ msg, e = .ParseError msg := by
  unfold expect_comma_unless at h
  split at h
  · cases h
  · cases he : expect tz.next.1 .COMMA "','" with
    | error e' =>
      rw [he] at h
      simp only [Except.error.injEq] at h
      subst h
      exact expect_error _ _ _ _ he
    | ok u =>
      rw [he] at h
      cases h

theorem parse_where_error (tz : Tokenizer) (e : Exn) (h : parse_where tz = .error e) :
    ∃ msg, e = .ParseError msg := by
  unfold parse_where at h
  simp only at h
  split at h
  · split at h
    · exact ⟨_, (Except.error.inj h).symm⟩
    · cases ho : parse_op tz.next.2.next.2.next.1 with
      | error e' =>
        rw [ho] at h
        simp only [Except.error.injEq] at h
        subst h
        exact parse_op_error _ _ ho
      | ok cop =>
        rw [ho] at h
        simp only at h
        cases hl : parse_literal tz.next.2.next.2.next.2.next.1 with
        | error e' =>
          rw [hl] at h
          simp only [Except.error.injEq] at h
          subst h
          exact parse_literal_error _ _ hl
        | ok v =>
          rw [hl] at h
          cases h
  · cases h

theorem finish_error (tz : Tokenizer) (what : String) (s : Statement) (e : Exn)
    (h : finish tz what s = some (.error e)) : ∃ msg, e = .ParseError msg := by
  unfold finish at h
  split at h
  · simp only [Option.some.injEq, Except.error.injEq] at h
    exact ⟨_, h.symm⟩
  · cases h

theorem tuple_loop_error (fuel : Nat) :
    ∀ (tz : Tokenizer) (acc : List Value) (b : Bool) (e : Exn),
      tuple_loop fuel tz acc b = some (.error e) → ∃ msg, e = .ParseError msg := by
  induction fuel with
  | zero => intro tz acc b e h; simp [tuple_loop] at h
  | succ f ih =>
    intro tz acc b e h
    simp only [tuple_loop] at h
    by_cases hp : tz.peek.type = .RPAREN
    · simp [hp] at h
    · simp only [hp, if_false] at h
      cases hc : expect_comma_unless b tz with
      | error e' =>
        simp only [hc, Option.some.injEq, Except.error.injEq] at h
        subst h
        exact expect_comma_unless_error _ _ _ hc
      | ok tz1 =>
        simp only [hc] at h
        cases hl : parse_literal tz1.next.1 with
        | error e' =>
          simp only [hl, Option.some.injEq, Except.error.injEq] at h
          subst h
          exact parse_literal_error _ _ hl
        | ok v =>
          simp only [hl] at h
          exact ih _ _ _ _ h

theorem insert_columns_loop_error (fuel : Nat) :
    ∀ (tz : Tokenizer) (acc : List String) (b : Bool) (e : Exn),
      insert_columns_loop fuel tz acc b = some (.error e) → ∃ msg, e = .ParseError msg := by
  induction fuel with
  | zero => intro tz acc b e h; simp [insert_columns_loop] at h
  | succ f ih =>
    intro tz acc b e h
    simp only [insert_columns_loop] at h
    by_cases hp : tz.peek.type = .RPAREN
    · simp [hp] at h
    · simp only [hp, if_false] at h
      cases hc : expect_comma_unless b tz with
      | error e' =>
        simp only [hc, Option.some.injEq, Except.error.injEq] at h
        subst h
        exact expect_comma_unless_error _ _ _ hc
      | ok tz1 =>
        simp only [hc] at h
        cases hl : expect_ident_any tz1 with
        | error e' =>
          simp only [hl, Option.some.injEq, Except.error.injEq] at h
          subst h
          exact expect_ident_any_error _ _ hl
        | ok res =>
          obtain ⟨c, tz2⟩ := res
          simp only [hl] at h
          exact ih _ _ _ _ h

theorem create_columns_loop_error (fuel : Nat) :
    ∀ (tz : Tokenizer) (acc : List Column) (b : Bool) (e : Exn),
      create_columns_loop fuel tz acc b = some (.error e) → ∃ msg, e = .ParseError msg := by
  induction fuel with
  | zero => intro tz acc b e h; simp [create_columns_loop] at h
  | succ f ih =>
    intro tz acc b e h
    simp only [create_columns_loop] at h
    by_cases hp : tz.peek.type = .RPAREN
    · simp [hp] at h
    · simp only [hp, if_false] at h
      cases hc : expect_comma_unless b tz with
      | error e' =>
        simp only [hc, Option.some.injEq, Except.error.injEq] at h
        subst h
        exact expect_comma_unless_error _ _ _ hc
      | ok tz1 =>
        simp only [hc] at h
        cases hl : expect_ident_any tz1 with
        | error e' =>
          simp only [hl, Option.some.injEq, Except.error.injEq] at h
          subst h
          exact expect_ident_any_error _ _ hl
        | ok res =>
          obtain ⟨c, tz2⟩ := res
          simp only [hl] at h
          cases hty : parse_type tz2.next.1 with
          | error e' =>
            simp only [hty, Option.some.injEq, Except.error.injEq] at h
            subst h
            exact parse_type_error _ _ hty
          | ok ty =>
            simp only [hty] at h
            exact ih _ _ _ _ h

theorem select_columns_loop_error (fuel : Nat) :
    ∀ (tz : Tokenizer) (acc : List String) (e : Exn),
      select_columns_loop fuel tz acc = some (.error e) → ∃ msg, e = .ParseError msg := by
  induction fuel with
  | zero => intro tz acc e h; simp [select_columns_loop] at h
  | succ f ih =>
    intro tz acc e h
    simp only [select_columns_loop] at h
    by_cases hp : tz.peek.type = .COMMA
    · simp only [hp, if_true] at h
      cases hl : expect_ident_any tz.next.2 with
      | error e' =>
        simp only [hl, Option.some.injEq, Except.error.injEq] at h
        subst h
        exact expect_ident_any_error _ _ hl
      | ok res =>
        obtain ⟨c, tz2⟩ := res
        simp only [hl] at h
        exact ih _ _ _ h
    · simp [hp] at h

theorem update_sets_loop_error (fuel : Nat) :
    ∀ (tz : Tokenizer) (acc : List (String × Value)) (b : Bool) (e : Exn),
      update_sets_loop fuel tz acc b = some (.error e) → ∃ msg, e = .ParseError msg := by
  induction fuel with
  | zero => intro tz acc b e h; simp [update_sets_loop] at h
  | succ f ih =>
    intro tz acc b e h
    simp only [update_sets_loop] at h
    by_cases hp : (!b && decide (tz.peek.type ≠ .COMMA)) = true
    · rw [if_pos hp] at h; cases h
    · rw [if_neg hp] at h
      generalize (if b = true then tz else tz.next.2) = tz0 at h
      cases hl : expect_ident_any tz0 with
      | error e' =>
        simp only [hl, Option.some.injEq, Except.error.injEq] at h
        subst h
        exact expect_ident_any_error _ _ hl
      | ok res =>
        obtain ⟨c, tz1⟩ := res
        simp only [hl] at h
        cases he : expect tz1.next.1 .EQUAL "'='" with
        | error e' =>
          simp only [he, Option.some.injEq, Except.error.injEq] at h
          subst h
          exact expect_error _ _ _ _ he
        | ok u =>
          simp only [he] at h
          cases hv : parse_literal tz1.next.2.next.1 with
          | error e' =>
            simp only [hv, Option.some.injEq, Except.error.injEq] at h
            subst h
            exact parse_literal_error _ _ hv
          | ok v =>
            simp only [hv] at h
            by_cases hp2 : tz1.next.2.next.2.peek.type ≠ .COMMA
            · rw [if_pos hp2] at h; cases h
            · rw [if_neg hp2] at h
              exact ih _ _ _ _ h

theorem insert_values_loop_error (fuel : Nat) :
    ∀ (tz : Tokenizer) (acc : List (List Value)) (b : Bool) (e : Exn),
      insert_values_loop fuel tz acc b = some (.error e) → ∃ msg, e = .ParseError msg := by
  induction fuel with
  | zero => intro tz acc b e h; simp [insert_values_loop] at h
  | succ f ih =>
    intro tz acc b e h
    simp only [insert_values_loop] at h
    by_cases hp : (!b && decide (tz.peek.type ≠ .COMMA)) = true
    · rw [if_pos hp] at h; cases h
    · rw [if_neg hp] at h
      generalize (if b = true then tz else tz.next.2) = tz0 at h
      cases he : expect tz0.next.1 .LPAREN "'('" with
      | error e' =>
        simp only [he, Option.some.injEq, Except.error.injEq] at h
        subst h
        exact expect_error _ _ _ _ he
      | ok u =>
        simp only [he] at h
        cases ht : tuple_loop (loop_bound tz) tz0.next.2 [] true with
        | none => simp [ht] at h
        | some res =>
          cases res with
          | error e' =>
            simp only [ht, Option.some.injEq, Except.error.injEq] at h
            subst h
            exact tuple_loop_error _ _ _ _ _ ht
          | ok pr =>
            obtain ⟨tup, tz1⟩ := pr
            simp only [ht] at h
            by_cases hp2 : tz1.peek.type ≠ .COMMA
            · rw [if_pos hp2] at h; cases h
            · rw [if_neg hp2] at h
              exact ih _ _ _ _ h

theorem parse_create_error (tz : Tokenizer) (e : Exn) (h : parse_create tz = some (.error e)) :
    ∃ msg, e = .ParseError msg := by
  simp only [parse_create] at h
  cases h1 : expect_ident tz "TABLE" with
  | error e' =>
    simp only [h1, Option.some.injEq, Except.error.injEq] at h
    subst h
    exact expect_ident_error _ _ _ h1
  | ok tz1 =>
    simp only [h1] at h
    cases h2 : expect_ident_any tz1 with
    | error e' =>
      simp only [h2, Option.some.injEq, Except.error.injEq] at h
      subst h
      exact expect_ident_any_error _ _ h2
    | ok res =>
      obtain ⟨tbl, tz2⟩ := res
      simp only [h2] at h
      cases h3 : expect tz2.next.1 .LPAREN "'('" with
      | error e' =>
        simp only [h3, Option.some.injEq, Except.error.injEq] at h
        subst h
        exact expect_error _ _ _ _ h3
      | ok u =>
        simp only [h3] at h
        cases h4 : create_columns_loop (loop_bound tz) tz2.next.2 [] true with
        | none => simp [h4] at h
        | some res =>
          cases res with
          | error e' =>
            simp only [h4, Option.some.injEq, Except.error.injEq] at h
            subst h
            exact create_columns_loop_error _ _ _ _ _ h4
          | ok pr =>
            obtain ⟨cols, tz3⟩ := pr
            simp only [h4] at h
            exact finish_error _ _ _ _ h

theorem parse_insert_error (tz : Tokenizer) (e : Exn) (h : parse_insert tz = some (.error e)) :
    ∃ msg, e = .ParseError msg := by
  simp only [parse_insert] at h
  cases h1 : expect_ident tz "INTO" with
  | error e' =>
    simp only [h1, Option.some.injEq, Except.error.injEq] at h
    subst h
    exact expect_ident_error _ _ _ h1
  | ok tz1 =>
    simp only [h1] at h
    cases h2 : expect_ident_any tz1 with
    | error e' =>
      simp only [h2, Option.some.injEq, Except.error.injEq] at h
      subst h
      exact expect_ident_any_error _ _ h2
    | ok res =>
      obtain ⟨tbl, tz2⟩ := res
      simp only [h2] at h
      cases h3 : expect tz2.next.1 .LPAREN "'('" with
      | error e' =>
        simp only [h3, Option.some.injEq, Except.error.injEq] at h
        subst h
        exact expect_error _ _ _ _ h3
      | ok u =>
        simp only [h3] at h
        cases h4 : insert_columns_loop (loop_bound tz) tz2.next.2 [] true with
        | none => simp [h4] at h
        | some res =>
          cases res with
          | error e' =>
            simp only [h4, Option.some.injEq, Except.error.injEq] at h
            subst h
            exact insert_columns_loop_error _ _ _ _ _ h4
          | ok pr =>
            obtain ⟨cols, tz3⟩ := pr
            simp only [h4] at h
            cases h5 : expect_ident tz3 "VALUES" with
            | error e' =>
              simp only [h5, Option.some.injEq, Except.error.injEq] at h
              subst h
              exact expect_ident_error _ _ _ h5
            | ok tz4 =>
              simp only [h5] at h
              cases h6 : insert_values_loop (loop_bound tz) tz4 [] true with
              | none => simp [h6] at h
              | some res =>
                cases res with
                | error e' =>
                  simp only [h6, Option.some.injEq, Except.error.injEq] at h
                  subst h
                  exact insert_values_loop_error _ _ _ _ _ h6
                | ok pr =>
                  obtain ⟨values, tz5⟩ := pr
                  simp only [h6] at h
                  exact finish_error _ _ _ _ h

theorem parse_delete_error (tz : Tokenizer) (e : Exn) (h : parse_delete tz = some (.error e)) :
    ∃ msg, e = .ParseError msg := by
  simp only [parse_delete] at h
  cases h1 : expect_ident tz "FROM" with
  | error e' =>
    simp only [h1, Option.some.injEq, Except.error.injEq] at h
    subst h
    exact expect_ident_error _ _ _ h1
  | ok tz1 =>
    simp only [h1] at h
    cases h2 : expect_ident_any tz1 with
    | error e' =>
      simp only [h2, Option.some.injEq, Except.error.injEq] at h
      subst h
      exact expect_ident_any_error _ _ h2
    | ok res =>
      obtain ⟨tbl, tz2⟩ := res
      simp only [h2] at h
      cases h3 : parse_where tz2 with
      | error e' =>
        simp only [h3, Option.some.injEq, Except.error.injEq] at h
        subst h
        exact parse_where_error _ _ h3
      | ok pr =>
        obtain ⟨w, tz3⟩ := pr
        simp only [h3] at h
        exact finish_error _ _ _ _ h

theorem parse_update_error (tz : Tokenizer) (e : Exn) (h : parse_update tz = some (.error e)) :
    ∃ msg, e = .ParseError msg := by
  simp only [parse_update] at h
  cases h1 : expect_ident_any tz with
  | error e' =>
    simp only [h1, Option.some.injEq, Except.error.injEq] at h
    subst h
    exact expect_ident_any_error _ _ h1
  | ok res =>
    obtain ⟨tbl, tz1⟩ := res
    simp only [h1] at h
    cases h2 : expect_ident tz1 "SET" with
    | error e' =>
      simp only [h2, Option.some.injEq, Except.error.injEq] at h
      subst h
      exact expect_ident_error _ _ _ h2
    | ok tz2 =>
      simp only [h2] at h
      cases h3 : update_sets_loop (loop_bound tz) tz2 [] true with
      | none => simp [h3] at h
      | some res =>
        cases res with
        | error e' =>
          simp only [h3, Option.some.injEq, Except.error.injEq] at h
          subst h
          exact update_sets_loop_error _ _ _ _ _ h3
        | ok pr =>
          obtain ⟨sets, tz3⟩ := pr
          simp only [h3] at h
          cases h4 : parse_where tz3 with
          | error e' =>
            simp only [h4, Option.some.injEq, Except.error.injEq] at h
            subst h
            exact parse_where_error _ _ h4
          | ok pr =>
            obtain ⟨w, tz4⟩ := pr
            simp only [h4] at h
            exact finish_error _ _ _ _ h

theorem select_columns_error (tz : Tokenizer) (e : Exn)
    (h : select_columns tz = some (.error e)) : ∃ msg, e = .ParseError msg := by
  simp only [select_columns] at h
  by_cases hs : tz.next.1.type = .STAR
  · rw [if_pos hs] at h; cases h
  · rw [if_neg hs] at h
    by_cases hi : tz.next.1.type = .IDENT
    · rw [if_pos hi] at h
      cases h1 : select_columns_loop (loop_bound tz) tz.next.2 [tz.next.1.text] with
      | none => simp [h1] at h
      | some res =>
        cases res with
        | error e' =>
          simp only [h1, Option.some.injEq, Except.error.injEq] at h
          subst h
          exact select_columns_loop_error _ _ _ _ h1
        | ok pr =>
          obtain ⟨cols, tz1⟩ := pr
          simp [h1] at h
    · rw [if_neg hi] at h
      simp only [Option.some.injEq, Except.error.injEq] at h
      exact ⟨_, h.symm⟩

theorem parse_select_error (tz : Tokenizer) (e : Exn) (h : parse_select tz = some (.error e)) :
    ∃ msg, e = .ParseError msg := by
  simp only [parse_select] at h
  cases h0 : select_columns tz with
  | none => simp [h0] at h
  | some res =>
    cases res with
    | error e' =>
      simp only [h0, Option.some.injEq, Except.error.injEq] at h
      subst h
      exact select_columns_error _ _ h0
    | ok pr =>
      obtain ⟨⟨cols, star⟩, tz1⟩ := pr
      simp only [h0] at h
      cases h1 : expect_ident tz1 "FROM" with
      | error e' =>
        simp only [h1, Option.some.injEq, Except.error.injEq] at h
        subst h
        exact expect_ident_error _ _ _ h1
      | ok tz2 =>
        simp only [h1] at h
        cases h2 : expect_ident_any tz2 with
        | error e' =>
          simp only [h2, Option.some.injEq, Except.error.injEq] at h
          subst h
          exact expect_ident_any_error _ _ h2
        | ok res =>
          obtain ⟨tbl, tz3⟩ := res
          simp only [h2] at h
          cases h3 : parse_where tz3 with
          | error e' =>
            simp only [h3, Option.some.injEq, Except.error.injEq] at h
            subst h
            exact parse_where_error _ _ h3
          | ok pr =>
            obtain ⟨w, tz4⟩ := pr
            simp only [h3] at h
            exact finish_error _ _ _ _ h

/-- An exception of `parse_statement` is a `ParseError`. -/
theorem parse_statement_run_error (text : String) (e : Exn)
    (h : parse_statement_run text = some (.error e)) : ∃ msg, e = .ParseError msg := by
  simp only [parse_statement_run] at h
  split at h
  · simp only [Option.some.injEq, Except.error.injEq] at h
    exact ⟨_, h.symm⟩
  · split at h
    · exact parse_create_error _ _ h
    · split at h
      · exact parse_insert_error _ _ h
      · split at h
        · exact parse_delete_error _ _ h
        · split at h
          · exact parse_update_error _ _ h
          · split at h
            · exact parse_select_error _ _ h
            · simp only [Option.some.injEq, Except.error.injEq] at h
              exact ⟨_, h.symm⟩

/-- The call `parse_statement` returns a statement or throws a `ParseError`. -/
theorem parse_statement_result (text : String) :
    (∃ S, parse_statement text = some (.ok S)) ∨
    (∃ msg, parse_statement text = some (.error (.ParseError msg))) := by
  have ht := (parse_statement_total text).1
  simp only [parse_statement]
  cases hr : parse_statement_run text with
  | none => exact absurd hr ht
  | some res =>
    cases res with
    | error e =>
      obtain ⟨msg, rfl⟩ := parse_statement_run_error text e hr
      exact Or.inr ⟨msg, rfl⟩
    | ok pr => exact Or.inl ⟨pr.1, rfl⟩

theorem comma_i_le (b : Bool) (tz tz1 : Tokenizer) (h : expect_comma_unless b tz = .ok tz1) :
    tz.i ≤ tz1.i ∧ (b = false → tz.i < tz1.i) := by
  rcases expect_comma_unless_inv b tz tz1 h with ⟨rfl, rfl⟩ | ⟨rfl, hc, rfl⟩
  · exact ⟨Nat.le_refl _, fun h => by cases h⟩
  · have := next_i_lt_of_type tz (by rw [hc]; decide) (by rw [hc]; decide)
    exact ⟨by omega, fun _ => this⟩

theorem lookahead_i_le (b : Bool) (tz : Tokenizer)
    (hp : b = true ∨ tz.peek.type = .COMMA) :
    tz.i ≤ (if b = true then tz else tz.next.2).i ∧
      (b = false → tz.i < (if b = true then tz else tz.next.2).i) := by
  cases b with
  | true => exact ⟨Nat.le_refl _, fun h => by cases h⟩
  | false =>
    have hc : tz.next.1.type = .COMMA := by
      rcases hp with h | h
      · cases h
      · exact h
    have := next_i_lt_of_type tz (by rw [hc]; decide) (by rw [hc]; decide)
    simp only [Bool.false_eq_true, if_false]
    exact ⟨by omega, fun _ => this⟩

/-- An iteration of the CREATE loop that goes on to the next one. -/
theorem create_columns_iteration (fuel : Nat) (tz tz1 tz2 : Tokenizer) (cols : List Column)
    (first : Bool) (c : String) (ty : DbType)
    (hp : tz.peek.type ≠ .RPAREN) (hc : expect_comma_unless first tz = .ok tz1)
    (hi : expect_ident_any tz1 = .ok (c, tz2)) (hty : parse_type tz2.next.1 = .ok ty) :
    create_columns_loop (fuel + 1) tz cols first
      = create_columns_loop fuel tz2.next.2 (cols ++ [⟨c, ty⟩]) false ∧
    tz.i < tz2.next.2.i := by
  constructor
  · simp only [create_columns_loop, hp, if_false, hc, hi, hty]
  · have h1 := (comma_i_le first tz tz1 hc).1
    obtain ⟨-, rfl⟩ := expect_ident_any_inv _ _ _ hi
    have h2 := next_i_le tz1
    have hid : tz1.next.2.next.1.type = .IDENT := by
      by_contra hne
      simp [parse_type, hne] at hty
    have hne : tz1.next.2.next.1 ≠ ⟨.IDENT, ""⟩ := by
      intro he
      rw [he] at hty
      simp [parse_type] at hty
    have h3 := next_i_lt tz1.next.2 (by rw [hid]; decide) hne
    omega

/-- An iteration of the loop over the column names of an INSERT that goes on
to the next one. -/
theorem insert_columns_iteration (fuel : Nat) (tz tz1 tz2 : Tokenizer) (cols : List String)
    (first : Bool) (c : String)
    (hp : tz.peek.type ≠ .RPAREN) (hc : expect_comma_unless first tz = .ok tz1)
    (hi : expect_ident_any tz1 = .ok (c, tz2)) :
    insert_columns_loop (fuel + 1) tz cols first
      = insert_columns_loop fuel tz2 (cols ++ [c]) false ∧
    tz.i ≤ tz2.i ∧ (first = false → tz.i < tz2.i) := by
  refine ⟨?_, ?_⟩
  · simp only [insert_columns_loop, hp, if_false, hc, hi]
  · have h1 := comma_i_le first tz tz1 hc
    obtain ⟨-, rfl⟩ := expect_ident_any_inv _ _ _ hi
    have h2 := next_i_le tz1
    exact ⟨by omega, fun hf => by have := h1.2 hf; omega⟩

/-- An iteration of the tuple loop that goes on to the next one. -/
theorem tuple_iteration (fuel : Nat) (tz tz1 : Tokenizer) (tup : List Value)
    (firstv : Bool) (v : Value)
    (hp : tz.peek.type ≠ .RPAREN) (hc : expect_comma_unless firstv tz = .ok tz1)
    (hl : parse_literal tz1.next.1 = .ok v) :
    tuple_loop (fuel + 1) tz tup firstv = tuple_loop fuel tz1.next.2 (tup ++ [v]) false ∧
    tz.i < tz1.next.2.i := by
  constructor
  · simp only [tuple_loop, hp, if_false, hc, hl]
  · have h1 := (comma_i_le firstv tz tz1 hc).1
    have h2 : tz1.i < tz1.next.2.i := by
      rcases parse_literal_type _ _ hl with h | h
      · exact next_i_lt_of_type tz1 (by rw [h]; decide) (by rw [h]; decide)
      · exact next_i_lt_of_type tz1 (by rw [h]; decide) (by rw [h]; decide)
    omega

/-- The tuple loop does not move the cursor back. -/
theorem tuple_loop_i_le (fuel : Nat) (tz tz' : Tokenizer) (acc tup : List Value) (b : Bool)
    (h : tuple_loop fuel tz acc b = some (.ok (tup, tz'))) : tz.i ≤ tz'.i := by
  obtain ⟨vs, -, hreads⟩ := tuple_loop_sound _ _ _ _ _ _ h
  exact reads_i_le _ _ _ hreads

/-- An iteration of the loop over the tuples of an INSERT that goes on to the
next one. -/
theorem insert_values_iteration (fuel : Nat) (tz tz1 : Tokenizer) (values : List (List Value))
    (first_tuple : Bool) (tup : List Value)
    (hp : first_tuple = true ∨ tz.peek.type = .COMMA)
    (he : expect (if first_tuple = true then tz else tz.next.2).next.1 .LPAREN "'('" = .ok ())
    (ht : tuple_loop (loop_bound tz) (if first_tuple = true then tz else tz.next.2).next.2 []
      true = some (.ok (tup, tz1)))
    (hcomma : tz1.peek.type = .COMMA) :
    insert_values_loop (fuel + 1) tz values first_tuple
      = insert_values_loop fuel tz1 (values ++ [tup]) false ∧
    tz.i < tz1.i := by
  have hp' : ¬ (!first_tuple && decide (tz.peek.type ≠ .COMMA)) = true := by
    rcases hp with h | h
    · simp [h]
    · simp [h]
  constructor
  · simp only [insert_values_loop]
    rw [if_neg hp']
    simp only [he, ht]
    rw [if_neg (by simp [hcomma])]
  · have h0 := (lookahead_i_le first_tuple tz hp).1
    generalize (if first_tuple = true then tz else tz.next.2) = tz0 at he ht h0
    have hl := expect_inv _ _ _ he
    have h1 := next_i_lt_of_type tz0 (by rw [hl]; decide) (by rw [hl]; decide)
    have h2 := tuple_loop_i_le _ _ _ _ _ _ ht
    omega

/-- An iteration of the loop over the assignments of an UPDATE that goes on to
the next one. -/
theorem update_sets_iteration (fuel : Nat) (tz tz1 : Tokenizer)
    (sets : List (String × Value)) (first : Bool) (col : String) (v : Value)
    (hp : first = true ∨ tz.peek.type = .COMMA)
    (hi : expect_ident_any (if first = true then tz else tz.next.2) = .ok (col, tz1))
    (he : expect tz1.next.1 .EQUAL "'='" = .ok ())
    (hl : parse_literal tz1.next.2.next.1 = .ok v)
    (hcomma : tz1.next.2.next.2.peek.type = .COMMA) :
    update_sets_loop (fuel + 1) tz sets first
      = update_sets_loop fuel tz1.next.2.next.2 (sets ++ [(col, v)]) false ∧
    tz.i < tz1.next.2.next.2.i := by
  have hp' : ¬ (!first && decide (tz.peek.type ≠ .COMMA)) = true := by
    rcases hp with h | h
    · simp [h]
    · simp [h]
  constructor
  · simp only [update_sets_loop]
    rw [if_neg hp']
    simp only [hi, he, hl]
    rw [if_neg (by simp [hcomma])]
  · have h0 := (lookahead_i_le first tz hp).1
    generalize (if first = true then tz else tz.next.2) = tz0 at hi h0
    obtain ⟨-, rfl⟩ := expect_ident_any_inv _ _ _ hi
    have h1 := next_i_le tz0
    have hq := expect_inv _ _ _ he
    have h2 := next_i_lt_of_type tz0.next.2 (by rw [hq]; decide) (by rw [hq]; decide)
    have h3 := next_i_le tz0.next.2.next.2
    omega

/-- An iteration of the loop over the further columns of a SELECT that goes on
to the next one. -/
theorem select_columns_iteration (fuel : Nat) (tz tz1 : Tokenizer) (cols : List String)
    (col : String) (hp : tz.peek.type = .COMMA)
    (hi : expect_ident_any tz.next.2 = .ok (col, tz1)) :
    select_columns_loop (fuel + 1) tz cols = select_columns_loop fuel tz1 (cols ++ [col]) ∧
    tz.i < tz1.i := by
  constructor
  · simp only [select_columns_loop, hp, if_true, hi]
  · obtain ⟨-, rfl⟩ := expect_ident_any_inv _ _ _ hi
    have hc : tz.next.1.type = .COMMA := hp
    have h1 := next_i_lt_of_type tz (by rw [hc]; decide) (by rw [hc]; decide)
    have h2 := next_i_le tz.next.2
    omega

/-- A text in which a comma token has a closing parenthesis token right behind
it is rejected. -/
theorem trailing_comma_rejected (text : String) (k : Nat)
    (hc : ((Tokenizer.init text).after k).next.1.type = .COMMA)
    (hr : ((Tokenizer.init text).after (k + 1)).next.1.type = .RPAREN) :
    ∃ msg, parse_statement text = some (.error (.ParseError msg)) := by
  rcases parse_statement_result text with ⟨S, hS⟩ | h
  · exfalso
    obtain ⟨tzf, hrun⟩ := parse_statement_inv text S hS
    obtain ⟨_, hreads, heof⟩ := parse_statement_run_sound text S tzf hrun
    have hlen : k + 1 < S.pattern.length := by
      by_contra hge
      have := after_pattern_end text S tzf hreads heof (k + 1) (by omega)
      rw [this] at hr
      cases hr
    obtain ⟨hm, _⟩ := reads_after _ _ _ hreads
    have hp : S.pattern.get? k = some (S.pattern.get ⟨k, by omega⟩) := List.get?_eq_get _
    have hq : S.pattern.get? (k + 1) = some (S.pattern.get ⟨k + 1, hlen⟩) := List.get?_eq_get _
    have h1 := matches_punct _ _ .COMMA (Or.inl rfl) (hm k _ hp) hc
    have h2 := matches_punct _ _ .RPAREN (Or.inr rfl) (hm (k + 1) _ hq) hr
    have := ncr_get S.pattern false (pattern_ncr S) k _ _ hp hq h1
    rw [h2] at this
    cases this
  · exact h

/-- A text that starts with `CREATE` and has no closing parenthesis token is
rejected. -/
theorem unclosed_create_rejected (text : String)
    (hc : (Tokenizer.init text).next.1 = ⟨.IDENT, "CREATE"⟩)
    (hr : ∀ k, ((Tokenizer.init text).after k).next.1.type ≠ .RPAREN) :
    ∃ msg, parse_statement text = some (.error (.ParseError msg)) := by
  rcases parse_statement_result text with ⟨S, hS⟩ | h
  · exfalso
    obtain ⟨tzf, hrun⟩ := parse_statement_inv text S hS
    obtain ⟨_, hreads, heof⟩ := parse_statement_run_sound text S tzf hrun
    obtain ⟨hm, _⟩ := reads_after _ _ _ hreads
    cases S with
    | Create s =>
      have hlast : (Statement.Create s).pattern.get?
          ([Pat.word "CREATE", .word "TABLE", .word s.name, .punct .LPAREN] ++
            commasep (s.columns.map fun c => [Pat.word c.name, Pat.typ c.type])).length
          = some (.punct .RPAREN) := by
        simp only [Statement.pattern, List.get?_eq_getElem?]
        rw [List.getElem?_append_right (Nat.le_refl _)]
        simp
      exact hr _ (hm _ _ hlast)
    | Insert s =>
      have := hm 0 (.word "INSERT") rfl
      simp only [Pat.matches, Tokenizer.after] at this
      rw [hc] at this
      exact absurd this (by decide)
    | Delete s =>
      have := hm 0 (.word "DELETE") rfl
      simp only [Pat.matches, Tokenizer.after] at this
      rw [hc] at this
      exact absurd this (by decide)
    | Update s =>
      have := hm 0 (.word "UPDATE") rfl
      simp only [Pat.matches, Tokenizer.after] at this
      rw [hc] at this
      exact absurd this (by decide)
    | Select s =>
      have := hm 0 (.word "SELECT") rfl
      simp only [Pat.matches, Tokenizer.after] at this
      rw [hc] at this
      exact absurd this (by decide)
  · exact h

/-- One call of `next` in front of white space and characters whose token is
known. -/
theorem next_step (tz : Tokenizer) (ws s : List Char) (tok : Token) (k : Nat)
    (hrest : tz.rest = ws ++ s) (hws : ws.all isspace = true)
    (hs : starts_with isspace s = false) (hl : lex_token s = (tok, k)) :
    tz.next.1 = tok ∧ tz.next.2.rest = s.drop k := by
  rw [next_of_rest tz ws s hrest hws hs, hl]
  refine ⟨rfl, ?_⟩
  rw [rest_shift, hrest, ← List.drop_drop, List.drop_left]

theorem three_words (a b t : String) (ha : is_ident a.data = true)
    (hb : is_ident b.data = true) (ht : is_ident t.data = true) :
    List.Forall₂ (fun p tok => Token.lexable tok ∧ Pat.matches p tok)
      [Pat.word a, Pat.word b, Pat.word t] [⟨.IDENT, a⟩, ⟨.IDENT, b⟩, ⟨.IDENT, t⟩] :=
  forall₂_canonical [Pat.word a, Pat.word b, Pat.word t] (by
    intro p hp
    simp only [List.mem_cons, List.mem_singleton, List.not_mem_nil, or_false] at hp
    rcases hp with rfl | rfl | rfl
    · exact ha
    · exact hb
    · exact ht)

/-- The statement `CREATE TABLE t ()`. -/
theorem create_empty_list (t : String) (ht : is_ident t.data = true) :
    parse_statement ("CREATE TABLE " ++ t ++ " ()") = some (.ok (.Create ⟨t, []⟩)) := by
  obtain ⟨tz3, hreads, hrest⟩ := reads_chain _ _
    (three_words "CREATE" "TABLE" t (by decide) (by decide) ht)
    (Tokenizer.init ("CREATE TABLE " ++ t ++ " ()")) [] [' ', '(', ')'] (by simp) rfl
    (Or.inr ⟨_, rfl⟩) (by
      have r1 : ∀ x : String, Token.render ⟨.IDENT, x⟩ = x.data := fun _ => rfl
      simp [Tokenizer.init, Tokenizer.rest, spaced, r1])
  obtain ⟨h1, hr1⟩ := next_step tz3 [' '] ['(', ')'] ⟨.LPAREN, "("⟩ 1 hrest rfl rfl rfl
  obtain ⟨h2, hr2⟩ := next_step tz3.next.2 [] [')'] ⟨.RPAREN, ")"⟩ 1 hr1 rfl rfl rfl
  have hr : Reads tz3 [Pat.punct .LPAREN, Pat.punct .RPAREN] tz3.next.2.next.2 :=
    ⟨by rw [h1]; rfl, by rw [h2]; rfl, rfl⟩
  have hall : Reads (Tokenizer.init ("CREATE TABLE " ++ t ++ " ()"))
      ([Pat.word "CREATE", Pat.word "TABLE", Pat.word t] ++
        [Pat.punct .LPAREN, Pat.punct .RPAREN]) tz3.next.2.next.2 :=
    reads_append _ _ _ _ _ hreads hr
  exact parse_of_reads _ (.Create ⟨t, []⟩) _ trivial hall hr2

/-- The statement `INSERT INTO t () VALUES ()`. -/
theorem insert_empty_lists (t : String) (ht : is_ident t.data = true) :
    parse_statement ("INSERT INTO " ++ t ++ " () VALUES ()")
      = some (.ok (.Insert ⟨t, [], [[]]⟩)) := by
  obtain ⟨tz3, hreads, hrest⟩ := reads_chain _ _
    (three_words "INSERT" "INTO" t (by decide) (by decide) ht)
    (Tokenizer.init ("INSERT INTO " ++ t ++ " () VALUES ()")) []
    " () VALUES ()".data (by simp) rfl (Or.inr ⟨_, rfl⟩) (by
      have r1 : ∀ x : String, Token.render ⟨.IDENT, x⟩ = x.data := fun _ => rfl
      simp [Tokenizer.init, Tokenizer.rest, spaced, r1])
  obtain ⟨h1, hr1⟩ := next_step tz3 [' '] "() VALUES ()".data ⟨.LPAREN, "("⟩ 1 hrest rfl rfl rfl
  obtain ⟨h2, hr2⟩ := next_step tz3.next.2 [] ") VALUES ()".data ⟨.RPAREN, ")"⟩ 1 hr1 rfl rfl
    rfl
  obtain ⟨h3, hr3⟩ := next_step tz3.next.2.next.2 [' '] "VALUES ()".data ⟨.IDENT, "VALUES"⟩ 6
    hr2 rfl rfl (by decide)
  obtain ⟨h4, hr4⟩ := next_step tz3.next.2.next.2.next.2 [' '] "()".data ⟨.LPAREN, "("⟩ 1
    hr3 rfl rfl rfl
  obtain ⟨h5, hr5⟩ := next_step tz3.next.2.next.2.next.2.next.2 [] ")".data ⟨.RPAREN, ")"⟩ 1
    hr4 rfl rfl rfl
  have hr : Reads tz3 [Pat.punct .LPAREN, Pat.punct .RPAREN, Pat.word "VALUES",
      Pat.punct .LPAREN, Pat.punct .RPAREN] tz3.next.2.next.2.next.2.next.2.next.2 :=
    ⟨by rw [h1]; rfl, by rw [h2]; rfl, by rw [h3]; rfl, by rw [h4]; rfl, by rw [h5]; rfl, rfl⟩
  have hall : Reads (Tokenizer.init ("INSERT INTO " ++ t ++ " () VALUES ()"))
      ([Pat.word "INSERT", Pat.word "INTO", Pat.word t] ++
        [Pat.punct .LPAREN, Pat.punct .RPAREN, Pat.word "VALUES", Pat.punct .LPAREN,
          Pat.punct .RPAREN]) tz3.next.2.next.2.next.2.next.2.next.2 :=
    reads_append _ _ _ _ _ hreads hr
  exact parse_of_reads _ (.Insert ⟨t, [], [[]]⟩) _ (by simp [Statement.shape_ok]) hall hr5

end

/-! ## The properties -/

/-- C1. A table built by `Database::create_table` and then subjected to any
finite sequence of `insert_row`, `delete_where` and `update_where` calls, with
any arguments and including calls that throw, keeps its schema and satisfies
the table invariant: every stored row has `columns.size()` cells and cell `i`
carries the tag `columns[i].type`. -/
theorem table_invariant (d d1 : Database) (n : String) (cols : List Column) (t0 t : Table)
    (hc : d.create_table n cols = (d1, .ok ()))
    (h0 : d1.table n = .ok t0)
    (hr : Relation.ReflTransGen Table.Step t0 t) :
    t.columns = cols ∧
    ∀ r ∈ t.rows, r.cells.length = t.columns.length ∧
      ∀ i c, t.columns.get? i = some c → ∃ v, r.cells.get? i = some v ∧ v.type = c.type := by
  obtain ⟨_, hnew⟩ := create_table_fresh d d1 n cols hc
  rw [hnew] at h0
  cases h0
  obtain ⟨_, h2, _, h4⟩ := reach_typed _ _ hr (by simp [Table.new])
  exact ⟨h2, fun r hr => (typed_iff _ _).mp (h4 r hr)⟩

/-- C1, on an instance: `people` is created in the empty database, a row is
inserted, an ill-typed update throws half-way, and a delete follows. -/
theorem table_invariant_witness :
    Database.empty.create_table "people" people_columns
      = (⟨⟨[("people", people)]⟩⟩, .ok ()) ∧
    (⟨⟨[("people", people)]⟩⟩ : Database).table "people" = .ok people ∧
    (let t1 := (people.insert_row [some (.make_str "alice"), none]).1
     let t2 := (t1.update_where [("age", .make_int 31), ("name", .make_int 7)] none).1
     let t3 := (t2.delete_where (some ⟨"age", .LT, .make_int 30⟩)).1
     (t1.update_where [("age", .make_int 31), ("name", .make_int 7)] none).2
        = .error (.TypeError "Type mismatch in UPDATE for column name") ∧
     t3.rows = [⟨[.make_str "alice", .make_int 31]⟩] ∧
     t3.columns = people_columns ∧
     ∀ r ∈ t3.rows, r.cells.length = t3.columns.length ∧
       ∀ i c, t3.columns.get? i = some c → ∃ v, r.cells.get? i = some v ∧ v.type = c.type) :=
  ⟨rfl, rfl, rfl, rfl,
    table_invariant Database.empty ⟨⟨[("people", people)]⟩⟩ "people" people_columns people _
      rfl rfl
      (((Relation.ReflTransGen.single
          (Table.Step.insert_row people [some (.make_str "alice"), none])).tail
        (Table.Step.update_where _ [("age", .make_int 31), ("name", .make_int 7)] none)).tail
        (Table.Step.delete_where _ (some ⟨"age", .LT, .make_int 30⟩)))⟩

/-- C2. Whenever `select_where(out_cols, star, cond)` returns, there is a
projection `proj` (every column index in schema order for `*`, otherwise the
indices the names of `out_cols` resolve to, in the order given) such that
the headers are the names of the projected columns and the result rows are,
in stored order, one entry per stored row satisfying `cond` (every row when
`cond` is absent), each the display strings of the projected cells in
projection order; the display string of an integer is its base-10 text and
that of a string is the string itself. -/
theorem select_where_correct (t : Table) (out_cols : List String) (star : Bool)
    (cond : Option Condition) :
    (∀ qr : QueryResult, t.select_where out_cols star cond = .ok qr →
      ∃ proj : List Nat,
        (star = true → proj = List.range t.columns.length) ∧
        (star = false →
          List.Forall₂ (fun name idx => t.col_index name = .ok idx) out_cols proj) ∧
        qr.headers.map some = proj.map (fun idx => (t.columns.get? idx).map Column.name) ∧
        qr.rows.map (fun out => out.map some) =
          (t.rows.filter (t.satisfies cond)).map
            (fun r => proj.map (fun idx => (r.cells.get? idx).map Value.to_string))) ∧
    (cond = none → t.rows.filter (t.satisfies cond) = t.rows) ∧
    (∀ n : Nat, (Value.make_int n).to_string = String.mk (Nat.toDigits 10 n)) ∧
    (∀ n : Nat, (Value.make_int (-(n + 1 : Nat))).to_string =
      "-" ++ String.mk (Nat.toDigits 10 (n + 1))) ∧
    (∀ s : String, (Value.make_str s).to_string = s) := by
  refine ⟨?_, ?_, ?_, ?_, ?_⟩
  · intro qr h
    unfold Table.select_where at h
    cases hp : t.build_projection out_cols star with
    | error e => simp [hp] at h
    | ok proj =>
      simp only [hp] at h
      cases hh : t.select_headers proj with
      | error e => simp [hh] at h
      | ok headers =>
        simp only [hh] at h
        cases hr : t.select_rows proj cond t.rows with
        | error e => simp [hr] at h
        | ok rows =>
          simp only [hr, Except.ok.injEq] at h
          subst h
          refine ⟨proj, ?_, ?_, select_headers_ok t proj headers hh,
            select_rows_ok t proj cond t.rows rows hr⟩
          · intro hs
            simp only [Table.build_projection, hs, if_true, Except.ok.injEq] at hp
            exact hp.symm
          · intro hs
            simp only [Table.build_projection, hs, Bool.false_eq_true, if_false] at hp
            exact col_indices_forall t out_cols proj hp
  · intro hc
    subst hc
    apply List.filter_eq_self.mpr
    intro r _
    rfl
  · intro n; rfl
  · intro n; rfl
  · intro s; rfl

/-- C2, on the instance of the claim: `people(name str, age int)` holding
(alice,30), (bob,25), (carol,35), selected with `age > 30`. -/
theorem select_where_correct_witness :
    people3.select_where [] true (some ⟨"age", .GT, .make_int 30⟩)
      = .ok ⟨["name", "age"], [["carol", "35"]]⟩ ∧
    (∃ proj : List Nat,
      ((true : Bool) = true → proj = List.range people3.columns.length) ∧
      ((true : Bool) = false →
        List.Forall₂ (fun name idx => people3.col_index name = .ok idx) [] proj) ∧
      ["name", "age"].map some
        = proj.map (fun idx => (people3.columns.get? idx).map Column.name) ∧
      [["carol", "35"]].map (fun out => out.map some) =
        (people3.rows.filter (people3.satisfies (some ⟨"age", .GT, .make_int 30⟩))).map
          (fun r => proj.map (fun idx => (r.cells.get? idx).map Value.to_string))) :=
  ⟨rfl, (select_where_correct people3 [] true (some ⟨"age", .GT, .make_int 30⟩)).1
    ⟨["name", "age"], [["carol", "35"]]⟩ rfl⟩

/-- C3 (amended). Executing an Insert statement whose table exists, whose
named columns all exist in the table, and whose tuples each have as many
literals as there are named columns, every literal carrying the declared
type of the column it is named for, succeeds and leaves the table's rows equal
to the old rows followed by one new row per tuple in tuple order (every other
table is untouched).  Each new row has one cell per column; the cell of the
column named at a position of the column list holds the literal at that
position, provided no later position names the same column (so a column named
more than once holds the last literal given for it); every column that no
position names holds `default_of` its type, integer 0 or the empty string. -/
theorem insert_execute_correct (d : Database) (s : StmtInsert) (t : Table)
    (ht : d.table s.table = .ok t) (hwf : t.SchemaOK)
    (hcols : ∀ name ∈ s.columns, ∃ c ∈ t.columns, c.name = name)
    (hlen : ∀ tup ∈ s.values, tup.length = s.columns.length)
    (hty : ∀ tup ∈ s.values, ∀ p ∈ s.columns.zip tup, ∀ idx c,
      t.col_index p.1 = .ok idx → t.columns.get? idx = some c → p.2.type = c.type) :
    execute d (.Insert s) =
      ({ tables := d.tables.assign s.table
          { t with rows := t.rows ++ s.values.map (t.row_of_tuple s.columns) } }, .ok none) ∧
    (execute d (.Insert s)).1.table s.table =
      .ok { t with rows := t.rows ++ s.values.map (t.row_of_tuple s.columns) } ∧
    (∀ m, m ≠ s.table → (execute d (.Insert s)).1.table m = d.table m) ∧
    (∀ tup ∈ s.values,
      (t.row_of_tuple s.columns tup).cells.length = t.columns.length ∧
      (∀ k name v idx, s.columns.get? k = some name → tup.get? k = some v →
        t.col_index name = .ok idx →
        (∀ k' name', k < k' → s.columns.get? k' = some name' → name' ≠ name) →
        (t.row_of_tuple s.columns tup).cells.get? idx = some v) ∧
      (∀ j c, t.columns.get? j = some c →
        (∀ name ∈ s.columns, t.col_index name ≠ .ok j) →
        (t.row_of_tuple s.columns tup).cells.get? j = some (Value.default_of c.type))) ∧
    Value.default_of .INT = Value.make_int 0 ∧ Value.default_of .STR = Value.make_str "" := by
  obtain ⟨idxs, hidxs⟩ := col_indices_exists t s.columns
    (fun name hn => col_index_exists t hwf name (hcols name hn))
  have hF := col_indices_forall t s.columns idxs hidxs
  have hexec : execute d (.Insert s) =
      ({ tables := d.tables.assign s.table
          { t with rows := t.rows ++ s.values.map (t.row_of_tuple s.columns) } }, .ok none) := by
    have := insert_tuples_ok s t hwf idxs hF s.values hlen hty t.rows
    simp only [execute, ht, hidxs]
    have ht' : ({ t with rows := t.rows } : Table) = t := rfl
    rw [ht'] at this
    rw [this]
  refine ⟨hexec, ?_, ?_, ?_, rfl, rfl⟩
  · rw [hexec]
    exact (table_assign d s.table t _ ht).1
  · intro m hm
    rw [hexec]
    exact (table_assign d s.table t _ ht).2 m hm
  · intro tup htup
    refine ⟨by simp [Table.row_of_tuple], ?_, ?_⟩
    · intro k name v idx hn hv hi hlast
      obtain ⟨c, hc, _⟩ := col_index_column t hwf name idx hi
      rw [row_of_tuple_get t s.columns tup idx c hc]
      rw [last_named_zip_pos t s.columns tup (hlen tup htup) k name v idx hn hv hi
        (fun k' name' hk' hn' hi' => hlast k' name' hk' hn' (col_index_inj t hwf _ _ idx hi' hi))]
    · intro j c hc hnone
      rw [row_of_tuple_get t s.columns tup j c hc, last_named_zip_none t s.columns tup j hnone]

/-- C3 (amended), on the instance of the claim: inserting ("bob") for column
`name` only into `people(name str, age int)`; an unrestricted select then shows
"0" for `age`. -/
theorem insert_execute_correct_witness :
    people_db.table "people" = .ok people ∧
    (execute people_db (.Insert ⟨"people", ["name"], [[.make_str "bob"]]⟩)).2 = .ok none ∧
    (execute (execute people_db (.Insert ⟨"people", ["name"], [[.make_str "bob"]]⟩)).1
      (.Select ⟨"people", [], true, none⟩)).2
      = .ok (some ⟨["name", "age"], [["bob", "0"]]⟩) ∧
    execute people_db (.Insert ⟨"people", ["name"], [[.make_str "bob"]]⟩) =
      ({ tables := people_db.tables.assign "people"
          { people with rows := people.rows ++
              [[Value.make_str "bob"]].map (people.row_of_tuple ["name"]) } }, .ok none) :=
  ⟨rfl, rfl, rfl,
    (insert_execute_correct people_db ⟨"people", ["name"], [[.make_str "bob"]]⟩ people rfl rfl
      (by intro name hn
          simp only [List.mem_singleton] at hn
          subst hn
          exact ⟨⟨"name", .STR⟩, by simp [people, Table.new, people_columns], rfl⟩)
      (by intro tup htup
          simp only [List.mem_singleton] at htup
          subst htup; rfl)
      (by intro tup htup p hp idx c hi hc
          simp only [List.mem_singleton] at htup
          subst htup
          simp only [List.zip_cons_cons, List.zip_nil_right, List.mem_singleton] at hp
          subst hp
          have h0 : people.col_index "name" = .ok 0 := rfl
          rw [h0] at hi
          cases hi
          have hc0 : people.columns.get? 0 = some ⟨"name", .STR⟩ := rfl
          rw [hc0] at hc
          cases hc
          rfl)).1⟩

/-- C3 as stated fails when the column list names a column twice: with
`t(a int)` and `INSERT INTO t (a, a) VALUES (1, 2)` every premise holds and the
statement succeeds, but the cell of `a` holds 2, not the literal 1 given for
`a` at the first position. -/
theorem insert_duplicate_name_counterexample :
    single_a_db.table "t" = .ok (Table.new "t" [⟨"a", .INT⟩]) ∧
    (∀ name ∈ ["a", "a"], ∃ c ∈ (Table.new "t" [⟨"a", .INT⟩]).columns, c.name = name) ∧
    (∀ tup ∈ [[Value.make_int 1, Value.make_int 2]], tup.length = ["a", "a"].length) ∧
    (∀ tup ∈ [[Value.make_int 1, Value.make_int 2]], ∀ v ∈ tup, v.type = DbType.INT) ∧
    execute single_a_db (.Insert ⟨"t", ["a", "a"], [[.make_int 1, .make_int 2]]⟩) =
      (⟨⟨[("t", { Table.new "t" [⟨"a", .INT⟩] with rows := [⟨[.make_int 2]⟩] })]⟩⟩, .ok none) ∧
    (["a", "a"].get? 0 = some "a" ∧
      [Value.make_int 1, Value.make_int 2].get? 0 = some (Value.make_int 1) ∧
      (Table.new "t" [⟨"a", .INT⟩]).col_index "a" = .ok 0 ∧
      (⟨[.make_int 2]⟩ : Row).cells.get? 0 ≠ some (Value.make_int 1)) := by
  refine ⟨rfl, ?_, ?_, ?_, rfl, rfl, rfl, rfl, by decide⟩
  · intro name hn
    simp only [List.mem_cons, List.mem_singleton, List.mem_nil_iff, or_false, or_self] at hn
    subst hn
    exact ⟨⟨"a", .INT⟩, by simp [Table.new], rfl⟩
  · intro tup htup
    simp only [List.mem_singleton] at htup
    subst htup; rfl
  · intro tup htup v hv
    simp only [List.mem_singleton] at htup
    subst htup
    simp only [List.mem_cons, List.mem_singleton, List.mem_nil_iff, or_false] at hv
    rcases hv with rfl | rfl <;> rfl

/-- C4 (amended). On a table satisfying the table invariant, take an
`update_where` call in which every assignment names an existing column and
some assignment's value has a tag different from the declared type of the
column it names.  If at least one stored row satisfies the condition, the call
fails with `TypeError`.  If no stored row satisfies the condition, the values
are never type-checked: the call returns 0 and leaves the table as it was when
the table has no rows or the condition can be evaluated (there is none, or its
column exists and its literal carries that column's type), it throws the
exception of the condition and leaves the table as it was otherwise, and it
does the same for any other values given for the same names. -/
theorem update_type_error (t : Table) (hwf : t.SchemaOK) (hinv : t.Inv)
    (sets : List (String × Value)) (cond : Option Condition)
    (hnames : ∀ p ∈ sets, ∃ c ∈ t.columns, c.name = p.1)
    (hbad : ∃ p ∈ sets, ∃ idx c, t.col_index p.1 = .ok idx ∧ t.columns.get? idx = some c ∧
      p.2.type ≠ c.type) :
    ((∃ r ∈ t.rows, t.meets cond r = true) →
      ∃ msg, (t.update_where sets cond).2 = .error (.TypeError msg)) ∧
    ((∀ r ∈ t.rows, t.meets cond r = false) →
      ((t.rows = [] ∨ ∀ c, cond = some c → c.failure t = none) →
        t.update_where sets cond = (t, .ok 0)) ∧
      (∀ c e, cond = some c → c.failure t = some e → t.rows ≠ [] →
        t.update_where sets cond = (t, .error e)) ∧
      (∀ sets1 : List (String × Value), sets1.map Prod.fst = sets.map Prod.fst →
        t.update_where sets1 cond = t.update_where sets cond)) := by
  refine ⟨?_, fun hno => update_where_no_match t hwf hinv sets cond hnames hno⟩
  intro hrow
  have hrow : ∃ r ∈ t.rows, t.satisfies cond r = true := by
    obtain ⟨r, hr, hm⟩ := hrow
    exact ⟨r, hr, by rw [← meets_eq_satisfies]; exact hm⟩
  have htyped := (inv_iff t).mp hinv
  obtain ⟨idxs, hidxs⟩ := set_indices_exists t sets
    (fun p hp => col_index_exists t hwf p.1 (hnames p hp))
  have hF := set_indices_length t sets idxs hidxs
  have hall : ∀ r ∈ t.rows, ∃ b, t.row_matches r cond = .ok b := by
    rcases row_matches_uniform t cond with ⟨e, he⟩ | hok
    · obtain ⟨r, hr, hs⟩ := hrow
      have := he r (htyped r hr)
      simp [Table.satisfies, this] at hs
    · exact fun r hr => hok r (htyped r hr)
  obtain ⟨msg, hmsg⟩ := update_rows_type_error t hwf sets idxs hF hbad cond t.rows 0 htyped
    hall hrow
  exact ⟨msg, by simp only [Table.update_where, hidxs, hmsg]⟩

/-- C4 (amended), on instances, `people` holding (alice,30), (bob,25),
(carol,35): `SET age = "x" WHERE name = "bob"` throws `TypeError`, bob's row
satisfying the condition; `SET age = "x" WHERE age > 99`, which no row
satisfies, returns 0 and changes nothing, as `SET age = 7 WHERE age > 99`
does; and `SET age = "x" WHERE salary = 1` throws the `DBError` of the
condition. -/
theorem update_type_error_witness :
    people3.SchemaOK ∧ people3.Inv ∧
    (∀ p ∈ [("age", Value.make_str "x")], ∃ c ∈ people3.columns, c.name = p.1) ∧
    ((∃ r ∈ people3.rows,
        people3.meets (some ⟨"name", .EQ, .make_str "bob"⟩) r = true) ∧
      (people3.update_where [("age", .make_str "x")] (some ⟨"name", .EQ, .make_str "bob"⟩)).2
        = .error (.TypeError "Type mismatch in UPDATE for column age") ∧
      ∃ msg, (people3.update_where [("age", .make_str "x")]
        (some ⟨"name", .EQ, .make_str "bob"⟩)).2 = .error (.TypeError msg)) ∧
    ((∀ r ∈ people3.rows, people3.meets (some ⟨"age", .GT, .make_int 99⟩) r = false) ∧
      people3.update_where [("age", .make_str "x")] (some ⟨"age", .GT, .make_int 99⟩)
        = (people3, .ok 0) ∧
      people3.update_where [("age", .make_int 7)] (some ⟨"age", .GT, .make_int 99⟩)
        = people3.update_where [("age", .make_str "x")] (some ⟨"age", .GT, .make_int 99⟩)) ∧
    ((∀ r ∈ people3.rows, people3.meets (some ⟨"salary", .EQ, .make_int 1⟩) r = false) ∧
      people3.update_where [("age", .make_str "x")] (some ⟨"salary", .EQ, .make_int 1⟩)
        = (people3, .error (.DBError "Unknown column: salary"))) :=
  have hwf : people3.SchemaOK := rfl
  have hinv : people3.Inv := (inv_iff people3).mpr (by
    intro r hr
    simp only [people3, List.mem_cons, List.mem_singleton, List.mem_nil_iff, or_false] at hr
    rcases hr with rfl | rfl | rfl <;> rfl)
  have hnames : ∀ p ∈ [("age", Value.make_str "x")], ∃ c ∈ people3.columns, c.name = p.1 := by
    intro p hp
    simp only [List.mem_singleton] at hp
    subst hp
    exact ⟨⟨"age", .INT⟩, by simp [people3, people, Table.new, people_columns], rfl⟩
  have hbad : ∃ p ∈ [("age", Value.make_str "x")], ∃ idx c,
      people3.col_index p.1 = .ok idx ∧ people3.columns.get? idx = some c ∧ p.2.type ≠ c.type :=
    ⟨("age", .make_str "x"), by simp, 1, ⟨"age", .INT⟩, rfl, rfl, by decide⟩
  have hrow : ∃ r ∈ people3.rows,
      people3.meets (some ⟨"name", .EQ, .make_str "bob"⟩) r = true :=
    ⟨⟨[.make_str "bob", .make_int 25]⟩, by simp [people3], by decide⟩
  have hno : ∀ r ∈ people3.rows,
      people3.meets (some ⟨"age", .GT, .make_int 99⟩) r = false := by
    intro r hr
    simp only [people3, List.mem_cons, List.mem_singleton, List.mem_nil_iff, or_false] at hr
    rcases hr with rfl | rfl | rfl <;> decide
  have hno2 : ∀ r ∈ people3.rows,
      people3.meets (some ⟨"salary", .EQ, .make_int 1⟩) r = false := by
    intro r hr
    simp only [people3, List.mem_cons, List.mem_singleton, List.mem_nil_iff, or_false] at hr
    rcases hr with rfl | rfl | rfl <;> decide
  ⟨hwf, hinv, hnames,
   ⟨hrow, rfl,
    (update_type_error people3 hwf hinv [("age", .make_str "x")]
      (some ⟨"name", .EQ, .make_str "bob"⟩) hnames hbad).1 hrow⟩,
   ⟨hno,
    ((update_type_error people3 hwf hinv [("age", .make_str "x")]
      (some ⟨"age", .GT, .make_int 99⟩) hnames hbad).2 hno).1
      (Or.inr fun c hc => by cases hc; rfl),
    ((update_type_error people3 hwf hinv [("age", .make_str "x")]
      (some ⟨"age", .GT, .make_int 99⟩) hnames hbad).2 hno).2.2
      [("age", .make_int 7)] rfl⟩,
   ⟨hno2,
    ((update_type_error people3 hwf hinv [("age", .make_str "x")]
      (some ⟨"salary", .EQ, .make_int 1⟩) hnames hbad).2 hno2).2.1
      ⟨"salary", .EQ, .make_int 1⟩ (.DBError "Unknown column: salary") rfl rfl (by decide)⟩⟩

/-- C4 as stated fails when no stored row satisfies the condition: on the
empty table `t(a int)`, `SET a = "x"` assigns a string to an integer column
and returns 0 without throwing; so does the same update on `people` with
three rows under the condition `age > 99`. -/
theorem update_type_error_counterexample :
    single_a.col_index "a" = .ok 0 ∧ single_a.columns.get? 0 = some ⟨"a", .INT⟩ ∧
    (Value.make_str "x").type ≠ DbType.INT ∧
    single_a.update_where [("a", .make_str "x")] none = (single_a, .ok 0) ∧
    people3.update_where [("age", .make_str "x")] (some ⟨"age", .GT, .make_int 99⟩)
      = (people3, .ok 0) :=
  ⟨rfl, rfl, by decide, rfl, rfl⟩

/-- C5. For a full-width vector, a present value whose tag differs from the
declared type of the column at its position makes `insert_row` throw
`TypeError` and leaves the table (so its rows) unchanged; a vector whose
length differs from the column count makes it throw `DBError` and leaves the
table unchanged. -/
theorem insert_row_type_safety (t : Table) (row_values : List (Option Value)) :
    (row_values.length = t.columns.length →
      (∃ i v c, row_values.get? i = some (some v) ∧ t.columns.get? i = some c ∧
        v.type ≠ c.type) →
      ∃ msg, t.insert_row row_values = (t, .error (.TypeError msg))) ∧
    (row_values.length ≠ t.columns.length →
      t.insert_row row_values = (t, .error (.DBError "Internal error: wrong row size"))) := by
  constructor
  · intro hlen hbad
    obtain ⟨msg, hmsg⟩ := insert_row_cells_mismatch t.columns row_values hlen hbad
    exact ⟨msg, by simp [Table.insert_row, hlen, hmsg]⟩
  · intro hlen
    simp [Table.insert_row, hlen]

/-- C5, on the instances of the tests: (123, 30) into `people(name str, age
int)`, and a vector of one value. -/
theorem insert_row_type_safety_witness :
    people3.insert_row [some (.make_int 123), some (.make_int 30)]
      = (people3, .error (.TypeError "Type mismatch on insert into column name")) ∧
    (∃ msg, people3.insert_row [some (.make_int 123), some (.make_int 30)]
      = (people3, .error (.TypeError msg))) ∧
    people3.insert_row [some (.make_str "dave")]
      = (people3, .error (.DBError "Internal error: wrong row size")) :=
  ⟨rfl,
    (insert_row_type_safety people3 [some (.make_int 123), some (.make_int 30)]).1 rfl
      ⟨0, .make_int 123, ⟨"name", .STR⟩, rfl, rfl, by decide⟩,
    (insert_row_type_safety people3 [some (.make_str "dave")]).2 (by decide)⟩

/-- C6. When the database already holds a table under the name,
`create_table` throws `DBError` for any column list and leaves the database
unchanged: every lookup, of that table and of any other, gives what it gave
before. -/
theorem create_table_duplicate (d : Database) (n : String) (cols : List Column) (t : Table)
    (h : d.table n = .ok t) :
    d.create_table n cols = (d, .error (.DBError ("Table already exists: " ++ n))) ∧
    (d.create_table n cols).1.table n = .ok t ∧
    ∀ m, (d.create_table n cols).1.table m = d.table m := by
  have hf : d.tables.find n = some t := by
    unfold Database.table at h
    cases hf : d.tables.find n with
    | none => simp [hf] at h
    | some t' =>
      simp only [hf, Except.ok.injEq] at h
      rw [h]
  have hc : d.create_table n cols = (d, .error (.DBError ("Table already exists: " ++ n))) := by
    simp [Database.create_table, UMap.count, hf]
  rw [hc]
  exact ⟨rfl, h, fun _ => rfl⟩

/-- C6, on an instance: `people` with three rows is in the database and a
second `people` with another schema is created. -/
theorem create_table_duplicate_witness :
    (⟨⟨[("people", people3)]⟩⟩ : Database).table "people" = .ok people3 ∧
    (⟨⟨[("people", people3)]⟩⟩ : Database).create_table "people" [⟨"id", .INT⟩]
      = (⟨⟨[("people", people3)]⟩⟩, .error (.DBError "Table already exists: people")) :=
  ⟨rfl, (create_table_duplicate ⟨⟨[("people", people3)]⟩⟩ "people" [⟨"id", .INT⟩] people3 rfl).1⟩

/-- C7. Whenever `delete_where(cond)` returns, the condition evaluated on
every stored row, the table is left with exactly the stored rows that do not
satisfy `cond`, in their original order (schema untouched), and the returned
count is the number of stored rows that satisfied `cond`, so that count plus
remaining rows is the previous row count.  With no condition the call always
returns, removes every row and returns the previous row count. -/
theorem delete_where_correct (t : Table) :
    (∀ (cond : Option Condition) (t1 : Table) (n : Nat),
      t.delete_where cond = (t1, .ok n) →
      (∀ r ∈ t.rows, ∃ b, t.row_matches r cond = .ok b) ∧
      t1 = { t with rows := t.rows.filter (fun r => !t.satisfies cond r) } ∧
      n = t.rows.countP (t.satisfies cond) ∧
      n + t1.rows.length = t.rows.length) ∧
    t.delete_where none = ({ t with rows := [] }, .ok t.rows.length) := by
  constructor
  · intro cond t1 n h
    have hall := delete_where_evaluates t cond t1 n h
    have hfilter :
        t.rows.filter (t.rejects cond) = t.rows.filter (fun r => !t.satisfies cond r) :=
      List.filter_congr (fun r hr => rejects_eq_not_satisfies t cond r (hall r hr))
    have hcount := rejects_count t cond t.rows hall
    rw [delete_where_ok t cond hall] at h
    simp only [Prod.mk.injEq, Except.ok.injEq] at h
    obtain ⟨h1, h2⟩ := h
    refine ⟨hall, ?_, ?_, ?_⟩
    · rw [← h1, hfilter]
    · rw [← h2]; omega
    · rw [← h1, ← h2]; simp only; omega
  · rw [delete_where_ok t none (fun r _ => ⟨true, rfl⟩)]
    have : t.rows.filter (t.rejects none) = [] := by
      apply List.filter_eq_nil_iff.mpr
      intro r _
      simp [Table.rejects, Table.row_matches]
    rw [this]
    rfl

/-- C7, on the instance of the tests: deleting `age < 30` from `people`
holding (alice,30), (bob,25), (carol,35) removes bob. -/
theorem delete_where_correct_witness :
    people3.delete_where (some ⟨"age", .LT, .make_int 30⟩)
      = ({ people3 with rows := [⟨[.make_str "alice", .make_int 30]⟩,
            ⟨[.make_str "carol", .make_int 35]⟩] }, .ok 1) ∧
    (1 : Nat) = people3.rows.countP (people3.satisfies (some ⟨"age", .LT, .make_int 30⟩)) ∧
    people3.delete_where none = ({ people3 with rows := [] }, .ok people3.rows.length) :=
  have h := (delete_where_correct people3).1 (some ⟨"age", .LT, .make_int 30⟩)
    { people3 with rows := [⟨[.make_str "alice", .make_int 30]⟩,
        ⟨[.make_str "carol", .make_int 35]⟩] } 1 rfl
  ⟨rfl, h.2.2.1, (delete_where_correct people3).2⟩

/-- C8. Whenever `update_where(sets, cond)` returns, the schema and the number
and order of the rows are unchanged and the returned count is the number of
stored rows that satisfied `cond`; a row that did not satisfy `cond` is
unchanged; in a row that satisfied it, the cell of a column holds the value of
the last assignment whose name resolves to that column, and a cell whose
column no assignment names is unchanged.  A row satisfies `cond` when there is
no condition or its cell in the condition's column stands to the literal in
the relation of the operator (`Table.meets`). -/
theorem update_where_correct (t : Table) (sets : List (String × Value))
    (cond : Option Condition) (t1 : Table) (n : Nat)
    (h : t.update_where sets cond = (t1, .ok n)) :
    t1.name = t.name ∧ t1.columns = t.columns ∧ t1.name2idx = t.name2idx ∧
    t1.rows.length = t.rows.length ∧
    n = t.rows.countP (t.meets cond) ∧
    ∀ i r, t.rows.get? i = some r → ∃ r1, t1.rows.get? i = some r1 ∧
      (t.meets cond r = false → r1 = r) ∧
      (t.meets cond r = true → r1.cells.length = r.cells.length ∧
        ∀ j v, r.cells.get? j = some v →
          (∀ k p, sets.get? k = some p → t.col_index p.1 = .ok j →
            (∀ k' p', k < k' → sets.get? k' = some p' → t.col_index p'.1 ≠ .ok j) →
            r1.cells.get? j = some p.2) ∧
          ((∀ p ∈ sets, t.col_index p.1 ≠ .ok j) → r1.cells.get? j = some v)) := by
  have hms : t.meets cond = t.satisfies cond := funext (meets_eq_satisfies t cond)
  rw [hms]
  unfold Table.update_where at h
  cases hi : t.set_indices sets with
  | error e => simp [hi] at h
  | ok idxs =>
    simp only [hi, Prod.mk.injEq] at h
    obtain ⟨h1, h2⟩ := h
    have hF := set_indices_length t sets idxs hi
    obtain ⟨hn, hlen, _, hrows⟩ := update_rows_done t sets idxs cond t.rows
      (t.update_rows sets idxs cond t.rows 0).1 0 n hF (by rw [← h2])
    subst h1
    refine ⟨rfl, rfl, rfl, hlen, by simpa using hn, ?_⟩
    intro i r hr
    obtain ⟨r1, hr1, hfalse, htrue⟩ := hrows i r hr
    refine ⟨r1, hr1, hfalse, ?_⟩
    intro hs
    obtain ⟨hl, hcells⟩ := htrue hs
    refine ⟨hl, ?_⟩
    intro j v hv
    have hj := hcells j v hv
    constructor
    · intro k p hp hpi hlast
      rw [hj, last_named_pos t sets k p j hp hpi hlast]
    · intro hnone
      rw [hj, (last_named_none t sets j).mpr hnone]

/-- C8, on the instance of the test: `people` holding (alice,30), (bob,25),
`SET age = 31 WHERE name = "alice"` returns 1 and the row of alice then shows
"31"; bob, whose name is not "alice", does not satisfy the condition and his
row is unchanged.  And on the instance of the claim: `products` holding
(1,"laptop",1000), `SET price = 900 WHERE name = "laptop"`; the row then shows
price "900" with id and name unchanged. -/
theorem update_where_correct_witness :
    (people2.update_where [("age", .make_int 31)] (some ⟨"name", .EQ, .make_str "alice"⟩)
        = ({ people2 with rows := [⟨[.make_str "alice", .make_int 31]⟩,
              ⟨[.make_str "bob", .make_int 25]⟩] }, .ok 1) ∧
      ({ people2 with rows := [⟨[.make_str "alice", .make_int 31]⟩,
          ⟨[.make_str "bob", .make_int 25]⟩] } : Table).select_where [] true
          (some ⟨"name", .EQ, .make_str "alice"⟩)
        = .ok ⟨["name", "age"], [["alice", "31"]]⟩ ∧
      people2.meets (some ⟨"name", .EQ, .make_str "alice"⟩)
        ⟨[.make_str "alice", .make_int 30]⟩ = true ∧
      people2.meets (some ⟨"name", .EQ, .make_str "alice"⟩)
        ⟨[.make_str "bob", .make_int 25]⟩ = false ∧
      (1 : Nat) = people2.rows.countP
        (people2.meets (some ⟨"name", .EQ, .make_str "alice"⟩)) ∧
      ∃ r1, ({ people2 with rows := [⟨[.make_str "alice", .make_int 31]⟩,
          ⟨[.make_str "bob", .make_int 25]⟩] } : Table).rows.get? 1 = some r1 ∧
        r1 = ⟨[.make_str "bob", .make_int 25]⟩) ∧
    (products1.update_where [("price", .make_int 900)] (some ⟨"name", .EQ, .make_str "laptop"⟩)
        = ({ products1 with rows := [⟨[.make_int 1, .make_str "laptop", .make_int 900]⟩] },
            .ok 1) ∧
      ({ products1 with rows := [⟨[.make_int 1, .make_str "laptop", .make_int 900]⟩] } :
        Table).select_where [] true none
        = .ok ⟨["id", "name", "price"], [["1", "laptop", "900"]]⟩ ∧
      (1 : Nat) = products1.rows.countP
        (products1.meets (some ⟨"name", .EQ, .make_str "laptop"⟩))) :=
  have hp := update_where_correct people2 [("age", .make_int 31)]
    (some ⟨"name", .EQ, .make_str "alice"⟩)
    { people2 with rows := [⟨[.make_str "alice", .make_int 31]⟩,
        ⟨[.make_str "bob", .make_int 25]⟩] } 1 rfl
  have hbob := hp.2.2.2.2.2 1 ⟨[.make_str "bob", .make_int 25]⟩ rfl
  ⟨⟨rfl, rfl, by decide, by decide, hp.2.2.2.2.1,
    hbob.elim fun r1 h1 => ⟨r1, h1.1, h1.2.1 (by decide)⟩⟩,
   ⟨rfl, rfl,
    (update_where_correct products1 [("price", .make_int 900)]
      (some ⟨"name", .EQ, .make_str "laptop"⟩)
      { products1 with rows := [⟨[.make_int 1, .make_str "laptop", .make_int 900]⟩] } 1
      rfl).2.2.2.2.1⟩⟩

/-- C9. For a condition whose column exists and whose literal has the tag of
the row's cell in that column, `Condition::matches` returns, and returns true
exactly when `cell op literal` holds, for each of the six operators, integers
being ordered by numeric value and strings byte-wise lexicographically.  In
particular, for integers `a < b`, `col > a` matches a row whose cell is `b`
and `col <= a` does not, and likewise for strings `a` before `b`. -/
theorem condition_matches_order :
    (∀ (t : Table) (c : Condition) (r : Row) (idx : Nat) (v : Value),
      t.col_index c.column = .ok idx → r.cells.get? idx = some v →
      c.literal.type = v.type →
      ∃ b, c.matches t r = .ok b ∧ (b = true ↔ Value.holds c.op v c.literal)) ∧
    (∀ (t : Table) (col : String) (r : Row) (idx : Nat) (a b : Int),
      a < b → t.col_index col = .ok idx → r.cells.get? idx = some (Value.make_int b) →
      Condition.matches ⟨col, .GT, .make_int a⟩ t r = .ok true ∧
      Condition.matches ⟨col, .LE, .make_int a⟩ t r = .ok false) ∧
    (∀ (t : Table) (col : String) (r : Row) (idx : Nat) (a b : String),
      str_lt a b → t.col_index col = .ok idx → r.cells.get? idx = some (Value.make_str b) →
      Condition.matches ⟨col, .GT, .make_str a⟩ t r = .ok true ∧
      Condition.matches ⟨col, .LE, .make_str a⟩ t r = .ok false) := by
  have general : ∀ (t : Table) (c : Condition) (r : Row) (idx : Nat) (v : Value),
      t.col_index c.column = .ok idx → r.cells.get? idx = some v →
      c.literal.type = v.type →
      ∃ b, c.matches t r = .ok b ∧ (b = true ↔ Value.holds c.op v c.literal) := by
    intro t c r idx v hidx hv hty
    obtain ⟨cmp, hcmp, hiff⟩ := compare_apply c.op v c.literal hty
    exact ⟨c.op.apply cmp, by simp only [Condition.matches, hidx, hv, hcmp], hiff⟩
  refine ⟨general, ?_, ?_⟩
  · intro t col r idx a b hab hidx hv
    obtain ⟨b1, h1, i1⟩ := general t ⟨col, .GT, .make_int a⟩ r idx (.make_int b) hidx hv rfl
    obtain ⟨b2, h2, i2⟩ := general t ⟨col, .LE, .make_int a⟩ r idx (.make_int b) hidx hv rfl
    have e1 : b1 = true := i1.mpr (by simpa [Value.holds, Value.make_int] using hab)
    have e2 : b2 = false := by
      cases b2 with
      | false => rfl
      | true =>
        have := i2.mp rfl
        simp only [Value.holds, Value.make_int] at this
        omega
    rw [h1, h2, e1, e2]
    exact ⟨rfl, rfl⟩
  · intro t col r idx a b hab hidx hv
    obtain ⟨b1, h1, i1⟩ := general t ⟨col, .GT, .make_str a⟩ r idx (.make_str b) hidx hv rfl
    obtain ⟨b2, h2, i2⟩ := general t ⟨col, .LE, .make_str a⟩ r idx (.make_str b) hidx hv rfl
    have e1 : b1 = true := i1.mpr (by simpa [Value.holds, Value.make_str] using hab)
    have e2 : b2 = false := by
      cases b2 with
      | false => rfl
      | true =>
        have := i2.mp rfl
        simp only [Value.holds, Value.make_str] at this
        rcases this with h | h
        · exact absurd hab (str_lt_asymm _ _ h)
        · rw [h] at hab
          exact absurd hab (str_lt_asymm _ _ hab)
    rw [h1, h2, e1, e2]
    exact ⟨rfl, rfl⟩

/-- C9, on instances: in `people` the row (carol,35) against `age > 30` and
`age <= 30`, and against `name > "bob"` and `name <= "bob"`. -/
theorem condition_matches_order_witness :
    (Condition.matches ⟨"age", .GT, .make_int 30⟩ people3 ⟨[.make_str "carol", .make_int 35]⟩
        = .ok true ∧
      Condition.matches ⟨"age", .LE, .make_int 30⟩ people3 ⟨[.make_str "carol", .make_int 35]⟩
        = .ok false) ∧
    (Condition.matches ⟨"name", .GT, .make_str "bob"⟩ people3
        ⟨[.make_str "carol", .make_int 35]⟩ = .ok true ∧
      Condition.matches ⟨"name", .LE, .make_str "bob"⟩ people3
        ⟨[.make_str "carol", .make_int 35]⟩ = .ok false) ∧
    (∃ b, Condition.matches ⟨"age", .NEQ, .make_int 35⟩ people3
        ⟨[.make_str "carol", .make_int 35]⟩ = .ok b ∧
      (b = true ↔ Value.holds .NEQ (.make_int 35) (.make_int 35))) :=
  ⟨condition_matches_order.2.1 people3 "age" ⟨[.make_str "carol", .make_int 35]⟩ 1 30 35
      (by decide) rfl rfl,
    condition_matches_order.2.2 people3 "name" ⟨[.make_str "carol", .make_int 35]⟩ 0
      "bob" "carol" (List.Lex.rel (by decide)) rfl rfl,
    condition_matches_order.1 people3 ⟨"age", .NEQ, .make_int 35⟩
      ⟨[.make_str "carol", .make_int 35]⟩ 1 (.make_int 35) rfl rfl rfl⟩

/-- C10 (amended). `Value::compare` throws `TypeError` when the tags of the
two values differ and returns otherwise.  Consequently, on a table that
satisfies the table invariant and holds at least one row, with a condition on
an existing column whose literal tag differs from that column's declared
type: `select_where` with a valid projection (`*`, or names that are all
columns), `delete_where`, and `update_where` whose assignments all name
existing columns each throw `TypeError`, and the failing `delete_where` and
`update_where` leave the table unchanged. -/
theorem comparison_type_error :
    (∀ v o : Value,
      (v.type ≠ o.type → v.compare o = .error (.TypeError "Type mismatch in comparison")) ∧
      (v.type = o.type → ∃ cmp, v.compare o = .ok cmp)) ∧
    (∀ (t : Table) (c : Condition) (idx : Nat) (col : Column),
      t.SchemaOK → t.Inv → t.rows ≠ [] →
      t.col_index c.column = .ok idx → t.columns.get? idx = some col →
      c.literal.type ≠ col.type →
      (∀ out_cols star,
        (star = true ∨ ∀ name ∈ out_cols, ∃ c ∈ t.columns, c.name = name) →
        t.select_where out_cols star (some c)
          = .error (.TypeError "Type mismatch in comparison")) ∧
      t.delete_where (some c) = (t, .error (.TypeError "Type mismatch in comparison")) ∧
      (∀ sets : List (String × Value), (∀ p ∈ sets, ∃ c ∈ t.columns, c.name = p.1) →
        t.update_where sets (some c)
          = (t, .error (.TypeError "Type mismatch in comparison")))) := by
  refine ⟨fun v o => ⟨compare_other_tag v o, compare_same_tag v o⟩, ?_⟩
  intro t c idx col hwf hinv hrows hidx hcol hty
  have htyped := (inv_iff t).mp hinv
  obtain ⟨r, rest, hrr⟩ := List.exists_cons_of_ne_nil hrows
  have hr : t.row_matches r (some c) = .error (.TypeError "Type mismatch in comparison") :=
    matches_type_error t c idx col hidx hcol hty r (htyped r (by simp [hrr]))
  refine ⟨?_, ?_, ?_⟩
  · intro out_cols star hproj
    obtain ⟨proj, hs, hp, hh⟩ := projection_total t hwf out_cols star hproj
    simp only [Table.select_where, hp, hh, hrr, Table.select_rows, hr]
  · exact delete_where_first_error t (some c) r rest _ hrr hr
  · intro sets hsets
    obtain ⟨idxs, hidxs⟩ := set_indices_exists t sets
      (fun p hp => col_index_exists t hwf p.1 (hsets p hp))
    simp only [Table.update_where, hidxs, hrr, Table.update_rows, hr]
    rw [← hrr]

/-- C10 (amended), on an instance: `people` holding (alice,30), (bob,25),
(carol,35) and the condition `age > "x"`. -/
theorem comparison_type_error_witness :
    people3.SchemaOK ∧ people3.Inv ∧ people3.rows ≠ [] ∧
    people3.col_index "age" = .ok 1 ∧ people3.columns.get? 1 = some ⟨"age", .INT⟩ ∧
    people3.select_where ["name"] false (some ⟨"age", .GT, .make_str "x"⟩)
      = .error (.TypeError "Type mismatch in comparison") ∧
    people3.delete_where (some ⟨"age", .GT, .make_str "x"⟩)
      = (people3, .error (.TypeError "Type mismatch in comparison")) ∧
    people3.update_where [("age", .make_int 1)] (some ⟨"age", .GT, .make_str "x"⟩)
      = (people3, .error (.TypeError "Type mismatch in comparison")) :=
  have hwf : people3.SchemaOK := rfl
  have hinv : people3.Inv := (inv_iff people3).mpr (by
    intro r hr
    simp only [people3, List.mem_cons, List.mem_singleton, List.mem_nil_iff, or_false] at hr
    rcases hr with rfl | rfl | rfl <;> rfl)
  have hrows : people3.rows ≠ [] := by simp [people3]
  have h := comparison_type_error.2 people3 ⟨"age", .GT, .make_str "x"⟩ 1
    ⟨"age", .INT⟩ hwf hinv hrows rfl rfl (by decide)
  ⟨hwf, hinv, hrows, rfl, rfl,
    h.1 ["name"] false (Or.inr (by
      intro name hn
      simp only [List.mem_singleton] at hn
      subst hn
      exact ⟨⟨"name", .STR⟩, by simp [people3, people, Table.new, people_columns], rfl⟩)),
    h.2.1,
    h.2.2 [("age", .make_int 1)] (by
      intro p hp
      simp only [List.mem_singleton] at hp
      subst hp
      exact ⟨⟨"age", .INT⟩, by simp [people3, people, Table.new, people_columns], rfl⟩)⟩

/-- C10 as stated fails for calls that are invalid for another reason, which
is found first: with the condition `age > "x"` on `people`, a `select_where`
of an unknown column and an `update_where` assigning to an unknown column
throw `DBError`, not `TypeError`. -/
theorem comparison_type_error_counterexample :
    people3.col_index "age" = .ok 1 ∧ people3.columns.get? 1 = some ⟨"age", .INT⟩ ∧
    (Value.make_str "x").type ≠ DbType.INT ∧ people3.rows ≠ [] ∧
    people3.select_where ["nope"] false (some ⟨"age", .GT, .make_str "x"⟩)
      = .error (.DBError "Unknown column: nope") ∧
    people3.update_where [("nope", .make_int 1)] (some ⟨"age", .GT, .make_str "x"⟩)
      = (people3, .error (.DBError "Unknown column: nope")) :=
  ⟨rfl, rfl, by decide, by simp [people3], rfl, rfl⟩

/-- C11. `Database::table(n)` throws `DBError` exactly when no table named `n`
has been created: after any sequence of statements executed from the empty
database, the lookup throws if and only if no CreateTable statement for `n`
was among them, and returns a table otherwise.  Executing an Insert, Delete,
Update or Select statement naming a table whose lookup throws fails with
that `DBError` and leaves the database unchanged. -/
theorem unknown_table :
    (∀ (stmts : List Statement) (n : String),
      ((run_statements Database.empty stmts).table n
          = .error (.DBError ("Unknown table: " ++ n)) ↔
        ∀ cols, Statement.Create ⟨n, cols⟩ ∉ stmts) ∧
      ((∃ cols, Statement.Create ⟨n, cols⟩ ∈ stmts) →
        ∃ t, (run_statements Database.empty stmts).table n = .ok t)) ∧
    (∀ (d : Database) (n : String),
      d.table n = .error (.DBError ("Unknown table: " ++ n)) →
      (∀ cols vals, execute d (.Insert ⟨n, cols, vals⟩)
        = (d, .error (.DBError ("Unknown table: " ++ n)))) ∧
      (∀ w, execute d (.Delete ⟨n, w⟩) = (d, .error (.DBError ("Unknown table: " ++ n)))) ∧
      (∀ sets w, execute d (.Update ⟨n, sets, w⟩)
        = (d, .error (.DBError ("Unknown table: " ++ n)))) ∧
      (∀ cols star w, execute d (.Select ⟨n, cols, star, w⟩)
        = (d, .error (.DBError ("Unknown table: " ++ n))))) := by
  constructor
  · intro stmts n
    have key := run_statements_find_none Database.empty stmts n
    have hempty : Database.empty.tables.find n = none := rfl
    constructor
    · rw [table_isOk_iff, key]
      simp [hempty]
    · rintro ⟨cols, hmem⟩
      rcases table_cases (run_statements Database.empty stmts) n with h | h
      · rw [table_isOk_iff, key] at h
        exact absurd hmem (h.2 cols)
      · exact h
  · intro d n h
    refine ⟨?_, ?_, ?_, ?_⟩
    · intro cols vals; simp only [execute, h]
    · intro w; simp only [execute, h]
    · intro sets w; simp only [execute, h]
    · intro cols star w; simp only [execute, h]

/-- C11, on the instances of the tests: the empty database has no table
`nonexistent`, and after `people` was created a select from `nonexistent_table`
throws and changes nothing. -/
theorem unknown_table_witness :
    Database.empty.table "nonexistent" = .error (.DBError "Unknown table: nonexistent") ∧
    (∃ t, (run_statements Database.empty
      [.Create ⟨"people", people_columns⟩, .Delete ⟨"people", none⟩]).table "people" = .ok t) ∧
    execute people_db (.Select ⟨"nonexistent_table", [], true, none⟩)
      = (people_db, .error (.DBError "Unknown table: nonexistent_table")) :=
  ⟨((unknown_table.1 [] "nonexistent").1).mpr (fun _ h => by cases h),
    (unknown_table.1 [.Create ⟨"people", people_columns⟩, .Delete ⟨"people", none⟩]
      "people").2 ⟨people_columns, List.mem_cons_self _ _⟩,
    (unknown_table.2 people_db "nonexistent_table" rfl).2.2.2 [] true none⟩

/-- C12. For every table, with or without rows, and every condition,
`select_where` with `star = false` and a column list holding a name that is
not the name of a column throws `DBError` (for the first such name of the
list that does not resolve); with `star = true` the column list is ignored:
the projection is every column and the call does what it does with any
other list. -/
theorem select_unknown_column (t : Table) (hwf : t.SchemaOK) (out_cols : List String)
    (cond : Option Condition) :
    ((∃ name ∈ out_cols, ∀ c ∈ t.columns, c.name ≠ name) →
      ∃ name ∈ out_cols,
        t.select_where out_cols false cond = .error (.DBError ("Unknown column: " ++ name))) ∧
    t.build_projection out_cols true = .ok (List.range t.columns.length) ∧
    (∀ other : List String,
      t.select_where out_cols true cond = t.select_where other true cond) := by
  refine ⟨?_, rfl, fun _ => rfl⟩
  rintro ⟨name, hn, hname⟩
  obtain ⟨bad, hbad, hres⟩ := col_indices_unknown t out_cols
    ⟨name, hn, _, col_index_unknown t hwf name hname⟩
  refine ⟨bad, hbad, ?_⟩
  simp only [Table.select_where, Table.build_projection, Bool.false_eq_true, if_false, hres]

/-- C12, on the instance of the tests and on a table with no rows:
`SELECT invalid_column` throws, `SELECT *` does not. -/
theorem select_unknown_column_witness :
    people.rows = [] ∧
    people.select_where ["name", "invalid_column"] false (some ⟨"nope", .EQ, .make_int 1⟩)
      = .error (.DBError "Unknown column: invalid_column") ∧
    (∃ name ∈ ["name", "invalid_column"],
      people.select_where ["name", "invalid_column"] false (some ⟨"nope", .EQ, .make_int 1⟩)
        = .error (.DBError ("Unknown column: " ++ name))) ∧
    people3.select_where ["invalid_column"] true none
      = .ok ⟨["name", "age"], [["alice", "30"], ["bob", "25"], ["carol", "35"]]⟩ :=
  ⟨rfl, rfl,
    (select_unknown_column people rfl ["name", "invalid_column"]
      (some ⟨"nope", .EQ, .make_int 1⟩)).1
      ⟨"invalid_column", by simp, by
        intro c hc
        simp only [people, Table.new, people_columns, List.mem_cons, List.mem_singleton,
          List.mem_nil_iff, or_false] at hc
        rcases hc with rfl | rfl <;> decide⟩,
    rfl⟩

/-- C13. When some assignment names a column that is not in the table,
`update_where` throws `DBError` and leaves the table, so every row of it,
unchanged, whatever the other assignments, the condition and the rows. -/
theorem update_unknown_column (t : Table) (hwf : t.SchemaOK) (sets : List (String × Value))
    (cond : Option Condition)
    (hbad : ∃ p ∈ sets, ∀ c ∈ t.columns, c.name ≠ p.1) :
    ∃ p ∈ sets, t.update_where sets cond = (t, .error (.DBError ("Unknown column: " ++ p.1))) := by
  obtain ⟨p, hp, hname⟩ := hbad
  obtain ⟨q, hq, hres⟩ := set_indices_unknown t sets
    ⟨p, hp, _, col_index_unknown t hwf p.1 hname⟩
  exact ⟨q, hq, by simp only [Table.update_where, hres]⟩

/-- C13, on an instance: on `people` with three rows, a well-typed assignment
to `age` followed by one to the unknown `salary`, with a condition every row
satisfies, changes nothing. -/
theorem update_unknown_column_witness :
    people3.update_where [("age", .make_int 1), ("salary", .make_int 2)] none
      = (people3, .error (.DBError "Unknown column: salary")) ∧
    ∃ p ∈ [("age", Value.make_int 1), ("salary", Value.make_int 2)],
      people3.update_where [("age", .make_int 1), ("salary", .make_int 2)] none
        = (people3, .error (.DBError ("Unknown column: " ++ p.1))) :=
  ⟨rfl,
    update_unknown_column people3 rfl [("age", .make_int 1), ("salary", .make_int 2)] none
      ⟨("salary", .make_int 2), by simp, by
        intro c hc
        simp only [people3, people, Table.new, people_columns, List.mem_cons,
          List.mem_singleton, List.mem_nil_iff, or_false] at hc
        rcases hc with rfl | rfl <;> decide⟩⟩

/-- C14 (amended). For an Insert statement on an existing table whose named
columns all exist: if the tuples in front of some tuple are valid and that
tuple is not, `execute` throws, `DBError` when the tuple's length differs
from the number of named columns and `TypeError` otherwise, and the table's
rows are the old rows followed by the rows of the tuples in front, in order:
no row for the invalid tuple or a later one is added.  If every tuple is
valid, `execute` returns and the table's rows are the old rows followed by the
rows of all the tuples, in order.  A tuple is valid when it has one literal
per named column and the literal at the last position naming each column
carries that column's type; when no column is named twice that is every
literal carrying the type of its column. -/
theorem insert_stops_at_first_invalid (d : Database) (s : StmtInsert) (t : Table)
    (ht : d.table s.table = .ok t) (hwf : t.SchemaOK)
    (hcols : ∀ name ∈ s.columns, ∃ c ∈ t.columns, c.name = name) :
    (∀ (good : List (List Value)) (bad : List Value) (rest : List (List Value)),
      s.values = good ++ bad :: rest →
      (∀ tup ∈ good, t.tuple_valid s.columns tup) →
      ¬ t.tuple_valid s.columns bad →
      (∃ e, execute d (.Insert s) =
          ({ tables := d.tables.assign s.table
              { t with rows := t.rows ++ good.map (t.row_of_tuple s.columns) } }, .error e) ∧
        (bad.length ≠ s.columns.length →
          e = .DBError "INSERT values tuple length mismatch") ∧
        (bad.length = s.columns.length → ∃ msg, e = .TypeError msg)) ∧
      (execute d (.Insert s)).1.table s.table =
        .ok { t with rows := t.rows ++ good.map (t.row_of_tuple s.columns) }) ∧
    ((∀ tup ∈ s.values, t.tuple_valid s.columns tup) →
      execute d (.Insert s) =
        ({ tables := d.tables.assign s.table
            { t with rows := t.rows ++ s.values.map (t.row_of_tuple s.columns) } }, .ok none) ∧
      (execute d (.Insert s)).1.table s.table =
        .ok { t with rows := t.rows ++ s.values.map (t.row_of_tuple s.columns) }) ∧
    (s.columns.Nodup → ∀ tup, (t.tuple_valid s.columns tup ↔
      (tup.length = s.columns.length ∧ ∀ p ∈ s.columns.zip tup, ∀ idx c,
        t.col_index p.1 = .ok idx → t.columns.get? idx = some c → p.2.type = c.type))) := by
  obtain ⟨idxs, hidxs⟩ := col_indices_exists t s.columns
    (fun name hn => col_index_exists t hwf name (hcols name hn))
  have hF := col_indices_forall t s.columns idxs hidxs
  have ht' : ({ t with rows := t.rows } : Table) = t := rfl
  refine ⟨?_, ?_, fun hnd tup => tuple_valid_nodup t hwf s.columns hnd tup⟩
  · intro good bad rest hvals hgood hbad
    obtain ⟨e, he, hd, hty⟩ :=
      insert_tuples_stop s t hwf idxs hF good bad rest hgood hbad t.rows
    rw [ht'] at he
    have hexec : execute d (.Insert s) =
        ({ tables := d.tables.assign s.table
            { t with rows := t.rows ++ good.map (t.row_of_tuple s.columns) } }, .error e) := by
      simp only [execute, ht, hidxs, hvals, he]
    refine ⟨⟨e, hexec, hd, hty⟩, ?_⟩
    rw [hexec]
    exact (table_assign d s.table t _ ht).1
  · intro hall
    have he := insert_tuples_valid s t hwf idxs hF s.values hall t.rows
    rw [ht'] at he
    have hexec : execute d (.Insert s) =
        ({ tables := d.tables.assign s.table
            { t with rows := t.rows ++ s.values.map (t.row_of_tuple s.columns) } },
          .ok none) := by
      simp only [execute, ht, hidxs, he]
    refine ⟨hexec, ?_⟩
    rw [hexec]
    exact (table_assign d s.table t _ ht).1

/-- C14 (amended), on instances, into `people(name str, age int)` for
(name, age): of the tuples ("alice", 30), (25, "bob"), ("carol", 35) the
second is ill-typed, so only alice's row is added and `TypeError` is thrown;
of the tuples ("alice", 30), ("bob") the second is too short, so only alice's
row is added and `DBError` is thrown; the tuples ("alice", 30), ("bob", 25) are
both valid, so the call returns and both rows are added. -/
theorem insert_stops_at_first_invalid_witness :
    (execute people_db (.Insert ⟨"people", ["name", "age"],
        [[.make_str "alice", .make_int 30], [.make_int 25, .make_str "bob"],
          [.make_str "carol", .make_int 35]]⟩) =
      (⟨⟨[("people", { people with rows := [⟨[.make_str "alice", .make_int 30]⟩] })]⟩⟩,
        .error (.TypeError "Type mismatch on insert into column name")) ∧
      ∃ e, execute people_db (.Insert ⟨"people", ["name", "age"],
          [[.make_str "alice", .make_int 30], [.make_int 25, .make_str "bob"],
            [.make_str "carol", .make_int 35]]⟩) =
        ({ tables := people_db.tables.assign "people"
            { people with rows := (people.rows ++ List.map (people.row_of_tuple ["name", "age"])
                [[Value.make_str "alice", Value.make_int 30]]) } }, .error e) ∧
        (([Value.make_int 25, Value.make_str "bob"] : List Value).length
            ≠ ["name", "age"].length →
          e = .DBError "INSERT values tuple length mismatch") ∧
        (([Value.make_int 25, Value.make_str "bob"] : List Value).length
            = ["name", "age"].length → ∃ msg, e = .TypeError msg)) ∧
    (execute people_db (.Insert ⟨"people", ["name", "age"],
        [[.make_str "alice", .make_int 30], [.make_str "bob"]]⟩) =
      (⟨⟨[("people", { people with rows := [⟨[.make_str "alice", .make_int 30]⟩] })]⟩⟩,
        .error (.DBError "INSERT values tuple length mismatch")) ∧
      (execute people_db (.Insert ⟨"people", ["name", "age"],
          [[.make_str "alice", .make_int 30], [.make_str "bob"]]⟩)).1.table "people" =
        .ok { people with rows := (people.rows ++ List.map (people.row_of_tuple ["name", "age"])
                [[Value.make_str "alice", Value.make_int 30]]) }) ∧
    (execute people_db (.Insert ⟨"people", ["name", "age"],
        [[.make_str "alice", .make_int 30], [.make_str "bob", .make_int 25]]⟩) =
      (⟨⟨[("people", { people with rows := [⟨[.make_str "alice", .make_int 30]⟩,
          ⟨[.make_str "bob", .make_int 25]⟩] })]⟩⟩, .ok none) ∧
      execute people_db (.Insert ⟨"people", ["name", "age"],
          [[.make_str "alice", .make_int 30], [.make_str "bob", .make_int 25]]⟩) =
        ({ tables := people_db.tables.assign "people"
            { people with rows := (people.rows ++ List.map (people.row_of_tuple ["name", "age"])
                [[Value.make_str "alice", Value.make_int 30],
                  [Value.make_str "bob", Value.make_int 25]]) } }, .ok none)) :=
  have hgood : ∀ tup ∈ [[Value.make_str "alice", Value.make_int 30]],
      people.tuple_valid ["name", "age"] tup := by
    intro tup htup
    simp only [List.mem_singleton] at htup
    subst htup
    exact people_tuple_valid "alice" 30
  have hboth : ∀ tup ∈ [[Value.make_str "alice", Value.make_int 30],
      [Value.make_str "bob", Value.make_int 25]], people.tuple_valid ["name", "age"] tup := by
    intro tup htup
    simp only [List.mem_cons, List.mem_singleton, List.mem_nil_iff, or_false] at htup
    rcases htup with rfl | rfl
    · exact people_tuple_valid "alice" 30
    · exact people_tuple_valid "bob" 25
  ⟨⟨rfl,
    ((insert_stops_at_first_invalid people_db
      ⟨"people", ["name", "age"],
        [[.make_str "alice", .make_int 30], [.make_int 25, .make_str "bob"],
          [.make_str "carol", .make_int 35]]⟩ people rfl rfl people_names_exist).1
      [[.make_str "alice", .make_int 30]] [.make_int 25, .make_str "bob"]
      [[.make_str "carol", .make_int 35]] rfl hgood
      (by rintro ⟨_, hty⟩
          have := hty 0 (Value.make_int 25) ⟨"name", .STR⟩ rfl rfl
          exact absurd this (by decide))).1⟩,
   ⟨rfl,
    ((insert_stops_at_first_invalid people_db
      ⟨"people", ["name", "age"],
        [[.make_str "alice", .make_int 30], [.make_str "bob"]]⟩ people rfl rfl
      people_names_exist).1
      [[.make_str "alice", .make_int 30]] [.make_str "bob"] [] rfl hgood
      (by rintro ⟨hlen, _⟩
          exact absurd hlen (by decide))).2⟩,
   ⟨rfl,
    ((insert_stops_at_first_invalid people_db
      ⟨"people", ["name", "age"],
        [[.make_str "alice", .make_int 30], [.make_str "bob", .make_int 25]]⟩ people rfl rfl
      people_names_exist).2.1 hboth).1⟩⟩

/-- C14 as stated fails when the column list names a column twice: with
`t(a int)` and `INSERT INTO t (a, a) VALUES ("x", 2)` the table and the named
columns exist and the first tuple holds a literal of the wrong tag for its
column `a`, yet `execute` returns and the row (2) is added. -/
theorem insert_stops_counterexample :
    single_a_db.table "t" = .ok single_a ∧
    single_a.col_index "a" = .ok 0 ∧ single_a.columns.get? 0 = some ⟨"a", .INT⟩ ∧
    ([Value.make_str "x", Value.make_int 2] : List Value).length = ["a", "a"].length ∧
    (["a", "a"].zip [Value.make_str "x", Value.make_int 2]).get? 0
      = some ("a", Value.make_str "x") ∧
    (Value.make_str "x").type ≠ DbType.INT ∧
    execute single_a_db (.Insert ⟨"t", ["a", "a"], [[.make_str "x", .make_int 2]]⟩) =
      (⟨⟨[("t", { single_a with rows := [⟨[.make_int 2]⟩] })]⟩⟩, .ok none) :=
  ⟨rfl, rfl, rfl, rfl, rfl, by decide, rfl⟩

/-- C19, as the code has it: when the next character behind the white space is
a `-` and no digit follows it, `next` returns an IDENT token with the EMPTY
text, not the text `-`, and the cursor stops in front of the `-`; so the next
call returns the same token again, and so does every call after it. -/
theorem minus_without_digit (tz : Tokenizer) (ws cs : List Char)
    (hrest : tz.rest = ws ++ '-' :: cs) (hws : ws.all isspace = true)
    (hnd : starts_with isdigit cs = false) :
    tz.next = (⟨.IDENT, ""⟩, { tz with i := tz.i + ws.length }) ∧
    tz.next.2.rest = '-' :: cs ∧
    tz.next.2.next = (⟨.IDENT, ""⟩, tz.next.2) := by
  have h1 : tz.next = (⟨.IDENT, ""⟩, { tz with i := tz.i + ws.length }) := by
    rw [next_of_rest tz ws ('-' :: cs) hrest hws rfl, lex_token_minus cs hnd]
    rfl
  have h2 : tz.next.2.rest = '-' :: cs := by
    rw [h1]
    simp only [Tokenizer.rest] at hrest ⊢
    rw [← List.drop_drop, hrest, List.drop_left]
  refine ⟨h1, h2, ?_⟩
  rw [next_of_rest tz.next.2 [] ('-' :: cs) h2 rfl rfl, lex_token_minus cs hnd]
  rfl

/-- Witness of C19 on the input `-`: the token is IDENT with the empty text and
the cursor stays at 0. -/
theorem minus_without_digit_witness :
    (Tokenizer.init "-").next = (⟨.IDENT, ""⟩, ⟨"-", 0⟩) ∧
    (Tokenizer.init "-").next.2.rest = ['-'] ∧
    (Tokenizer.init "-").next.2.next = (⟨.IDENT, ""⟩, (Tokenizer.init "-").next.2) :=
  minus_without_digit (Tokenizer.init "-") [] [] rfl rfl rfl

/-- C20: number versus identifier.  When the unread characters are white space,
an optional `-`, a maximal non-empty run of digits and then nothing or a
character that is neither a letter nor `_`, `next` returns the NUMBER token
whose text is the sign and the digits, and the cursor is just behind them.  When
they are white space, a non-empty run of digits, a letter or `_`, and the rest
of the maximal run of letters, digits, `_` and `.`, `next` returns the one IDENT
token whose text is that run from the first digit on.  And
`hello world 123 -456` lexes as IDENT `hello`, IDENT `world`, NUMBER `123`,
NUMBER `-456`, END. -/
theorem number_versus_identifier :
    (∀ (tz : Tokenizer) (ws sign ds rest : List Char),
      tz.rest = ws ++ (sign ++ ds ++ rest) → ws.all isspace = true →
      (sign = [] ∨ sign = ['-']) → ds ≠ [] → ds.all isdigit = true →
      starts_with isdigit rest = false → starts_with isalpha_us rest = false →
      tz.next = (⟨.NUMBER, String.mk (sign ++ ds)⟩,
        { tz with i := tz.i + (ws.length + (sign.length + ds.length)) })) ∧
    (∀ (tz : Tokenizer) (ws ds tail rest : List Char) (e : Char),
      tz.rest = ws ++ (ds ++ e :: tail ++ rest) → ws.all isspace = true →
      ds ≠ [] → ds.all isdigit = true → isalpha_us e = true →
      tail.all ident_char = true → starts_with ident_char rest = false →
      tz.next = (⟨.IDENT, String.mk (ds ++ e :: tail)⟩,
        { tz with i := tz.i + (ws.length + (ds.length + (1 + tail.length))) })) ∧
    ((Tokenizer.init "hello world 123 -456").next.1 = ⟨.IDENT, "hello"⟩ ∧
      (Tokenizer.init "hello world 123 -456").next.2.next.1 = ⟨.IDENT, "world"⟩ ∧
      (Tokenizer.init "hello world 123 -456").next.2.next.2.next.1 = ⟨.NUMBER, "123"⟩ ∧
      (Tokenizer.init "hello world 123 -456").next.2.next.2.next.2.next.1
        = ⟨.NUMBER, "-456"⟩ ∧
      (Tokenizer.init "hello world 123 -456").next.2.next.2.next.2.next.2.next.1
        = ⟨.END, ""⟩) := by
  refine ⟨?_, ?_, by decide⟩
  · intro tz ws sign ds rest hrest hws hsign hne hds hmax hend
    obtain ⟨d, ds', rfl⟩ := List.exists_cons_of_ne_nil hne
    have hd : isdigit d = true := by
      simp only [List.all_cons, Bool.and_eq_true] at hds
      exact hds.1
    have hstart : starts_with isspace (sign ++ d :: ds' ++ rest) = false := by
      rcases hsign with rfl | rfl
      · simp only [List.nil_append, List.cons_append, starts_with]
        exact not_space_of_word_start d (by simp [hd])
      · rfl
    rw [next_of_rest tz ws _ hrest hws hstart,
      lex_token_number sign (d :: ds') rest hsign hne hds hmax hend]
  · intro tz ws ds tail rest e hrest hws hne hds he htail hstop
    obtain ⟨d, ds', rfl⟩ := List.exists_cons_of_ne_nil hne
    have hd : isdigit d = true := by
      simp only [List.all_cons, Bool.and_eq_true] at hds
      exact hds.1
    have hstart : starts_with isspace (d :: ds' ++ e :: tail ++ rest) = false := by
      simp only [List.cons_append, starts_with]
      exact not_space_of_word_start d (by simp [hd])
    have hrl : run_length isdigit (d :: ds' ++ e :: tail) = (d :: ds').length := by
      apply run_length_append isdigit _ _ hds
      simp only [starts_with]
      have := (isalpha_us_iff e).1 he
      cases h : isdigit e with
      | false => rfl
      | true =>
        have := (isdigit_iff e).1 h
        omega
    have hid : is_ident (d :: ds' ++ e :: tail) = true := by
      simp only [is_ident, Bool.and_eq_true]
      constructor
      · simp only [List.all_append, Bool.and_eq_true, List.all_cons]
        refine ⟨?_, ?_, htail⟩
        · have hall := all_ident_of_digits (d :: ds') hds
          simpa using hall
        · have := (isalpha_us_iff e).1 he
          apply (ident_char_iff e).2
          omega
      · rw [hrl, List.drop_left]
        exact he
    rw [next_of_rest tz ws _ hrest hws hstart, lex_token_ident _ rest hid hstop]
    simp
    omega

/-- Witness of C20 on `  -42)` (a NUMBER) and on `123abc rest` (an IDENT). -/
theorem number_versus_identifier_witness :
    (Tokenizer.init "  -42)").next = (⟨.NUMBER, "-42"⟩, ⟨"  -42)", 5⟩) ∧
    (Tokenizer.init "123abc rest").next = (⟨.IDENT, "123abc"⟩, ⟨"123abc rest", 6⟩) :=
  ⟨number_versus_identifier.1 (Tokenizer.init "  -42)") [' ', ' '] ['-'] ['4', '2'] [')']
      rfl rfl (Or.inr rfl) (by decide) rfl rfl rfl,
   number_versus_identifier.2.1 (Tokenizer.init "123abc rest") [] ['1', '2', '3'] ['b', 'c']
      [' ', 'r', 'e', 's', 't'] 'a' rfl rfl (by decide) rfl rfl rfl rfl⟩

/-- C17: keywords are case-sensitive.  For every text whose first token is not
an IDENT token with the text CREATE, INSERT, DELETE, UPDATE or SELECT,
`parse_statement` returns (no loop is entered) and throws a `ParseError`. -/
theorem keywords_case_sensitive (s : String)
    (h : ¬ ((Tokenizer.init s).next.1.type = .IDENT ∧
        (Tokenizer.init s).next.1.text ∈ ["CREATE", "INSERT", "DELETE", "UPDATE", "SELECT"])) :
    ∃ msg, parse_statement s = some (.error (.ParseError msg)) := by
  by_cases hty : (Tokenizer.init s).next.1.type = .IDENT
  · have hk : (Tokenizer.init s).next.1.text ∉
        ["CREATE", "INSERT", "DELETE", "UPDATE", "SELECT"] := fun hm => h ⟨hty, hm⟩
    simp only [List.mem_cons, List.mem_singleton, List.not_mem_nil, or_false, not_or] at hk
    refine ⟨"Unknown statement type: " ++ (Tokenizer.init s).next.1.text ++
      " (keywords must be uppercase)", ?_⟩
    simp [parse_statement, parse_statement_run, hty, hk.1, hk.2.1, hk.2.2.1, hk.2.2.2.1,
      hk.2.2.2.2]
  · refine ⟨"Expected statement keyword", ?_⟩
    simp [parse_statement, parse_statement_run, hty]

/-- Witness of C17: the lower-case `create` and `select`, and the empty text. -/
theorem keywords_case_sensitive_witness :
    (∃ msg, parse_statement "create TABLE test (id int)" = some (.error (.ParseError msg))) ∧
    (∃ msg, parse_statement "select * FROM people" = some (.error (.ParseError msg))) ∧
    (∃ msg, parse_statement "" = some (.error (.ParseError msg))) :=
  ⟨keywords_case_sensitive "create TABLE test (id int)" (by decide),
   keywords_case_sensitive "select * FROM people" (by decide),
   keywords_case_sensitive "" (by decide)⟩

/-- C18: comparison operators in WHERE.  For identifiers `t` and `c`, each of
the spellings `=`, `!=`, `<`, `>`, `<=`, `>=` with its operator EQ, NEQ, LT, GT,
LE, GE, and a literal `L` that is an integer (an optional `-` and digits, in the
range of `long long`) or a string between double quotes, `parse_statement` on
`SELECT * FROM t WHERE c OP L` returns the Select with the star, the table `t`
and the condition `(c, op, L)`.  When a `!` with no `=` behind it stands for the
operator the statement is rejected with a `ParseError`, the `!` being lexed as
a SYMBOL token; and `<` or `>` with `=` right behind is lexed as the one token
LE or GE. -/
theorem where_comparison_operators :
    (∀ (t c sp : String) (o : Op), is_ident t.data = true → is_ident c.data = true →
      (sp, o) ∈ [("=", Op.EQ), ("!=", Op.NEQ), ("<", Op.LT), (">", Op.GT), ("<=", Op.LE),
        (">=", Op.GE)] →
      (∀ (sign ds : List Char), (sign = [] ∨ sign = ['-']) → ds ≠ [] →
        ds.all isdigit = true → in_range (literal_value sign ds) →
        parse_statement (where_query t c sp (String.mk (sign ++ ds))) =
          some (.ok (.Select ⟨t, [], true,
            some ⟨c, o, Value.make_int (literal_value sign ds)⟩⟩))) ∧
      (∀ str : String, '"' ∉ str.data →
        parse_statement (where_query t c sp (String.mk ('"' :: (str.data ++ ['"'])))) =
          some (.ok (.Select ⟨t, [], true, some ⟨c, o, Value.make_str str⟩⟩)))) ∧
    (∀ (t c tail : String), is_ident t.data = true → is_ident c.data = true →
      starts_with (fun d => d = '=') tail.data = false →
      parse_statement ("SELECT * FROM " ++ t ++ " WHERE " ++ c ++ " !" ++ tail) =
        some (.error (.ParseError "Expected comparison operator (=, !=, <, >, <=, >=)"))) ∧
    (∀ (tz : Tokenizer) (ws tail : List Char), ws.all isspace = true →
      (tz.rest = ws ++ '!' :: tail → starts_with (fun d => d = '=') tail = false →
        tz.next = (⟨.SYMBOL, "!"⟩, { tz with i := tz.i + (ws.length + 1) })) ∧
      (tz.rest = ws ++ '<' :: '=' :: tail →
        tz.next = (⟨.LE, "<="⟩, { tz with i := tz.i + (ws.length + 2) })) ∧
      (tz.rest = ws ++ '>' :: '=' :: tail →
        tz.next = (⟨.GE, ">="⟩, { tz with i := tz.i + (ws.length + 2) }))) := by
  refine ⟨?_, ?_, ?_⟩
  · intro t c sp o ht hc hsp
    have hsp' : sp = o.text := by
      simp only [List.mem_cons, Prod.mk.injEq, List.mem_singleton, List.not_mem_nil,
        or_false] at hsp
      rcases hsp with ⟨rfl, rfl⟩ | ⟨rfl, rfl⟩ | ⟨rfl, rfl⟩ | ⟨rfl, rfl⟩ | ⟨rfl, rfl⟩ |
        ⟨rfl, rfl⟩ <;> rfl
    subst hsp'
    constructor
    · intro sign ds hsign hne hds hr
      exact parse_where_query t c ht hc o ⟨.NUMBER, String.mk (sign ++ ds)⟩ _
        (number_lexable sign ds hsign hne hds) (parse_literal_number sign ds hsign hne hds hr)
    · intro str hq
      have hwf : (Pat.lit (Value.make_str str)).wf := Or.inr ⟨rfl, hq⟩
      have hcan := canonical_lexable (Pat.lit (Value.make_str str)) hwf
      exact parse_where_query t c ht hc o ⟨.STRING, str⟩ _ hcan.1 hcan.2
  · intro t c tail ht hc htail
    obtain ⟨tzf, hreads, hrest⟩ := reads_chain _ _ (select_where_head t c ht hc)
      (Tokenizer.init ("SELECT * FROM " ++ t ++ " WHERE " ++ c ++ " !" ++ tail)) []
      (' ' :: '!' :: tail.data) (by simp) rfl (Or.inr ⟨_, rfl⟩) (by
        have r1 : ∀ x : String, Token.render ⟨.IDENT, x⟩ = x.data := fun _ => rfl
        have r2 : Token.render ⟨.STAR, "*"⟩ = ['*'] := rfl
        simp [Tokenizer.init, Tokenizer.rest, spaced, r1, r2])
    have hn := next_bang tzf [' '] tail.data hrest rfl htail
    exact where_op_rejected _ t c tzf hreads (by rw [hn])
  · intro tz ws tail hws
    exact ⟨fun h1 h2 => next_bang tz ws tail h1 hws h2, (next_le_ge tz ws tail hws).1,
      (next_le_ge tz ws tail hws).2⟩

/-- Witness of C18: `SELECT * FROM people WHERE age >= 30`, a string literal, a
stray `!`, and the lexing of `<=`. -/
theorem where_comparison_operators_witness :
    parse_statement "SELECT * FROM people WHERE age >= 30" =
      some (.ok (.Select ⟨"people", [], true, some ⟨"age", .GE, Value.make_int 30⟩⟩)) ∧
    parse_statement "SELECT * FROM people WHERE name != \x22Bob\x22" =
      some (.ok (.Select ⟨"people", [], true, some ⟨"name", .NEQ, Value.make_str "Bob"⟩⟩)) ∧
    parse_statement "SELECT * FROM people WHERE age ! 30" =
      some (.error (.ParseError "Expected comparison operator (=, !=, <, >, <=, >=)")) ∧
    (Tokenizer.init "<=5").next = (⟨.LE, "<="⟩, ⟨"<=5", 2⟩) :=
  ⟨(where_comparison_operators.1 "people" "age" ">=" .GE (by decide) (by decide)
      (by simp)).1 [] ['3', '0'] (Or.inl rfl) (by simp) rfl ⟨by decide, by decide⟩,
   (where_comparison_operators.1 "people" "name" "!=" .NEQ (by decide) (by decide)
      (by simp)).2 "Bob" (by decide),
   where_comparison_operators.2.1 "people" "age" " 30" (by decide) (by decide) rfl,
   (where_comparison_operators.2.2 (Tokenizer.init "<=5") [] ['5'] rfl).2.1 rfl⟩

/-- C15: parser round trip.  With `render` the serializer that prints a
statement in the order of the grammar (keywords, names, `int` and `str`,
operators, base-10 integers, double-quoted strings, one blank between two
tokens): for every text on which `parse_statement` returns a statement `S`,
`parse_statement` on `render S` returns `S` again. -/
theorem parser_round_trip (text : String) (S : Statement)
    (h : parse_statement text = some (.ok S)) :
    parse_statement (render S) = some (.ok S) := by
  obtain ⟨tzf, hrun⟩ := parse_statement_inv text S h
  obtain ⟨hshape, hreads, heof⟩ := parse_statement_run_sound text S tzf hrun
  exact parse_render S hshape (reads_wf _ _ _ hreads heof)

/-- Witness of C15: a SELECT written without blanks around its punctuation and
an INSERT with `007` for 7 are parsed, printed with single blanks and the
base-10 text, and parsed back to the same statements. -/
theorem parser_round_trip_witness :
    (parse_statement "SELECT  name,age FROM people WHERE age>=-5" =
        some (.ok (.Select ⟨"people", ["name", "age"], false,
          some ⟨"age", .GE, Value.make_int (-5)⟩⟩)) ∧
      render (.Select ⟨"people", ["name", "age"], false,
          some ⟨"age", .GE, Value.make_int (-5)⟩⟩) =
        "SELECT name , age FROM people WHERE age >= -5" ∧
      parse_statement (render (.Select ⟨"people", ["name", "age"], false,
          some ⟨"age", .GE, Value.make_int (-5)⟩⟩)) =
        some (.ok (.Select ⟨"people", ["name", "age"], false,
          some ⟨"age", .GE, Value.make_int (-5)⟩⟩))) ∧
    (render (.Insert ⟨"t", ["a", "b"], [[Value.make_int 7, Value.make_str "x y"], []]⟩) =
        "INSERT INTO t ( a , b ) VALUES ( 7 , \x22x y\x22 ) , ( )" ∧
      parse_statement
          (render (.Insert ⟨"t", ["a", "b"], [[Value.make_int 7, Value.make_str "x y"], []]⟩)) =
        some (.ok (.Insert ⟨"t", ["a", "b"],
          [[Value.make_int 7, Value.make_str "x y"], []]⟩))) :=
  ⟨⟨rfl, by decide,
      parser_round_trip "SELECT  name,age FROM people WHERE age>=-5" _ rfl⟩,
    ⟨by decide,
      parser_round_trip "INSERT INTO t (a,b) VALUES (007,\x22x y\x22),()" _ rfl⟩⟩

/-- C16: the parser rejects trailing tokens.  Whenever `parse_statement`
returns a statement, the tokens it has read are those of the statement's
grammar, in order, and the tokenizer is at the end of the input behind the last
of them.  In particular a text that parses and whose double quotes are balanced
(every string literal is terminated) is rejected with a `ParseError` once ` ;`
is appended. -/
theorem rejects_trailing_tokens :
    (∀ (text : String) (S : Statement), parse_statement text = some (.ok S) →
      ∃ tzf, parse_statement_run text = some (.ok (S, tzf)) ∧
        Reads (Tokenizer.init text) S.pattern tzf ∧ tzf.eof = true) ∧
    (∀ (text : String) (S : Statement), parse_statement text = some (.ok S) →
      quotes_balanced text.data →
      parse_statement (text ++ " ;") =
        some (.error (.ParseError ("Unexpected tokens after " ++ S.what)))) := by
  constructor
  · intro text S h
    obtain ⟨tzf, hrun⟩ := parse_statement_inv text S h
    obtain ⟨-, hreads, heof⟩ := parse_statement_run_sound text S tzf hrun
    exact ⟨tzf, hrun, hreads, heof⟩
  · intro text S h hb
    obtain ⟨tzf, hrun⟩ := parse_statement_inv text S h
    exact parse_appended text S tzf hrun hb

/-- Witness of C16 on `DELETE FROM t WHERE a = "x"`: the tokenizer is at the
end of the input after the parse, and the text with ` ;` appended is
rejected. -/
theorem rejects_trailing_tokens_witness :
    (∃ tzf, parse_statement_run "DELETE FROM t WHERE a = \x22x\x22" =
        some (.ok (.Delete ⟨"t", some ⟨"a", .EQ, Value.make_str "x"⟩⟩, tzf)) ∧
      Reads (Tokenizer.init "DELETE FROM t WHERE a = \x22x\x22")
        (Statement.Delete ⟨"t", some ⟨"a", .EQ, Value.make_str "x"⟩⟩).pattern tzf ∧
      tzf.eof = true) ∧
    parse_statement "DELETE FROM t WHERE a = \x22x\x22 ;" =
      some (.error (.ParseError "Unexpected tokens after DELETE")) :=
  ⟨rejects_trailing_tokens.1 "DELETE FROM t WHERE a = \x22x\x22" _ rfl,
   rejects_trailing_tokens.2 "DELETE FROM t WHERE a = \x22x\x22"
     (.Delete ⟨"t", some ⟨"a", .EQ, Value.make_str "x"⟩⟩) rfl rfl⟩

/-- C21: when the unread characters are white space `ws`, a double quote and
then `str`, which holds no double quote, `next` returns the STRING token whose
text is `str`, whatever characters `str` is made of. When a double quote and
`tail` follow `str`, the cursor has moved over the white space, the two quotes
and `str`, so that `tail` is what is left unread. When nothing follows `str`,
the cursor has moved to the end of the input, nothing is left unread and the
tokenizer is at end of input. -/
theorem string_literal_lexing (tz : Tokenizer) (ws str : List Char)
    (hws : ws.all isspace = true) (hq : '"' ∉ str) :
    (∀ tail, tz.rest = ws ++ '"' :: (str ++ '"' :: tail) →
      tz.next.1 = ⟨.STRING, String.mk str⟩ ∧ tz.next.2.input = tz.input ∧
      tz.next.2.i = tz.i + ws.length + 1 + str.length + 1 ∧ tz.next.2.rest = tail) ∧
    (tz.rest = ws ++ '"' :: str →
      tz.next.1 = ⟨.STRING, String.mk str⟩ ∧ tz.next.2.input = tz.input ∧
      tz.next.2.i = tz.i + ws.length + 1 + str.length ∧ tz.next.2.i = tz.input.length ∧
      tz.next.2.rest = [] ∧ tz.next.2.eof = true) := by
  constructor
  · intro tail hrest
    rw [next_string_closed tz ws str tail hws hq hrest]
    refine ⟨rfl, rfl, by simp only; omega, ?_⟩
    rw [rest_shift, hrest]
    have : ws.length + (1 + (str.length + 1)) = (ws ++ '"' :: (str ++ ['"'])).length := by
      simp; omega
    rw [this]
    have e : ws ++ '"' :: (str ++ '"' :: tail) = (ws ++ '"' :: (str ++ ['"'])) ++ tail := by simp
    rw [e, List.drop_left]
  · intro hrest
    rw [next_string_open tz ws str hws hq hrest]
    have hr : Tokenizer.rest { tz with i := tz.i + (ws.length + (1 + str.length)) } = [] := by
      rw [rest_shift, hrest]
      apply List.drop_eq_nil_of_le
      simp; omega
    have hlen : tz.input.length = tz.i + (ws.length + (1 + str.length)) := by
      have h1 := congrArg List.length hrest
      unfold Tokenizer.rest at h1
      rw [List.length_drop, List.length_append, List.length_cons] at h1
      show tz.input.data.length = _
      omega
    refine ⟨rfl, rfl, by simp only; omega, by simp only; omega, hr, ?_⟩
    exact eof_of_rest_nil _ hr

theorem string_literal_lexing_witness :
    ((Tokenizer.next ⟨"x = \"a\\n; b\" ;", 3⟩).1 = ⟨.STRING, "a\\n; b"⟩ ∧
      (Tokenizer.next ⟨"x = \"a\\n; b\" ;", 3⟩).2.i = 12 ∧
      (Tokenizer.next ⟨"x = \"a\\n; b\" ;", 3⟩).2.rest = [' ', ';']) ∧
    ((Tokenizer.next ⟨"\"no end; ", 0⟩).1 = ⟨.STRING, "no end; "⟩ ∧
      (Tokenizer.next ⟨"\"no end; ", 0⟩).2.i = 9 ∧
      (Tokenizer.next ⟨"\"no end; ", 0⟩).2.eof = true) := by
  have h := (string_literal_lexing ⟨"x = \"a\\n; b\" ;", 3⟩ [' '] "a\\n; b".data (by decide)
    (by decide)).1 [' ', ';'] (by rfl)
  have h' := (string_literal_lexing ⟨"\"no end; ", 0⟩ [] "no end; ".data (by decide)
    (by decide)).2 (by rfl)
  exact ⟨⟨h.1, h.2.2.1.trans (by rfl), h.2.2.2⟩, h'.1, h'.2.2.2.1.trans (by rfl), h'.2.2.2.2.2⟩

/-- C27, as the code has it: a call of `next` that returns a token other than
END and other than the IDENT token with the empty text leaves the cursor
strictly greater than it was. A call that returns the IDENT token with the
empty text has moved the cursor over the white space only and has stopped in
front of a `-`; every later call returns that token again and moves nothing, so
END is never returned. Once END is returned every later call returns END. And
within as many calls as there are unread characters, plus one, `next` returns
END or the IDENT token with the empty text. -/
theorem tokenizer_progress (tz : Tokenizer) :
    (tz.next.1.type ≠ .END → tz.next.1 ≠ ⟨.IDENT, ""⟩ → tz.i < tz.next.2.i) ∧
    (tz.next.1 = ⟨.IDENT, ""⟩ →
      tz.next.2.i = tz.i + run_length isspace tz.rest ∧
      starts_with (fun c => c = '-') tz.next.2.rest = true ∧
      ∀ k, tz.after (k + 1) = tz.next.2 ∧ (tz.after k).next.1 = ⟨.IDENT, ""⟩ ∧
        (tz.after k).next.1.type ≠ .END) ∧
    (tz.next.1.type = .END → ∀ k, (tz.after k).next.1.type = .END) ∧
    (∃ k, k ≤ tz.rest.length ∧
      ((tz.after k).next.1.type = .END ∨ (tz.after k).next.1 = ⟨.IDENT, ""⟩)) := by
  refine ⟨?_, ?_, after_end tz, after_bound _ tz (Nat.le_refl _)⟩
  · intro hend hid
    rw [next_cursor]
    rw [next_fst] at hend hid
    have := lex_progress tz.rest hend hid
    omega
  · intro h
    have hl : (lex_token (tz.rest.drop (run_length isspace tz.rest))).1 = ⟨.IDENT, ""⟩ := by
      rw [next_fst] at h
      exact h
    have h0 := lex_token_empty_ident _ hl
    have hs := next_stuck tz h
    have hrest : tz.next.2.rest = tz.rest.drop (run_length isspace tz.rest) := by
      rw [next_rest]
      simp only [lex, h0, Nat.add_zero]
    refine ⟨?_, ?_, ?_⟩
    · rw [next_cursor]
      simp only [lex, h0, Nat.add_zero]
    · rw [hrest]
      exact lex_token_empty_ident_minus _ hl
    · intro k
      have ha : tz.after (k + 1) = tz.next.2 := after_stuck _ hs k
      have hk : (tz.after k).next.1 = ⟨.IDENT, ""⟩ := by
        cases k with
        | zero => exact h
        | succ k =>
          have e : tz.after (k + 1) = tz.next.2 := after_stuck _ hs k
          rw [e]
          unfold Stuck at hs
          rw [hs]
      exact ⟨ha, hk, by rw [hk]; decide⟩

/-- Witness of C27 on the input `-`: the token is not END, the cursor is 0
before and after the call, and no later call returns END; and on `ab -` the
first call moves the cursor from 0 to 2. -/
theorem tokenizer_progress_witness :
    ((Tokenizer.init "-").next.1 = ⟨.IDENT, ""⟩ ∧ (Tokenizer.init "-").i = 0 ∧
      (Tokenizer.init "-").next.2.i = 0 ∧
      ∀ k, ((Tokenizer.init "-").after k).next.1.type ≠ .END) ∧
    (Tokenizer.init "ab -").i < (Tokenizer.init "ab -").next.2.i :=
  ⟨⟨rfl, rfl, ((tokenizer_progress (Tokenizer.init "-")).2.1 rfl).1,
    fun k => (((tokenizer_progress (Tokenizer.init "-")).2.1 rfl).2.2 k).2.2⟩,
   (tokenizer_progress (Tokenizer.init "ab -")).1 (by decide) (by decide)⟩

/-- C25: for every column list, repeated names included, the constructor
builds the table with these columns and no rows, and `create_table` stores it
under a name not yet taken. On that table `col_index name` returns `i` exactly
when column `i` is called `name` and no column in front of it is, and it throws
exactly when no column is called `name`, a `DBError` then. So a position `j`
whose name is already the name of a column in front of it is returned for no
name: not by `col_index`, hence not by the WHERE evaluation, and it is in no
index list built for an INSERT or SELECT column list or for the assignments of
an UPDATE. -/
theorem duplicate_column_names (n : String) (cols : List Column) :
    (Table.new n cols).columns = cols ∧ (Table.new n cols).rows = [] ∧
    (∀ d : Database, d.tables.count n = 0 →
      (d.create_table n cols).2 = .ok () ∧
      (d.create_table n cols).1.table n = .ok (Table.new n cols)) ∧
    (∀ name i, (Table.new n cols).col_index name = .ok i ↔
      (∃ c, cols.get? i = some c ∧ c.name = name) ∧
        ∀ j c, j < i → cols.get? j = some c → c.name ≠ name) ∧
    (∀ name, (∃ e, (Table.new n cols).col_index name = .error e) ↔ ∀ c ∈ cols, c.name ≠ name) ∧
    (∀ name e, (Table.new n cols).col_index name = .error e →
      e = .DBError ("Unknown column: " ++ name)) ∧
    (∀ j j' c c', j' < j → cols.get? j' = some c' → cols.get? j = some c → c'.name = c.name →
      (∀ name, (Table.new n cols).col_index name ≠ .ok j) ∧
      (∀ names idxs, (Table.new n cols).col_indices names = .ok idxs → j ∉ idxs) ∧
      (∀ names idxs, (Table.new n cols).build_projection names false = .ok idxs → j ∉ idxs) ∧
      (∀ sets idxs, (Table.new n cols).set_indices sets = .ok idxs → j ∉ idxs)) := by
  have hok := new_schema_ok n cols
  have hunreach : ∀ j j' c c', j' < j → cols.get? j' = some c' → cols.get? j = some c →
      c'.name = c.name → ∀ name, (Table.new n cols).col_index name ≠ .ok j := by
    intro j j' c c' hlt hc' hc hname name hcontra
    obtain ⟨⟨c0, h0, h0'⟩, hmin⟩ := (col_index_ok_iff _ hok name j).1 hcontra
    have e : c0 = c := by
      have : (Table.new n cols).columns.get? j = some c := hc
      rw [this] at h0
      exact (Option.some.inj h0).symm
    subst e
    exact hmin j' c' hlt hc' (hname.trans h0')
  refine ⟨rfl, rfl, ?_, fun name i => col_index_ok_iff _ hok name i,
    fun name => col_index_error_iff _ hok name,
    fun name e he => col_index_error_kind _ name e he, ?_⟩
  · intro d hd
    simp only [Database.create_table, hd, ne_eq, not_true_eq_false, if_false, true_and]
    unfold UMap.count at hd
    unfold Database.table
    rw [UMap.find_emplace]
    cases hf : d.tables.find n with
    | none => simp
    | some t => simp [hf] at hd
  · intro j j' c c' hlt hc' hc hname
    have hu := hunreach j j' c c' hlt hc' hc hname
    refine ⟨hu, ?_, ?_, ?_⟩
    · intro names idxs h hj
      obtain ⟨name, _, hn⟩ := col_indices_mem _ names idxs h j hj
      exact hu name hn
    · intro names idxs h hj
      simp only [Table.build_projection, Bool.false_eq_true, if_false] at h
      obtain ⟨name, _, hn⟩ := col_indices_mem _ names idxs h j hj
      exact hu name hn
    · intro sets idxs h hj
      obtain ⟨p, _, hn⟩ := set_indices_mem _ sets idxs h j hj
      exact hu p.1 hn

/-- Witness of C25 on the columns `a int, b str, a str`: `a` resolves to
position 0, and position 2 is returned for no name. -/
theorem duplicate_column_names_witness :
    (Table.new "t" [⟨"a", .INT⟩, ⟨"b", .STR⟩, ⟨"a", .STR⟩]).col_index "a" = .ok 0 ∧
    (∀ name, (Table.new "t" [⟨"a", .INT⟩, ⟨"b", .STR⟩, ⟨"a", .STR⟩]).col_index name ≠ .ok 2) ∧
    (Database.empty.create_table "t" [⟨"a", .INT⟩, ⟨"b", .STR⟩, ⟨"a", .STR⟩]).2 = .ok () :=
  ⟨rfl,
   ((duplicate_column_names "t" [⟨"a", .INT⟩, ⟨"b", .STR⟩, ⟨"a", .STR⟩]).2.2.2.2.2.2
      2 0 ⟨"a", .STR⟩ ⟨"a", .INT⟩ (by decide) rfl rfl rfl).1,
   ((duplicate_column_names "t" [⟨"a", .INT⟩, ⟨"b", .STR⟩, ⟨"a", .STR⟩]).2.2.1
      Database.empty rfl).1⟩

/-- C29: on a table that holds no row, whatever the condition is,
`select_where` with a projection that can be built returns the headers of the
projected columns and no rows, `delete_where` returns 0 and `update_where` with
assignments that all name columns returns 0, whatever the tags of the assigned
values; the three leave the table as it is. On a table that holds a row, a
condition on a name that is no column makes the three throw the `DBError` of
the unknown column, and the table is left as it is. -/
theorem empty_table_no_evaluation :
    (∀ (t : Table) (cond : Option Condition), t.SchemaOK → t.rows = [] →
      (∀ out_cols star proj, t.build_projection out_cols star = .ok proj →
        ∃ hs, t.select_where out_cols star cond = .ok ⟨hs, []⟩ ∧
          hs.map some = proj.map (fun idx => (t.columns.get? idx).map Column.name)) ∧
      t.delete_where cond = (t, .ok 0) ∧
      (∀ sets : List (String × Value), (∀ p ∈ sets, ∃ c ∈ t.columns, c.name = p.1) →
        t.update_where sets cond = (t, .ok 0))) ∧
    (∀ (t : Table) (c : Condition), t.SchemaOK → t.rows ≠ [] →
      (∀ col ∈ t.columns, col.name ≠ c.column) →
      (∀ out_cols star proj, t.build_projection out_cols star = .ok proj →
        t.select_where out_cols star (some c)
          = .error (.DBError ("Unknown column: " ++ c.column))) ∧
      t.delete_where (some c) = (t, .error (.DBError ("Unknown column: " ++ c.column))) ∧
      (∀ sets : List (String × Value), (∀ p ∈ sets, ∃ col ∈ t.columns, col.name = p.1) →
        t.update_where sets (some c)
          = (t, .error (.DBError ("Unknown column: " ++ c.column))))) := by
  constructor
  · intro t cond hwf hrows
    refine ⟨?_, ?_, ?_⟩
    · intro out_cols star proj hp
      obtain ⟨hs, hhs⟩ := headers_of_projection t hwf out_cols star proj hp
      refine ⟨hs, ?_, select_headers_ok t proj hs hhs⟩
      simp only [Table.select_where, hp, hhs, hrows, Table.select_rows]
    · cases t with
      | mk name columns name2idx rows =>
        simp only at hrows
        subst hrows
        rfl
    · intro sets hsets
      obtain ⟨idxs, hidx⟩ := set_indices_exists t sets
        (fun p hp => col_index_exists t hwf p.1 (hsets p hp))
      cases t with
      | mk name columns name2idx rows =>
        simp only at hrows
        subst hrows
        simp only [Table.update_where, hidx, Table.update_rows]
  · intro t c hwf hrows hc
    obtain ⟨r, rest, hr⟩ := List.exists_cons_of_ne_nil hrows
    have hm := matches_unknown t hwf c hc r
    refine ⟨?_, ?_, ?_⟩
    · intro out_cols star proj hp
      obtain ⟨hs, hhs⟩ := headers_of_projection t hwf out_cols star proj hp
      simp only [Table.select_where, hp, hhs, hr, Table.select_rows, hm]
    · cases t with
      | mk name columns name2idx rows =>
        simp only at hr
        subst hr
        simp only [Table.delete_where, remove_if, remove_if_find, hm, List.nil_append]
    · intro sets hsets
      obtain ⟨idxs, hidx⟩ := set_indices_exists t sets
        (fun p hp => col_index_exists t hwf p.1 (hsets p hp))
      cases t with
      | mk name columns name2idx rows =>
        simp only at hr
        subst hr
        simp only [Table.update_where, hidx, Table.update_rows, hm]

/-- Witness of C29 on the table `people` without rows and with one row, with
a condition on the name `nope`, which is no column, and an assignment of a
string to the `int` column `age`. -/
theorem empty_table_no_evaluation_witness :
    (people.select_where ["age"] false (some ⟨"nope", .EQ, .make_int 1⟩) = .ok ⟨["age"], []⟩ ∧
      people.delete_where (some ⟨"nope", .EQ, .make_int 1⟩) = (people, .ok 0) ∧
      people.update_where [("age", .make_str "x")] (some ⟨"nope", .EQ, .make_int 1⟩)
        = (people, .ok 0)) ∧
    (people3.delete_where (some ⟨"nope", .EQ, .make_int 1⟩)
      = (people3, .error (.DBError "Unknown column: nope"))) := by
  have h1 := empty_table_no_evaluation.1 people (some ⟨"nope", .EQ, .make_int 1⟩) rfl rfl
  have h2 := empty_table_no_evaluation.2 people3 ⟨"nope", .EQ, .make_int 1⟩ rfl (by decide)
    (by decide)
  exact ⟨⟨by rfl, h1.2.1, h1.2.2 _ (by decide)⟩, h2.2.1⟩

/-- C30: on a table that satisfies the table invariant, when
`update_where sets cond` throws, either the table is left as it is, or the rows
are `pre`, `r`, `post` where no row of `pre` satisfies `cond` and `r` does, the
rows `pre` and `post` are left as they are, and `r` keeps its number of cells;
the assignments are `sets1`, `p`, `sets2` where the tags of `sets1` are the
types of their columns and the tag of `p` is not, which is the `TypeError`
thrown, and a cell of `r` that has changed is the cell of a column that an
assignment of `sets1` names. When evaluating the condition throws on a stored
row, the table is left as it is. -/
theorem failed_update_locality (t t' : Table) (sets : List (String × Value))
    (cond : Option Condition) (e : Exn) (hwf : t.SchemaOK) (hinv : t.Inv)
    (h : t.update_where sets cond = (t', .error e)) :
    (t' = t ∨
      ∃ pre r post cells1 sets1 p sets2,
        t.rows = pre ++ r :: post ∧ t' = { t with rows := pre ++ ⟨cells1⟩ :: post } ∧
        (∀ x ∈ pre, t.satisfies cond x = false) ∧ t.satisfies cond r = true ∧
        sets = sets1 ++ p :: sets2 ∧
        (∀ q ∈ sets1, ∃ idx c, t.col_index q.1 = .ok idx ∧ t.columns.get? idx = some c ∧
          q.2.type = c.type) ∧
        (∃ idx c, t.col_index p.1 = .ok idx ∧ t.columns.get? idx = some c ∧
          p.2.type ≠ c.type ∧
          e = .TypeError ("Type mismatch in UPDATE for column " ++ c.name)) ∧
        cells1.length = r.cells.length ∧
        ∀ j, cells1.get? j ≠ r.cells.get? j → ∃ q ∈ sets1, t.col_index q.1 = .ok j) ∧
    ((∃ r ∈ t.rows, ∃ e', t.row_matches r cond = .error e') → t' = t) := by
  have htyped := (inv_iff t).1 hinv
  unfold Table.update_where at h
  cases hs : t.set_indices sets with
  | error e' =>
    simp only [hs, Prod.mk.injEq] at h
    exact ⟨Or.inl h.1.symm, fun _ => h.1.symm⟩
  | ok idxs =>
    cases hrec : t.update_rows sets idxs cond t.rows 0 with
    | mk o1 o2 =>
    simp only [hs, hrec, Prod.mk.injEq] at h
    obtain ⟨h1, h2⟩ := h
    subst h2
    have hidx := set_indices_length t sets idxs hs
    rcases update_rows_fail t hwf sets idxs hidx cond t.rows o1 0 e htyped hrec with
      ⟨_, hsame⟩ | ⟨pre, r, post, cells1, e1, e2, e3, e4, e5⟩
    · have : t' = t := by
        rw [← h1, hsame]
      exact ⟨Or.inl this, fun _ => this⟩
    · have hrt : Row.Typed t.columns ⟨r.cells⟩ :=
        htyped r (by rw [e1]; exact List.mem_append_right _ (List.mem_cons_self _ _))
      obtain ⟨sets1, p, sets2, hsets, hgood, hbad, hlen, hdiff⟩ :=
        update_cells_fail t hwf sets idxs hidx r.cells cells1 e hrt e5
      constructor
      · right
        exact ⟨pre, r, post, cells1, sets1, p, sets2, e1, by rw [← h1, e2], e3, e4, hsets, hgood,
          hbad, hlen, hdiff⟩
      · rintro ⟨x, hx, e', hx'⟩
        exfalso
        rcases row_matches_uniform t cond with ⟨e0, hall⟩ | hall
        · have hr := hall r hrt
          simp [Table.satisfies, hr] at e4
        · obtain ⟨b, hb⟩ := hall x (htyped x hx)
          rw [hb] at hx'
          cases hx'

/-- Witness of C30 on `people` holding (alice,30), (bob,25), (carol,35): with
`name = "zed", age = "x"` and the condition `age < 35`, the update throws at
the row of alice, whose name alone has changed. -/
theorem failed_update_locality_witness :
    people3.SchemaOK ∧ people3.Inv ∧
    people3.update_where [("name", .make_str "zed"), ("age", .make_str "x")]
        (some ⟨"age", .LT, .make_int 35⟩)
      = (people3_zed, .error (.TypeError "Type mismatch in UPDATE for column age")) ∧
    (people3_zed = people3 ∨
      ∃ pre r post cells1 sets1 p sets2,
        people3.rows = pre ++ r :: post ∧
        people3_zed = { people3 with rows := pre ++ ⟨cells1⟩ :: post } ∧
        (∀ x ∈ pre, people3.satisfies (some ⟨"age", .LT, .make_int 35⟩) x = false) ∧
        people3.satisfies (some ⟨"age", .LT, .make_int 35⟩) r = true ∧
        [("name", Value.make_str "zed"), ("age", Value.make_str "x")] = sets1 ++ p :: sets2 ∧
        (∀ q ∈ sets1, ∃ idx c, people3.col_index q.1 = .ok idx ∧
          people3.columns.get? idx = some c ∧ q.2.type = c.type) ∧
        (∃ idx c, people3.col_index p.1 = .ok idx ∧ people3.columns.get? idx = some c ∧
          p.2.type ≠ c.type ∧
          Exn.TypeError "Type mismatch in UPDATE for column age"
            = .TypeError ("Type mismatch in UPDATE for column " ++ c.name)) ∧
        cells1.length = r.cells.length ∧
        ∀ j, cells1.get? j ≠ r.cells.get? j → ∃ q ∈ sets1, people3.col_index q.1 = .ok j) := by
  have hwf : people3.SchemaOK := rfl
  have hinv : people3.Inv := (inv_iff people3).mpr (by
    intro r hr
    simp only [people3, List.mem_cons, List.mem_singleton, List.mem_nil_iff, or_false] at hr
    rcases hr with rfl | rfl | rfl <;> rfl)
  exact ⟨hwf, hinv, rfl,
    (failed_update_locality people3 people3_zed
      [("name", .make_str "zed"), ("age", .make_str "x")] (some ⟨"age", .LT, .make_int 35⟩)
      (.TypeError "Type mismatch in UPDATE for column age") hwf hinv rfl).1⟩

/-- C28, as the code has it: for every text, `parse_statement` ends, and it
returns one statement or throws a `ParseError`. An iteration of a loop of the
parser that goes on to another iteration leaves the cursor strictly greater
than it found it: in the loop of CREATE, in the tuple loop, in the loop over
the tuples, in the loop of UPDATE and in the loop of SELECT always, and in the
loop over the column names of an INSERT when the iteration is not the first
one, which reads a comma; the first one leaves the cursor where it was or
greater. And the first one does leave it where it was when the tokenizer stands
in front of a `-` that starts no number, where `next` returns the IDENT token
with the empty text and moves nothing: the empty text is taken as a column
name and the loop goes on to its second iteration with the cursor unmoved;
the second iteration asks for a comma and throws. -/
theorem parser_total (text : String) :
    ((∃ S, parse_statement text = some (.ok S)) ∨
      (∃ msg, parse_statement text = some (.error (.ParseError msg)))) ∧
    (∀ (fuel : Nat) (tz tz1 tz2 : Tokenizer) (cols : List Column) (first : Bool) (c : String)
        (ty : DbType),
      tz.peek.type ≠ .RPAREN → expect_comma_unless first tz = .ok tz1 →
      expect_ident_any tz1 = .ok (c, tz2) → parse_type tz2.next.1 = .ok ty →
      create_columns_loop (fuel + 1) tz cols first
        = create_columns_loop fuel tz2.next.2 (cols ++ [⟨c, ty⟩]) false ∧
      tz.i < tz2.next.2.i) ∧
    (∀ (fuel : Nat) (tz tz1 tz2 : Tokenizer) (cols : List String) (first : Bool) (c : String),
      tz.peek.type ≠ .RPAREN → expect_comma_unless first tz = .ok tz1 →
      expect_ident_any tz1 = .ok (c, tz2) →
      insert_columns_loop (fuel + 1) tz cols first
        = insert_columns_loop fuel tz2 (cols ++ [c]) false ∧
      tz.i ≤ tz2.i ∧ (first = false → tz.i < tz2.i)) ∧
    (∀ (fuel : Nat) (tz tz1 : Tokenizer) (tup : List Value) (firstv : Bool) (v : Value),
      tz.peek.type ≠ .RPAREN → expect_comma_unless firstv tz = .ok tz1 →
      parse_literal tz1.next.1 = .ok v →
      tuple_loop (fuel + 1) tz tup firstv = tuple_loop fuel tz1.next.2 (tup ++ [v]) false ∧
      tz.i < tz1.next.2.i) ∧
    (∀ (fuel : Nat) (tz tz1 : Tokenizer) (values : List (List Value)) (first_tuple : Bool)
        (tup : List Value),
      (first_tuple = true ∨ tz.peek.type = .COMMA) →
      expect (if first_tuple = true then tz else tz.next.2).next.1 .LPAREN "'('" = .ok () →
      tuple_loop (loop_bound tz) (if first_tuple = true then tz else tz.next.2).next.2 [] true
        = some (.ok (tup, tz1)) →
      tz1.peek.type = .COMMA →
      insert_values_loop (fuel + 1) tz values first_tuple
        = insert_values_loop fuel tz1 (values ++ [tup]) false ∧
      tz.i < tz1.i) ∧
    (∀ (fuel : Nat) (tz tz1 : Tokenizer) (sets : List (String × Value)) (first : Bool)
        (col : String) (v : Value),
      (first = true ∨ tz.peek.type = .COMMA) →
      expect_ident_any (if first = true then tz else tz.next.2) = .ok (col, tz1) →
      expect tz1.next.1 .EQUAL "'='" = .ok () →
      parse_literal tz1.next.2.next.1 = .ok v →
      tz1.next.2.next.2.peek.type = .COMMA →
      update_sets_loop (fuel + 1) tz sets first
        = update_sets_loop fuel tz1.next.2.next.2 (sets ++ [(col, v)]) false ∧
      tz.i < tz1.next.2.next.2.i) ∧
    (∀ (fuel : Nat) (tz tz1 : Tokenizer) (cols : List String) (col : String),
      tz.peek.type = .COMMA → expect_ident_any tz.next.2 = .ok (col, tz1) →
      select_columns_loop (fuel + 1) tz cols = select_columns_loop fuel tz1 (cols ++ [col]) ∧
      tz.i < tz1.i) ∧
    (∀ (tz : Tokenizer) (fuel : Nat) (cols : List String),
      tz.next = (⟨.IDENT, ""⟩, tz) →
      tz.peek.type ≠ .RPAREN ∧ expect_comma_unless true tz = .ok tz ∧
      expect_ident_any tz = .ok ("", tz) ∧
      insert_columns_loop (fuel + 1) tz cols true
        = insert_columns_loop fuel tz (cols ++ [""]) false ∧
      insert_columns_loop (fuel + 2) tz cols true
        = some (.error (.ParseError "Expected ','"))) ∧
    ((Tokenizer.init "INSERT INTO t (-").after 4 = ⟨"INSERT INTO t (-", 15⟩ ∧
      Tokenizer.next ⟨"INSERT INTO t (-", 15⟩ = (⟨.IDENT, ""⟩, ⟨"INSERT INTO t (-", 15⟩) ∧
      parse_statement "INSERT INTO t (-" = some (.error (.ParseError "Expected ','"))) :=
  ⟨parse_statement_result text,
   fun fuel tz tz1 tz2 cols first c ty hp hc hi hty =>
     create_columns_iteration fuel tz tz1 tz2 cols first c ty hp hc hi hty,
   fun fuel tz tz1 tz2 cols first c hp hc hi =>
     insert_columns_iteration fuel tz tz1 tz2 cols first c hp hc hi,
   fun fuel tz tz1 tup firstv v hp hc hl => tuple_iteration fuel tz tz1 tup firstv v hp hc hl,
   fun fuel tz tz1 values first_tuple tup hp he ht hcomma =>
     insert_values_iteration fuel tz tz1 values first_tuple tup hp he ht hcomma,
   fun fuel tz tz1 sets first col v hp hi he hl hcomma =>
     update_sets_iteration fuel tz tz1 sets first col v hp hi he hl hcomma,
   fun fuel tz tz1 cols col hp hi => select_columns_iteration fuel tz tz1 cols col hp hi,
   fun tz fuel cols hs => insert_columns_stuck tz hs fuel cols,
   by rfl, by rfl, by rfl⟩

/-- Witness of C28 on a text with a `-` that no digit follows, a symbol that is
not recognised and a string that is not closed; on the second iteration of
the column loop of `INSERT INTO t (a, b)`, which moves the cursor from 16 to
19; and on the text `INSERT INTO t (-`, where the loop over the column names
is entered with the cursor at 15, in front of the `-`, and its first iteration
goes on to the second with the empty column name and the cursor still at 15. -/
theorem parser_total_witness :
    ((∃ S, parse_statement "SELECT - FROM @ \"x" = some (.ok S)) ∨
      (∃ msg, parse_statement "SELECT - FROM @ \"x" = some (.error (.ParseError msg)))) ∧
    (insert_columns_loop 3 ⟨"INSERT INTO t (a, b)", 16⟩ ["a"] false
        = insert_columns_loop 2 ⟨"INSERT INTO t (a, b)", 19⟩ (["a"] ++ ["b"]) false ∧
      (16 : Nat) ≤ 19 ∧ (false = false → (16 : Nat) < 19)) ∧
    (expect_ident_any ⟨"INSERT INTO t (-", 15⟩ = .ok ("", ⟨"INSERT INTO t (-", 15⟩) ∧
      insert_columns_loop 3 ⟨"INSERT INTO t (-", 15⟩ [] true
        = insert_columns_loop 2 ⟨"INSERT INTO t (-", 15⟩ ([] ++ [""]) false ∧
      insert_columns_loop 3 ⟨"INSERT INTO t (-", 15⟩ [] true
        = some (.error (.ParseError "Expected ','"))) :=
  ⟨(parser_total "SELECT - FROM @ \"x").1,
   (parser_total "").2.2.1 2 ⟨"INSERT INTO t (a, b)", 16⟩ ⟨"INSERT INTO t (a, b)", 17⟩
     ⟨"INSERT INTO t (a, b)", 19⟩ ["a"] false "b" (by decide) rfl rfl,
   ((parser_total "").2.2.2.2.2.2.2.1 ⟨"INSERT INTO t (-", 15⟩ 2 [] (by rfl)).2.2.1,
   ((parser_total "").2.2.2.2.2.2.2.1 ⟨"INSERT INTO t (-", 15⟩ 2 [] (by rfl)).2.2.2.1,
   ((parser_total "").2.2.2.2.2.2.2.1 ⟨"INSERT INTO t (-", 15⟩ 1 [] (by rfl)).2.2.2.2⟩

/-- C26: for every identifier `t`, `CREATE TABLE t ()` parses to the CREATE of
`t` with no columns, and `INSERT INTO t () VALUES ()` to the INSERT into `t`
with no column names and one tuple, which is empty. A text in which a comma
token has a closing parenthesis token right behind it, and a text that starts
with `CREATE` and has no closing parenthesis token, make `parse_statement`
throw a `ParseError`. -/
theorem empty_lists_accepted :
    (∀ t : String, is_ident t.data = true →
      parse_statement ("CREATE TABLE " ++ t ++ " ()") = some (.ok (.Create ⟨t, []⟩))) ∧
    (∀ t : String, is_ident t.data = true →
      parse_statement ("INSERT INTO " ++ t ++ " () VALUES ()")
        = some (.ok (.Insert ⟨t, [], [[]]⟩))) ∧
    (∀ (text : String) (k : Nat),
      ((Tokenizer.init text).after k).next.1.type = .COMMA →
      ((Tokenizer.init text).after (k + 1)).next.1.type = .RPAREN →
      ∃ msg, parse_statement text = some (.error (.ParseError msg))) ∧
    (∀ text : String, (Tokenizer.init text).next.1 = ⟨.IDENT, "CREATE"⟩ →
      (∀ k, ((Tokenizer.init text).after k).next.1.type ≠ .RPAREN) →
      ∃ msg, parse_statement text = some (.error (.ParseError msg))) :=
  ⟨create_empty_list, insert_empty_lists, trailing_comma_rejected, unclosed_create_rejected⟩

/-- Witness of C26 on the table name `test`, on `CREATE TABLE t (a int,)`, whose
tokens 6 and 7 are the comma and the closing parenthesis, and on
`CREATE TABLE test (id int`. -/
theorem empty_lists_accepted_witness :
    parse_statement "CREATE TABLE test ()" = some (.ok (.Create ⟨"test", []⟩)) ∧
    parse_statement "INSERT INTO test () VALUES ()" = some (.ok (.Insert ⟨"test", [], [[]]⟩)) ∧
    (∃ msg, parse_statement "CREATE TABLE t (a int,)" = some (.error (.ParseError msg))) ∧
    (∃ msg, parse_statement "CREATE TABLE test (id int" = some (.error (.ParseError msg))) := by
  refine ⟨empty_lists_accepted.1 "test" (by decide), empty_lists_accepted.2.1 "test" (by decide),
    empty_lists_accepted.2.2.1 "CREATE TABLE t (a int,)" 6 (by decide) (by decide),
    empty_lists_accepted.2.2.2 "CREATE TABLE test (id int" (by decide) ?_⟩
  intro k
  by_cases hk : k < 6
  · interval_cases k <;> decide
  · have e : k = 6 + (k - 6) := by omega
    rw [e, after_add, after_end _ (by decide)]
    decide

/-- C23: for every result, `to_csv` returns the line of the headers and then
the line of each row, in order, where a line is its fields as `csv_escape`
writes them, joined by commas, and a newline; the result with no header and no
row is rendered as one newline. `csv_escape` returns a field that holds no
comma, double quote or newline as it is, and any other field between double
quotes, every double quote of the field written twice. -/
theorem csv_rendering :
    (∀ r : QueryResult,
      (to_csv r).data = csv_line r.headers ++ (r.rows.map csv_line).flatten) ∧
    to_csv ⟨[], []⟩ = "\n" ∧
    (∀ v : String, (∀ c ∈ v.data, c ≠ ',' ∧ c ≠ '"' ∧ c ≠ '\n') → csv_escape v = v) ∧
    (∀ v : String, (∃ c ∈ v.data, c = ',' ∨ c = '"' ∨ c = '\n') →
      (csv_escape v).data = csv_quoted v.data) := by
  refine ⟨?_, rfl, ?_, ?_⟩
  · intro r
    simp only [to_csv, csv_rows_loop_eq, csv_fields_loop_zero]
    simp
  · intro v h
    have : (v.data.any fun c => decide (c = ',') || decide (c = '"') || decide (c = '\n'))
        = false := by
      rw [List.any_eq_false]
      intro c hc
      have := h c hc
      simp [this.1, this.2.1, this.2.2]
    simp only [csv_escape, this, Bool.not_false, if_true]
  · intro v h
    have : (v.data.any fun c => decide (c = ',') || decide (c = '"') || decide (c = '\n'))
        = true := by
      rw [List.any_eq_true]
      obtain ⟨c, hc, h3⟩ := h
      exact ⟨c, hc, by rcases h3 with h3 | h3 | h3 <;> simp [h3]⟩
    simp only [csv_escape, this, Bool.not_true, Bool.false_eq_true, if_false, csv_quoted,
      csv_escape_loop_eq]
    simp

/-- Witness of C23 on the result of the test: the headers name, description
and the row alice, `lives in NYC, NY`; and on a field with a double quote. -/
theorem csv_rendering_witness :
    (to_csv ⟨["name", "description"], [["alice", "lives in NYC, NY"]]⟩).data
      = "name,description\nalice,\"lives in NYC, NY\"\n".data ∧
    (csv_escape "a\"b").data = "\"a\"\"b\"".data :=
  ⟨(csv_rendering.1 ⟨["name", "description"], [["alice", "lives in NYC, NY"]]⟩).trans
      (by decide),
   (csv_rendering.2.2.2 "a\"b" ⟨'"', by decide, Or.inr (Or.inl rfl)⟩).trans (by decide)⟩

/-- The table of a result in which every row has as many cells as there are
headers and whose headers and cells are shorter than `2^31` characters. -/
theorem ascii_table_of_fit (r : QueryResult) (hrect : r.rectangular) (hfit : r.sizes_fit) :
    (∃ out, to_ascii r = .ok out ∧ out.data = ascii_table r) ∧
    (∀ i, (r.headers.getD i "").length ≤ column_width r i ∧
      (∀ row ∈ r.rows, (row.getD i "").length ≤ column_width r i) ∧
      (column_width r i = (r.headers.getD i "").length ∨
        ∃ row ∈ r.rows, column_width r i = (row.getD i "").length)) ∧
    (∀ i, (padded (column_width r i) (r.headers.getD i "")).length = column_width r i ∧
      ∀ row ∈ r.rows, (padded (column_width r i) (row.getD i "")).length = column_width r i) ∧
    (content_line (column_widths r) r.headers).length = (border_line (column_widths r)).length ∧
    (∀ row ∈ r.rows,
      (content_line (column_widths r) row).length = (border_line (column_widths r)).length) := by
  refine ⟨to_ascii_table r hrect hfit, ?_, ?_, ?_, ?_⟩
  · intro i
    refine ⟨(cell_le_column_width r i).1, (cell_le_column_width r i).2, ?_⟩
    rcases foldl_max_attained (r.rows.map fun row => (row.getD i "").length)
      (r.headers.getD i "").length with h | h
    · exact Or.inl h
    · obtain ⟨row, hrow, he⟩ := List.mem_map.1 h
      exact Or.inr ⟨row, hrow, he.symm⟩
  · intro i
    exact ⟨padded_length _ _ (cell_le_column_width r i).1,
      fun row hrow => padded_length _ _ ((cell_le_column_width r i).2 row hrow)⟩
  · rw [border_line_length]
    exact content_line_length _ _
      (cells_fit_widths r r.headers rfl fun i => (cell_le_column_width r i).1)
  · intro row hrow
    rw [border_line_length]
    exact content_line_length _ _
      (cells_fit_widths r row (hrect row hrow) fun i => (cell_le_column_width r i).2 row hrow)

/-- The table of one header `h`, a row whose cell has `2^31` characters and
the row `b`: every row has one cell and the width of the column is `2^31`, but
the lines of `h` and of `b` are written without blanks behind the cell, in 5
characters, where the format has `2^31 + 4`. -/
theorem ascii_table_of_long_cell :
    (⟨["h"], [[long_cell], ["b"]]⟩ : QueryResult).rectangular ∧
    column_widths ⟨["h"], [[long_cell], ["b"]]⟩ = [2 ^ 31] ∧
    to_ascii ⟨["h"], [[long_cell], ["b"]]⟩
      = .ok (ascii_line [2 ^ 31] ++ "\n" ++ "| h |" ++ "\n" ++
          ascii_line [2 ^ 31] ++ "\n" ++ ("| " ++ long_cell ++ " |") ++ "\n" ++
          "| b |" ++ "\n" ++ ascii_line [2 ^ 31] ++ "\n") ∧
    (content_line [2 ^ 31] ["b"]).length = 2 ^ 31 + 4 ∧
    ("| b |" : String).length = 5 := by
  have e1 : ("| " : String) ++ "h" ++ " |" = "| h |" := by decide
  have e2 : ("| " : String) ++ "b" ++ " |" = "| b |" := by decide
  have h := to_ascii_long_cell long_cell long_cell_length
  rw [e1, e2] at h
  refine ⟨?_, widths_of_long_cell long_cell long_cell_length, h, ?_, rfl⟩
  · intro row hrow
    simp only [List.mem_cons, List.mem_singleton, List.not_mem_nil, or_false] at hrow
    rcases hrow with rfl | rfl <;> rfl
  · rw [content_line_length [2 ^ 31] ["b"]
      (List.Forall₂.cons (by show 1 ≤ 2 ^ 31; norm_num) List.Forall₂.nil)]
    simp

/-- C24, as the code has it: for a result in which every row has as many
cells as there are headers, and whose headers and cells are shorter than `2^31`
characters, `to_ascii` returns a border line, the line of the headers, a border
line, the line of each row in order and a border line, each with its newline.
The width of column `i` is the maximum length among header `i` and the cells
`i` of the rows; a border line is `+` and, per column, `w + 2` dashes and `+`; a
content line is `|` and, per column, a blank, the cell with blanks behind it up
to exactly `w` characters, a blank and `|`; all the lines have the same length.
With a cell of `2^31` characters the width converted to `int` is negative: the
border lines have the `2^31 + 2` dashes but no blank is written behind the
shorter cells of the column, so that the line of the cell `b` is `| b |`. -/
theorem ascii_table_rendering :
    (∀ r : QueryResult, r.rectangular → r.sizes_fit →
      (∃ out, to_ascii r = .ok out ∧ out.data = ascii_table r) ∧
      (∀ i, (r.headers.getD i "").length ≤ column_width r i ∧
        (∀ row ∈ r.rows, (row.getD i "").length ≤ column_width r i) ∧
        (column_width r i = (r.headers.getD i "").length ∨
          ∃ row ∈ r.rows, column_width r i = (row.getD i "").length)) ∧
      (∀ i, (padded (column_width r i) (r.headers.getD i "")).length = column_width r i ∧
        ∀ row ∈ r.rows,
          (padded (column_width r i) (row.getD i "")).length = column_width r i) ∧
      (content_line (column_widths r) r.headers).length
        = (border_line (column_widths r)).length ∧
      (∀ row ∈ r.rows,
        (content_line (column_widths r) row).length
          = (border_line (column_widths r)).length)) ∧
    ((⟨["h"], [[long_cell], ["b"]]⟩ : QueryResult).rectangular ∧
      column_widths ⟨["h"], [[long_cell], ["b"]]⟩ = [2 ^ 31] ∧
      to_ascii ⟨["h"], [[long_cell], ["b"]]⟩
        = .ok (ascii_line [2 ^ 31] ++ "\n" ++ "| h |" ++ "\n" ++
            ascii_line [2 ^ 31] ++ "\n" ++ ("| " ++ long_cell ++ " |") ++ "\n" ++
            "| b |" ++ "\n" ++ ascii_line [2 ^ 31] ++ "\n") ∧
      (content_line [2 ^ 31] ["b"]).length = 2 ^ 31 + 4 ∧
      ("| b |" : String).length = 5) :=
  ⟨ascii_table_of_fit, ascii_table_of_long_cell⟩

/-- Witness of C24 on the headers name, age and the rows (alice,30),
(bob,25). -/
theorem ascii_table_rendering_witness :
    to_ascii ⟨["name", "age"], [["alice", "30"], ["bob", "25"]]⟩
      = .ok ("+-------+-----+\n| name  | age |\n+-------+-----+\n" ++
          "| alice | 30  |\n| bob   | 25  |\n+-------+-----+\n") ∧
    ascii_table ⟨["name", "age"], [["alice", "30"], ["bob", "25"]]⟩
      = ("+-------+-----+\n| name  | age |\n+-------+-----+\n" ++
          "| alice | 30  |\n| bob   | 25  |\n+-------+-----+\n").data ∧
    (∃ out, to_ascii ⟨["name", "age"], [["alice", "30"], ["bob", "25"]]⟩ = .ok out ∧
      out.data = ascii_table ⟨["name", "age"], [["alice", "30"], ["bob", "25"]]⟩) :=
  ⟨by rfl, by decide,
   (ascii_table_rendering.1 ⟨["name", "age"], [["alice", "30"], ["bob", "25"]]⟩
      (by unfold QueryResult.rectangular; decide)
      (by unfold QueryResult.sizes_fit; decide)).1⟩

/-- C22, with the empty statements left out: every input is, in one way only,
segments each followed by a `;` and a rest, where a segment has an even number
of double quotes, so that the `;` behind it is outside the double-quoted spans,
and every `;` inside a segment or inside the rest is inside a double-quoted
span. `split_statements` returns, in the order of the input, the segments
without the white space around them, leaving out those of which nothing is
left; the rest is discarded. -/
theorem statement_splitting (input : String) :
    ∃ segs tail, input.data = (segs.flatMap fun seg => seg ++ [';']) ++ tail ∧
      (∀ seg ∈ segs, quotes_balanced seg ∧ semicolons_quoted seg) ∧
      semicolons_quoted tail ∧
      split_statements input = trimmed_statements segs ∧
      ∀ segs' tail', input.data = (segs'.flatMap fun seg => seg ++ [';']) ++ tail' →
        (∀ seg ∈ segs', quotes_balanced seg ∧ semicolons_quoted seg) →
        semicolons_quoted tail' → segs' = segs ∧ tail' = tail := by
  obtain ⟨segs, tail, h1, h2, h3, h4⟩ := split_loop_spec input.data [] [] false (by simp)
    (by intro p hp; simp at hp)
  simp only [List.nil_append] at h1 h4
  refine ⟨segs, tail, h1, h2, h3, h4, ?_⟩
  intro segs' tail' h1' h2' h3'
  exact segments_unique segs' segs tail' tail (by rw [← h1', ← h1]) h2' h3' h2 h3

/-- Witness of C22 on the text of the test: two statements, the first with
its `;` inside the string. -/
theorem statement_splitting_witness :
    split_statements "INSERT INTO test VALUES (\"hello;world\"); SELECT * FROM test;"
      = ["INSERT INTO test VALUES (\"hello;world\")", "SELECT * FROM test"] ∧
    ∃ segs tail,
      "INSERT INTO test VALUES (\"hello;world\"); SELECT * FROM test;".data
        = (segs.flatMap fun seg => seg ++ [';']) ++ tail ∧
      split_statements "INSERT INTO test VALUES (\"hello;world\"); SELECT * FROM test;"
        = trimmed_statements segs := by
  obtain ⟨segs, tail, h1, _, _, h4, _⟩ :=
    statement_splitting "INSERT INTO test VALUES (\"hello;world\"); SELECT * FROM test;"
  exact ⟨by decide, segs, tail, h1, h4⟩

/-- Counterexample to C22 as stated: the text `;` is one empty segment and
its `;`, which is outside the double-quoted spans, and `split_statements`
returns no substring for it; `a;;b;` has three such `;` and two substrings are
returned. -/
theorem statement_splitting_counterexample :
    ";".data = ([([] : List Char)].flatMap fun seg => seg ++ [';']) ++ [] ∧
    quotes_balanced [] ∧ semicolons_quoted [] ∧
    split_statements ";" = [] ∧
    "a;;b;".data = ([['a'], [], ['b']].flatMap fun seg => seg ++ [';']) ++ [] ∧
    split_statements "a;;b;" = ["a", "b"] :=
  ⟨by decide, rfl, by intro p hp; simp at hp, by decide, by decide, by decide⟩

/-- C31: for every input, every string that `split_statements` returns is not
empty, neither its first nor its last character is white space, it has an even
number of double quotes and every `;` of it is inside a double-quoted span. The
input is segments, each followed by a `;` outside the double-quoted spans, and
a rest; as many strings are returned as there are segments that are not made
of white space only. An input in which every `;` is inside a double-quoted
span, counting one that is never closed, yields the empty list. -/
theorem split_statements_shape (input : String) :
    (∀ s ∈ split_statements input,
      s.data ≠ [] ∧ starts_with isspace s.data = false ∧
      starts_with isspace s.data.reverse = false ∧
      quotes_balanced s.data ∧ semicolons_quoted s.data) ∧
    (∃ (segs : List (List Char)) (tail : List Char),
      input.data = (segs.flatMap fun seg => seg ++ [';']) ++ tail ∧
      (∀ seg ∈ segs, quotes_balanced seg ∧ semicolons_quoted seg) ∧
      semicolons_quoted tail ∧
      (split_statements input).length
        = (segs.filter fun seg => !seg.all isspace).length) ∧
    (semicolons_quoted input.data → split_statements input = []) := by
  obtain ⟨segs, tail, h1, h2, h3, h4⟩ := split_loop_spec input.data [] [] false (by simp)
    (by intro p hp; simp at hp)
  simp only [List.nil_append] at h1 h4
  have h4' : split_statements input = trimmed_statements segs := h4
  refine ⟨?_, ⟨segs, tail, h1, h2, h3, ?_⟩, ?_⟩
  · intro s hs
    rw [h4'] at hs
    obtain ⟨seg, hseg, he, hne⟩ := mem_trimmed_statements segs s hs
    rw [he]
    refine ⟨hne, trim_no_leading seg, trim_no_trailing seg, ?_,
      semicolons_quoted_trim seg (h2 seg hseg).2⟩
    unfold quotes_balanced
    rw [trim_count]
    exact (h2 seg hseg).1
  · rw [h4', trimmed_statements_length]
  · intro hq
    have := segments_unique segs [] tail input.data (by rw [← h1]; rfl) h2 h3
      (by intro seg hseg; cases hseg) hq
    rw [h4', this.1]
    rfl

/-- Witness of C31 on a text with a `;` inside a string, empty statements and
a rest, on `;;` and `; ;`, and on a text whose only `;` is behind a double quote
that is never closed. -/
theorem split_statements_shape_witness :
    split_statements " a \"x;y\" ;; ; b ;c" = ["a \"x;y\"", "b"] ∧
    (∀ s ∈ split_statements " a \"x;y\" ;; ; b ;c",
      s.data ≠ [] ∧ starts_with isspace s.data = false ∧
      starts_with isspace s.data.reverse = false ∧
      quotes_balanced s.data ∧ semicolons_quoted s.data) ∧
    split_statements ";;" = [] ∧ split_statements "; ;" = [] ∧
    split_statements "SELECT \"a; b;" = [] :=
  ⟨by decide, (split_statements_shape " a \"x;y\" ;; ; b ;c").1, by decide, by decide,
    by decide⟩

/-- C32: the text of a NUMBER token that `next` returns is an optional `-` and
at least one digit. For such a text, `parse_literal` returns the integer whose
value is that of the digits, negated behind a `-`, when this value is in the
range of `long long`, and throws `ParseError` when it is not. For every integer
`n` in that range, its base-10 text, an optional `-` and the digits of its
absolute value, is lexed as one NUMBER token with that text, parsed to `n`, and
written back by `to_string` as the same text. -/
theorem integer_literals_exact :
    (∀ tz : Tokenizer, tz.next.1.type = .NUMBER →
      ∃ sign ds : List Char, (sign = [] ∨ sign = ['-']) ∧ ds ≠ [] ∧ ds.all isdigit = true ∧
        tz.next.1.text = String.mk (sign ++ ds)) ∧
    (∀ sign ds : List Char, (sign = [] ∨ sign = ['-']) → ds ≠ [] → ds.all isdigit = true →
      (in_range (literal_value sign ds) →
        parse_literal ⟨.NUMBER, String.mk (sign ++ ds)⟩
          = .ok (Value.make_int (literal_value sign ds))) ∧
      (¬ in_range (literal_value sign ds) →
        parse_literal ⟨.NUMBER, String.mk (sign ++ ds)⟩
          = .error (.ParseError ("Invalid integer literal: " ++ String.mk (sign ++ ds))))) ∧
    (∀ n : Int, in_range n →
      (toString n).data = (if n < 0 then ['-'] else []) ++ Nat.toDigits 10 n.natAbs ∧
      (Tokenizer.init (toString n)).next.1 = ⟨.NUMBER, toString n⟩ ∧
      (Tokenizer.init (toString n)).next.2.eof = true ∧
      parse_literal (Tokenizer.init (toString n)).next.1 = .ok (Value.make_int n) ∧
      (Value.make_int n).to_string = toString n) := by
  refine ⟨number_token_shape, ?_, ?_⟩
  · intro sign ds hsign hne hds
    exact ⟨parse_literal_number sign ds hsign hne hds,
      parse_literal_out_of_range sign ds hsign hne hds⟩
  · intro n hr
    obtain ⟨h1, h2⟩ := next_int_text n
    refine ⟨int_toString_data n, h1, eof_of_rest_nil _ h2, ?_, rfl⟩
    rw [h1]
    exact parse_literal_toString n hr

/-- Witness of C32 on `007` and `-0`, on the two ends of the range and the
integers next to them, and on the round trip of `-9223372036854775808`. -/
theorem integer_literals_exact_witness :
    parse_literal ⟨.NUMBER, "007"⟩ = .ok (Value.make_int 7) ∧
    parse_literal ⟨.NUMBER, "-0"⟩ = .ok (Value.make_int 0) ∧
    parse_literal ⟨.NUMBER, "9223372036854775807"⟩ = .ok (Value.make_int 9223372036854775807) ∧
    parse_literal ⟨.NUMBER, "9223372036854775808"⟩
      = .error (.ParseError "Invalid integer literal: 9223372036854775808") ∧
    parse_literal ⟨.NUMBER, "-9223372036854775809"⟩
      = .error (.ParseError "Invalid integer literal: -9223372036854775809") ∧
    ((Tokenizer.init "-9223372036854775808").next.1 = ⟨.NUMBER, "-9223372036854775808"⟩ ∧
      parse_literal (Tokenizer.init "-9223372036854775808").next.1
        = .ok (Value.make_int (-9223372036854775808)) ∧
      (Value.make_int (-9223372036854775808)).to_string = "-9223372036854775808") := by
  have h := integer_literals_exact.2.1
  have r := integer_literals_exact.2.2 (-9223372036854775808) (by unfold in_range; decide)
  exact ⟨(h [] "007".data (Or.inl rfl) (by decide) (by decide)).1
      (by unfold in_range; decide),
    (h ['-'] "0".data (Or.inr rfl) (by decide) (by decide)).1 (by unfold in_range; decide),
    (h [] "9223372036854775807".data (Or.inl rfl) (by decide) (by decide)).1
      (by unfold in_range; decide),
    (h [] "9223372036854775808".data (Or.inl rfl) (by decide) (by decide)).2
      (by unfold in_range; decide),
    (h ['-'] "9223372036854775809".data (Or.inr rfl) (by decide) (by decide)).2
      (by unfold in_range; decide),
    r.2.1, r.2.2.2.1, r.2.2.2.2⟩

/-- C33: on a table that satisfies the table invariant, a result that
`select_where` returns has as many headers as the projection has indices, the
number of columns for `*` and the length of the column list otherwise; every
row of the result has that many cells; and every index of the projection is
the index of a column and of a cell of every stored row. So no row of the
result has more cells than there are headers and `to_ascii` returns on it,
while on a result with a row of more cells than headers `to_ascii` writes
behind the end of `widths`. -/
theorem query_results_rectangular (t : Table) (hwf : t.SchemaOK) (hinv : t.Inv)
    (out_cols : List String) (star : Bool) (cond : Option Condition) (qr : QueryResult)
    (h : t.select_where out_cols star cond = .ok qr) :
    (∃ proj, t.build_projection out_cols star = .ok proj ∧
      proj.length = (if star then t.columns.length else out_cols.length) ∧
      qr.headers.length = proj.length ∧ (∀ row ∈ qr.rows, row.length = proj.length) ∧
      ∀ idx ∈ proj, idx < t.columns.length ∧ ∀ r ∈ t.rows, idx < r.cells.length) ∧
    qr.rectangular ∧
    (∃ out, to_ascii qr = .ok out) ∧
    (∀ r : QueryResult, (∃ row ∈ r.rows, r.headers.length < row.length) →
      to_ascii r = .error (.Undefined "widths[i]")) := by
  obtain ⟨proj, hp, h1, h2, h3⟩ := select_where_shape t out_cols star cond qr h
  have hrect : qr.rectangular := fun row hrow => by rw [h3 row hrow, h2]
  refine ⟨⟨proj, hp, h1, h2, h3, projection_in_rows t hwf hinv out_cols star proj hp⟩, hrect,
    (to_ascii_defined qr).1 (fun row hrow => Nat.le_of_eq (hrect row hrow)),
    fun r => (to_ascii_defined r).2⟩

/-- Witness of C33 on `people` holding (alice,30), (bob,25), (carol,35) and
the query of `age` where `age > 26`: one header, two rows of one cell, and the
table `to_ascii` writes for them. -/
theorem query_results_rectangular_witness :
    people3.select_where ["age"] false (some ⟨"age", .GT, .make_int 26⟩)
      = .ok ⟨["age"], [["30"], ["35"]]⟩ ∧
    (⟨["age"], [["30"], ["35"]]⟩ : QueryResult).rectangular ∧
    (∃ out, to_ascii ⟨["age"], [["30"], ["35"]]⟩ = .ok out) ∧
    to_ascii ⟨["age"], [["30"], ["35"]]⟩
      = .ok "+-----+\n| age |\n+-----+\n| 30  |\n| 35  |\n+-----+\n" ∧
    to_ascii ⟨["age"], [["30", "x"]]⟩ = .error (.Undefined "widths[i]") := by
  have hwf : people3.SchemaOK := rfl
  have hinv : people3.Inv := (inv_iff people3).mpr (by
    intro r hr
    simp only [people3, List.mem_cons, List.mem_singleton, List.mem_nil_iff, or_false] at hr
    rcases hr with rfl | rfl | rfl <;> rfl)
  have h := query_results_rectangular people3 hwf hinv ["age"] false
    (some ⟨"age", .GT, .make_int 26⟩) ⟨["age"], [["30"], ["35"]]⟩ rfl
  exact ⟨rfl, h.2.1, h.2.2.1, by rfl,
    h.2.2.2 ⟨["age"], [["30", "x"]]⟩ ⟨["30", "x"], by simp, by decide⟩⟩

end db
